import Mathlib

/-! Verification development for `parallels`: Gauss elimination, Vinograd multiplication and
the ant-colony solver of the travelling salesman problem.

Shallow embedding of `src/lib/s21_gauss_algorithms.cc`, `src/lib/s21_vinograd_algorithms.cc`,
`src/lib/s21_graph_algorithms.cc` and `src/lib/s21_storage.cc`, with the run loops of
`src/controller/s21_controller.cc`.

* `double` values are read exactly, as rationals (`ℚ`); the literal `0.00001` is `1 / 100000`.
  The last part of the definitions reads them as IEEE 754 binary64 values (`Dbl`) and gives the
  Gauss solvers and `SelectNext` over an arbitrary arithmetic (`Arith`), exact or binary64, so
  that rounding, overflow and division by zero can be followed where a statement depends on
  them.
* `std::vector<double>` is `List ℚ`, `std::vector<std::vector<double>>` is `List (List ℚ)`.
* `for (i = lo; i < hi; ++i)` is `forLoop lo hi`, a fold over the indices `lo, ..., hi - 1`.
* Objects are explicit state; a call yields the state after it together with how it completed
  (returned normally, raised an exception, or aborted the process).
* Threads are run to completion one after the other, in an order given by a schedule.
* A division by zero is `0` over `ℚ` and an infinity or a NaN in the source. In
  `SimpleGauss::SolveSle` a zero pivot `matrix[k][k]` met at step `k` is still on the diagonal
  when `CheckEchelon` runs (row `k` is not written again), so the call raises in both readings,
  and a call that returns normally has not divided by zero. Rounding is another matter: a
  pivot that is zero in exact arithmetic can be far from zero in binary64.
* Inside the solvers every index given to `.at` is in range on the shapes that the storage
  constructors accept, so a read is a lookup with a default; where the source applies `.at`
  to input that has not been validated (`CheckSleSizeCorrectness`), the `std::out_of_range`
  is part of the embedding. In `BuildTour` the write `visited.at(start)` is in range when
  the start vertex drawn by `Random()` is a vertex; a statement that depends on it carries
  that as a hypothesis on the oracle (`rnd k < n`).
* `LinearSolver::Random()` is an oracle `rnd : Nat → Nat`: `rnd k` is the value of the call
  number `k` made during one `SolveSalesman`; the source draws from `0 .. size - 2`.
* The `TsmResult` records that a `SalesmanStorage` and its solver share through
  `std::shared_ptr` live in a list of objects; a pointer is a position in that list.
* `std::numeric_limits<double>::max()` is the rational `DBL_MAX`; `pow` with the integer
  exponents `kAlpha` and `kBeta` is the power with a natural exponent.
-/

namespace s21

/-! ## Types (`s21_types.h`) -/

abbrev row_type := List ℚ

abbrev m_dbl_type := List row_type

/-- Exceptions that the library raises: `std::runtime_error(what)`, a thrown string literal
(`throw ""`), and the `std::out_of_range` of a failed `.at`. -/
inductive Exception where
  | runtime_error (what : String)
  | c_string (what : String)
  | out_of_range
  deriving DecidableEq

/-- How a call completes: it returns, it raises, or the process is aborted (an exception escaping
a `std::thread`, an integer division by zero). -/
inductive Completion where
  | normal
  | raised (e : Exception)
  | aborted
  deriving DecidableEq

/-- State after a call, and how the call completed. -/
structure Outcome (σ : Type) where
  state : σ
  completion : Completion

/-! ## Access to vectors -/

/-- Row `i` of a matrix (`m.at(i)` with `i` in range). -/
def getRow (m : m_dbl_type) (i : Nat) : row_type := m.getD i []

/-- Read of `m.at(i).at(j)` with both indices in range. -/
def cell (m : m_dbl_type) (i j : Nat) : ℚ := (getRow m i).getD j 0

/-- Write `m.at(i).at(j) = v`. -/
def setCell (m : m_dbl_type) (i j : Nat) (v : ℚ) : m_dbl_type :=
  m.set i ((getRow m i).set j v)

/-- The loop `for (i = lo; i < hi; ++i) body(i)` acting on a state. -/
def forLoop {σ : Type} (lo hi : Nat) (body : Nat → σ → σ) (s : σ) : σ :=
  (List.range' lo (hi - lo)).foldl (fun acc i => body i acc) s

/-- The loop `for (i = hi; i-- > 0;) body(i)`: indices `hi - 1` down to `0`. -/
def forLoopDown {σ : Type} (hi : Nat) (body : Nat → σ → σ) (s : σ) : σ :=
  (List.range hi).reverse.foldl (fun acc i => body i acc) s

/-! ## Gauss elimination (`s21_gauss_algorithms.cc`) -/

namespace SimpleGauss

/-- Inner loop of `LeadToEchelon`: `scale_factor` of row `i` over the columns `k .. rows_-1`. -/
def scaleFactor (rows_ : Nat) (matrix_ : m_dbl_type) (i k : Nat) : ℚ :=
  forLoop k rows_ (fun j scale_factor => max |cell matrix_ i j| scale_factor) 0

/-- Middle loop of `LeadToEchelon` for pivot `k`: the pair `(max_index, max_value)`. -/
def pivotSearch (rows_ : Nat) (matrix_ : m_dbl_type) (k : Nat) : Nat × ℚ :=
  forLoop k rows_ (fun i (acc : Nat × ℚ) =>
    let scale_factor := scaleFactor rows_ matrix_ i k
    if scale_factor = 0 then acc
    else
      let abs := |cell matrix_ i k| / scale_factor
      if abs > acc.2 then (i, abs) else acc) (k, 0)

/-- The call `std::swap(matrix_->at(a), matrix_->at(b))`. -/
def swapRows (m : m_dbl_type) (a b : Nat) : m_dbl_type :=
  (m.set a (getRow m b)).set b (getRow m a)

/-- Embedding of `SimpleGauss::LeadToEchelon`. -/
def LeadToEchelon (rows_ : Nat) (matrix_ : m_dbl_type) : m_dbl_type :=
  forLoop 0 rows_ (fun k m =>
    let max_index := (pivotSearch rows_ m k).1
    if k ≠ max_index then swapRows m k max_index else m) matrix_

/-- Embedding of `SimpleGauss::AdjustEchelon`. -/
def AdjustEchelon (rows_ k : Nat) (matrix_ : m_dbl_type) : m_dbl_type :=
  forLoop (k + 1) rows_ (fun i m =>
    let f := cell m i k / cell m k k
    let m1 := forLoop (k + 1) (rows_ + 1)
      (fun j m2 => setCell m2 i j (cell m2 i j - cell m2 k j * f)) m
    setCell m1 i k 0) matrix_

/-- Embedding of `SimpleGauss::CheckEchelon`: `true` when the function throws. -/
def CheckEchelon (rows_ : Nat) (matrix_ : m_dbl_type) : Bool :=
  (List.range rows_).any (fun k => decide (|cell matrix_ k k| < 1 / 100000))

/-- Embedding of `SimpleGauss::BackPropagation`. -/
def BackPropagation (rows_ : Nat) (matrix_ : m_dbl_type) (output_ : row_type) : row_type :=
  forLoopDown rows_ (fun i out =>
    let out1 := out.set i (cell matrix_ i rows_)
    let out2 := forLoop (i + 1) rows_
      (fun j o => o.set i (o.getD i 0 - cell matrix_ i j * o.getD j 0)) out1
    out2.set i (out2.getD i 0 / cell matrix_ i i)) output_

/-- Embedding of `SimpleGauss::SolveSle`, on the shared matrix and output vector. -/
def SolveSle (rows_ : Nat) (matrix_ : m_dbl_type) (output_ : row_type) :
    Outcome (m_dbl_type × row_type) :=
  let buff_matrix := matrix_
  let m1 := LeadToEchelon rows_ matrix_
  let m2 := forLoop 0 rows_ (fun k m => AdjustEchelon rows_ k m) m1
  if CheckEchelon rows_ m2 then
    ⟨(m2, output_), .raised (.runtime_error "matrix is singular")⟩
  else
    ⟨(buff_matrix, BackPropagation rows_ m2 output_), .normal⟩

end SimpleGauss

namespace ParallelGauss

/-- Embedding of `ParallelGauss::SolveSle`. The `rows_` elimination tasks of `std::async` are run
to completion one after the other in the order `sched`. `CheckEchelon` runs on a `std::thread`
of its own, so its exception is not caught by anyone and ends the process. -/
def SolveSle (rows_ : Nat) (sched : List Nat) (matrix_ : m_dbl_type) (output_ : row_type) :
    Outcome (m_dbl_type × row_type) :=
  let buff_matrix := matrix_
  let m1 := SimpleGauss.LeadToEchelon rows_ matrix_
  let m2 := sched.foldl (fun m k => SimpleGauss.AdjustEchelon rows_ k m) m1
  if SimpleGauss.CheckEchelon rows_ m2 then
    ⟨(m2, output_), .aborted⟩
  else
    ⟨(buff_matrix, SimpleGauss.BackPropagation rows_ m2 output_), .normal⟩

end ParallelGauss

/-! ## Storage (`s21_storage.cc`) -/

/-- Embedding of `Storage::MultiMode`. -/
inductive MultiMode where
  | kSimple
  | kParallel
  | kPipe
  | kEnd
  deriving DecidableEq

namespace Storage

/-- Embedding of `Storage::CheckMatrixCorrectness`. -/
def CheckMatrixCorrectness (matrix : m_dbl_type) : Bool :=
  if matrix.isEmpty then false
  else
    let row_size := (getRow matrix 0).length
    if row_size = 0 then false
    else matrix.all (fun row => decide (row.length = row_size))

/-- Subtraction `a - b` of two `std::size_t` values (both below `2 ^ 64`): it wraps around
below zero. -/
def size_sub (a b : Nat) : Nat := if b ≤ a then a - b else a + 2 ^ 64 - b

/-- Embedding of `Storage::CheckSleSizeCorrectness`. `matrix.at(0)` raises on an empty matrix;
`size() - 1` is unsigned 64-bit arithmetic. -/
def CheckSleSizeCorrectness (matrix : m_dbl_type) : Except Exception Bool :=
  let answ := CheckMatrixCorrectness matrix
  match matrix with
  | [] => .error .out_of_range
  | row0 :: _ =>
    if matrix.length ≠ size_sub row0.length 1 then .ok false
    else .ok answ

/-- Embedding of `Storage::CheckForMultiplication`. -/
def CheckForMultiplication (first second : m_dbl_type) : Bool :=
  let answ := CheckMatrixCorrectness first && CheckMatrixCorrectness second
  if answ then first.all (fun row => decide (row.length = second.length))
  else answ

end Storage

/-- The solver object behind `std::shared_ptr<Gauss>`, with its own fields. -/
inductive Gauss where
  | SimpleGauss (rows_ cols_ : Nat)
  | ParallelGauss (rows_ cols_ th_count_ : Nat)
  deriving DecidableEq

/-- Embedding of `class GaussStorage`; `gauss_ = none` is the null pointer. -/
structure GaussStorage where
  matrix_ : m_dbl_type
  result_ : row_type
  gauss_ : Option Gauss
  th_count_ : Nat

namespace GaussStorage

/-- Embedding of the constructor `GaussStorage::GaussStorage`. -/
def new (first : m_dbl_type) : Except Exception GaussStorage :=
  match Storage.CheckSleSizeCorrectness first with
  | .error e => .error e
  | .ok false => .error (.c_string "")
  | .ok true =>
    .ok { matrix_ := first
          result_ := List.replicate (getRow first 0).length 1
          gauss_ := none
          th_count_ := 1 }

/-- Embedding of `GaussStorage::SetStrategy`. -/
def SetStrategy (s : GaussStorage) (mode : MultiMode) : GaussStorage :=
  match mode with
  | .kSimple =>
    let cols_ := (getRow s.matrix_ 0).length
    { s with gauss_ := some (.SimpleGauss s.matrix_.length cols_) }
  | .kParallel =>
    let cols_ := (getRow s.matrix_ 0).length
    { s with gauss_ := some (.ParallelGauss s.matrix_.length cols_ s.th_count_) }
  | _ => s

/-- Embedding of `GaussStorage::ResetResult`. -/
def ResetResult (s : GaussStorage) : GaussStorage :=
  { s with result_ := s.result_.map (fun _ => 1) }

/-- Embedding of `GaussStorage::SetThreadCount`. -/
def SetThreadCount (s : GaussStorage) (t_num : Nat) : Outcome GaussStorage :=
  if t_num > 6 then ⟨s, .raised (.c_string "")⟩
  else ⟨{ s with th_count_ := t_num }, .normal⟩

/-- Embedding of `GaussStorage::SolveSle`. `sched` is the order in which the elimination tasks
of the parallel solver run; the simple solver does not look at it. -/
def SolveSle (s : GaussStorage) (sched : List Nat) : Outcome GaussStorage :=
  match s.gauss_ with
  | none => ⟨s, .raised (.c_string "")⟩
  | some g =>
    let s1 := s.ResetResult
    let r := match g with
      | .SimpleGauss rows_ _ => SimpleGauss.SolveSle rows_ s1.matrix_ s1.result_
      | .ParallelGauss rows_ _ _ => ParallelGauss.SolveSle rows_ sched s1.matrix_ s1.result_
    ⟨{ s1 with matrix_ := r.state.1, result_ := r.state.2 }, r.completion⟩

/-- Embedding of `GaussStorage::GetResult`. -/
def GetResult (s : GaussStorage) : row_type := s.result_

end GaussStorage

/-! ## Vinograd multiplication (`s21_vinograd_algorithms.cc`) -/

/-- Own fields of a `SimpleVinograd` object. The matrices behind its three shared pointers
(`first_`, `second_`, `result_`) belong to the storage and are passed to every call. -/
structure SimpleVinograd where
  f_rows_ : Nat
  f_cols_ : Nat
  s_rows_ : Nat
  s_cols_ : Nat
  row_factor_ : row_type
  col_factor_ : row_type

namespace SimpleVinograd

/-- Embedding of the constructor `SimpleVinograd::SimpleVinograd`. -/
def new (first second result_ptr : m_dbl_type) : Except Exception SimpleVinograd :=
  if result_ptr.length ≠ first.length then .error (.c_string "")
  else if result_ptr.any (fun row => decide (row.length ≠ (getRow second 0).length)) then
    .error (.c_string "")
  else
    .ok { f_rows_ := first.length
          f_cols_ := (getRow first 0).length
          s_rows_ := second.length
          s_cols_ := (getRow second 0).length
          row_factor_ := List.replicate first.length 0
          col_factor_ := List.replicate (getRow second 0).length 0 }

/-- Embedding of `SimpleVinograd::ComputeRowFactor`. -/
def ComputeRowFactor (first_ : m_dbl_type) (v : SimpleVinograd) : SimpleVinograd :=
  let filled := v.row_factor_.map (fun _ => (0 : ℚ))
  let computed := forLoop 0 v.f_rows_ (fun i rf =>
    forLoop 0 (v.f_cols_ / 2) (fun j rf1 =>
      rf1.set i (rf1.getD i 0 + cell first_ i (2 * j) * cell first_ i (2 * j + 1))) rf) filled
  { v with row_factor_ := computed }

/-- Embedding of `SimpleVinograd::ComputeColFactor`. -/
def ComputeColFactor (second_ : m_dbl_type) (v : SimpleVinograd) : SimpleVinograd :=
  let filled := v.col_factor_.map (fun _ => (0 : ℚ))
  let computed := forLoop 0 v.s_cols_ (fun i cf =>
    forLoop 0 (v.f_cols_ / 2) (fun j cf1 =>
      cf1.set i (cf1.getD i 0 + cell second_ (2 * j) i * cell second_ (2 * j + 1) i)) cf) filled
  { v with col_factor_ := computed }

/-- Embedding of `SimpleVinograd::AddBiasForOddRows`. -/
def AddBiasForOddRows (first_ second_ : m_dbl_type) (v : SimpleVinograd) (start end_ : Nat)
    (result_ : m_dbl_type) : m_dbl_type :=
  forLoop start end_ (fun i r =>
    forLoop 0 v.s_cols_ (fun j r1 =>
      setCell r1 i j
        (cell r1 i j + cell first_ i (v.f_cols_ - 1) * cell second_ (v.f_cols_ - 1) j)) r)
    result_

/-- Embedding of `SimpleVinograd::MultiplyMainLoop`. -/
def MultiplyMainLoop (first_ second_ : m_dbl_type) (v : SimpleVinograd) (start end_ : Nat)
    (result_ : m_dbl_type) : m_dbl_type :=
  forLoop start end_ (fun i r =>
    forLoop 0 v.s_cols_ (fun j r1 =>
      let r2 := setCell r1 i j (-v.row_factor_.getD i 0 - v.col_factor_.getD j 0)
      forLoop 0 (v.f_cols_ / 2) (fun k r3 =>
        setCell r3 i j
          (cell r3 i j +
            (cell first_ i (2 * k) + cell second_ (2 * k + 1) j) *
              (cell first_ i (2 * k + 1) + cell second_ (2 * k) j))) r2) r)
    result_

/-- Embedding of `SimpleVinograd::Multiply`: the object and the result matrix after the call. -/
def Multiply (first_ second_ : m_dbl_type) (v : SimpleVinograd) (result_ : m_dbl_type) :
    SimpleVinograd × m_dbl_type :=
  let v1 := ComputeRowFactor first_ v
  let v2 := ComputeColFactor second_ v1
  let r1 := MultiplyMainLoop first_ second_ v2 0 v2.f_rows_ result_
  if v2.f_cols_ % 2 ≠ 0 then
    (v2, AddBiasForOddRows first_ second_ v2 0 v2.f_rows_ r1)
  else (v2, r1)

end SimpleVinograd

/-- Own fields of a `ParallelVinograd` object; a `std::once_flag` is `true` once its call has
been made. -/
structure ParallelVinograd where
  base : SimpleVinograd
  threads_num_ : Nat
  flag_one_ : Bool
  flag_two_ : Bool

namespace ParallelVinograd

/-- Embedding of `ParallelVinograd::MultiplyPartial`, the body of one worker thread. -/
def MultiplyPartial (first_ second_ : m_dbl_type) (start end_ : Nat)
    (st : ParallelVinograd × m_dbl_type) : ParallelVinograd × m_dbl_type :=
  let p := st.1
  let p1 := if p.flag_one_ then p
    else { p with base := SimpleVinograd.ComputeRowFactor first_ p.base, flag_one_ := true }
  let p2 := if p1.flag_two_ then p1
    else { p1 with base := SimpleVinograd.ComputeColFactor second_ p1.base, flag_two_ := true }
  let r1 := SimpleVinograd.MultiplyMainLoop first_ second_ p2.base start end_ st.2
  if p2.base.f_cols_ % 2 ≠ 0 then
    (p2, SimpleVinograd.AddBiasForOddRows first_ second_ p2.base start end_ r1)
  else (p2, r1)

/-- The `(start, end)` arguments of the workers that the loop of `ParallelVinograd::Multiply`
creates, in creation order (`threads_num_` is not zero). The source declares `start` with
`auto start = 0`, an `int`, next to the `std::size_t` `end`; row counts are taken to fit an
`int`, so both are natural numbers here. -/
def ranges (f_rows_ threads_num_ : Nat) : List (Nat × Nat) :=
  let step := f_rows_ / threads_num_
  (forLoop 0 threads_num_ (fun i (acc : Nat × Nat × List (Nat × Nat)) =>
    let start := acc.1
    let end_ := if i = threads_num_ - 1 then acc.2.1 + f_rows_ % threads_num_ else acc.2.1
    (start + step, end_ + step, acc.2.2 ++ [(start, end_)])) (0, step, [])).2.2

/-- Embedding of `ParallelVinograd::Multiply`. The workers run to completion one after the other
in the order `sched` (a list of worker numbers); `f_rows_ / threads_num_` with no thread is an
integer division by zero. -/
def Multiply (first_ second_ : m_dbl_type) (sched : List Nat) (p : ParallelVinograd)
    (result_ : m_dbl_type) : Outcome (ParallelVinograd × m_dbl_type) :=
  if p.threads_num_ = 0 then ⟨(p, result_), .aborted⟩
  else
    let thread_vector := ranges p.base.f_rows_ p.threads_num_
    ⟨sched.foldl (fun st w =>
        MultiplyPartial first_ second_ (thread_vector.getD w (0, 0)).1
          (thread_vector.getD w (0, 0)).2 st) (p, result_), .normal⟩

end ParallelVinograd

namespace PipeVinograd

/-- Embedding of `PipeVinograd::Multiply`. Thread `0` computes the row factor and thread `1` the
column factor, in the order `sched`; the third thread waits for both futures and runs the main
loop; the bias pass follows the joins. -/
def Multiply (first_ second_ : m_dbl_type) (sched : List Nat) (v : SimpleVinograd)
    (result_ : m_dbl_type) : SimpleVinograd × m_dbl_type :=
  let v1 := sched.foldl (fun acc t =>
    if t = 0 then SimpleVinograd.ComputeRowFactor first_ acc
    else if t = 1 then SimpleVinograd.ComputeColFactor second_ acc
    else acc) v
  let r1 := SimpleVinograd.MultiplyMainLoop first_ second_ v1 0 v1.f_rows_ result_
  if v1.f_cols_ % 2 ≠ 0 then
    (v1, SimpleVinograd.AddBiasForOddRows first_ second_ v1 0 v1.f_rows_ r1)
  else (v1, r1)

end PipeVinograd

/-- The multiplier object behind `std::shared_ptr<Vinograd>`. -/
inductive Vinograd where
  | Simple (v : SimpleVinograd)
  | Parallel (p : ParallelVinograd)
  | Pipe (v : SimpleVinograd)

/-- Embedding of `class VinogradStorage`; `vinograd_ = none` is the null pointer. -/
structure VinogradStorage where
  first_ : m_dbl_type
  second_ : m_dbl_type
  result_ : m_dbl_type
  vinograd_ : Option Vinograd
  th_count_ : Nat

namespace VinogradStorage

/-- Embedding of the constructor `VinogradStorage::VinogradStorage`. -/
def new (first second : m_dbl_type) : Except Exception VinogradStorage :=
  if !Storage.CheckForMultiplication first second then .error (.c_string "")
  else
    .ok { first_ := first
          second_ := second
          result_ := List.replicate first.length (List.replicate (getRow second 0).length 0)
          vinograd_ := none
          th_count_ := 1 }

/-- Embedding of `VinogradStorage::SetStrategy`. A constructor that throws leaves `vinograd_`
as it was. -/
def SetStrategy (s : VinogradStorage) (mode : MultiMode) : Outcome VinogradStorage :=
  match mode with
  | .kSimple =>
    match SimpleVinograd.new s.first_ s.second_ s.result_ with
    | .error e => ⟨s, .raised e⟩
    | .ok v => ⟨{ s with vinograd_ := some (.Simple v) }, .normal⟩
  | .kParallel =>
    match SimpleVinograd.new s.first_ s.second_ s.result_ with
    | .error e => ⟨s, .raised e⟩
    | .ok v => ⟨{ s with vinograd_ := some (.Parallel ⟨v, s.th_count_, false, false⟩) }, .normal⟩
  | .kPipe =>
    match SimpleVinograd.new s.first_ s.second_ s.result_ with
    | .error e => ⟨s, .raised e⟩
    | .ok v => ⟨{ s with vinograd_ := some (.Pipe v) }, .normal⟩
  | .kEnd => ⟨s, .normal⟩

/-- Embedding of `VinogradStorage::SetThreadCount`. -/
def SetThreadCount (s : VinogradStorage) (t_num : Nat) : Outcome VinogradStorage :=
  if t_num > 6 then ⟨s, .raised (.c_string "")⟩
  else ⟨{ s with th_count_ := t_num }, .normal⟩

/-- Embedding of `VinogradStorage::ResetResult`. -/
def ResetResult (s : VinogradStorage) : VinogradStorage :=
  { s with result_ := s.result_.map (fun row => row.map (fun _ => (0 : ℚ))) }

/-- Embedding of `VinogradStorage::Multiply`. `sched` is the order in which the threads of the
parallel and of the pipelined multiplier run; the simple multiplier does not look at it. -/
def Multiply (s : VinogradStorage) (sched : List Nat) : Outcome VinogradStorage :=
  match s.vinograd_ with
  | none => ⟨s, .raised (.c_string "")⟩
  | some g =>
    let s1 := s.ResetResult
    match g with
    | .Simple v =>
      let r := SimpleVinograd.Multiply s1.first_ s1.second_ v s1.result_
      ⟨{ s1 with vinograd_ := some (.Simple r.1), result_ := r.2 }, .normal⟩
    | .Parallel p =>
      let r := ParallelVinograd.Multiply s1.first_ s1.second_ sched p s1.result_
      ⟨{ s1 with vinograd_ := some (.Parallel r.state.1), result_ := r.state.2 }, r.completion⟩
    | .Pipe v =>
      let r := PipeVinograd.Multiply s1.first_ s1.second_ sched v s1.result_
      ⟨{ s1 with vinograd_ := some (.Pipe r.1), result_ := r.2 }, .normal⟩

/-- Embedding of `VinogradStorage::GetResult`. -/
def GetResult (s : VinogradStorage) : m_dbl_type := s.result_

end VinogradStorage

end s21

namespace s21

/-! ## Notions used in the statements -/

/-- Rectangular matrix: `A` has `r` rows and every row has `c` entries. -/
def IsMatrix (A : m_dbl_type) (r c : Nat) : Prop :=
  A.length = r ∧ ∀ row ∈ A, row.length = c

instance (A : m_dbl_type) (r c : Nat) : Decidable (IsMatrix A r c) := by
  unfold IsMatrix
  infer_instance

/-- The naive product of an `m x n` matrix `A` and an `n x p` matrix `B`: the `m x p` matrix
whose cell `[i][c]` is the sum over `k < n` of `A[i][k] * B[k][c]`. -/
def naiveProduct (A B : m_dbl_type) (m n p : Nat) : m_dbl_type :=
  (List.range m).map (fun i =>
    (List.range p).map (fun c => ∑ k ∈ Finset.range n, cell A i k * cell B k c))

/-- Value that `ComputeRowFactor` leaves in `row_factor_[i]`. -/
def rowFactorVal (first_ : m_dbl_type) (f_cols_ i : Nat) : ℚ :=
  ∑ j ∈ Finset.range (f_cols_ / 2), cell first_ i (2 * j) * cell first_ i (2 * j + 1)

/-- Value that `ComputeColFactor` leaves in `col_factor_[c]`. -/
def colFactorVal (second_ : m_dbl_type) (f_cols_ c : Nat) : ℚ :=
  ∑ j ∈ Finset.range (f_cols_ / 2), cell second_ (2 * j) c * cell second_ (2 * j + 1) c

/-- Value that `MultiplyMainLoop` leaves in `result_[i][j]`. -/
def mainVal (first_ second_ : m_dbl_type) (v : SimpleVinograd) (i j : Nat) : ℚ :=
  -v.row_factor_.getD i 0 - v.col_factor_.getD j 0 +
    ∑ k ∈ Finset.range (v.f_cols_ / 2),
      (cell first_ i (2 * k) + cell second_ (2 * k + 1) j) *
        (cell first_ i (2 * k + 1) + cell second_ (2 * k) j)

/-- Value of `result_[i][j]` once the main loop and, for an odd inner dimension, the bias pass
have run over row `i`. -/
def finalVal (first_ second_ : m_dbl_type) (v : SimpleVinograd) (i j : Nat) : ℚ :=
  if v.f_cols_ % 2 ≠ 0 then
    mainVal first_ second_ v i j +
      cell first_ i (v.f_cols_ - 1) * cell second_ (v.f_cols_ - 1) j
  else mainVal first_ second_ v i j

/-- Main loop followed by the bias pass for an odd inner dimension, over the rows
`start .. end_-1`: the common tail of the three `Multiply` variants. -/
def rowsPass (first_ second_ : m_dbl_type) (v : SimpleVinograd) (start end_ : Nat)
    (result_ : m_dbl_type) : m_dbl_type :=
  if v.f_cols_ % 2 ≠ 0 then
    SimpleVinograd.AddBiasForOddRows first_ second_ v start end_
      (SimpleVinograd.MultiplyMainLoop first_ second_ v start end_ result_)
  else SimpleVinograd.MultiplyMainLoop first_ second_ v start end_ result_

/-- The object once both factor vectors have been computed. -/
def withFactors (first_ second_ : m_dbl_type) (v : SimpleVinograd) : SimpleVinograd :=
  SimpleVinograd.ComputeColFactor second_ (SimpleVinograd.ComputeRowFactor first_ v)

/-- The `(start, end)` pair of worker `w` among `t` workers over `f` rows. -/
def workerRange (f t w : Nat) : Nat × Nat :=
  (w * (f / t), if w = t - 1 then f else (w + 1) * (f / t))

/-- Cell `[a][b]` of the matrix after `AdjustEchelon(k)`, written from the matrix `m` before:
the rows below row `k` lose `m[a][k] / m[k][k]` times row `k` in the columns `k+1 .. rows_`
and get a zero in column `k`. -/
def adjustedCell (rows_ k : Nat) (m : m_dbl_type) (a b : Nat) : ℚ :=
  if k < a ∧ a < rows_ then
    if b = k then 0
    else if k < b ∧ b ≤ rows_ then cell m a b - cell m k b * (cell m a k / cell m k k)
    else cell m a b
  else cell m a b

/-- The matrix that `CheckEchelon` and `BackPropagation` see in `SimpleGauss::SolveSle`: the
input after the pivoting pass and the elimination steps `0, 1, ..., rows_-1`. -/
def echelonForm (rows_ : Nat) (matrix_ : m_dbl_type) : m_dbl_type :=
  forLoop 0 rows_ (fun k m => SimpleGauss.AdjustEchelon rows_ k m)
    (SimpleGauss.LeadToEchelon rows_ matrix_)

/-- The matrix after the elimination steps `0, 1, ..., j-1`. -/
def elimSteps (rows_ j : Nat) (m : m_dbl_type) : m_dbl_type :=
  forLoop 0 j (fun k t => SimpleGauss.AdjustEchelon rows_ k t) m

/-- The vector `x` satisfies every equation of the augmented system `m` of `n` equations, the
right-hand sides scaled by `t` (`t = 1`: the system itself; `t = 0`: the homogeneous
system). -/
def Solves (m : m_dbl_type) (n : Nat) (x : Nat → ℚ) (t : ℚ) : Prop :=
  ∀ i, i < n → ∑ j ∈ Finset.range n, cell m i j * x j = t * cell m i n

/-- The `n x n` coefficient part of an augmented matrix, as a matrix over the rationals. -/
def coefficientMatrix (m : m_dbl_type) (n : Nat) : Matrix (Fin n) (Fin n) ℚ :=
  Matrix.of (fun i j => cell m i.1 j.1)

/-- The exception of `SimpleGauss::CheckEchelon`. -/
def singularError : Exception := .runtime_error "matrix is singular"

/-- System of `TEST(gauss, solving_1)`. -/
def solving_1 : m_dbl_type := [[2, 4, -2, 6], [3, 3, 3, 3], [2, -2, 8, 4]]

/-- System of `TEST(gauss, no_solution_1)`. -/
def no_solution_1 : m_dbl_type := [[1, 1, 1, 2], [0, 1, -3, 1], [2, 1, 5, 0]]

/-- System of `TEST(gauss, inf_solutions_1)`. -/
def inf_solutions_1 : m_dbl_type := [[-3, -5, 36, 10], [-1, 0, 7, 5], [1, 1, -10, -4]]

/-- Every entry below the diagonal in the columns before `k` is zero. -/
def LowerZero (m : m_dbl_type) (n k : Nat) : Prop :=
  ∀ i j, j < k → j < i → i < n → cell m i j = 0

end s21

namespace s21

/-! ## Repeated multiplication (`s21_controller.cc`) -/

namespace Controller

/-- Embedding of the loop of `Controller::ComputeVinograd`: one `Multiply` call per element of
`scheds`, the element being the order in which the threads of that call run. A call that does
not return normally ends the loop. -/
def ComputeVinograd (s : VinogradStorage) : List (List Nat) → Outcome VinogradStorage
  | [] => ⟨s, .normal⟩
  | sched :: rest =>
    match (s.Multiply sched).completion with
    | .normal => ComputeVinograd (s.Multiply sched).state rest
    | c => ⟨(s.Multiply sched).state, c⟩

end Controller

/-- Orders in which the threads of one `Multiply` call can run to completion: any order of the
`t` workers under `kParallel`, either order of the two factor tasks under `kPipe`. -/
def ValidSchedule (mode : MultiMode) (t : Nat) (sched : List Nat) : Prop :=
  match mode with
  | .kParallel => sched.Perm (List.range t)
  | .kPipe => sched = [0, 1] ∨ sched = [1, 0]
  | _ => True

/-- Dimensions of the multiplier object of an `m x n` by `n x p` product, its factor vectors
having `m` and `p` entries. -/
def HasDims (v : SimpleVinograd) (m n p : Nat) : Prop :=
  v.f_rows_ = m ∧ v.f_cols_ = n ∧ v.s_cols_ = p ∧
    v.row_factor_.length = m ∧ v.col_factor_.length = p

/-- The factor vectors of `v` hold the values that `ComputeRowFactor` and `ComputeColFactor`
leave for the matrices `A` and `B`. -/
def FactorsReady (A B : m_dbl_type) (v : SimpleVinograd) (m n p : Nat) : Prop :=
  HasDims v m n p ∧ (∀ i, i < m → v.row_factor_.getD i 0 = rowFactorVal A n i) ∧
    ∀ c, c < p → v.col_factor_.getD c 0 = colFactorVal B n c

/-- A session of the product `A * B` on which `SetStrategy mode` has been called with `t`
threads and any number of `Multiply` calls have returned since. -/
def SessionReady (A B : m_dbl_type) (m n p : Nat) (mode : MultiMode) (t : Nat)
    (s : VinogradStorage) : Prop :=
  s.first_ = A ∧ s.second_ = B ∧ IsMatrix s.result_ m p ∧
    match mode with
    | .kSimple => ∃ v, s.vinograd_ = some (.Simple v) ∧ HasDims v m n p
    | .kPipe => ∃ v, s.vinograd_ = some (.Pipe v) ∧ HasDims v m n p
    | .kParallel =>
      ∃ v, (s.vinograd_ = some (.Parallel ⟨v, t, false, false⟩) ∧ HasDims v m n p) ∨
        (s.vinograd_ = some (.Parallel ⟨v, t, true, true⟩) ∧ FactorsReady A B v m n p)
    | .kEnd => False

end s21

namespace s21

/-! ## Travelling salesman: types (`s21_types.h`) and constants (`s21_graph_algorithms.h`) -/

/-- The value `std::numeric_limits<double>::max()`, read exactly. -/
def DBL_MAX : ℚ := (2 ^ 53 - 1) * 2 ^ 971

/-- Embedding of `struct TsmResult`; a vertex is an `int` that never is negative. -/
structure TsmResult where
  vertices_ : List Nat
  distance_ : ℚ
  deriving DecidableEq

/-- A default-constructed `TsmResult`: no vertices, distance `DBL_MAX`. -/
def TsmResult.new : TsmResult := ⟨[], DBL_MAX⟩

/-- Embedding of `struct Ant`. -/
structure Ant where
  ant_result_ : TsmResult
  quantity_ : ℚ
  deriving DecidableEq

namespace GraphAlgorithms

def kNumAnts : Nat := 100

/-- The exponent `kAlpha = 1.0` of `pow`. -/
def kAlpha : Nat := 1

/-- The exponent `kBeta = 2.0` of `pow`. -/
def kBeta : Nat := 2

def kRHO : ℚ := 1 / 2

def kInitialPheromone : ℚ := 1 / 10

end GraphAlgorithms

/-! ## Travelling salesman: the solver (`s21_graph_algorithms.cc`) -/

/-- What the worker threads of a `LinearSolver` share and change: the `TsmResult` behind
`best_result_`, the matrix behind `phero_ptr_`, and the number of calls of `Random()` made so
far. -/
structure Colony where
  best_result_ : TsmResult
  phero_ptr_ : m_dbl_type
  draws : Nat

/-- Local variables of `LinearSolver::BuildTour`; `stopped` says that the loop was left by
`break`. -/
structure TourState where
  ant : Ant
  visited : List Bool
  current : Nat
  stopped : Bool

namespace LinearSolver

open GraphAlgorithms

/-- Embedding of `LinearSolver::InitializePheromone`. -/
def InitializePheromone (n : Nat) : Except Exception m_dbl_type :=
  if n < 1 then .error (.c_string "")
  else .ok (List.replicate n (List.replicate n kInitialPheromone))

/-- Embedding of `LinearSolver::Eta`. -/
def Eta (matrix_ : m_dbl_type) (i j : Nat) : ℚ := 1 / cell matrix_ i j

/-- Embedding of `LinearSolver::SelectNext`; the answer is an `int`, `-1` for no vertex. -/
def SelectNext (matrix_ phero_ptr_ : m_dbl_type) (cur : Nat) (visited : List Bool) : Int :=
  let size := visited.length
  let sum := forLoop 0 size (fun i (sum : ℚ) =>
    if visited.getD i false = false ∧ cell matrix_ cur i > 0 then
      sum + cell phero_ptr_ cur i ^ kAlpha * Eta matrix_ cur i ^ kBeta
    else sum) 0
  (forLoop 0 size (fun i (acc : Int × ℚ) =>
    if visited.getD i false = false ∧ cell matrix_ cur i > 0 then
      let buff_attractivness :=
        cell phero_ptr_ cur i ^ kAlpha * Eta matrix_ cur i ^ kBeta / sum
      if buff_attractivness > acc.2 then ((i : Int), buff_attractivness) else acc
    else acc) (-1, 0)).1

/-- Embedding of `LinearSolver::UpdatePheromone`: every entry times `kRHO`, then one deposit
for each pair of consecutive vertices of each ant. -/
def UpdatePheromone (matrix_ phero_ptr_ : m_dbl_type) (ants : List Ant) : m_dbl_type :=
  let evaporated := phero_ptr_.map (fun start => start.map (fun x => x * kRHO))
  ants.foldl (fun ph ant =>
    (ant.ant_result_.vertices_.zip ant.ant_result_.vertices_.tail).foldl
      (fun ph2 e =>
        setCell ph2 e.1 e.2 (cell ph2 e.1 e.2 + ant.quantity_ / cell matrix_ e.1 e.2)) ph)
    evaporated

/-- One round of the loop of `BuildTour`. -/
def tourStep (matrix_ phero_ptr_ : m_dbl_type) (st : TourState) : TourState :=
  if st.stopped then st
  else
    let next := SelectNext matrix_ phero_ptr_ st.current st.visited
    if next = -1 then { st with stopped := true }
    else
      let vertices := st.ant.ant_result_.vertices_ ++ [next.toNat]
      let distance := st.ant.ant_result_.distance_ + cell matrix_ st.current next.toNat
      let quantity := st.ant.quantity_ + cell phero_ptr_ st.current next.toNat
      ⟨⟨⟨vertices, distance⟩, quantity⟩, st.visited.set next.toNat true, next.toNat, false⟩

/-- Embedding of `LinearSolver::BuildTour`. -/
def BuildTour (matrix_ phero_ptr_ : m_dbl_type) (start : Nat) (visited : List Bool) : Ant :=
  let visited1 := visited.set start true
  let size := visited1.length
  let st := forLoop 1 size (fun _ st => tourStep matrix_ phero_ptr_ st)
    ⟨⟨⟨[start], 0⟩, 0⟩, visited1, start, false⟩
  if cell matrix_ st.current start > 0 then
    ⟨⟨st.ant.ant_result_.vertices_ ++ [start],
        st.ant.ant_result_.distance_ + cell matrix_ st.current start⟩,
      st.ant.quantity_ + cell phero_ptr_ st.current start⟩
  else st.ant

/-- Body of the loop over the ants in `SolvePiece`: the colony and the vector
`succeded_ants` after one more ant. The start vertex is the next value of `Random()`, given
by `rnd`. -/
def antStep (matrix_ : m_dbl_type) (rnd : Nat → Nat) (acc : Colony × List Ant) :
    Colony × List Ant :=
  let visited := List.replicate matrix_.length false
  let ant := BuildTour matrix_ acc.1.phero_ptr_ (rnd acc.1.draws) visited
  let c : Colony := ⟨acc.1.best_result_, acc.1.phero_ptr_, acc.1.draws + 1⟩
  if ant.ant_result_.vertices_.length = matrix_.length + 1 then
    if ant.ant_result_.distance_ ≤ c.best_result_.distance_ then
      (⟨ant.ant_result_, c.phero_ptr_, c.draws⟩, acc.2 ++ [ant])
    else (c, acc.2 ++ [ant])
  else (c, acc.2)

/-- Embedding of `LinearSolver::SolvePiece`. -/
def SolvePiece (matrix_ : m_dbl_type) (rnd : Nat → Nat) (iterations : Nat) (c : Colony) :
    Colony :=
  forLoop 0 iterations (fun _ c1 =>
    let r := forLoop 0 kNumAnts (fun _ acc => antStep matrix_ rnd acc) (c1, [])
    ⟨r.1.best_result_, UpdatePheromone matrix_ r.1.phero_ptr_ r.2, r.1.draws⟩) c

/-- Embedding of `LinearSolver::SolveSalesman`. The worker threads run to completion one after
the other. `iterations / threads_num` with no thread is an integer division by zero. -/
def SolveSalesman (matrix_ : m_dbl_type) (rnd : Nat → Nat) (iterations threads_num : Nat)
    (c : Colony) : Outcome Colony :=
  if iterations > threads_num ∧ threads_num = 0 then ⟨c, .aborted⟩
  else
    let iters_in_thread := if iterations > threads_num then iterations / threads_num else 1
    let c1 := forLoop 0 threads_num (fun _ c2 => SolvePiece matrix_ rnd iters_in_thread c2) c
    let incremented : TsmResult :=
      ⟨c1.best_result_.vertices_.map (fun x => x + 1), c1.best_result_.distance_⟩
    ⟨⟨incremented, c1.phero_ptr_, c1.draws⟩, .normal⟩

end LinearSolver

/-- Own fields of a `LinearSolver` object: `best_result_` is the address of the `TsmResult` it
shares with the storage, `phero_ptr_` its pheromone matrix. -/
structure LinearSolver where
  best_result_ : Nat
  phero_ptr_ : m_dbl_type
  deriving DecidableEq

/-! ## Travelling salesman: the storage (`s21_storage.cc`) -/

namespace Storage

/-- Embedding of `Storage::CheckMatrixGraphCorrectness`. -/
def CheckMatrixGraphCorrectness (matrix : m_dbl_type) : Bool :=
  let answ := CheckMatrixCorrectness matrix
  if answ then matrix.all (fun row => decide (row.length = matrix.length))
  else answ

end Storage

/-- Embedding of `class SalesmanStorage`. `objects` lists the `TsmResult` objects made by
`std::make_shared<TsmResult>()` so far, an address being a position in it; `best_result_` is
the address the storage holds. `algorithm_ = none` is the null pointer. -/
structure SalesmanStorage where
  matrix_ : m_dbl_type
  objects : List TsmResult
  best_result_ : Nat
  algorithm_ : Option LinearSolver
  deriving DecidableEq

namespace SalesmanStorage

/-- Embedding of the constructor `SalesmanStorage::SalesmanStorage`. -/
def new (matrix : m_dbl_type) : Except Exception SalesmanStorage :=
  if !Storage.CheckMatrixGraphCorrectness matrix then .error (.c_string "")
  else .ok ⟨matrix, [TsmResult.new], 0, none⟩

/-- Embedding of `SalesmanStorage::SetStrategy`: both supported modes build a `LinearSolver`
on the storage's current `best_result_`. -/
def SetStrategy (s : SalesmanStorage) (mode : MultiMode) : Outcome SalesmanStorage :=
  match mode with
  | .kSimple =>
    match LinearSolver.InitializePheromone s.matrix_.length with
    | .error e => ⟨s, .raised e⟩
    | .ok ph => ⟨{ s with algorithm_ := some ⟨s.best_result_, ph⟩ }, .normal⟩
  | .kParallel =>
    match LinearSolver.InitializePheromone s.matrix_.length with
    | .error e => ⟨s, .raised e⟩
    | .ok ph => ⟨{ s with algorithm_ := some ⟨s.best_result_, ph⟩ }, .normal⟩
  | _ => ⟨s, .normal⟩

/-- Embedding of `SalesmanStorage::SolveSalesman`; `rnd k` is the value of the `k`-th call of
`Random()` during this call. -/
def SolveSalesman (s : SalesmanStorage) (rnd : Nat → Nat) (iterations threads : Nat) :
    Outcome SalesmanStorage :=
  match s.algorithm_ with
  | none => ⟨s, .raised (.c_string "")⟩
  | some a =>
    let r := LinearSolver.SolveSalesman s.matrix_ rnd iterations threads
      ⟨s.objects.getD a.best_result_ TsmResult.new, a.phero_ptr_, 0⟩
    let objects := s.objects.set a.best_result_ r.state.best_result_
    ⟨⟨s.matrix_, objects, s.best_result_, some ⟨a.best_result_, r.state.phero_ptr_⟩⟩,
      r.completion⟩

/-- Embedding of `SalesmanStorage::ResetResult`: the storage lets go of its `TsmResult` and
holds a new one. -/
def ResetResult (s : SalesmanStorage) : SalesmanStorage :=
  { s with objects := s.objects ++ [TsmResult.new], best_result_ := s.objects.length }

/-- Embedding of `SalesmanStorage::GetResult`. -/
def GetResult (s : SalesmanStorage) : TsmResult :=
  s.objects.getD s.best_result_ TsmResult.new

end SalesmanStorage

end s21

namespace s21

/-! ## Notions used in the statements about tours -/

/-- Every pair of consecutive vertices of `l` is joined by an edge of positive weight;
vertices are numbered from `base`. -/
def IsPath (W : m_dbl_type) (base : Nat) (l : List Nat) : Prop :=
  ∀ i, i + 1 < l.length → 0 < cell W (l.getD i 0 - base) (l.getD (i + 1) 0 - base)

/-- Sum of the weights of the edges between consecutive vertices of `l`; vertices are
numbered from `base`. -/
def tourLength (W : m_dbl_type) (base : Nat) (l : List Nat) : ℚ :=
  ∑ i ∈ Finset.range (l.length - 1), cell W (l.getD i 0 - base) (l.getD (i + 1) 0 - base)

/-- Closed tour through all `n` vertices: `n + 1` entries, the first equal to the last, the
first `n` a permutation of the vertices `base, ..., base + n - 1`, consecutive entries joined
by edges of positive weight. -/
def IsClosedTour (W : m_dbl_type) (n base : Nat) (l : List Nat) : Prop :=
  l.length = n + 1 ∧ l.getD 0 0 = l.getD n 0 ∧
    (l.take n).Perm ((List.range n).map (fun v => v + base)) ∧ IsPath W base l

/-- The record holds a closed tour through all vertices, numbered from `base`, and its
length. -/
def GoodResult (W : m_dbl_type) (n base : Nat) (r : TsmResult) : Prop :=
  IsClosedTour W n base r.vertices_ ∧ r.distance_ = tourLength W base r.vertices_

/-- Invariant of the loop of `BuildTour` on `n` vertices from the vertex `start`. -/
def TourInv (W : m_dbl_type) (n start : Nat) (st : TourState) : Prop :=
  st.visited.length = n ∧
  0 < st.ant.ant_result_.vertices_.length ∧
  st.ant.ant_result_.vertices_.getD 0 0 = start ∧
  st.ant.ant_result_.vertices_.getD (st.ant.ant_result_.vertices_.length - 1) 0 = st.current ∧
  st.ant.ant_result_.vertices_.Nodup ∧
  (∀ v, v ∈ st.ant.ant_result_.vertices_ ↔ (v < n ∧ st.visited.getD v false = true)) ∧
  IsPath W 0 st.ant.ant_result_.vertices_ ∧
  st.ant.ant_result_.distance_ = tourLength W 0 st.ant.ant_result_.vertices_

end s21

namespace s21

/-- Invariant of the shared best record during a run: still the initial record, or a closed
tour through all vertices (numbered from 0) with its length. -/
def BestInv (W : m_dbl_type) (n : Nat) (r : TsmResult) : Prop :=
  r = TsmResult.new ∨ GoodResult W n 0 r

/-- Complete graph on two vertices with both weights 1. -/
def twoCities : m_dbl_type := [[0, 1], [1, 0]]

/-- Complete directed graph on three vertices whose tour 1-2-3-1 has length 30 and whose
tour 1-3-2-1 has length 40. -/
def threeCities : m_dbl_type := [[0, 10, 11], [9, 0, 10], [10, 20, 0]]

/-- Start vertices of the ants of one call: vertex 0 for the first 30 ants, vertex 1 for the
others. -/
def thirtyThenOne : Nat → Nat := fun k => if k < 30 then 0 else 1

/-- Session over `threeCities` after `SetStrategy(kSimple)` and one `SolveSalesman(1, 1)` whose
ants start as in `thirtyThenOne`. -/
def threeCitiesAfterRun : SalesmanStorage :=
  ⟨threeCities, [⟨[1, 2, 3, 1], 30⟩], 0,
    some ⟨0, [[1/20, 19/20, 431/220], [143/60, 1/20, 19/20], [19/20, 11/10, 1/20]]⟩⟩

end s21

namespace s21

/-! ## Sequences of `SetStrategy` calls -/

/-- Session after the calls `SetStrategy(m)` for the modes `m` of the list, in order. -/
def VinogradStorage.SetStrategies (s : VinogradStorage) (modes : List MultiMode) :
    VinogradStorage :=
  modes.foldl (fun s1 m => (s1.SetStrategy m).state) s

/-- Session after the calls `SetStrategy(m)` for the modes `m` of the list, in order. -/
def GaussStorage.SetStrategies (s : GaussStorage) (modes : List MultiMode) : GaussStorage :=
  modes.foldl (fun s1 m => s1.SetStrategy m) s

/-- Session after the calls `SetStrategy(m)` for the modes `m` of the list, in order. -/
def SalesmanStorage.SetStrategies (s : SalesmanStorage) (modes : List MultiMode) :
    SalesmanStorage :=
  modes.foldl (fun s1 m => (s1.SetStrategy m).state) s

end s21

namespace s21

/-! ## Notions used in the statements about pivoting and work splitting -/

/-- Scaled pivot value of row `i` at pivot `k`, as `LeadToEchelon` compares it: `|m[i][k]|`
divided by the `scale_factor` of the row; a row whose scale factor is zero is skipped by the
search, which counts as the value 0. -/
def scaledPivot (rows_ : Nat) (m : m_dbl_type) (i k : Nat) : ℚ :=
  if SimpleGauss.scaleFactor rows_ m i k = 0 then 0
  else |cell m i k| / SimpleGauss.scaleFactor rows_ m i k

/-- The value `iters_in_thread` that `LinearSolver::SolveSalesman` computes from the requested
number of iterations and the number of threads. -/
def LinearSolver.itersInThread (iterations threads_num : Nat) : Nat :=
  if iterations > threads_num then iterations / threads_num else 1

/-- System of `TEST(gauss, extreme_2)`. -/
def extreme_2 : m_dbl_type :=
  [[2, 1, -4, 2, 1, 0, -12, 42],
   [2, 3, 4, 5, 6, 424 / 100, 112 / 10, -1308 / 100],
   [15, 2, -3, 4, 214 / 100, 317 / 100, 223 / 100, 51125 / 1000],
   [135 / 100, -86 / 100, 34 / 100, -43 / 100, -155 / 100, -255 / 100, 355 / 100,
     -10045 / 1000],
   [-1, 14, 2, -13, 4, -232 / 100, -105 / 10, 11679 / 100],
   [115 / 100, -225 / 100, -2 / 10, 0, 154 / 10, -111 / 10, 286 / 100, -23909 / 100],
   [-3, -125 / 100, 126 / 10, 134 / 10, -216 / 100, 0, 254 / 10, -1399 / 100]]

/-- The constant `kEps` of `s21_types.h`, the tolerance of the tests. -/
def kEps : ℚ := 2 / 100000

end s21

namespace s21

/-! ## Notions used in the statements about tours and pheromone -/

/-- The local variables of `BuildTour` when its loop is left, before the edge back to the
start is looked at. -/
def LinearSolver.tourLoop (matrix_ phero_ptr_ : m_dbl_type) (start : Nat)
    (visited : List Bool) : TourState :=
  forLoop 1 (visited.set start true).length
    (fun _ st => LinearSolver.tourStep matrix_ phero_ptr_ st)
    ⟨⟨⟨[start], 0⟩, 0⟩, visited.set start true, start, false⟩

/-- Number of times that `j` follows `i` directly in the vertex list `l`. -/
def edgeCount (l : List Nat) (i j : Nat) : Nat := (l.zip l.tail).count (i, j)

/-- An `n x n` matrix whose entries are all positive. -/
def PositiveMatrix (ph : m_dbl_type) (n : Nat) : Prop :=
  IsMatrix ph n n ∧ ∀ i j, i < n → j < n → 0 < cell ph i j

/-- What `UpdatePheromone` needs of an ant on `n` vertices: its vertices exist, consecutive
vertices are joined by edges of positive weight, and its quantity is not negative. -/
def AntOk (W : m_dbl_type) (n : Nat) (ant : Ant) : Prop :=
  (∀ v ∈ ant.ant_result_.vertices_, v < n) ∧ IsPath W 0 ant.ant_result_.vertices_ ∧
    0 ≤ ant.quantity_

/-- Conversion of a `std::size_t` value to `int`: the value modulo `2 ^ 32`, read as a signed
32-bit number. -/
def size_to_int (x : Nat) : Int :=
  if x % 2 ^ 32 < 2 ^ 31 then ((x % 2 ^ 32 : Nat) : Int) else ((x % 2 ^ 32 : Nat) : Int) - 2 ^ 32

/-- The arguments `(a, b)` of the `std::uniform_int_distribution<>` from which
`LinearSolver::Random` draws, for a matrix of `size` rows: `0` and `size - 2`, the subtraction
done in `std::size_t` and the result converted to `int`. -/
def LinearSolver.RandomBounds (size : Nat) : Int × Int :=
  (0, size_to_int (Storage.size_sub size 2))

/-- The values that `LinearSolver::Random` can return on a matrix of `size` rows: the integers
`v` with `a <= v <= b`. With `a > b` there is none and the distribution is used outside its
precondition. -/
def LinearSolver.CanDraw (size : Nat) (v : Int) : Prop :=
  (LinearSolver.RandomBounds size).1 ≤ v ∧ v ≤ (LinearSolver.RandomBounds size).2

/-- Graph on three vertices in which vertex 2 has no edge: from vertex 0 an ant reaches
vertex 1 and gets no further. -/
def isolatedCity : m_dbl_type := [[0, 1, 0], [1, 0, 0], [0, 0, 0]]

end s21

namespace s21

/-! ## Double-precision arithmetic

The embedding above reads `double` values as rationals. The definitions of this part read
them as IEEE 754 binary64 values with the default rounding (to nearest, ties to even), so that
rounding, overflow to an infinity, division by zero and NaN are part of the model. -/

/-- An IEEE 754 binary64 value: a signed zero, a non-zero finite number (given by its exact
value), a signed infinity, or a NaN. -/
inductive Dbl where
  | zero (negative : Bool)
  | num (q : ℚ)
  | inf (negative : Bool)
  | nan
  deriving DecidableEq

namespace Dbl

/-- The power `2 ^ e` for an integer exponent. -/
def pow2 (e : Int) : ℚ :=
  if 0 ≤ e then ((2 ^ e.toNat : Nat) : ℚ) else 1 / ((2 ^ (-e).toNat : Nat) : ℚ)

/-- The largest `e` with `2 ^ e <= n`, for `0 < n < 2 ^ 8192`, found bit by bit. -/
def log2Nat (n : Nat) : Nat :=
  [4096, 2048, 1024, 512, 256, 128, 64, 32, 16, 8, 4, 2, 1].foldl
    (fun e b => if 2 ^ (e + b) ≤ n then e + b else e) 0

/-- The exponent `e` with `2 ^ e <= q < 2 ^ (e + 1)`, for `q > 0`. -/
def floorLog2 (q : ℚ) : Int :=
  let e : Int := (log2Nat q.num.natAbs : Int) - (log2Nat q.den : Int)
  if pow2 e ≤ q then e else e - 1

/-- Rounding of a rational `m >= 0` to the nearest integer, a tie going to the even one. -/
def roundHalfEven (m : ℚ) : Int :=
  let f := m.floor
  if m - f < 1 / 2 then f
  else if 1 / 2 < m - f then f + 1
  else if f % 2 = 0 then f else f + 1

/-- The binary64 value nearest to the non-zero rational `q`, ties to even: 53 significant
bits for `|q| >= 2 ^ (-1022)`, multiples of `2 ^ (-1074)` below, an infinity from
`2 ^ 1024` on (after rounding), a signed zero when the rounded value is zero. -/
def round (q : ℚ) : Dbl :=
  let e := max (floorLog2 |q|) (-1022)
  let quantum := pow2 (e - 52)
  let r := roundHalfEven (|q| / quantum)
  if r = 0 then zero (decide (q < 0))
  else if pow2 1024 ≤ r * quantum then inf (decide (q < 0))
  else num (if q < 0 then -(r * quantum) else r * quantum)

/-- A decimal literal of the source, or a value read from input, as a binary64 value. -/
def ofRat (q : ℚ) : Dbl := if q = 0 then zero false else round q

/-- The sign bit. -/
def isNegative : Dbl → Bool
  | zero s => s
  | num q => decide (q < 0)
  | inf s => s
  | nan => false

def neg : Dbl → Dbl
  | zero s => zero (!s)
  | num q => num (-q)
  | inf s => inf (!s)
  | nan => nan

/-- The functions `std::abs` and `fabs` on a `double`. -/
def abs : Dbl → Dbl
  | zero _ => zero false
  | num q => num |q|
  | inf _ => inf false
  | nan => nan

def add : Dbl → Dbl → Dbl
  | nan, _ => nan
  | _, nan => nan
  | inf s, inf t => if s = t then inf s else nan
  | inf s, _ => inf s
  | _, inf t => inf t
  | zero s, zero t => zero (s && t)
  | zero _, num y => num y
  | num x, zero _ => num x
  | num x, num y => if x + y = 0 then zero false else round (x + y)

def sub (a b : Dbl) : Dbl := add a (neg b)

def mul : Dbl → Dbl → Dbl
  | nan, _ => nan
  | _, nan => nan
  | inf _, zero _ => nan
  | zero _, inf _ => nan
  | num x, num y => round (x * y)
  | a, b =>
    match a, b with
    | inf _, _ => inf (xor a.isNegative b.isNegative)
    | _, inf _ => inf (xor a.isNegative b.isNegative)
    | _, _ => zero (xor a.isNegative b.isNegative)

def div : Dbl → Dbl → Dbl
  | nan, _ => nan
  | _, nan => nan
  | inf _, inf _ => nan
  | zero _, zero _ => nan
  | num x, num y => round (x / y)
  | a, b =>
    match a, b with
    | inf _, _ => inf (xor a.isNegative b.isNegative)
    | _, zero _ => inf (xor a.isNegative b.isNegative)
    | _, _ => zero (xor a.isNegative b.isNegative)

/-- The comparison `a < b`; it is false when one side is a NaN, and the two zeros are
equal. -/
def lt : Dbl → Dbl → Bool
  | nan, _ => false
  | _, nan => false
  | inf s, inf t => s && !t
  | inf s, _ => s
  | _, inf t => !t
  | zero _, zero _ => false
  | zero _, num y => decide (0 < y)
  | num x, zero _ => decide (x < 0)
  | num x, num y => decide (x < y)

/-- The comparison `a == b`; a NaN is equal to nothing, and the two zeros are equal. -/
def eq : Dbl → Dbl → Bool
  | zero _, zero _ => true
  | num x, num y => decide (x = y)
  | inf s, inf t => decide (s = t)
  | _, _ => false

end Dbl

end s21

namespace s21

/-- The operations on `double` values that the numeric code uses: the literal `0`, the other
literals, `+`, `-`, `*`, `/`, `std::abs` and `fabs`, `pow` with a whole exponent, `<` and
`==`. -/
structure Arith (α : Type) where
  zero : α
  ofRat : ℚ → α
  add : α → α → α
  sub : α → α → α
  mul : α → α → α
  div : α → α → α
  abs : α → α
  pow : α → Nat → α
  lt : α → α → Bool
  eq : α → α → Bool

namespace Dbl

/-- The calls `pow(x, 1.0)`, which is `x`, and `pow(x, 2.0)`, read as the rounded product
`x * x`; the source uses no other exponent. -/
def pow (x : Dbl) : Nat → Dbl
  | 0 => num 1
  | 1 => x
  | k + 2 => mul (pow x (k + 1)) x

end Dbl

namespace Arith

/-- Exact arithmetic on rationals, the reading of the first part of this development. -/
def exact : Arith ℚ where
  zero := 0
  ofRat := fun q => q
  add := fun a b => a + b
  sub := fun a b => a - b
  mul := fun a b => a * b
  div := fun a b => a / b
  abs := fun a => |a|
  pow := fun a k => a ^ k
  lt := fun a b => decide (a < b)
  eq := fun a b => decide (a = b)

/-- IEEE 754 binary64 arithmetic, every operation rounded on its own. -/
def ieee : Arith Dbl where
  zero := Dbl.zero false
  ofRat := Dbl.ofRat
  add := Dbl.add
  sub := Dbl.sub
  mul := Dbl.mul
  div := Dbl.div
  abs := Dbl.abs
  pow := Dbl.pow
  lt := Dbl.lt
  eq := Dbl.eq

end Arith

/-! ## The numeric code over an arbitrary arithmetic

The functions of this part are the embeddings of the same source functions as above, with
the arithmetic as a parameter: at `Arith.exact` they are the definitions of the first part,
at `Arith.ieee` they compute what the compiled code computes on binary64 values. -/

namespace Num

/-- Row `i` of a matrix (`m.at(i)` with `i` in range). -/
def getRow {α : Type} (m : List (List α)) (i : Nat) : List α := m.getD i []

/-- Read of `m.at(i).at(j)` with both indices in range. -/
def cell {α : Type} (A : Arith α) (m : List (List α)) (i j : Nat) : α :=
  (getRow m i).getD j A.zero

/-- Write `m.at(i).at(j) = v`. -/
def setCell {α : Type} (m : List (List α)) (i j : Nat) (v : α) : List (List α) :=
  m.set i ((getRow m i).set j v)

/-- The call `std::max(a, b)`: `b` when `a < b`, else `a`. -/
def max {α : Type} (A : Arith α) (a b : α) : α := if A.lt a b then b else a

/-- A matrix of input values, each converted to the arithmetic. -/
def ofMatrix {α : Type} (A : Arith α) (m : m_dbl_type) : List (List α) :=
  m.map (fun row => row.map A.ofRat)

namespace SimpleGauss

/-- Inner loop of `LeadToEchelon`: `scale_factor` of row `i` over the columns `k .. rows_-1`. -/
def scaleFactor {α : Type} (A : Arith α) (rows_ : Nat) (matrix_ : List (List α)) (i k : Nat) :
    α :=
  forLoop k rows_ (fun j scale_factor => max A (A.abs (cell A matrix_ i j)) scale_factor) A.zero

/-- Middle loop of `LeadToEchelon` for pivot `k`: the pair `(max_index, max_value)`. -/
def pivotSearch {α : Type} (A : Arith α) (rows_ : Nat) (matrix_ : List (List α)) (k : Nat) :
    Nat × α :=
  forLoop k rows_ (fun i (acc : Nat × α) =>
    let scale_factor := scaleFactor A rows_ matrix_ i k
    if A.eq scale_factor A.zero then acc
    else
      let abs := A.div (A.abs (cell A matrix_ i k)) scale_factor
      if A.lt acc.2 abs then (i, abs) else acc) (k, A.zero)

/-- The call `std::swap(matrix_->at(a), matrix_->at(b))`. -/
def swapRows {α : Type} (m : List (List α)) (a b : Nat) : List (List α) :=
  (m.set a (getRow m b)).set b (getRow m a)

/-- Embedding of `SimpleGauss::LeadToEchelon`. -/
def LeadToEchelon {α : Type} (A : Arith α) (rows_ : Nat) (matrix_ : List (List α)) :
    List (List α) :=
  forLoop 0 rows_ (fun k m =>
    let max_index := (pivotSearch A rows_ m k).1
    if k ≠ max_index then swapRows m k max_index else m) matrix_

/-- Embedding of `SimpleGauss::AdjustEchelon`. -/
def AdjustEchelon {α : Type} (A : Arith α) (rows_ k : Nat) (matrix_ : List (List α)) :
    List (List α) :=
  forLoop (k + 1) rows_ (fun i m =>
    let f := A.div (cell A m i k) (cell A m k k)
    let m1 := forLoop (k + 1) (rows_ + 1)
      (fun j m2 => setCell m2 i j (A.sub (cell A m2 i j) (A.mul (cell A m2 k j) f))) m
    setCell m1 i k A.zero) matrix_

/-- Embedding of `SimpleGauss::CheckEchelon`: `true` when the function throws. -/
def CheckEchelon {α : Type} (A : Arith α) (rows_ : Nat) (matrix_ : List (List α)) : Bool :=
  (List.range rows_).any (fun k => A.lt (A.abs (cell A matrix_ k k)) (A.ofRat (1 / 100000)))

/-- Embedding of `SimpleGauss::BackPropagation`. -/
def BackPropagation {α : Type} (A : Arith α) (rows_ : Nat) (matrix_ : List (List α))
    (output_ : List α) : List α :=
  forLoopDown rows_ (fun i out =>
    let out1 := out.set i (cell A matrix_ i rows_)
    let out2 := forLoop (i + 1) rows_
      (fun j o => o.set i (A.sub (o.getD i A.zero) (A.mul (cell A matrix_ i j) (o.getD j A.zero))))
      out1
    out2.set i (A.div (out2.getD i A.zero) (cell A matrix_ i i))) output_

/-- Embedding of `SimpleGauss::SolveSle`, on the shared matrix and output vector. -/
def SolveSle {α : Type} (A : Arith α) (rows_ : Nat) (matrix_ : List (List α))
    (output_ : List α) : Outcome (List (List α) × List α) :=
  let buff_matrix := matrix_
  let m1 := LeadToEchelon A rows_ matrix_
  let m2 := forLoop 0 rows_ (fun k m => AdjustEchelon A rows_ k m) m1
  if CheckEchelon A rows_ m2 then
    ⟨(m2, output_), .raised (.runtime_error "matrix is singular")⟩
  else
    ⟨(buff_matrix, BackPropagation A rows_ m2 output_), .normal⟩

end SimpleGauss

namespace ParallelGauss

/-- Embedding of `ParallelGauss::SolveSle`. The tasks `AdjustEchelon(k)` run to completion one
after the other, in the order `sched`; an exception of `CheckEchelon` escapes its thread. -/
def SolveSle {α : Type} (A : Arith α) (rows_ : Nat) (sched : List Nat)
    (matrix_ : List (List α)) (output_ : List α) : Outcome (List (List α) × List α) :=
  let buff_matrix := matrix_
  let m1 := SimpleGauss.LeadToEchelon A rows_ matrix_
  let m2 := sched.foldl (fun m k => SimpleGauss.AdjustEchelon A rows_ k m) m1
  if SimpleGauss.CheckEchelon A rows_ m2 then
    ⟨(m2, output_), .aborted⟩
  else
    ⟨(buff_matrix, SimpleGauss.BackPropagation A rows_ m2 output_), .normal⟩

end ParallelGauss

/-- The matrix after the elimination steps `0, 1, ..., j-1`. -/
def elimSteps {α : Type} (A : Arith α) (rows_ j : Nat) (m : List (List α)) : List (List α) :=
  forLoop 0 j (fun k t => SimpleGauss.AdjustEchelon A rows_ k t) m

/-- Rectangular matrix: `r` rows, every row with `c` entries. -/
def IsMatrix {α : Type} (m : List (List α)) (r c : Nat) : Prop :=
  m.length = r ∧ ∀ row ∈ m, row.length = c

namespace LinearSolver

/-- Embedding of `LinearSolver::Eta`. -/
def Eta {α : Type} (A : Arith α) (matrix_ : List (List α)) (i j : Nat) : α :=
  A.div (A.ofRat 1) (cell A matrix_ i j)

/-- Embedding of `LinearSolver::SelectNext`; the answer is an `int`, `-1` for no vertex. -/
def SelectNext {α : Type} (A : Arith α) (matrix_ phero_ptr_ : List (List α)) (cur : Nat)
    (visited : List Bool) : Int :=
  let size := visited.length
  let sum := forLoop 0 size (fun i (sum : α) =>
    if visited.getD i false = false ∧ A.lt A.zero (cell A matrix_ cur i) = true then
      A.add sum (A.mul (A.pow (cell A phero_ptr_ cur i) GraphAlgorithms.kAlpha)
        (A.pow (Eta A matrix_ cur i) GraphAlgorithms.kBeta))
    else sum) A.zero
  (forLoop 0 size (fun i (acc : Int × α) =>
    if visited.getD i false = false ∧ A.lt A.zero (cell A matrix_ cur i) = true then
      let buff_attractivness :=
        A.div (A.mul (A.pow (cell A phero_ptr_ cur i) GraphAlgorithms.kAlpha)
          (A.pow (Eta A matrix_ cur i) GraphAlgorithms.kBeta)) sum
      if A.lt acc.2 buff_attractivness then ((i : Int), buff_attractivness) else acc
    else acc) (-1, A.zero)).1

end LinearSolver

end Num

instance {α : Type} (m : List (List α)) (r c : Nat) : Decidable (Num.IsMatrix m r c) := by
  unfold Num.IsMatrix
  infer_instance

/-! ## Inputs on which rounding and overflow show -/

/-- The system `3 x + 109656554205511680 y = 1`, `7 x + 255865293146193920 y = 1`: the second
row of coefficients is `7 / 3` times the first, and every entry is a binary64 value. -/
def singularPair : m_dbl_type := [[3, 109656554205511680, 1], [7, 255865293146193920, 1]]

/-- A system with an inverse whose second pivot is zero once the first column is cleared. -/
def zeroPivotSystem : m_dbl_type := [[1, 1, 0, 1], [1, 1, 1, 1], [0, 1, 1, 1]]

/-- Complete graph on three vertices, every edge of length 1. -/
def unitTriangle : m_dbl_type := [[0, 1, 1], [1, 0, 1], [1, 1, 0]]

/-- Pheromone `2 ^ 1023`, a finite binary64 value, on every edge of three vertices. -/
def hugePheromone : m_dbl_type := List.replicate 3 (List.replicate 3 ((2 ^ 1023 : Nat) : ℚ))

/-- Complete graph on three vertices, every entry `2 ^ (-600)`, a positive binary64 value. -/
def tinyTriangle : m_dbl_type := List.replicate 3 (List.replicate 3 (1 / ((2 ^ 600 : Nat) : ℚ)))

/-- The pheromone matrix of a new solver on three vertices (`InitializePheromone(3)`). -/
def initialPheromone3 : m_dbl_type :=
  List.replicate 3 (List.replicate 3 GraphAlgorithms.kInitialPheromone)

end s21

/-! # Lemmas and theorems

Everything above this line is a definition; everything below is a lemma or a theorem. -/

namespace s21

/-! ## Loops -/

theorem forLoop_of_le {σ : Type} (lo hi : Nat) (body : Nat → σ → σ) (s : σ) (h : hi ≤ lo) :
    forLoop lo hi body s = s := by
  simp [forLoop, Nat.sub_eq_zero_of_le h]

theorem forLoop_succ {σ : Type} (lo hi : Nat) (body : Nat → σ → σ) (s : σ) (h : lo ≤ hi) :
    forLoop lo (hi + 1) body s = body hi (forLoop lo hi body s) := by
  have e : hi + 1 - lo = (hi - lo) + 1 := by omega
  simp only [forLoop, e, List.range'_concat, List.foldl_append, List.foldl_cons, List.foldl_nil]
  congr 1
  omega

theorem forLoop_induct {σ : Type} (P : Nat → σ → Prop) (lo hi : Nat) (body : Nat → σ → σ)
    (s : σ) (hle : lo ≤ hi) (h0 : P lo s)
    (hstep : ∀ i t, lo ≤ i → i < hi → P i t → P (i + 1) (body i t)) :
    P hi (forLoop lo hi body s) := by
  induction hi with
  | zero =>
    have : lo = 0 := by omega
    subst this
    simpa [forLoop] using h0
  | succ n ih =>
    rcases Nat.eq_or_lt_of_le hle with h | h
    · subst h
      rw [forLoop_of_le _ _ _ _ (le_refl _)]
      exact h0
    · have hn : lo ≤ n := by omega
      rw [forLoop_succ _ _ _ _ hn]
      exact hstep n _ hn (by omega)
        (ih hn (fun i t h1 h2 hp => hstep i t h1 (by omega) hp))

theorem forLoop_congr {σ : Type} (lo hi : Nat) (body body2 : Nat → σ → σ) (s : σ)
    (h : ∀ i t, lo ≤ i → i < hi → body i t = body2 i t) :
    forLoop lo hi body s = forLoop lo hi body2 s := by
  rcases Nat.lt_or_ge hi lo with hlt | hge
  · rw [forLoop_of_le _ _ _ _ (by omega), forLoop_of_le _ _ _ _ (by omega)]
  · refine forLoop_induct (fun i t => t = forLoop lo i body2 s) lo hi body s hge ?_ ?_
    · show s = forLoop lo lo body2 s
      rw [forLoop_of_le _ _ _ _ (le_refl _)]
    · intro i t h1 h2 ht
      show body i t = forLoop lo (i + 1) body2 s
      rw [forLoop_succ _ _ _ _ h1, ← ht, h i t h1 h2]

theorem forLoopDown_zero {σ : Type} (body : Nat → σ → σ) (s : σ) :
    forLoopDown 0 body s = s := by
  simp [forLoopDown]

theorem forLoopDown_succ {σ : Type} (n : Nat) (body : Nat → σ → σ) (s : σ) :
    forLoopDown (n + 1) body s = forLoopDown n body (body n s) := by
  simp [forLoopDown, List.range_succ]

theorem forLoopDown_induct {σ : Type} (P : Nat → σ → Prop) (n : Nat) (body : Nat → σ → σ)
    (s : σ) (h0 : P n s) (hstep : ∀ i t, i < n → P (i + 1) t → P i (body i t)) :
    P 0 (forLoopDown n body s) := by
  induction n generalizing s with
  | zero => simpa [forLoopDown_zero] using h0
  | succ n ih =>
    rw [forLoopDown_succ]
    exact ih _ (hstep n s (by omega) h0) (fun i t hi hp => hstep i t (by omega) hp)

/-! ## Vectors and matrices -/

theorem getD_set (l : row_type) (i j : Nat) (v : ℚ) :
    (l.set i v).getD j 0 = if i = j ∧ i < l.length then v else l.getD j 0 := by
  simp only [List.getD_eq_getElem?_getD, List.getElem?_set]
  by_cases h1 : i = j
  · subst h1
    by_cases h2 : i < l.length
    · simp [h2]
    · have : l.length ≤ i := by omega
      simp [h2, List.getElem?_eq_none this]
  · simp [h1]

theorem set_getD_self (l : row_type) (j : Nat) : l.set j (l.getD j 0) = l := by
  apply List.ext_getElem?
  intro n
  rw [List.getElem?_set]
  by_cases h1 : j = n
  · subst h1
    by_cases h2 : j < l.length
    · simp [h2, List.getD_eq_getElem?_getD, List.getElem?_eq_getElem h2]
    · have : l.length ≤ j := by omega
      simp [h2, List.getElem?_eq_none this]
  · simp [h1]

theorem length_setCell (m : m_dbl_type) (i j : Nat) (v : ℚ) :
    (setCell m i j v).length = m.length := by
  simp [setCell]

theorem getRow_set (m : m_dbl_type) (i a : Nat) (row : row_type) :
    getRow (m.set i row) a = if i = a ∧ i < m.length then row else getRow m a := by
  simp only [getRow, List.getD_eq_getElem?_getD, List.getElem?_set]
  by_cases h1 : i = a
  · subst h1
    by_cases h2 : i < m.length
    · simp [h2]
    · have : m.length ≤ i := by omega
      simp [h2, List.getElem?_eq_none this]
  · simp [h1]

theorem getRow_length_setCell (m : m_dbl_type) (i j a : Nat) (v : ℚ) :
    (getRow (setCell m i j v) a).length = (getRow m a).length := by
  rw [setCell, getRow_set]
  split_ifs with h
  · rw [List.length_set, h.1]
  · rfl

theorem cell_setCell (m : m_dbl_type) (i j a b : Nat) (v : ℚ) :
    cell (setCell m i j v) a b =
      if a = i ∧ b = j ∧ i < m.length ∧ j < (getRow m i).length then v else cell m a b := by
  rw [cell, setCell, getRow_set]
  by_cases h1 : i = a
  · subst h1
    by_cases h2 : i < m.length
    · simp only [h2, and_self, if_true, getD_set, true_and]
      by_cases h3 : j = b
      · subst h3
        simp [cell]
      · have : ¬ b = j := fun h => h3 h.symm
        simp [h3, this, cell]
    · simp [h2, cell]
  · have : ¬ a = i := fun h => h1 h.symm
    simp [h1, this, cell]

theorem matrix_ext (m m2 : m_dbl_type) (hl : m.length = m2.length)
    (hr : ∀ a, a < m.length → (getRow m a).length = (getRow m2 a).length)
    (hc : ∀ a b, a < m.length → b < (getRow m a).length → cell m a b = cell m2 a b) :
    m = m2 := by
  apply List.ext_getElem hl
  intro a h1 h2
  have e1 : getRow m a = m[a] := List.getD_eq_getElem _ _ h1
  have e2 : getRow m2 a = m2[a] := List.getD_eq_getElem _ _ h2
  rw [← e1, ← e2]
  apply List.ext_getElem (hr a h1)
  intro b hb1 hb2
  have := hc a b h1 hb1
  simp only [cell] at this
  rw [List.getD_eq_getElem _ _ hb1, List.getD_eq_getElem _ _ hb2] at this
  exact this

end s21

namespace s21

/-! ## Shapes -/

theorem getRow_mem (A : m_dbl_type) (a : Nat) (ha : a < A.length) : getRow A a ∈ A := by
  rw [getRow, List.getD_eq_getElem _ _ ha]
  exact List.getElem_mem ha

theorem getRow_length_of_isMatrix {A : m_dbl_type} {r c : Nat} (hA : IsMatrix A r c) (a : Nat)
    (ha : a < r) : (getRow A a).length = c :=
  hA.2 _ (getRow_mem A a (by rw [hA.1]; exact ha))

theorem getRow_replicate (r : Nat) (row : row_type) (a : Nat) (ha : a < r) :
    getRow (List.replicate r row) a = row := by
  rw [getRow, List.getD_eq_getElem _ _ (by simpa using ha)]
  simp

theorem CheckMatrixCorrectness_of_isMatrix {A : m_dbl_type} {r c : Nat} (hA : IsMatrix A r c)
    (hr : 0 < r) (hc : 0 < c) : Storage.CheckMatrixCorrectness A = true := by
  have h0 : (getRow A 0).length = c := getRow_length_of_isMatrix hA 0 hr
  have hne : A.isEmpty = false := by
    cases A with
    | nil => simp [IsMatrix] at hA; omega
    | cons x xs => rfl
  unfold Storage.CheckMatrixCorrectness
  simp only [hne, h0, Bool.false_eq_true, if_false]
  rw [if_neg (by omega)]
  rw [List.all_eq_true]
  intro row hrow
  simpa using hA.2 row hrow

end s21

namespace s21

/-! ## Accumulating loops -/

theorem set_eq_self_of_le (l : row_type) (i : Nat) (v : ℚ) (h : l.length ≤ i) : l.set i v = l :=
  List.set_eq_of_length_le h

theorem forLoop_accum_vec (g : Nat → ℚ) (i n : Nat) (rf0 : row_type) :
    forLoop 0 n (fun j rf => rf.set i (rf.getD i 0 + g j)) rf0 =
      rf0.set i (rf0.getD i 0 + ∑ j ∈ Finset.range n, g j) := by
  induction n with
  | zero =>
    rw [forLoop_of_le _ _ _ _ (le_refl _), Finset.range_zero, Finset.sum_empty, add_zero,
      set_getD_self]
  | succ n ih =>
    rw [forLoop_succ _ _ _ _ (Nat.zero_le n), ih, List.set_set, getD_set, Finset.sum_range_succ]
    by_cases h : i < rf0.length
    · simp [h, add_assoc]
    · rw [set_eq_self_of_le _ _ _ (by omega), set_eq_self_of_le _ _ _ (by omega)]

theorem forLoop_update_vec (g : Nat → ℚ → ℚ) (lo hi : Nat) (hle : lo ≤ hi) (rf0 : row_type) :
    (forLoop lo hi (fun i rf => rf.set i (g i (rf.getD i 0))) rf0).length = rf0.length ∧
    ∀ a, (forLoop lo hi (fun i rf => rf.set i (g i (rf.getD i 0))) rf0).getD a 0 =
      if lo ≤ a ∧ a < hi ∧ a < rf0.length then g a (rf0.getD a 0) else rf0.getD a 0 := by
  refine forLoop_induct (fun h rf => rf.length = rf0.length ∧ ∀ a, rf.getD a 0 =
      if lo ≤ a ∧ a < h ∧ a < rf0.length then g a (rf0.getD a 0) else rf0.getD a 0)
    lo hi _ rf0 hle ?_ ?_
  · refine ⟨rfl, fun a => ?_⟩
    have : ¬ (lo ≤ a ∧ a < lo ∧ a < rf0.length) := by omega
    simp [this]
  · rintro i t h1 h2 ⟨hl, hc⟩
    refine ⟨by simp [hl], fun a => ?_⟩
    rw [getD_set, hl]
    by_cases ha : i = a
    · subst ha
      by_cases hlen : i < rf0.length
      · have e1 : (i = i ∧ i < rf0.length) := ⟨rfl, hlen⟩
        have e2 : (lo ≤ i ∧ i < i + 1 ∧ i < rf0.length) := ⟨h1, by omega, hlen⟩
        have e3 : ¬ (lo ≤ i ∧ i < i ∧ i < rf0.length) := by omega
        rw [if_pos e1, if_pos e2, hc i, if_neg e3]
      · have e1 : ¬ (i = i ∧ i < rf0.length) := by omega
        have e2 : ¬ (lo ≤ i ∧ i < i + 1 ∧ i < rf0.length) := by omega
        have e3 : ¬ (lo ≤ i ∧ i < i ∧ i < rf0.length) := by omega
        rw [if_neg e1, if_neg e2, hc i, if_neg e3]
    · have e1 : ¬ (i = a ∧ i < rf0.length) := fun h => ha h.1
      rw [if_neg e1, hc a]
      have : (lo ≤ a ∧ a < i ∧ a < rf0.length) ↔ (lo ≤ a ∧ a < i + 1 ∧ a < rf0.length) := by
        omega
      simp only [this]

theorem setCell_setCell (m : m_dbl_type) (i j : Nat) (v w : ℚ) :
    setCell (setCell m i j v) i j w = setCell m i j w := by
  apply matrix_ext
  · simp [length_setCell]
  · intro a _
    simp [getRow_length_setCell]
  · intro a b _ _
    simp only [cell_setCell, length_setCell, getRow_length_setCell]
    split_ifs <;> rfl

theorem setCell_cell_self (m : m_dbl_type) (i j : Nat) : setCell m i j (cell m i j) = m := by
  apply matrix_ext
  · simp [length_setCell]
  · intro a _
    simp [getRow_length_setCell]
  · intro a b _ _
    rw [cell_setCell]
    split_ifs with h
    · rw [h.1, h.2.1]
    · rfl

theorem setCell_of_not_inRange (m : m_dbl_type) (i j : Nat) (v : ℚ)
    (h : ¬ (i < m.length ∧ j < (getRow m i).length)) : setCell m i j v = m := by
  apply matrix_ext
  · simp [length_setCell]
  · intro a _
    simp [getRow_length_setCell]
  · intro a b _ _
    rw [cell_setCell]
    have : ¬ (a = i ∧ b = j ∧ i < m.length ∧ j < (getRow m i).length) := fun hh => h hh.2.2
    rw [if_neg this]

theorem forLoop_accum_cell (g : Nat → ℚ) (i j n : Nat) (m : m_dbl_type) :
    forLoop 0 n (fun k r => setCell r i j (cell r i j + g k)) m =
      setCell m i j (cell m i j + ∑ k ∈ Finset.range n, g k) := by
  induction n with
  | zero =>
    rw [forLoop_of_le _ _ _ _ (le_refl _), Finset.range_zero, Finset.sum_empty, add_zero,
      setCell_cell_self]
  | succ n ih =>
    rw [forLoop_succ _ _ _ _ (Nat.zero_le n), ih, setCell_setCell, cell_setCell,
      Finset.sum_range_succ]
    by_cases h : i < m.length ∧ j < (getRow m i).length
    · have : (i = i ∧ j = j ∧ i < m.length ∧ j < (getRow m i).length) := ⟨rfl, rfl, h⟩
      rw [if_pos this, add_assoc]
    · rw [setCell_of_not_inRange _ _ _ _ h, setCell_of_not_inRange _ _ _ _ h]

/-- Effect of a loop over the columns of row `i` that rewrites each cell from its own value. -/
theorem forLoop_update_row (g : Nat → ℚ → ℚ) (i lo hi : Nat) (hle : lo ≤ hi) (m : m_dbl_type) :
    (forLoop lo hi (fun j r => setCell r i j (g j (cell r i j))) m).length = m.length ∧
    (∀ a, (getRow (forLoop lo hi (fun j r => setCell r i j (g j (cell r i j))) m) a).length =
      (getRow m a).length) ∧
    ∀ a b, cell (forLoop lo hi (fun j r => setCell r i j (g j (cell r i j))) m) a b =
      if a = i ∧ lo ≤ b ∧ b < hi ∧ i < m.length ∧ b < (getRow m i).length
      then g b (cell m i b) else cell m a b := by
  refine forLoop_induct (fun h r => r.length = m.length ∧
      (∀ a, (getRow r a).length = (getRow m a).length) ∧
      ∀ a b, cell r a b =
        if a = i ∧ lo ≤ b ∧ b < h ∧ i < m.length ∧ b < (getRow m i).length
        then g b (cell m i b) else cell m a b) lo hi _ m hle ?_ ?_
  · refine ⟨rfl, fun _ => rfl, fun a b => ?_⟩
    have : ¬ (a = i ∧ lo ≤ b ∧ b < lo ∧ i < m.length ∧ b < (getRow m i).length) := by omega
    rw [if_neg this]
  · rintro j t h1 h2 ⟨hl, hr, hc⟩
    refine ⟨by rw [length_setCell, hl], fun a => by rw [getRow_length_setCell, hr], ?_⟩
    intro a b
    rw [cell_setCell, hl, hr]
    by_cases hab : a = i ∧ b = j
    · obtain ⟨rfl, rfl⟩ := hab
      by_cases hin : a < m.length ∧ b < (getRow m a).length
      · have e1 : (a = a ∧ b = b ∧ a < m.length ∧ b < (getRow m a).length) := ⟨rfl, rfl, hin⟩
        have e2 : (a = a ∧ lo ≤ b ∧ b < b + 1 ∧ a < m.length ∧ b < (getRow m a).length) :=
          ⟨rfl, h1, by omega, hin⟩
        have e3 : ¬ (a = a ∧ lo ≤ b ∧ b < b ∧ a < m.length ∧ b < (getRow m a).length) := by
          omega
        rw [if_pos e1, if_pos e2, hc a b, if_neg e3]
      · have e1 : ¬ (a = a ∧ b = b ∧ a < m.length ∧ b < (getRow m a).length) :=
          fun h => hin h.2.2
        have e2 : ¬ (a = a ∧ lo ≤ b ∧ b < b + 1 ∧ a < m.length ∧ b < (getRow m a).length) :=
          fun h => hin h.2.2.2
        have e3 : ¬ (a = a ∧ lo ≤ b ∧ b < b ∧ a < m.length ∧ b < (getRow m a).length) := by
          omega
        rw [if_neg e1, if_neg e2, hc a b, if_neg e3]
    · have e1 : ¬ (a = i ∧ b = j ∧ i < m.length ∧ j < (getRow m i).length) :=
        fun h => hab ⟨h.1, h.2.1⟩
      rw [if_neg e1, hc a b]
      have : (a = i ∧ lo ≤ b ∧ b < j ∧ i < m.length ∧ b < (getRow m i).length) ↔
          (a = i ∧ lo ≤ b ∧ b < j + 1 ∧ i < m.length ∧ b < (getRow m i).length) := by
        constructor
        · rintro ⟨h3, h4, h5, h6⟩
          exact ⟨h3, h4, by omega, h6⟩
        · rintro ⟨h3, h4, h5, h6⟩
          refine ⟨h3, h4, ?_, h6⟩
          rcases Nat.lt_succ_iff_lt_or_eq.mp h5 with h7 | h7
          · exact h7
          · exact absurd ⟨h3, h7⟩ hab
      simp only [this]

/-- Effect of a double loop, over the rows `lo .. hi-1` and the columns `0 .. p-1`, that
rewrites each cell from its own value. -/
theorem forLoop_update_matrix (g : Nat → Nat → ℚ → ℚ) (lo hi p : Nat) (m : m_dbl_type) :
    (forLoop lo hi (fun i r =>
      forLoop 0 p (fun j r1 => setCell r1 i j (g i j (cell r1 i j))) r) m).length = m.length ∧
    (∀ a, (getRow (forLoop lo hi (fun i r =>
      forLoop 0 p (fun j r1 => setCell r1 i j (g i j (cell r1 i j))) r) m) a).length =
        (getRow m a).length) ∧
    ∀ a b, cell (forLoop lo hi (fun i r =>
      forLoop 0 p (fun j r1 => setCell r1 i j (g i j (cell r1 i j))) r) m) a b =
      if lo ≤ a ∧ a < hi ∧ b < p ∧ a < m.length ∧ b < (getRow m a).length
      then g a b (cell m a b) else cell m a b := by
  rcases Nat.lt_or_ge hi lo with hlt | hle
  · rw [forLoop_of_le _ _ _ _ (by omega)]
    refine ⟨rfl, fun _ => rfl, fun a b => ?_⟩
    have : ¬ (lo ≤ a ∧ a < hi ∧ b < p ∧ a < m.length ∧ b < (getRow m a).length) := by omega
    rw [if_neg this]
  refine forLoop_induct (fun h r => r.length = m.length ∧
      (∀ a, (getRow r a).length = (getRow m a).length) ∧
      ∀ a b, cell r a b =
        if lo ≤ a ∧ a < h ∧ b < p ∧ a < m.length ∧ b < (getRow m a).length
        then g a b (cell m a b) else cell m a b) lo hi _ m hle ?_ ?_
  · refine ⟨rfl, fun _ => rfl, fun a b => ?_⟩
    have : ¬ (lo ≤ a ∧ a < lo ∧ b < p ∧ a < m.length ∧ b < (getRow m a).length) := by omega
    rw [if_neg this]
  · rintro i t h1 h2 ⟨hl, hr, hc⟩
    obtain ⟨kl, kr, kc⟩ := forLoop_update_row (g i) i 0 p (Nat.zero_le p) t
    refine ⟨by rw [kl, hl], fun a => by rw [kr, hr], ?_⟩
    intro a b
    rw [kc, hl, hr]
    by_cases ha : a = i
    · subst ha
      by_cases hin : b < p ∧ a < m.length ∧ b < (getRow m a).length
      · have e1 : (a = a ∧ 0 ≤ b ∧ b < p ∧ a < m.length ∧ b < (getRow m a).length) :=
          ⟨rfl, Nat.zero_le b, hin⟩
        have e2 : (lo ≤ a ∧ a < a + 1 ∧ b < p ∧ a < m.length ∧ b < (getRow m a).length) :=
          ⟨h1, by omega, hin⟩
        have e3 : ¬ (lo ≤ a ∧ a < a ∧ b < p ∧ a < m.length ∧ b < (getRow m a).length) := by
          omega
        rw [if_pos e1, if_pos e2, hc a b, if_neg e3]
      · have e1 : ¬ (a = a ∧ 0 ≤ b ∧ b < p ∧ a < m.length ∧ b < (getRow m a).length) :=
          fun h => hin h.2.2
        have e2 : ¬ (lo ≤ a ∧ a < a + 1 ∧ b < p ∧ a < m.length ∧ b < (getRow m a).length) :=
          fun h => hin h.2.2
        have e3 : ¬ (lo ≤ a ∧ a < a ∧ b < p ∧ a < m.length ∧ b < (getRow m a).length) := by
          omega
        rw [if_neg e1, if_neg e2, hc a b, if_neg e3]
    · have e1 : ¬ (a = i ∧ 0 ≤ b ∧ b < p ∧ i < m.length ∧ b < (getRow m i).length) :=
        fun h => ha h.1
      rw [if_neg e1, hc a b]
      have : (lo ≤ a ∧ a < i ∧ b < p ∧ a < m.length ∧ b < (getRow m a).length) ↔
          (lo ≤ a ∧ a < i + 1 ∧ b < p ∧ a < m.length ∧ b < (getRow m a).length) := by
        constructor
        · rintro ⟨h3, h4, h5⟩
          exact ⟨h3, by omega, h5⟩
        · rintro ⟨h3, h4, h5⟩
          exact ⟨h3, by omega, h5⟩
      simp only [this]

end s21

namespace s21

/-! ## Vinograd: factor vectors -/

theorem getD_map_zero (l : row_type) (a : Nat) : (l.map (fun _ => (0 : ℚ))).getD a 0 = 0 := by
  simp only [List.getD_eq_getElem?_getD, List.getElem?_map]
  cases l[a]? <;> rfl

theorem ComputeRowFactor_spec (first_ : m_dbl_type) (v : SimpleVinograd) :
    (SimpleVinograd.ComputeRowFactor first_ v).row_factor_.length = v.row_factor_.length ∧
    ∀ i, (SimpleVinograd.ComputeRowFactor first_ v).row_factor_.getD i 0 =
      if i < v.f_rows_ ∧ i < v.row_factor_.length then rowFactorVal first_ v.f_cols_ i
      else 0 := by
  have hbody : ∀ (rf0 : row_type),
      forLoop 0 v.f_rows_ (fun i rf =>
        forLoop 0 (v.f_cols_ / 2) (fun j rf1 =>
          rf1.set i (rf1.getD i 0 + cell first_ i (2 * j) * cell first_ i (2 * j + 1))) rf) rf0 =
      forLoop 0 v.f_rows_ (fun i rf =>
        rf.set i ((fun i x => x + rowFactorVal first_ v.f_cols_ i) i (rf.getD i 0))) rf0 := by
    intro rf0
    apply forLoop_congr
    intro i t _ _
    exact forLoop_accum_vec _ i _ t
  obtain ⟨hl, hc⟩ := forLoop_update_vec (fun i x => x + rowFactorVal first_ v.f_cols_ i) 0
    v.f_rows_ (Nat.zero_le _) (v.row_factor_.map (fun _ => (0 : ℚ)))
  simp only [SimpleVinograd.ComputeRowFactor, hbody]
  refine ⟨by rw [hl, List.length_map], fun i => ?_⟩
  rw [hc i, List.length_map, getD_map_zero]
  by_cases h : i < v.f_rows_ ∧ i < v.row_factor_.length
  · have : (0 ≤ i ∧ i < v.f_rows_ ∧ i < v.row_factor_.length) := ⟨Nat.zero_le i, h⟩
    rw [if_pos this, if_pos h, zero_add]
  · have : ¬ (0 ≤ i ∧ i < v.f_rows_ ∧ i < v.row_factor_.length) := fun hh => h hh.2
    rw [if_neg this, if_neg h]

theorem ComputeColFactor_spec (second_ : m_dbl_type) (v : SimpleVinograd) :
    (SimpleVinograd.ComputeColFactor second_ v).col_factor_.length = v.col_factor_.length ∧
    ∀ c, (SimpleVinograd.ComputeColFactor second_ v).col_factor_.getD c 0 =
      if c < v.s_cols_ ∧ c < v.col_factor_.length then colFactorVal second_ v.f_cols_ c
      else 0 := by
  have hbody : ∀ (cf0 : row_type),
      forLoop 0 v.s_cols_ (fun i cf =>
        forLoop 0 (v.f_cols_ / 2) (fun j cf1 =>
          cf1.set i (cf1.getD i 0 + cell second_ (2 * j) i * cell second_ (2 * j + 1) i)) cf)
        cf0 =
      forLoop 0 v.s_cols_ (fun i cf =>
        cf.set i ((fun i x => x + colFactorVal second_ v.f_cols_ i) i (cf.getD i 0))) cf0 := by
    intro cf0
    apply forLoop_congr
    intro i t _ _
    exact forLoop_accum_vec _ i _ t
  obtain ⟨hl, hc⟩ := forLoop_update_vec (fun i x => x + colFactorVal second_ v.f_cols_ i) 0
    v.s_cols_ (Nat.zero_le _) (v.col_factor_.map (fun _ => (0 : ℚ)))
  simp only [SimpleVinograd.ComputeColFactor, hbody]
  refine ⟨by rw [hl, List.length_map], fun i => ?_⟩
  rw [hc i, List.length_map, getD_map_zero]
  by_cases h : i < v.s_cols_ ∧ i < v.col_factor_.length
  · have : (0 ≤ i ∧ i < v.s_cols_ ∧ i < v.col_factor_.length) := ⟨Nat.zero_le i, h⟩
    rw [if_pos this, if_pos h, zero_add]
  · have : ¬ (0 ≤ i ∧ i < v.s_cols_ ∧ i < v.col_factor_.length) := fun hh => h hh.2
    rw [if_neg this, if_neg h]

/-! ## Vinograd: main loop and bias pass -/

theorem setCell_congr (m : m_dbl_type) (i j : Nat) (v w : ℚ)
    (h : i < m.length → j < (getRow m i).length → v = w) : setCell m i j v = setCell m i j w := by
  by_cases hin : i < m.length ∧ j < (getRow m i).length
  · rw [h hin.1 hin.2]
  · rw [setCell_of_not_inRange _ _ _ _ hin, setCell_of_not_inRange _ _ _ _ hin]

theorem MultiplyMainLoop_eq (first_ second_ : m_dbl_type) (v : SimpleVinograd)
    (start end_ : Nat) (result_ : m_dbl_type) :
    SimpleVinograd.MultiplyMainLoop first_ second_ v start end_ result_ =
      forLoop start end_ (fun i r => forLoop 0 v.s_cols_ (fun j r1 =>
        setCell r1 i j ((fun i j _ => mainVal first_ second_ v i j) i j (cell r1 i j))) r)
        result_ := by
  unfold SimpleVinograd.MultiplyMainLoop
  apply forLoop_congr
  intro i t _ _
  apply forLoop_congr
  intro j r1 _ _
  show forLoop 0 (v.f_cols_ / 2) _ (setCell r1 i j _) = _
  rw [forLoop_accum_cell, setCell_setCell]
  apply setCell_congr
  intro h1 h2
  rw [cell_setCell, if_pos ⟨rfl, rfl, h1, h2⟩]
  rfl

theorem MultiplyMainLoop_spec (first_ second_ : m_dbl_type) (v : SimpleVinograd)
    (start end_ : Nat) (r : m_dbl_type) :
    (SimpleVinograd.MultiplyMainLoop first_ second_ v start end_ r).length = r.length ∧
    (∀ a, (getRow (SimpleVinograd.MultiplyMainLoop first_ second_ v start end_ r) a).length =
      (getRow r a).length) ∧
    ∀ a b, cell (SimpleVinograd.MultiplyMainLoop first_ second_ v start end_ r) a b =
      if start ≤ a ∧ a < end_ ∧ b < v.s_cols_ ∧ a < r.length ∧ b < (getRow r a).length
      then mainVal first_ second_ v a b else cell r a b := by
  rw [MultiplyMainLoop_eq]
  exact forLoop_update_matrix (fun i j _ => mainVal first_ second_ v i j) start end_ v.s_cols_ r

theorem AddBiasForOddRows_spec (first_ second_ : m_dbl_type) (v : SimpleVinograd)
    (start end_ : Nat) (r : m_dbl_type) :
    (SimpleVinograd.AddBiasForOddRows first_ second_ v start end_ r).length = r.length ∧
    (∀ a, (getRow (SimpleVinograd.AddBiasForOddRows first_ second_ v start end_ r) a).length =
      (getRow r a).length) ∧
    ∀ a b, cell (SimpleVinograd.AddBiasForOddRows first_ second_ v start end_ r) a b =
      if start ≤ a ∧ a < end_ ∧ b < v.s_cols_ ∧ a < r.length ∧ b < (getRow r a).length
      then cell r a b + cell first_ a (v.f_cols_ - 1) * cell second_ (v.f_cols_ - 1) b
      else cell r a b :=
  forLoop_update_matrix
    (fun i j x => x + cell first_ i (v.f_cols_ - 1) * cell second_ (v.f_cols_ - 1) j)
    start end_ v.s_cols_ r

theorem rowsPass_spec (first_ second_ : m_dbl_type) (v : SimpleVinograd)
    (start end_ : Nat) (r : m_dbl_type) :
    (rowsPass first_ second_ v start end_ r).length = r.length ∧
    (∀ a, (getRow (rowsPass first_ second_ v start end_ r) a).length = (getRow r a).length) ∧
    ∀ a b, cell (rowsPass first_ second_ v start end_ r) a b =
      if start ≤ a ∧ a < end_ ∧ b < v.s_cols_ ∧ a < r.length ∧ b < (getRow r a).length
      then finalVal first_ second_ v a b else cell r a b := by
  obtain ⟨ml, mr, mc⟩ := MultiplyMainLoop_spec first_ second_ v start end_ r
  obtain ⟨bl, br, bc⟩ := AddBiasForOddRows_spec first_ second_ v start end_
    (SimpleVinograd.MultiplyMainLoop first_ second_ v start end_ r)
  unfold rowsPass finalVal
  by_cases hodd : v.f_cols_ % 2 ≠ 0
  · rw [if_pos hodd]
    refine ⟨by rw [bl, ml], fun a => by rw [br, mr], fun a b => ?_⟩
    rw [bc, ml, mr, mc, if_pos hodd]
    split_ifs <;> rfl
  · rw [if_neg hodd]
    refine ⟨ml, mr, fun a b => ?_⟩
    rw [mc, if_neg hodd]

/-! ## Vinograd: the identity behind the algorithm -/

theorem sum_range_two_mul (f : Nat → ℚ) (h : Nat) :
    ∑ k ∈ Finset.range (2 * h), f k = ∑ k ∈ Finset.range h, (f (2 * k) + f (2 * k + 1)) := by
  induction h with
  | zero => simp
  | succ n ih =>
    have : 2 * (n + 1) = 2 * n + 1 + 1 := by ring
    rw [this, Finset.sum_range_succ, Finset.sum_range_succ, Finset.sum_range_succ, ih]
    ring

theorem finalVal_eq_naive (first_ second_ : m_dbl_type) (v : SimpleVinograd) (i j : Nat)
    (hr : v.row_factor_.getD i 0 = rowFactorVal first_ v.f_cols_ i)
    (hc : v.col_factor_.getD j 0 = colFactorVal second_ v.f_cols_ j) :
    finalVal first_ second_ v i j =
      ∑ k ∈ Finset.range v.f_cols_, cell first_ i k * cell second_ k j := by
  have hmain : mainVal first_ second_ v i j =
      ∑ k ∈ Finset.range (2 * (v.f_cols_ / 2)), cell first_ i k * cell second_ k j := by
    rw [sum_range_two_mul, mainVal, hr, hc, rowFactorVal, colFactorVal]
    rw [neg_sub_left, neg_add_eq_sub, ← Finset.sum_add_distrib, ← Finset.sum_sub_distrib]
    apply Finset.sum_congr rfl
    intro k _
    ring
  unfold finalVal
  by_cases hodd : v.f_cols_ % 2 ≠ 0
  · rw [if_pos hodd, hmain]
    have e : v.f_cols_ = 2 * (v.f_cols_ / 2) + 1 := by omega
    have e2 : v.f_cols_ - 1 = 2 * (v.f_cols_ / 2) := by omega
    rw [e2]
    conv_rhs => rw [e]
    rw [Finset.sum_range_succ]
  · rw [if_neg hodd, hmain]
    have e : 2 * (v.f_cols_ / 2) = v.f_cols_ := by omega
    rw [e]

end s21

namespace s21

/-! ## Vinograd: the three `Multiply` variants -/

theorem withFactors_fields (first_ second_ : m_dbl_type) (v : SimpleVinograd) :
    (withFactors first_ second_ v).f_rows_ = v.f_rows_ ∧
    (withFactors first_ second_ v).f_cols_ = v.f_cols_ ∧
    (withFactors first_ second_ v).s_cols_ = v.s_cols_ :=
  ⟨rfl, rfl, rfl⟩

theorem withFactors_row (first_ second_ : m_dbl_type) (v : SimpleVinograd) (i : Nat)
    (h1 : i < v.f_rows_) (h2 : i < v.row_factor_.length) :
    (withFactors first_ second_ v).row_factor_.getD i 0 = rowFactorVal first_ v.f_cols_ i := by
  have := (ComputeRowFactor_spec first_ v).2 i
  rw [if_pos ⟨h1, h2⟩] at this
  exact this

theorem withFactors_col (first_ second_ : m_dbl_type) (v : SimpleVinograd) (c : Nat)
    (h1 : c < v.s_cols_) (h2 : c < v.col_factor_.length) :
    (withFactors first_ second_ v).col_factor_.getD c 0 = colFactorVal second_ v.f_cols_ c := by
  have := (ComputeColFactor_spec second_ (SimpleVinograd.ComputeRowFactor first_ v)).2 c
  rw [if_pos ⟨h1, h2⟩] at this
  exact this

theorem withFactors_comm (first_ second_ : m_dbl_type) (v : SimpleVinograd) :
    SimpleVinograd.ComputeRowFactor first_ (SimpleVinograd.ComputeColFactor second_ v) =
      withFactors first_ second_ v := rfl

theorem SimpleVinograd_Multiply_eq (first_ second_ : m_dbl_type) (v : SimpleVinograd)
    (r : m_dbl_type) :
    SimpleVinograd.Multiply first_ second_ v r =
      (withFactors first_ second_ v,
        rowsPass first_ second_ (withFactors first_ second_ v) 0 v.f_rows_ r) := by
  unfold SimpleVinograd.Multiply rowsPass
  show (if (withFactors first_ second_ v).f_cols_ % 2 ≠ 0 then _ else _) = _
  split_ifs <;> rfl

theorem PipeVinograd_Multiply_eq (first_ second_ : m_dbl_type) (tasks : List Nat)
    (htasks : tasks = [0, 1] ∨ tasks = [1, 0]) (v : SimpleVinograd) (r : m_dbl_type) :
    PipeVinograd.Multiply first_ second_ tasks v r =
      SimpleVinograd.Multiply first_ second_ v r := by
  rw [SimpleVinograd_Multiply_eq]
  rcases htasks with h | h <;> subst h
  · unfold PipeVinograd.Multiply rowsPass
    show (if (withFactors first_ second_ v).f_cols_ % 2 ≠ 0 then _ else _) = _
    split_ifs <;> rfl
  · unfold PipeVinograd.Multiply rowsPass
    show (if (withFactors first_ second_ v).f_cols_ % 2 ≠ 0 then _ else _) = _
    split_ifs <;> rfl

theorem MultiplyPartial_first (first_ second_ : m_dbl_type) (start end_ : Nat)
    (v : SimpleVinograd) (t : Nat) (r : m_dbl_type) :
    ParallelVinograd.MultiplyPartial first_ second_ start end_ (⟨v, t, false, false⟩, r) =
      (⟨withFactors first_ second_ v, t, true, true⟩,
        rowsPass first_ second_ (withFactors first_ second_ v) start end_ r) := by
  unfold ParallelVinograd.MultiplyPartial rowsPass
  by_cases h : (withFactors first_ second_ v).f_cols_ % 2 ≠ 0
  · show (if (withFactors first_ second_ v).f_cols_ % 2 ≠ 0 then _ else _) = _
    rw [if_pos h, if_pos h]
    rfl
  · show (if (withFactors first_ second_ v).f_cols_ % 2 ≠ 0 then _ else _) = _
    rw [if_neg h, if_neg h]
    rfl

theorem MultiplyPartial_later (first_ second_ : m_dbl_type) (start end_ : Nat)
    (v : SimpleVinograd) (t : Nat) (r : m_dbl_type) :
    ParallelVinograd.MultiplyPartial first_ second_ start end_ (⟨v, t, true, true⟩, r) =
      (⟨v, t, true, true⟩, rowsPass first_ second_ v start end_ r) := by
  unfold ParallelVinograd.MultiplyPartial rowsPass
  by_cases h : v.f_cols_ % 2 ≠ 0
  · show (if v.f_cols_ % 2 ≠ 0 then _ else _) = _
    rw [if_pos h, if_pos h]
    rfl
  · show (if v.f_cols_ % 2 ≠ 0 then _ else _) = _
    rw [if_neg h, if_neg h]
    rfl

/-- Running a list of workers, once the factors are there: the rows of their ranges hold the
final values, the other rows are untouched. -/
theorem workers_later (first_ second_ : m_dbl_type) (v : SimpleVinograd) (t : Nat)
    (rng : Nat → Nat × Nat) (L : List Nat) (r : m_dbl_type) :
    ∃ r2, L.foldl (fun st w =>
        ParallelVinograd.MultiplyPartial first_ second_ (rng w).1 (rng w).2 st)
        (⟨v, t, true, true⟩, r) = (⟨v, t, true, true⟩, r2) ∧
      r2.length = r.length ∧ (∀ a, (getRow r2 a).length = (getRow r a).length) ∧
      (∀ a b, (∃ w ∈ L, (rng w).1 ≤ a ∧ a < (rng w).2) → b < v.s_cols_ → a < r.length →
        b < (getRow r a).length → cell r2 a b = finalVal first_ second_ v a b) ∧
      ∀ a b, ¬ (∃ w ∈ L, (rng w).1 ≤ a ∧ a < (rng w).2) → cell r2 a b = cell r a b := by
  induction L generalizing r with
  | nil =>
    exact ⟨r, rfl, rfl, fun _ => rfl, fun a b ⟨w, hw, _⟩ => absurd hw (List.not_mem_nil w),
      fun _ _ _ => rfl⟩
  | cons w L ih =>
    obtain ⟨pl, pr, pc⟩ := rowsPass_spec first_ second_ v (rng w).1 (rng w).2 r
    obtain ⟨r2, h1, h2, h3, h4, h4n⟩ := ih (rowsPass first_ second_ v (rng w).1 (rng w).2 r)
    refine ⟨r2, ?_, by rw [h2, pl], fun a => by rw [h3, pr], ?_, ?_⟩
    · rw [List.foldl_cons, MultiplyPartial_later]
      exact h1
    · intro a b hex hb ha hbl
      by_cases hin : ∃ w2 ∈ L, (rng w2).1 ≤ a ∧ a < (rng w2).2
      · exact h4 a b hin hb (by rw [pl]; exact ha) (by rw [pr]; exact hbl)
      · obtain ⟨w2, hw2, hr1, hr2⟩ := hex
        rcases List.mem_cons.mp hw2 with e | e
        · subst e
          rw [h4n a b hin, pc a b, if_pos ⟨hr1, hr2, hb, ha, hbl⟩]
        · exact absurd ⟨w2, e, hr1, hr2⟩ hin
    · intro a b hno
      have hn1 : ¬ ∃ w2 ∈ L, (rng w2).1 ≤ a ∧ a < (rng w2).2 :=
        fun ⟨w2, hw2, hh⟩ => hno ⟨w2, List.mem_cons_of_mem _ hw2, hh⟩
      have hn2 : ¬ ((rng w).1 ≤ a ∧ a < (rng w).2 ∧ b < v.s_cols_ ∧ a < r.length ∧
          b < (getRow r a).length) :=
        fun hh => hno ⟨w, List.mem_cons_self _ _, hh.1, hh.2.1⟩
      rw [h4n a b hn1, pc a b, if_neg hn2]

end s21

namespace s21

/-! ## Row ranges of the parallel workers -/

theorem ranges_eq (f t : Nat) :
    ParallelVinograd.ranges f t = (List.range t).map (workerRange f t) := by
  have key := forLoop_induct
    (fun i (acc : Nat × Nat × List (Nat × Nat)) =>
      acc.1 = i * (f / t) ∧ (i < t → acc.2.1 = (i + 1) * (f / t)) ∧
      acc.2.2 = (List.range i).map (workerRange f t))
    0 t
    (fun i (acc : Nat × Nat × List (Nat × Nat)) =>
      (acc.1 + f / t,
        (if i = t - 1 then acc.2.1 + f % t else acc.2.1) + f / t,
        acc.2.2 ++ [(acc.1, if i = t - 1 then acc.2.1 + f % t else acc.2.1)]))
    (0, f / t, []) (Nat.zero_le t)
    ⟨by simp, fun _ => by simp, by simp⟩
    (by
      rintro i ⟨a, b, l⟩ _ hi ⟨h1, h2, h3⟩
      simp only at h1 h2 h3
      refine ⟨?_, ?_, ?_⟩
      · show a + f / t = (i + 1) * (f / t)
        rw [h1]; ring
      · intro hlt
        have : ¬ i = t - 1 := by omega
        show (if i = t - 1 then b + f % t else b) + f / t = (i + 1 + 1) * (f / t)
        rw [if_neg this, h2 hi]; ring
      · show l ++ [(a, if i = t - 1 then b + f % t else b)] = _
        rw [List.range_succ, List.map_append, h3, List.map_singleton, workerRange, h1, h2 hi]
        congr 3
        by_cases hl : i = t - 1
        · rw [if_pos hl, if_pos hl]
          have : i + 1 = t := by omega
          rw [this]
          exact Nat.mul_comm t (f / t) ▸ Nat.div_add_mod f t
        · rw [if_neg hl, if_neg hl])
  exact key.2.2

theorem ranges_getD (f t w : Nat) (hw : w < t) :
    (ParallelVinograd.ranges f t).getD w (0, 0) = workerRange f t w := by
  rw [ranges_eq, List.getD_eq_getElem?_getD, List.getElem?_map, List.getElem?_range hw]
  rfl

theorem workerRange_cover (f t a : Nat) (ht : 0 < t) (ha : a < f) :
    ∃ w, w < t ∧ (workerRange f t w).1 ≤ a ∧ a < (workerRange f t w).2 := by
  by_cases h : (t - 1) * (f / t) ≤ a
  · exact ⟨t - 1, by omega, h, by simp [workerRange, ha]⟩
  · have hlt : a < (t - 1) * (f / t) := by omega
    have hstep : 0 < f / t := by
      rcases Nat.eq_zero_or_pos (f / t) with h0 | h0
      · rw [h0] at hlt
        simp at hlt
      · exact h0
    have hw : a / (f / t) < t - 1 := by
      rw [Nat.div_lt_iff_lt_mul hstep]
      exact hlt
    refine ⟨a / (f / t), by omega, Nat.div_mul_le_self a (f / t), ?_⟩
    have hne : ¬ a / (f / t) = t - 1 := by omega
    simp only [workerRange, if_neg hne]
    have := Nat.div_add_mod a (f / t)
    have := Nat.mod_lt a hstep
    have e : (a / (f / t) + 1) * (f / t) = (f / t) * (a / (f / t)) + f / t := by ring
    rw [e]
    omega

end s21

namespace s21

/-! ## Vinograd: construction -/

theorem CheckForMultiplication_of_isMatrix {A B : m_dbl_type} {m n p : Nat}
    (hA : IsMatrix A m n) (hB : IsMatrix B n p) (hm : 0 < m) (hn : 0 < n) (hp : 0 < p) :
    Storage.CheckForMultiplication A B = true := by
  unfold Storage.CheckForMultiplication
  simp only [CheckMatrixCorrectness_of_isMatrix hA hm hn,
    CheckMatrixCorrectness_of_isMatrix hB hn hp, Bool.and_self, if_true]
  rw [List.all_eq_true]
  intro row hrow
  simpa [hB.1] using hA.2 row hrow

/-- Object that `SetStrategy` builds on a fresh storage of an `m x n` by `n x p` product. -/
theorem SimpleVinograd_new_ok {A B : m_dbl_type} {m n p : Nat}
    (hA : IsMatrix A m n) (hB : IsMatrix B n p) (hm : 0 < m) (hn : 0 < n) (R : m_dbl_type)
    (hR : IsMatrix R m p) :
    SimpleVinograd.new A B R =
      .ok ⟨m, n, n, p, List.replicate m 0, List.replicate p 0⟩ := by
  have h0 : (getRow A 0).length = n := getRow_length_of_isMatrix hA 0 hm
  have h1 : (getRow B 0).length = p := getRow_length_of_isMatrix hB 0 hn
  unfold SimpleVinograd.new
  rw [if_neg (by rw [hR.1, hA.1]; simp)]
  have : R.any (fun row => decide (row.length ≠ (getRow B 0).length)) = false := by
    rw [List.any_eq_false]
    intro row hrow
    simp [h1, hR.2 row hrow]
  rw [this]
  simp [h0, h1, hA.1, hB.1]

theorem isMatrix_zero (m p : Nat) :
    IsMatrix (List.replicate m (List.replicate p (0 : ℚ))) m p := by
  refine ⟨by simp, fun row hrow => ?_⟩
  rw [List.eq_of_mem_replicate hrow]
  simp

theorem reset_zero (m p : Nat) :
    (List.replicate m (List.replicate p (0 : ℚ))).map (fun row => row.map (fun _ => (0 : ℚ))) =
      List.replicate m (List.replicate p (0 : ℚ)) := by
  simp [List.map_replicate]

/-! ## The naive product -/

theorem naiveProduct_length (A B : m_dbl_type) (m n p : Nat) :
    (naiveProduct A B m n p).length = m := by
  simp [naiveProduct]

theorem naiveProduct_getRow (A B : m_dbl_type) (m n p a : Nat) (ha : a < m) :
    getRow (naiveProduct A B m n p) a =
      (List.range p).map (fun c => ∑ k ∈ Finset.range n, cell A a k * cell B k c) := by
  rw [getRow, List.getD_eq_getElem _ _ (by simpa [naiveProduct] using ha)]
  simp [naiveProduct]

theorem naiveProduct_cell (A B : m_dbl_type) (m n p a b : Nat) (ha : a < m) (hb : b < p) :
    cell (naiveProduct A B m n p) a b = ∑ k ∈ Finset.range n, cell A a k * cell B k b := by
  rw [cell, naiveProduct_getRow _ _ _ _ _ _ ha, List.getD_eq_getElem _ _ (by simpa using hb)]
  simp

/-- A matrix of the right shape whose cells are the final values of Vinograd's method, with the
factor vectors computed, is the naive product. -/
theorem eq_naiveProduct {A B : m_dbl_type} {m n p : Nat} (r : m_dbl_type)
    (hl : r.length = m) (hr : ∀ a, a < m → (getRow r a).length = p)
    (hc : ∀ a b, a < m → b < p → cell r a b =
      finalVal A B (withFactors A B ⟨m, n, n, p, List.replicate m 0, List.replicate p 0⟩) a b) :
    r = naiveProduct A B m n p := by
  apply matrix_ext
  · rw [hl, naiveProduct_length]
  · intro a ha
    rw [hl] at ha
    rw [hr a ha, naiveProduct_getRow _ _ _ _ _ _ ha]
    simp
  · intro a b ha hb
    rw [hl] at ha
    rw [hr a ha] at hb
    rw [hc a b ha hb, naiveProduct_cell _ _ _ _ _ _ _ ha hb]
    exact finalVal_eq_naive A B _ a b
      (withFactors_row A B _ a ha (by simpa using ha))
      (withFactors_col A B _ b hb (by simpa using hb))

theorem rowsPass_full (A B : m_dbl_type) (m n p : Nat) :
    rowsPass A B (withFactors A B ⟨m, n, n, p, List.replicate m 0, List.replicate p 0⟩) 0 m
      (List.replicate m (List.replicate p (0 : ℚ))) = naiveProduct A B m n p := by
  obtain ⟨pl, pr, pc⟩ := rowsPass_spec A B
    (withFactors A B ⟨m, n, n, p, List.replicate m 0, List.replicate p 0⟩) 0 m
    (List.replicate m (List.replicate p (0 : ℚ)))
  apply eq_naiveProduct
  · rw [pl]; simp
  · intro a ha
    rw [pr, getRow_replicate _ _ _ ha]; simp
  · intro a b ha hb
    rw [pc, if_pos]
    refine ⟨Nat.zero_le a, ha, hb, by simpa using ha, ?_⟩
    rw [getRow_replicate _ _ _ ha]; simpa using hb

theorem workers_full (A B : m_dbl_type) (m n p t : Nat) (ht : 0 < t) (sched : List Nat)
    (hs : sched.Perm (List.range t)) :
    (sched.foldl (fun st w =>
        ParallelVinograd.MultiplyPartial A B
          ((ParallelVinograd.ranges m t).getD w (0, 0)).1
          ((ParallelVinograd.ranges m t).getD w (0, 0)).2 st)
        (⟨⟨m, n, n, p, List.replicate m 0, List.replicate p 0⟩, t, false, false⟩,
          List.replicate m (List.replicate p (0 : ℚ)))).2 = naiveProduct A B m n p := by
  cases sched with
  | nil =>
    have := hs.length_eq
    simp at this
    omega
  | cons w L =>
    rw [List.foldl_cons, MultiplyPartial_first]
    obtain ⟨pl, pr, pc⟩ := rowsPass_spec A B
      (withFactors A B ⟨m, n, n, p, List.replicate m 0, List.replicate p 0⟩)
      ((ParallelVinograd.ranges m t).getD w (0, 0)).1
      ((ParallelVinograd.ranges m t).getD w (0, 0)).2
      (List.replicate m (List.replicate p (0 : ℚ)))
    obtain ⟨r2, h1, h2, h3, h4, h4n⟩ := workers_later A B
      (withFactors A B ⟨m, n, n, p, List.replicate m 0, List.replicate p 0⟩) t
      (fun w => (ParallelVinograd.ranges m t).getD w (0, 0)) L
      (rowsPass A B (withFactors A B ⟨m, n, n, p, List.replicate m 0, List.replicate p 0⟩)
        ((ParallelVinograd.ranges m t).getD w (0, 0)).1
        ((ParallelVinograd.ranges m t).getD w (0, 0)).2
        (List.replicate m (List.replicate p (0 : ℚ))))
    rw [h1]
    have hlen : (List.replicate m (List.replicate p (0 : ℚ))).length = m := by simp
    have hrow : ∀ a, a < m →
        (getRow (List.replicate m (List.replicate p (0 : ℚ))) a).length = p := by
      intro a ha
      rw [getRow_replicate _ _ _ ha]; simp
    apply eq_naiveProduct
    · rw [h2, pl, hlen]
    · intro a ha
      rw [h3, pr, hrow a ha]
    · intro a b ha hb
      by_cases hin : ∃ w2 ∈ L, ((ParallelVinograd.ranges m t).getD w2 (0, 0)).1 ≤ a ∧
          a < ((ParallelVinograd.ranges m t).getD w2 (0, 0)).2
      · exact h4 a b hin hb (by rw [pl, hlen]; exact ha) (by rw [pr, hrow a ha]; exact hb)
      · rw [h4n a b hin, pc a b, if_pos]
        obtain ⟨w3, hw3, hc1, hc2⟩ := workerRange_cover m t a ht ha
        have hmem : w3 ∈ w :: L := (hs.mem_iff).mpr (List.mem_range.mpr hw3)
        rw [← ranges_getD m t w3 hw3] at hc1 hc2
        rcases List.mem_cons.mp hmem with e | e
        · subst e
          exact ⟨hc1, hc2, hb, by rw [hlen]; exact ha, by rw [hrow a ha]; exact hb⟩
        · exact absurd ⟨w3, e, hc1, hc2⟩ hin

end s21

namespace s21

/-! ## Vinograd: the storage -/

theorem VinogradStorage_new_ok {A B : m_dbl_type} {m n p : Nat}
    (hA : IsMatrix A m n) (hB : IsMatrix B n p) (hm : 0 < m) (hn : 0 < n) (hp : 0 < p) :
    VinogradStorage.new A B =
      .ok ⟨A, B, List.replicate m (List.replicate p (0 : ℚ)), none, 1⟩ := by
  unfold VinogradStorage.new
  rw [CheckForMultiplication_of_isMatrix hA hB hm hn hp, hA.1,
    getRow_length_of_isMatrix hB 0 hn]
  rfl

/-- C1: for non-empty rectangular `A` (`m x n`) and `B` (`n x p`), constructing the storage,
selecting `kSimple` and calling `Multiply` all succeed, and `GetResult` is the `m x p` matrix
of the naive product, cell `[i][c]` being the sum over `k < n` of `A[i][k] * B[k][c]`. -/
theorem C1_simple_multiply_is_naive_product (A B : m_dbl_type) (m n p : Nat)
    (hm : 0 < m) (hn : 0 < n) (hp : 0 < p) (hA : IsMatrix A m n) (hB : IsMatrix B n p)
    (sched : List Nat) :
    ∃ s0, VinogradStorage.new A B = .ok s0 ∧
      (s0.SetStrategy .kSimple).completion = .normal ∧
      ((s0.SetStrategy .kSimple).state.Multiply sched).completion = .normal ∧
      ((s0.SetStrategy .kSimple).state.Multiply sched).state.GetResult =
        naiveProduct A B m n p := by
  refine ⟨_, VinogradStorage_new_ok hA hB hm hn hp, ?_⟩
  have hnew := SimpleVinograd_new_ok hA hB hm hn _ (isMatrix_zero m p)
  simp only [VinogradStorage.SetStrategy, hnew, VinogradStorage.Multiply,
    VinogradStorage.ResetResult, VinogradStorage.GetResult, reset_zero,
    SimpleVinograd_Multiply_eq, rowsPass_full, and_self]

/-- Witness of C1: a `2 x 3` by `3 x 2` product. -/
theorem C1_simple_multiply_is_naive_product_witness :
    ∃ s0, VinogradStorage.new [[1, 2, 3], [4, 5, 6]] [[1, 2], [3, 4], [5, 6]] = .ok s0 ∧
      (s0.SetStrategy .kSimple).completion = .normal ∧
      ((s0.SetStrategy .kSimple).state.Multiply []).completion = .normal ∧
      ((s0.SetStrategy .kSimple).state.Multiply []).state.GetResult =
        naiveProduct [[1, 2, 3], [4, 5, 6]] [[1, 2], [3, 4], [5, 6]] 2 3 2 :=
  C1_simple_multiply_is_naive_product [[1, 2, 3], [4, 5, 6]] [[1, 2], [3, 4], [5, 6]] 2 3 2
    (by decide) (by decide) (by decide) (by decide) (by decide) []

/-- C2: for a multiplication-compatible pair and `1 <= t <= 6` threads, `Multiply` under
`kParallel`, with the `t` workers run to completion in any order, and under `kPipe`, with the
two factor tasks run in either order before the main loop, returns normally with the same
result, cell for cell, as under `kSimple`. -/
theorem C2_parallel_and_pipe_equal_simple (A B : m_dbl_type) (m n p : Nat)
    (hm : 0 < m) (hn : 0 < n) (hp : 0 < p) (hA : IsMatrix A m n) (hB : IsMatrix B n p)
    (t : Nat) (ht1 : 1 ≤ t) (ht6 : t ≤ 6)
    (workers : List Nat) (hworkers : workers.Perm (List.range t))
    (tasks : List Nat) (htasks : tasks = [0, 1] ∨ tasks = [1, 0]) (sched : List Nat) :
    ∃ s0, VinogradStorage.new A B = .ok s0 ∧
      (s0.SetThreadCount t).completion = .normal ∧
      ((s0.SetThreadCount t).state.SetStrategy .kParallel).completion = .normal ∧
      (((s0.SetThreadCount t).state.SetStrategy .kParallel).state.Multiply workers).completion =
        .normal ∧
      (s0.SetStrategy .kPipe).completion = .normal ∧
      ((s0.SetStrategy .kPipe).state.Multiply tasks).completion = .normal ∧
      (((s0.SetThreadCount t).state.SetStrategy .kParallel).state.Multiply workers).state.GetResult
        = ((s0.SetStrategy .kSimple).state.Multiply sched).state.GetResult ∧
      ((s0.SetStrategy .kPipe).state.Multiply tasks).state.GetResult =
        ((s0.SetStrategy .kSimple).state.Multiply sched).state.GetResult := by
  refine ⟨_, VinogradStorage_new_ok hA hB hm hn hp, ?_⟩
  have hnew := SimpleVinograd_new_ok hA hB hm hn _ (isMatrix_zero m p)
  have ht0 : ¬ t = 0 := by omega
  have ht6n : ¬ t > 6 := by omega
  have hw := workers_full A B m n p t (by omega) workers hworkers
  simp only [VinogradStorage.SetThreadCount, if_neg ht6n, VinogradStorage.SetStrategy, hnew,
    VinogradStorage.Multiply, VinogradStorage.ResetResult, VinogradStorage.GetResult,
    reset_zero, ParallelVinograd.Multiply, if_neg ht0, hw,
    PipeVinograd_Multiply_eq A B tasks htasks, SimpleVinograd_Multiply_eq, rowsPass_full,
    and_self]

/-- Witness of C2: a `2 x 3` by `3 x 2` product on three threads. -/
theorem C2_parallel_and_pipe_equal_simple_witness :
    ∃ s0, VinogradStorage.new [[1, 2, 3], [4, 5, 6]] [[1, 2], [3, 4], [5, 6]] = .ok s0 ∧
      (s0.SetThreadCount 3).completion = .normal ∧
      ((s0.SetThreadCount 3).state.SetStrategy .kParallel).completion = .normal ∧
      (((s0.SetThreadCount 3).state.SetStrategy .kParallel).state.Multiply
        [2, 0, 1]).completion = .normal ∧
      (s0.SetStrategy .kPipe).completion = .normal ∧
      ((s0.SetStrategy .kPipe).state.Multiply [1, 0]).completion = .normal ∧
      (((s0.SetThreadCount 3).state.SetStrategy .kParallel).state.Multiply
        [2, 0, 1]).state.GetResult
        = ((s0.SetStrategy .kSimple).state.Multiply []).state.GetResult ∧
      ((s0.SetStrategy .kPipe).state.Multiply [1, 0]).state.GetResult =
        ((s0.SetStrategy .kSimple).state.Multiply []).state.GetResult :=
  C2_parallel_and_pipe_equal_simple [[1, 2, 3], [4, 5, 6]] [[1, 2], [3, 4], [5, 6]] 2 3 2
    (by decide) (by decide) (by decide) (by decide) (by decide) 3 (by decide) (by decide)
    [2, 0, 1] (by decide) [1, 0] (Or.inr rfl) []

end s21

namespace s21

/-! ## Gauss: the pivoting pass only reorders rows -/

theorem pivotSearch_bounds (rows_ : Nat) (m : m_dbl_type) (k : Nat) (hk : k < rows_) :
    k ≤ (SimpleGauss.pivotSearch rows_ m k).1 ∧ (SimpleGauss.pivotSearch rows_ m k).1 < rows_ := by
  unfold SimpleGauss.pivotSearch
  refine forLoop_induct (fun _ (acc : Nat × ℚ) => k ≤ acc.1 ∧ acc.1 < rows_) k rows_ _ (k, 0)
    (Nat.le_of_lt hk) ⟨le_refl k, hk⟩ ?_
  rintro i ⟨mi, mv⟩ h1 h2 ⟨h3, h4⟩
  simp only
  split_ifs
  · exact ⟨h3, h4⟩
  · exact ⟨h1, h2⟩
  · exact ⟨h3, h4⟩

theorem swapRows_perm (m : m_dbl_type) (a b : Nat) (ha : a < m.length) (hb : b < m.length) :
    (SimpleGauss.swapRows m a b).Perm m := by
  have e1 : m = List.ofFn (fun i : Fin m.length => m[i.1]) := by
    apply List.ext_getElem
    · simp
    · intro i h1 h2
      simp
  have e2 : SimpleGauss.swapRows m a b =
      List.ofFn ((fun i : Fin m.length => m[i.1]) ∘ (Equiv.swap ⟨a, ha⟩ ⟨b, hb⟩)) := by
    apply List.ext_getElem
    · simp [SimpleGauss.swapRows]
    · intro i h1 h2
      have hi : i < m.length := by simpa [SimpleGauss.swapRows] using h1
      simp only [SimpleGauss.swapRows, List.getElem_set, List.getElem_ofFn, Function.comp,
        getRow, List.getD_eq_getElem _ _ ha, List.getD_eq_getElem _ _ hb]
      by_cases h3 : b = i
      · subst h3
        simp [Equiv.swap_apply_right]
      · by_cases h4 : a = i
        · subst h4
          simp [h3, Equiv.swap_apply_left]
        · have hne1 : (⟨i, hi⟩ : Fin m.length) ≠ ⟨a, ha⟩ := by
            intro h; exact h4 (Fin.mk.inj h).symm
          have hne2 : (⟨i, hi⟩ : Fin m.length) ≠ ⟨b, hb⟩ := by
            intro h; exact h3 (Fin.mk.inj h).symm
          simp [h3, h4, Equiv.swap_apply_of_ne_of_ne hne1 hne2]
  rw [e2]
  conv_rhs => rw [e1]
  exact Equiv.Perm.ofFn_comp_perm _ _

theorem LeadToEchelon_perm (rows_ : Nat) (m : m_dbl_type) (hrows : rows_ ≤ m.length) :
    (SimpleGauss.LeadToEchelon rows_ m).Perm m := by
  unfold SimpleGauss.LeadToEchelon
  refine forLoop_induct (fun _ (t : m_dbl_type) => t.Perm m) 0 rows_ _ m (Nat.zero_le _)
    (List.Perm.refl m) ?_
  intro k t _ hk ht
  simp only
  split_ifs with h
  · obtain ⟨_, h2⟩ := pivotSearch_bounds rows_ t k hk
    have hl : t.length = m.length := ht.length_eq
    exact (swapRows_perm t k _ (by omega) (by omega)).trans ht
  · exact ht

end s21

namespace s21

/-! ## Gauss: one elimination step -/

/-- Effect of the body of `AdjustEchelon` on row `i`, with factor `f`. -/
theorem adjustRow_spec (n k i : Nat) (hkn : k ≤ n) (hik : k ≠ i) (f : ℚ) (m : m_dbl_type) :
    (setCell (forLoop (k + 1) (n + 1)
      (fun j m2 => setCell m2 i j (cell m2 i j - cell m2 k j * f)) m) i k 0).length = m.length ∧
    (∀ a, (getRow (setCell (forLoop (k + 1) (n + 1)
      (fun j m2 => setCell m2 i j (cell m2 i j - cell m2 k j * f)) m) i k 0) a).length =
        (getRow m a).length) ∧
    ∀ a b, cell (setCell (forLoop (k + 1) (n + 1)
      (fun j m2 => setCell m2 i j (cell m2 i j - cell m2 k j * f)) m) i k 0) a b =
      if a = i ∧ i < m.length ∧ b < (getRow m i).length then
        (if b = k then 0
         else if k < b ∧ b ≤ n then cell m i b - cell m k b * f else cell m i b)
      else cell m a b := by
  have inner := forLoop_induct (fun h (r : m_dbl_type) => r.length = m.length ∧
      (∀ a, (getRow r a).length = (getRow m a).length) ∧
      ∀ a b, cell r a b =
        if a = i ∧ k + 1 ≤ b ∧ b < h ∧ i < m.length ∧ b < (getRow m i).length
        then cell m i b - cell m k b * f else cell m a b) (k + 1) (n + 1)
      (fun j m2 => setCell m2 i j (cell m2 i j - cell m2 k j * f)) m (by omega)
      ⟨rfl, fun _ => rfl, fun a b => by
        have : ¬ (a = i ∧ k + 1 ≤ b ∧ b < k + 1 ∧ i < m.length ∧ b < (getRow m i).length) := by
          omega
        rw [if_neg this]⟩
      (by
        rintro j t h1 h2 ⟨hl, hr, hc⟩
        refine ⟨by rw [length_setCell, hl], fun a => by rw [getRow_length_setCell, hr], ?_⟩
        intro a b
        have hij : cell t i j = cell m i j := by
          rw [hc i j]
          have : ¬ (i = i ∧ k + 1 ≤ j ∧ j < j ∧ i < m.length ∧ j < (getRow m i).length) := by
            omega
          rw [if_neg this]
        have hkj : cell t k j = cell m k j := by
          rw [hc k j]
          have : ¬ (k = i ∧ k + 1 ≤ j ∧ j < j ∧ i < m.length ∧ j < (getRow m i).length) := by
            omega
          rw [if_neg this]
        rw [cell_setCell, hl, hr, hij, hkj, hc a b]
        by_cases hab : a = i ∧ b = j
        · obtain ⟨rfl, rfl⟩ := hab
          by_cases hin : a < m.length ∧ b < (getRow m a).length
          · rw [if_pos ⟨rfl, rfl, hin⟩, if_pos ⟨rfl, h1, by omega, hin⟩]
          · have e1 : ¬ (a = a ∧ b = b ∧ a < m.length ∧ b < (getRow m a).length) :=
              fun h => hin h.2.2
            have e2 : ¬ (a = a ∧ k + 1 ≤ b ∧ b < b + 1 ∧ a < m.length ∧
                b < (getRow m a).length) := fun h => hin h.2.2.2
            have e3 : ¬ (a = a ∧ k + 1 ≤ b ∧ b < b ∧ a < m.length ∧
                b < (getRow m a).length) := by omega
            rw [if_neg e1, if_neg e2, if_neg e3]
        · have e1 : ¬ (a = i ∧ b = j ∧ i < m.length ∧ j < (getRow m i).length) :=
            fun h => hab ⟨h.1, h.2.1⟩
          rw [if_neg e1]
          have : (a = i ∧ k + 1 ≤ b ∧ b < j ∧ i < m.length ∧ b < (getRow m i).length) ↔
              (a = i ∧ k + 1 ≤ b ∧ b < j + 1 ∧ i < m.length ∧ b < (getRow m i).length) := by
            constructor
            · rintro ⟨h3, h4, h5, h6⟩
              exact ⟨h3, h4, by omega, h6⟩
            · rintro ⟨h3, h4, h5, h6⟩
              refine ⟨h3, h4, ?_, h6⟩
              rcases Nat.lt_succ_iff_lt_or_eq.mp h5 with h7 | h7
              · exact h7
              · exact absurd ⟨h3, h7⟩ hab
          simp only [this])
  obtain ⟨hl, hr, hc⟩ := inner
  refine ⟨by rw [length_setCell, hl], fun a => by rw [getRow_length_setCell, hr], ?_⟩
  intro a b
  rw [cell_setCell, hl, hr, hc a b]
  by_cases ha : a = i
  · subst ha
    split_ifs <;> first | rfl | (exfalso; omega)
  · split_ifs <;> first | rfl | (exfalso; omega)

end s21

namespace s21

theorem AdjustEchelon_spec (n k : Nat) (hk : k < n) (m : m_dbl_type) :
    (SimpleGauss.AdjustEchelon n k m).length = m.length ∧
    (∀ a, (getRow (SimpleGauss.AdjustEchelon n k m) a).length = (getRow m a).length) ∧
    ∀ a b, cell (SimpleGauss.AdjustEchelon n k m) a b =
      if k < a ∧ a < n ∧ a < m.length ∧ b < (getRow m a).length then
        (if b = k then 0
         else if k < b ∧ b ≤ n then cell m a b - cell m k b * (cell m a k / cell m k k)
         else cell m a b)
      else cell m a b := by
  unfold SimpleGauss.AdjustEchelon
  refine forLoop_induct (fun h (t : m_dbl_type) => t.length = m.length ∧
      (∀ a, (getRow t a).length = (getRow m a).length) ∧
      ∀ a b, cell t a b =
        if k < a ∧ a < h ∧ a < m.length ∧ b < (getRow m a).length then
          (if b = k then 0
           else if k < b ∧ b ≤ n then cell m a b - cell m k b * (cell m a k / cell m k k)
           else cell m a b)
        else cell m a b) (k + 1) n _ m (by omega) ?_ ?_
  · refine ⟨rfl, fun _ => rfl, fun a b => ?_⟩
    have : ¬ (k < a ∧ a < k + 1 ∧ a < m.length ∧ b < (getRow m a).length) := by omega
    rw [if_neg this]
  · rintro i t h1 h2 ⟨hl, hr, hc⟩
    obtain ⟨al, ar, ac⟩ := adjustRow_spec n k i (by omega) (by omega)
      (cell t i k / cell t k k) t
    have hrow_i : ∀ b, cell t i b = cell m i b := by
      intro b
      rw [hc i b]
      have : ¬ (k < i ∧ i < i ∧ i < m.length ∧ b < (getRow m i).length) := by omega
      rw [if_neg this]
    have hrow_k : ∀ b, cell t k b = cell m k b := by
      intro b
      rw [hc k b]
      have : ¬ (k < k ∧ k < i ∧ k < m.length ∧ b < (getRow m k).length) := by omega
      rw [if_neg this]
    refine ⟨by rw [al, hl], fun a => by rw [ar, hr], ?_⟩
    intro a b
    show cell (setCell (forLoop (k + 1) (n + 1) _ t) i k 0) a b = _
    rw [ac a b, hl, hr, hc a b]
    simp only [hrow_i, hrow_k]
    by_cases ha : a = i
    · subst ha
      split_ifs <;> first | rfl | (exfalso; omega)
    · split_ifs <;> first | rfl | (exfalso; omega)

/-- Cells after one elimination step on an `n x (n+1)` matrix. -/
theorem AdjustEchelon_cell (n k : Nat) (hk : k < n) (m : m_dbl_type)
    (hm : IsMatrix m n (n + 1)) :
    IsMatrix (SimpleGauss.AdjustEchelon n k m) n (n + 1) ∧
    ∀ a b, cell (SimpleGauss.AdjustEchelon n k m) a b = adjustedCell n k m a b := by
  obtain ⟨hl, hr, hc⟩ := AdjustEchelon_spec n k hk m
  refine ⟨⟨by rw [hl, hm.1], ?_⟩, ?_⟩
  · intro row hrow
    obtain ⟨a, ha, rfl⟩ := List.getElem_of_mem hrow
    have : getRow (SimpleGauss.AdjustEchelon n k m) a = (SimpleGauss.AdjustEchelon n k m)[a] :=
      List.getD_eq_getElem _ _ ha
    rw [← this, hr]
    exact getRow_length_of_isMatrix hm a (by rw [hl, hm.1] at ha; exact ha)
  · intro a b
    rw [hc a b, adjustedCell]
    by_cases ha : k < a ∧ a < n
    · have hlen := getRow_length_of_isMatrix hm a ha.2
      rw [hlen, hm.1, if_pos ha]
      by_cases hb : b < n + 1
      · rw [if_pos ⟨ha.1, ha.2, ha.2, hb⟩]
      · have : ¬ (k < a ∧ a < n ∧ a < n ∧ b < n + 1) := fun h => hb h.2.2.2
        rw [if_neg this]
        split_ifs <;> first | rfl | (exfalso; omega)
    · have : ¬ (k < a ∧ a < n ∧ a < m.length ∧ b < (getRow m a).length) :=
        fun h => ha ⟨h.1, h.2.1⟩
      rw [if_neg this, if_neg ha]

end s21

namespace s21

/-! ## Gauss: what an elimination step keeps -/

theorem adjustedCell_row_le (n k : Nat) (m : m_dbl_type) (a b : Nat) (ha : a ≤ k) :
    adjustedCell n k m a b = cell m a b := by
  have : ¬ (k < a ∧ a < n) := by omega
  rw [adjustedCell, if_neg this]

theorem adjustedCell_lowerZero (n k : Nat) (m : m_dbl_type) (h : LowerZero m n k) :
    ∀ i j, j < k + 1 → j < i → i < n → adjustedCell n k m i j = 0 := by
  intro i j hj hji hi
  unfold adjustedCell
  by_cases hik : k < i ∧ i < n
  · rw [if_pos hik]
    by_cases hjk : j = k
    · rw [if_pos hjk]
    · have : ¬ (k < j ∧ j ≤ n) := by omega
      rw [if_neg hjk, if_neg this]
      exact h i j (by omega) hji hi
  · rw [if_neg hik]
    exact h i j (by omega) hji hi

/-- Below the pivot row, the step subtracts a multiple of the pivot row from the whole row,
right-hand side included. -/
theorem adjustedCell_row_gt (n k : Nat) (hk : k < n) (m : m_dbl_type) (h : LowerZero m n k)
    (hp : cell m k k ≠ 0) (i j : Nat) (hi1 : k < i) (hi2 : i < n) (hj : j ≤ n) :
    adjustedCell n k m i j = cell m i j - cell m k j * (cell m i k / cell m k k) := by
  unfold adjustedCell
  rw [if_pos ⟨hi1, hi2⟩]
  by_cases hjk : j = k
  · subst hjk
    rw [if_pos rfl]
    field_simp
  · rw [if_neg hjk]
    by_cases hjk2 : k < j ∧ j ≤ n
    · rw [if_pos hjk2]
    · rw [if_neg hjk2, h k j (by omega) (by omega) hk]
      ring

theorem Solves_adjust (n k : Nat) (hk : k < n) (m m2 : m_dbl_type)
    (hc : ∀ a b, cell m2 a b = adjustedCell n k m a b)
    (h : LowerZero m n k) (hp : cell m k k ≠ 0) (x : Nat → ℚ) (t : ℚ) :
    Solves m2 n x t ↔ Solves m n x t := by
  have hsum : ∀ i, k < i → i < n →
      ∑ j ∈ Finset.range n, cell m2 i j * x j =
        ∑ j ∈ Finset.range n, cell m i j * x j -
          (cell m i k / cell m k k) * ∑ j ∈ Finset.range n, cell m k j * x j := by
    intro i hi1 hi2
    rw [Finset.mul_sum, ← Finset.sum_sub_distrib]
    apply Finset.sum_congr rfl
    intro j hj
    rw [hc, adjustedCell_row_gt n k hk m h hp i j hi1 hi2 (le_of_lt (Finset.mem_range.mp hj))]
    ring
  have hrhs : ∀ i, k < i → i < n →
      cell m2 i n = cell m i n - cell m k n * (cell m i k / cell m k k) := by
    intro i hi1 hi2
    rw [hc, adjustedCell_row_gt n k hk m h hp i n hi1 hi2 (le_refl n)]
  have hsame : ∀ i, i ≤ k → ∀ b, cell m2 i b = cell m i b := by
    intro i hi b
    rw [hc, adjustedCell_row_le n k m i b hi]
  constructor
  · intro hs i hi
    by_cases hik : i ≤ k
    · have := hs i hi
      simp only [hsame i hik] at this
      exact this
    · have h1 := hs i hi
      have h2 := hs k hk
      simp only [hsame k (le_refl k)] at h2
      rw [hsum i (by omega) hi, hrhs i (by omega) hi, h2] at h1
      linear_combination h1
  · intro hs i hi
    by_cases hik : i ≤ k
    · simp only [hsame i hik]
      exact hs i hi
    · rw [hsum i (by omega) hi, hrhs i (by omega) hi, hs i hi, hs k hk]
      ring

/-! ## Gauss: the elimination pass -/

theorem elimSteps_succ (n j : Nat) (m : m_dbl_type) :
    elimSteps n (j + 1) m = SimpleGauss.AdjustEchelon n j (elimSteps n j m) :=
  forLoop_succ 0 j _ m (Nat.zero_le j)

theorem elimSteps_zero (n : Nat) (m : m_dbl_type) : elimSteps n 0 m = m :=
  forLoop_of_le 0 0 _ m (le_refl 0)

theorem elimSteps_shape (n : Nat) (m : m_dbl_type) (hm : IsMatrix m n (n + 1)) (j : Nat)
    (hj : j ≤ n) : IsMatrix (elimSteps n j m) n (n + 1) ∧ LowerZero (elimSteps n j m) n j := by
  induction j with
  | zero =>
    rw [elimSteps_zero]
    exact ⟨hm, fun i j hj _ _ => absurd hj (Nat.not_lt_zero j)⟩
  | succ j ih =>
    obtain ⟨h1, h2⟩ := ih (by omega)
    obtain ⟨h3, h4⟩ := AdjustEchelon_cell n j (by omega) _ h1
    rw [elimSteps_succ]
    refine ⟨h3, fun i b hb hbi hi => ?_⟩
    rw [h4]
    exact adjustedCell_lowerZero n j _ h2 i b hb hbi hi

/-- Row `k` is final once the steps before `k` have run. -/
theorem elimSteps_row_stable (n : Nat) (m : m_dbl_type) (hm : IsMatrix m n (n + 1))
    (k j : Nat) (hkj : k ≤ j) (hj : j ≤ n) (b : Nat) :
    cell (elimSteps n j m) k b = cell (elimSteps n k m) k b := by
  induction j with
  | zero =>
    have : k = 0 := by omega
    subst this
    rfl
  | succ j ih =>
    rcases Nat.eq_or_lt_of_le hkj with h | h
    · rw [h]
    · obtain ⟨h1, _⟩ := elimSteps_shape n m hm j (by omega)
      obtain ⟨_, h4⟩ := AdjustEchelon_cell n j (by omega) _ h1
      rw [elimSteps_succ, h4, adjustedCell_row_le n j _ k b (by omega)]
      exact ih (by omega) (by omega)

theorem elimSteps_solves (n : Nat) (m : m_dbl_type) (hm : IsMatrix m n (n + 1))
    (hp : ∀ k, k < n → cell (elimSteps n n m) k k ≠ 0) (x : Nat → ℚ) (t : ℚ) (j : Nat)
    (hj : j ≤ n) : Solves (elimSteps n j m) n x t ↔ Solves m n x t := by
  induction j with
  | zero => rw [elimSteps_zero]
  | succ j ih =>
    obtain ⟨h1, h2⟩ := elimSteps_shape n m hm j (by omega)
    obtain ⟨_, h4⟩ := AdjustEchelon_cell n j (by omega) _ h1
    have hpj : cell (elimSteps n j m) j j ≠ 0 := by
      rw [← elimSteps_row_stable n m hm j n (by omega) (le_refl n) j]
      exact hp j (by omega)
    rw [elimSteps_succ, Solves_adjust n j (by omega) _ _ h4 h2 hpj x t]
    exact ih (by omega)

end s21

namespace s21

/-! ## Gauss: back-substitution -/

theorem backInner_spec (c : Nat → ℚ) (i lo hi : Nat) (hlo : i < lo) (hle : lo ≤ hi)
    (o0 : row_type) :
    forLoop lo hi (fun j o => o.set i (o.getD i 0 - c j * o.getD j 0)) o0 =
      o0.set i (o0.getD i 0 - ∑ j ∈ Finset.Ico lo hi, c j * o0.getD j 0) := by
  refine forLoop_induct (fun h (o : row_type) =>
    o = o0.set i (o0.getD i 0 - ∑ j ∈ Finset.Ico lo h, c j * o0.getD j 0)) lo hi _ o0 hle ?_ ?_
  · simp only [Finset.Ico_self, Finset.sum_empty, sub_zero]
    exact (set_getD_self o0 i).symm
  · intro j t h1 h2 ht
    beta_reduce
    rw [ht, List.set_set, getD_set, getD_set, Finset.sum_Ico_succ_top h1]
    have hij : ¬ (i = j ∧ i < o0.length) := by omega
    rw [if_neg hij]
    by_cases hlen : i < o0.length
    · rw [if_pos ⟨rfl, hlen⟩]
      congr 1
      ring
    · rw [set_eq_self_of_le _ _ _ (by omega), set_eq_self_of_le _ _ _ (by omega)]

/-- Entries of the vector after one round of the outer loop of `BackPropagation`. -/
theorem backBody_spec (n i : Nat) (hi : i < n) (U : m_dbl_type) (out : row_type) :
    ((forLoop (i + 1) n (fun j o => o.set i (o.getD i 0 - cell U i j * o.getD j 0))
      (out.set i (cell U i n))).set i
        ((forLoop (i + 1) n (fun j o => o.set i (o.getD i 0 - cell U i j * o.getD j 0))
          (out.set i (cell U i n))).getD i 0 / cell U i i)).length = out.length ∧
    ∀ a, ((forLoop (i + 1) n (fun j o => o.set i (o.getD i 0 - cell U i j * o.getD j 0))
      (out.set i (cell U i n))).set i
        ((forLoop (i + 1) n (fun j o => o.set i (o.getD i 0 - cell U i j * o.getD j 0))
          (out.set i (cell U i n))).getD i 0 / cell U i i)).getD a 0 =
      if a = i ∧ i < out.length then
        (cell U i n - ∑ j ∈ Finset.Ico (i + 1) n, cell U i j * out.getD j 0) / cell U i i
      else out.getD a 0 := by
  rw [backInner_spec (fun j => cell U i j) i (i + 1) n (by omega) (by omega)]
  refine ⟨by simp, fun a => ?_⟩
  have hsum : ∑ j ∈ Finset.Ico (i + 1) n, cell U i j * (out.set i (cell U i n)).getD j 0 =
      ∑ j ∈ Finset.Ico (i + 1) n, cell U i j * out.getD j 0 := by
    apply Finset.sum_congr rfl
    intro j hj
    have hj2 := (Finset.mem_Ico.mp hj).1
    have : ¬ (i = j ∧ i < out.length) := by omega
    rw [getD_set, if_neg this]
  rw [hsum, List.set_set, List.set_set, getD_set, getD_set, getD_set]
  by_cases ha : a = i
  · subst ha
    by_cases hlen : a < out.length
    · simp only [hlen, List.length_set, and_self, true_and, if_true]
    · simp only [hlen, List.length_set, and_false, if_false]
  · have e1 : ¬ (i = a ∧ i < out.length) := fun h => ha h.1.symm
    have e2 : ¬ (a = i ∧ i < out.length) := fun h => ha h.1
    rw [if_neg e1, if_neg e2]

theorem BackPropagation_spec (n : Nat) (U : m_dbl_type) (out0 : row_type)
    (hlen : n ≤ out0.length) :
    (SimpleGauss.BackPropagation n U out0).length = out0.length ∧
    (∀ a, n ≤ a → (SimpleGauss.BackPropagation n U out0).getD a 0 = out0.getD a 0) ∧
    ∀ a, a < n → (SimpleGauss.BackPropagation n U out0).getD a 0 =
      (cell U a n - ∑ j ∈ Finset.Ico (a + 1) n,
        cell U a j * (SimpleGauss.BackPropagation n U out0).getD j 0) / cell U a a := by
  have key := forLoopDown_induct (fun i (out : row_type) =>
      out.length = out0.length ∧ (∀ a, n ≤ a → out.getD a 0 = out0.getD a 0) ∧
      ∀ a, i ≤ a → a < n → out.getD a 0 =
        (cell U a n - ∑ j ∈ Finset.Ico (a + 1) n, cell U a j * out.getD j 0) / cell U a a)
    n (fun i out =>
      let out1 := out.set i (cell U i n)
      let out2 := forLoop (i + 1) n
        (fun j o => o.set i (o.getD i 0 - cell U i j * o.getD j 0)) out1
      out2.set i (out2.getD i 0 / cell U i i)) out0
    ⟨rfl, fun _ _ => rfl, fun a h1 h2 => by omega⟩
    (by
      rintro i t hi ⟨hl, hfix, hc⟩
      obtain ⟨bl, bc⟩ := backBody_spec n i hi U t
      refine ⟨by rw [← hl]; exact bl, ?_, ?_⟩
      · intro a ha
        have : ¬ (a = i ∧ i < t.length) := by omega
        simp only
        rw [bc a, if_neg this]
        exact hfix a ha
      · intro a ha1 ha2
        simp only
        have hsum : ∀ a2, i ≤ a2 →
            ∑ j ∈ Finset.Ico (a2 + 1) n, cell U a2 j *
              ((forLoop (i + 1) n (fun j o => o.set i (o.getD i 0 - cell U i j * o.getD j 0))
                (t.set i (cell U i n))).set i
                  ((forLoop (i + 1) n
                    (fun j o => o.set i (o.getD i 0 - cell U i j * o.getD j 0))
                    (t.set i (cell U i n))).getD i 0 / cell U i i)).getD j 0 =
            ∑ j ∈ Finset.Ico (a2 + 1) n, cell U a2 j * t.getD j 0 := by
          intro a2 ha2i
          apply Finset.sum_congr rfl
          intro j hj
          have hj2 := (Finset.mem_Ico.mp hj).1
          have : ¬ (j = i ∧ i < t.length) := by omega
          rw [bc j, if_neg this]
        rw [hsum a ha1, bc a]
        by_cases hai : a = i
        · subst hai
          rw [if_pos ⟨rfl, by omega⟩]
        · have : ¬ (a = i ∧ i < t.length) := fun h => hai h.1
          rw [if_neg this]
          exact hc a (by omega) ha2)
  obtain ⟨h1, h2, h3⟩ := key
  exact ⟨h1, h2, fun a ha => h3 a (Nat.zero_le a) ha⟩

theorem sum_range_split (f : Nat → ℚ) (i n : Nat) (hi : i < n) :
    ∑ j ∈ Finset.range n, f j =
      ∑ j ∈ Finset.range i, f j + f i + ∑ j ∈ Finset.Ico (i + 1) n, f j := by
  rw [Finset.range_eq_Ico, ← Finset.sum_Ico_consecutive f (Nat.zero_le i) (le_of_lt hi),
    Finset.sum_eq_sum_Ico_succ_bot hi]
  ring

/-- In an upper triangular system the sum of row `i` starts at the diagonal. -/
theorem triangular_row_sum (U : m_dbl_type) (n : Nat) (hU : LowerZero U n n) (x : Nat → ℚ)
    (i : Nat) (hi : i < n) :
    ∑ j ∈ Finset.range n, cell U i j * x j =
      cell U i i * x i + ∑ j ∈ Finset.Ico (i + 1) n, cell U i j * x j := by
  rw [sum_range_split _ i n hi]
  have : ∑ j ∈ Finset.range i, cell U i j * x j = 0 := by
    apply Finset.sum_eq_zero
    intro j hj
    have hj2 := Finset.mem_range.mp hj
    rw [hU i j (by omega) hj2 hi, zero_mul]
  rw [this, zero_add]

theorem BackPropagation_solves (n : Nat) (U : m_dbl_type) (out0 : row_type)
    (hlen : n ≤ out0.length) (hU : LowerZero U n n) (hp : ∀ k, k < n → cell U k k ≠ 0) :
    Solves U n (fun j => (SimpleGauss.BackPropagation n U out0).getD j 0) 1 := by
  obtain ⟨_, _, h3⟩ := BackPropagation_spec n U out0 hlen
  intro i hi
  rw [triangular_row_sum U n hU _ i hi, one_mul]
  have h := h3 i hi
  have hne := hp i hi
  show cell U i i * (SimpleGauss.BackPropagation n U out0).getD i 0 +
    ∑ j ∈ Finset.Ico (i + 1) n, cell U i j * (SimpleGauss.BackPropagation n U out0).getD j 0 =
      cell U i n
  generalize (∑ j ∈ Finset.Ico (i + 1) n,
    cell U i j * (SimpleGauss.BackPropagation n U out0).getD j 0) = S at h ⊢
  rw [h]
  field_simp

/-- An upper triangular homogeneous system with a non-zero diagonal has only the zero
solution. -/
theorem triangular_kernel (U : m_dbl_type) (n : Nat) (hU : LowerZero U n n)
    (hp : ∀ k, k < n → cell U k k ≠ 0) (d : Nat → ℚ) (hd : Solves U n d 0) :
    ∀ j, j < n → d j = 0 := by
  have key : ∀ c, c ≤ n → ∀ j, n - c ≤ j → j < n → d j = 0 := by
    intro c
    induction c with
    | zero => intro _ j h1 h2; omega
    | succ c ih =>
      intro hc j h1 h2
      by_cases hj : n - c ≤ j
      · exact ih (by omega) j hj h2
      · have hrow := hd j h2
        rw [triangular_row_sum U n hU d j h2, zero_mul] at hrow
        have hz : ∑ j2 ∈ Finset.Ico (j + 1) n, cell U j j2 * d j2 = 0 := by
          apply Finset.sum_eq_zero
          intro j2 hj2
          have hj3 := Finset.mem_Ico.mp hj2
          rw [ih (by omega) j2 (by omega) hj3.2, mul_zero]
        rw [hz, add_zero] at hrow
        rcases mul_eq_zero.mp hrow with h | h
        · exact absurd h (hp j h2)
        · exact h
  intro j hj
  exact key n (le_refl n) j (by omega) hj

end s21

namespace s21

/-! ## Gauss: the storage -/

theorem GaussStorage_new_ok {M : m_dbl_type} {n : Nat} (hn : 0 < n)
    (hM : IsMatrix M n (n + 1)) :
    GaussStorage.new M = .ok ⟨M, List.replicate (n + 1) 1, none, 1⟩ := by
  have h0 : (getRow M 0).length = n + 1 := getRow_length_of_isMatrix hM 0 hn
  have hc := CheckMatrixCorrectness_of_isMatrix hM hn (Nat.succ_pos n)
  cases M with
  | nil => simp [IsMatrix] at hM; omega
  | cons row0 rest =>
    have hr : row0.length = n + 1 := hM.2 row0 (List.mem_cons_self _ _)
    have hl : (row0 :: rest).length = n := hM.1
    have hs : Storage.size_sub row0.length 1 = n := by
      rw [hr, Storage.size_sub, if_pos (by omega)]
      omega
    unfold GaussStorage.new Storage.CheckSleSizeCorrectness
    simp only [hs, hl, hc, ne_eq, not_true_eq_false, if_false, h0]

theorem map_one_replicate (k : Nat) :
    (List.replicate k (1 : ℚ)).map (fun _ => (1 : ℚ)) = List.replicate k 1 := by
  simp [List.map_replicate]

theorem SimpleGauss_SolveSle_eq (n : Nat) (M : m_dbl_type) (out : row_type) :
    SimpleGauss.SolveSle n M out =
      if SimpleGauss.CheckEchelon n (echelonForm n M) then
        ⟨(echelonForm n M, out), .raised singularError⟩
      else ⟨(M, SimpleGauss.BackPropagation n (echelonForm n M) out), .normal⟩ := rfl

theorem SolveSle_fresh_simple {M : m_dbl_type} {n : Nat} (hn : 0 < n)
    (hM : IsMatrix M n (n + 1)) (sched : List Nat) :
    (GaussStorage.SetStrategy ⟨M, List.replicate (n + 1) 1, none, 1⟩ .kSimple).SolveSle sched =
      ⟨⟨(SimpleGauss.SolveSle n M (List.replicate (n + 1) 1)).state.1,
          (SimpleGauss.SolveSle n M (List.replicate (n + 1) 1)).state.2,
          some (.SimpleGauss n (n + 1)), 1⟩,
        (SimpleGauss.SolveSle n M (List.replicate (n + 1) 1)).completion⟩ := by
  have h0 : (getRow M 0).length = n + 1 := getRow_length_of_isMatrix hM 0 hn
  simp only [GaussStorage.SetStrategy, GaussStorage.SolveSle, GaussStorage.ResetResult,
    map_one_replicate, hM.1, h0]

theorem CheckEchelon_false_iff (n : Nat) (U : m_dbl_type) :
    SimpleGauss.CheckEchelon n U = false ↔ ∀ k, k < n → 1 / 100000 ≤ |cell U k k| := by
  unfold SimpleGauss.CheckEchelon
  rw [List.any_eq_false]
  constructor
  · intro h k hk
    have := h k (List.mem_range.mpr hk)
    simpa using this
  · intro h k hk
    have := h k (List.mem_range.mp hk)
    simpa using this

theorem pivot_ne_zero_of_check (n : Nat) (U : m_dbl_type)
    (h : SimpleGauss.CheckEchelon n U = false) : ∀ k, k < n → cell U k k ≠ 0 := by
  intro k hk h0
  have := (CheckEchelon_false_iff n U).mp h k hk
  rw [h0, abs_zero] at this
  norm_num at this

/-! ## Gauss: systems of equations -/

theorem Solves_iff_rows (M : m_dbl_type) (n : Nat) (hl : M.length = n) (x : Nat → ℚ) (t : ℚ) :
    Solves M n x t ↔
      ∀ row ∈ M, ∑ j ∈ Finset.range n, row.getD j 0 * x j = t * row.getD n 0 := by
  constructor
  · intro h row hrow
    obtain ⟨a, ha, rfl⟩ := List.getElem_of_mem hrow
    have e : getRow M a = M[a] := List.getD_eq_getElem _ _ ha
    have := h a (by rw [← hl]; exact ha)
    simp only [cell, e] at this
    exact this
  · intro h i hi
    exact h (getRow M i) (getRow_mem M i (by rw [hl]; exact hi))

theorem Solves_perm (M L : m_dbl_type) (n : Nat) (hl : M.length = n) (hp : L.Perm M)
    (x : Nat → ℚ) (t : ℚ) : Solves L n x t ↔ Solves M n x t := by
  rw [Solves_iff_rows M n hl, Solves_iff_rows L n (by rw [hp.length_eq, hl])]
  constructor
  · intro h row hrow
    exact h row (hp.mem_iff.mpr hrow)
  · intro h row hrow
    exact h row (hp.mem_iff.mp hrow)

theorem isMatrix_perm {M L : m_dbl_type} {r c : Nat} (hM : IsMatrix M r c) (hp : L.Perm M) :
    IsMatrix L r c :=
  ⟨by rw [hp.length_eq, hM.1], fun row hrow => hM.2 row (hp.mem_iff.mp hrow)⟩

/-- The echelon form of an `n x (n+1)` system: its shape, its zeros below the diagonal and,
when no pivot is zero, its solutions. -/
theorem echelonForm_spec {M : m_dbl_type} {n : Nat} (hM : IsMatrix M n (n + 1)) :
    IsMatrix (echelonForm n M) n (n + 1) ∧ LowerZero (echelonForm n M) n n ∧
    ((∀ k, k < n → cell (echelonForm n M) k k ≠ 0) →
      ∀ x t, Solves (echelonForm n M) n x t ↔ Solves M n x t) := by
  have hp := LeadToEchelon_perm n M (by rw [hM.1])
  have hL := isMatrix_perm hM hp
  obtain ⟨h1, h2⟩ := elimSteps_shape n _ hL n (le_refl n)
  refine ⟨h1, h2, fun hpiv x t => ?_⟩
  have := elimSteps_solves n _ hL hpiv x t n (le_refl n)
  exact this.trans (Solves_perm M _ n hM.1 hp x t)

/-- When `CheckEchelon` lets the echelon form through, back-substitution yields a solution of
the original system and there is no other solution. -/
theorem solution_of_check {M : m_dbl_type} {n : Nat} (hM : IsMatrix M n (n + 1))
    (hc : SimpleGauss.CheckEchelon n (echelonForm n M) = false) (out : row_type)
    (hlen : n ≤ out.length) :
    Solves M n (fun j => (SimpleGauss.BackPropagation n (echelonForm n M) out).getD j 0) 1 ∧
    ∀ y, Solves M n y 1 → ∀ j, j < n →
      y j = (SimpleGauss.BackPropagation n (echelonForm n M) out).getD j 0 := by
  obtain ⟨_, hlow, hsol⟩ := echelonForm_spec hM
  have hpiv := pivot_ne_zero_of_check n _ hc
  have hx := BackPropagation_solves n (echelonForm n M) out hlen hlow hpiv
  refine ⟨(hsol hpiv _ 1).mp hx, fun y hy j hj => ?_⟩
  have hy2 := (hsol hpiv y 1).mpr hy
  have hd : Solves (echelonForm n M) n
      (fun j => y j - (SimpleGauss.BackPropagation n (echelonForm n M) out).getD j 0) 0 := by
    intro i hi
    have e1 := hy2 i hi
    have e2 := hx i hi
    simp only [mul_sub, Finset.sum_sub_distrib]
    rw [e1, e2]
    ring
  have := triangular_kernel _ n hlow hpiv _ hd j hj
  exact sub_eq_zero.mp this

/-- A singular coefficient part never passes `CheckEchelon`. -/
theorem check_of_singular {M : m_dbl_type} {n : Nat} (hM : IsMatrix M n (n + 1))
    (hdet : (coefficientMatrix M n).det = 0) :
    SimpleGauss.CheckEchelon n (echelonForm n M) = true := by
  by_contra hc
  have hc2 : SimpleGauss.CheckEchelon n (echelonForm n M) = false := by
    simpa using hc
  obtain ⟨_, hlow, hsol⟩ := echelonForm_spec hM
  have hpiv := pivot_ne_zero_of_check n _ hc2
  obtain ⟨v, hv, hv0⟩ := Matrix.exists_mulVec_eq_zero_iff.mpr hdet
  have hx : Solves M n (fun j => if h : j < n then v ⟨j, h⟩ else 0) 0 := by
    intro i hi
    have := congrFun hv0 ⟨i, hi⟩
    simp only [Matrix.mulVec, Matrix.dotProduct, coefficientMatrix, Matrix.of_apply,
      Pi.zero_apply] at this
    rw [Finset.sum_range, zero_mul]
    rw [← this]
    apply Finset.sum_congr rfl
    intro j _
    simp
  have hz := triangular_kernel _ n hlow hpiv _ ((hsol hpiv _ 0).mpr hx)
  apply hv
  funext j
  have := hz j.1 j.2
  simpa using this

end s21

namespace s21

/-! ## Gauss: the claims -/

/-- The two ways a call of `SolveSle` with `kSimple` on a fresh storage can end. -/
theorem fresh_simple_cases {M : m_dbl_type} {n : Nat} (hn : 0 < n)
    (hM : IsMatrix M n (n + 1)) (s0 : GaussStorage) (hnew : GaussStorage.new M = .ok s0)
    (sched : List Nat) :
    (SimpleGauss.CheckEchelon n (echelonForm n M) = true ∧
      (s0.SetStrategy .kSimple).SolveSle sched =
        ⟨⟨echelonForm n M, List.replicate (n + 1) 1, some (.SimpleGauss n (n + 1)), 1⟩,
          .raised singularError⟩) ∨
    (SimpleGauss.CheckEchelon n (echelonForm n M) = false ∧
      (s0.SetStrategy .kSimple).SolveSle sched =
        ⟨⟨M, SimpleGauss.BackPropagation n (echelonForm n M) (List.replicate (n + 1) 1),
          some (.SimpleGauss n (n + 1)), 1⟩, .normal⟩) := by
  rw [GaussStorage_new_ok hn hM] at hnew
  injection hnew with hnew
  subst hnew
  rw [SolveSle_fresh_simple hn hM, SimpleGauss_SolveSle_eq]
  cases h : SimpleGauss.CheckEchelon n (echelonForm n M)
  · right
    exact ⟨rfl, rfl⟩
  · left
    exact ⟨rfl, rfl⟩

/-- Shape of the state after a call of `SolveSle` that returns normally, for either solver. -/
theorem fresh_normal_form {M : m_dbl_type} {n : Nat} (hn : 0 < n)
    (hM : IsMatrix M n (n + 1)) (s0 : GaussStorage) (hnew : GaussStorage.new M = .ok s0)
    (mode : MultiMode) (sched : List Nat)
    (hok : ((s0.SetStrategy mode).SolveSle sched).completion = .normal) :
    ∃ U, ((s0.SetStrategy mode).SolveSle sched).state.matrix_ = M ∧
      ((s0.SetStrategy mode).SolveSle sched).state.result_ =
        SimpleGauss.BackPropagation n U (List.replicate (n + 1) 1) := by
  rw [GaussStorage_new_ok hn hM] at hnew
  injection hnew with hnew
  subst hnew
  have h0 : (getRow M 0).length = n + 1 := getRow_length_of_isMatrix hM 0 hn
  cases mode with
  | kSimple =>
    rcases fresh_simple_cases hn hM _ (GaussStorage_new_ok hn hM) sched with ⟨_, h⟩ | ⟨_, h⟩
    · rw [h] at hok
      simp at hok
    · rw [h]
      exact ⟨_, rfl, rfl⟩
  | kParallel =>
    simp only [GaussStorage.SetStrategy, GaussStorage.SolveSle, GaussStorage.ResetResult,
      map_one_replicate, hM.1, h0, ParallelGauss.SolveSle] at hok ⊢
    split_ifs at hok ⊢ with hc
    exact ⟨_, rfl, rfl⟩
  | kPipe => exact absurd hok (by simp [GaussStorage.SetStrategy, GaussStorage.SolveSle])
  | kEnd => exact absurd hok (by simp [GaussStorage.SetStrategy, GaussStorage.SolveSle])

/-- C3: when `SolveSle` with `kSimple` returns without raising on an `n x (n+1)` system, the
result satisfies every equation of the original system: for each row `i < n`, the sum over
`j < n` of `M[i][j] * x[j]` equals `M[i][n]`. -/
theorem C3_simple_result_satisfies_system (M : m_dbl_type) (n : Nat) (hn : 0 < n)
    (hM : IsMatrix M n (n + 1)) (s0 : GaussStorage) (hnew : GaussStorage.new M = .ok s0)
    (sched : List Nat)
    (hok : ((s0.SetStrategy .kSimple).SolveSle sched).completion = .normal) :
    ∀ i, i < n →
      ∑ j ∈ Finset.range n,
        cell M i j * ((s0.SetStrategy .kSimple).SolveSle sched).state.GetResult.getD j 0 =
      cell M i n := by
  rcases fresh_simple_cases hn hM s0 hnew sched with ⟨_, h⟩ | ⟨hc, h⟩
  · rw [h] at hok
    simp at hok
  · rw [h]
    intro i hi
    have := (solution_of_check hM hc (List.replicate (n + 1) 1) (by simp)).1 i hi
    rw [one_mul] at this
    exact this

/-- Witness of C3: the three equations of the system of `TEST(gauss, solving_1)`. -/
theorem C3_simple_result_satisfies_system_witness :
    (∑ j ∈ Finset.range 3,
        cell solving_1 0 j *
          ((GaussStorage.SetStrategy ⟨solving_1, [1, 1, 1, 1], none, 1⟩ .kSimple).SolveSle
            []).state.GetResult.getD j 0 = cell solving_1 0 3) ∧
    (∑ j ∈ Finset.range 3,
        cell solving_1 1 j *
          ((GaussStorage.SetStrategy ⟨solving_1, [1, 1, 1, 1], none, 1⟩ .kSimple).SolveSle
            []).state.GetResult.getD j 0 = cell solving_1 1 3) ∧
    (∑ j ∈ Finset.range 3,
        cell solving_1 2 j *
          ((GaussStorage.SetStrategy ⟨solving_1, [1, 1, 1, 1], none, 1⟩ .kSimple).SolveSle
            []).state.GetResult.getD j 0 = cell solving_1 2 3) :=
  ⟨C3_simple_result_satisfies_system solving_1 3 (by decide) (by decide)
      ⟨solving_1, [1, 1, 1, 1], none, 1⟩ rfl [] (by decide!) 0 (by decide),
    C3_simple_result_satisfies_system solving_1 3 (by decide) (by decide)
      ⟨solving_1, [1, 1, 1, 1], none, 1⟩ rfl [] (by decide!) 1 (by decide),
    C3_simple_result_satisfies_system solving_1 3 (by decide) (by decide)
      ⟨solving_1, [1, 1, 1, 1], none, 1⟩ rfl [] (by decide!) 2 (by decide)⟩

/-- C5: on an `n x (n+1)` system whose coefficient part is singular, `SolveSle` with `kSimple`
raises `std::runtime_error("matrix is singular")`. -/
theorem C5_singular_system_raises (M : m_dbl_type) (n : Nat) (hn : 0 < n)
    (hM : IsMatrix M n (n + 1)) (hdet : (coefficientMatrix M n).det = 0)
    (s0 : GaussStorage) (hnew : GaussStorage.new M = .ok s0) (sched : List Nat) :
    ((s0.SetStrategy .kSimple).SolveSle sched).completion =
      .raised (.runtime_error "matrix is singular") := by
  have hc := check_of_singular hM hdet
  rcases fresh_simple_cases hn hM s0 hnew sched with ⟨_, h⟩ | ⟨hc2, _⟩
  · rw [h]
    rfl
  · rw [hc] at hc2
    exact absurd hc2 (by decide)

/-- C6: on the system `[[2,4,-2,6],[3,3,3,3],[2,-2,8,4]]`, `SolveSle` with `kSimple` succeeds
and `GetResult` is `[14,-8,-5,1]`. -/
theorem C6_solving_1_result :
    ∃ s0, GaussStorage.new solving_1 = .ok s0 ∧
      ((s0.SetStrategy .kSimple).SolveSle []).completion = .normal ∧
      ((s0.SetStrategy .kSimple).SolveSle []).state.GetResult = [14, -8, -5, 1] :=
  ⟨_, rfl, by decide!, by decide!⟩

/-- C7: after a successful `SolveSle` on an `n x (n+1)` system, with either solver, the result
has exactly `n + 1` entries and the entry at index `n` is the sentinel `1`; back-substitution
leaves every index from `n` on as it was. -/
theorem C7_result_length_and_sentinel (M : m_dbl_type) (n : Nat) (hn : 0 < n)
    (hM : IsMatrix M n (n + 1)) (s0 : GaussStorage) (hnew : GaussStorage.new M = .ok s0)
    (mode : MultiMode) (sched : List Nat)
    (hok : ((s0.SetStrategy mode).SolveSle sched).completion = .normal) :
    ((s0.SetStrategy mode).SolveSle sched).state.GetResult.length = n + 1 ∧
    ((s0.SetStrategy mode).SolveSle sched).state.GetResult.getD n 0 = 1 ∧
    ∀ (U : m_dbl_type) (out : row_type), n ≤ out.length → ∀ a, n ≤ a →
      (SimpleGauss.BackPropagation n U out).getD a 0 = out.getD a 0 := by
  obtain ⟨U, _, hres⟩ := fresh_normal_form hn hM s0 hnew mode sched hok
  obtain ⟨h1, h2, _⟩ := BackPropagation_spec n U (List.replicate (n + 1) 1) (by simp)
  refine ⟨?_, ?_, fun U2 out hlen => (BackPropagation_spec n U2 out hlen).2.1⟩
  · rw [GaussStorage.GetResult, hres, h1]
    simp
  · rw [GaussStorage.GetResult, hres, h2 n (le_refl n)]
    simp [List.getD_eq_getElem?_getD]

/-- C8: after a `SolveSle` that returns normally, with either solver, the matrix stored in the
session is the matrix given at construction. -/
theorem C8_matrix_restored_on_success (M : m_dbl_type) (n : Nat) (hn : 0 < n)
    (hM : IsMatrix M n (n + 1)) (s0 : GaussStorage) (hnew : GaussStorage.new M = .ok s0)
    (mode : MultiMode) (sched : List Nat)
    (hok : ((s0.SetStrategy mode).SolveSle sched).completion = .normal) :
    ((s0.SetStrategy mode).SolveSle sched).state.matrix_ = M := by
  obtain ⟨_, h, _⟩ := fresh_normal_form hn hM s0 hnew mode sched hok
  exact h

/-- C9, evaluated on the system of `TEST(gauss, no_solution_1)`: the call raises and the matrix
stored in the session is the eliminated matrix, not the one given at construction. -/
theorem C9_failed_run_keeps_eliminated_matrix :
    ∃ s0, GaussStorage.new no_solution_1 = .ok s0 ∧
      ((s0.SetStrategy .kSimple).SolveSle []).completion = .raised singularError ∧
      ((s0.SetStrategy .kSimple).SolveSle []).state.matrix_ =
        [[1, 1, 1, 2], [0, 1, -3, 1], [0, 0, 0, -3]] ∧
      ((s0.SetStrategy .kSimple).SolveSle []).state.matrix_ ≠ no_solution_1 :=
  ⟨_, rfl, by decide!, by decide!, by decide!⟩

/-- C10: when `SolveSle` raises the singular-system error, the result afterwards is the vector
of `n + 1` entries all equal to `1`, whatever the result held before the call. -/
theorem C10_result_reset_on_singular (s : GaussStorage) (n : Nat)
    (hlen : s.result_.length = n + 1) (sched : List Nat)
    (hraise : (s.SolveSle sched).completion = .raised (.runtime_error "matrix is singular")) :
    (s.SolveSle sched).state.GetResult = List.replicate (n + 1) 1 := by
  have hmap : s.result_.map (fun _ => (1 : ℚ)) = List.replicate (n + 1) 1 := by
    rw [← hlen]
    exact List.map_const' s.result_ 1
  unfold GaussStorage.SolveSle at hraise ⊢
  cases hg : s.gauss_ with
  | none =>
    rw [hg] at hraise
    simp at hraise
  | some g =>
    rw [hg] at hraise
    cases g with
    | SimpleGauss rows_ cols_ =>
      simp only [GaussStorage.ResetResult, SimpleGauss_SolveSle_eq, hmap,
        GaussStorage.GetResult] at hraise ⊢
      split_ifs at hraise ⊢ with hc
      rfl
    | ParallelGauss rows_ cols_ th =>
      simp only [GaussStorage.ResetResult, ParallelGauss.SolveSle] at hraise
      split_ifs at hraise

end s21

namespace s21

/-- Witness of C5: the system of `TEST(gauss, no_solution_1)`. -/
theorem C5_singular_system_raises_witness :
    ((GaussStorage.SetStrategy ⟨no_solution_1, [1, 1, 1, 1], none, 1⟩ .kSimple).SolveSle
      []).completion = .raised (.runtime_error "matrix is singular") :=
  C5_singular_system_raises no_solution_1 3 (by decide) (by decide)
    (by
      rw [Matrix.det_fin_three]
      simp [coefficientMatrix, no_solution_1, cell, getRow]
      norm_num)
    ⟨no_solution_1, [1, 1, 1, 1], none, 1⟩ rfl []

/-- Witness of C7: the system of `TEST(gauss, solving_1)` under the parallel solver. -/
theorem C7_result_length_and_sentinel_witness :
    ((GaussStorage.SetStrategy ⟨solving_1, [1, 1, 1, 1], none, 1⟩ .kParallel).SolveSle
      [0, 1, 2]).state.GetResult.length = 3 + 1 ∧
    ((GaussStorage.SetStrategy ⟨solving_1, [1, 1, 1, 1], none, 1⟩ .kParallel).SolveSle
      [0, 1, 2]).state.GetResult.getD 3 0 = 1 ∧
    ∀ (U : m_dbl_type) (out : row_type), 3 ≤ out.length → ∀ a, 3 ≤ a →
      (SimpleGauss.BackPropagation 3 U out).getD a 0 = out.getD a 0 :=
  C7_result_length_and_sentinel solving_1 3 (by decide) (by decide)
    ⟨solving_1, [1, 1, 1, 1], none, 1⟩ rfl .kParallel [0, 1, 2] (by decide!)

/-- Witness of C8: the system of `TEST(gauss, solving_1)`. -/
theorem C8_matrix_restored_on_success_witness :
    ((GaussStorage.SetStrategy ⟨solving_1, [1, 1, 1, 1], none, 1⟩ .kSimple).SolveSle
      []).state.matrix_ = solving_1 :=
  C8_matrix_restored_on_success solving_1 3 (by decide) (by decide)
    ⟨solving_1, [1, 1, 1, 1], none, 1⟩ rfl .kSimple [] (by decide!)

/-- Witness of C10: the system of `TEST(gauss, no_solution_1)` in a session whose result held
`[5, 6, 7, 8]` before the call. -/
theorem C10_result_reset_on_singular_witness :
    (GaussStorage.SolveSle ⟨no_solution_1, [5, 6, 7, 8], some (.SimpleGauss 3 4), 1⟩
      []).state.GetResult = List.replicate (3 + 1) 1 :=
  C10_result_reset_on_singular ⟨no_solution_1, [5, 6, 7, 8], some (.SimpleGauss 3 4), 1⟩ 3
    rfl [] (by decide!)

end s21

namespace s21

/-! ## Construction checks of `GaussStorage` -/

theorem CheckMatrixCorrectness_true_iff (M : m_dbl_type) :
    Storage.CheckMatrixCorrectness M = true ↔
      ∃ r c, 0 < r ∧ 0 < c ∧ IsMatrix M r c := by
  constructor
  · intro h
    cases M with
    | nil => simp [Storage.CheckMatrixCorrectness] at h
    | cons row0 rest =>
      have h0 : getRow (row0 :: rest) 0 = row0 := rfl
      simp only [Storage.CheckMatrixCorrectness, List.isEmpty_cons, Bool.false_eq_true,
        if_false, h0] at h
      by_cases hz : row0.length = 0
      · rw [if_pos hz] at h
        exact absurd h (by decide)
      · rw [if_neg hz, List.all_eq_true] at h
        refine ⟨(row0 :: rest).length, row0.length, by simp, by omega, rfl, ?_⟩
        intro row hrow
        simpa using h row hrow
  · rintro ⟨r, c, hr, hc, hM⟩
    exact CheckMatrixCorrectness_of_isMatrix hM hr hc

theorem CheckSleSizeCorrectness_cons (row0 : row_type) (rest : m_dbl_type) :
    ∃ b, Storage.CheckSleSizeCorrectness (row0 :: rest) = .ok b ∧
      (b = true ↔ ∃ n, 0 < n ∧ IsMatrix (row0 :: rest) n (n + 1)) := by
  unfold Storage.CheckSleSizeCorrectness
  by_cases hsz : (row0 :: rest).length ≠ Storage.size_sub row0.length 1
  · refine ⟨false, by simp only [if_pos hsz], ?_⟩
    constructor
    · intro h
      exact absurd h (by decide)
    · rintro ⟨n, hn, hM⟩
      exfalso
      apply hsz
      have hr : row0.length = n + 1 := hM.2 row0 (List.mem_cons_self _ _)
      rw [hM.1, hr, Storage.size_sub, if_pos (by omega)]
      omega
  · refine ⟨Storage.CheckMatrixCorrectness (row0 :: rest), by simp only [if_neg hsz], ?_⟩
    have hsz2 : (row0 :: rest).length = Storage.size_sub row0.length 1 := by
      by_contra hne
      exact hsz hne
    rw [CheckMatrixCorrectness_true_iff]
    constructor
    · rintro ⟨r, c, hr, hc, hM⟩
      have hrow : row0.length = c := hM.2 row0 (List.mem_cons_self _ _)
      have hlen : (row0 :: rest).length = r := hM.1
      rw [hlen, hrow, Storage.size_sub, if_pos (by omega)] at hsz2
      have hc2 : c = r + 1 := by omega
      subst hc2
      exact ⟨r, hr, hM⟩
    · rintro ⟨n, hn, hM⟩
      exact ⟨n, n + 1, hn, Nat.succ_pos n, hM⟩

theorem GaussStorage_new_ok_iff (M : m_dbl_type) :
    (∃ s, GaussStorage.new M = .ok s) ↔ ∃ n, 0 < n ∧ IsMatrix M n (n + 1) := by
  constructor
  · rintro ⟨s, hs⟩
    cases M with
    | nil => simp [GaussStorage.new, Storage.CheckSleSizeCorrectness] at hs
    | cons row0 rest =>
      obtain ⟨b, hb, hiff⟩ := CheckSleSizeCorrectness_cons row0 rest
      unfold GaussStorage.new at hs
      rw [hb] at hs
      cases b with
      | false => simp at hs
      | true => exact hiff.mp rfl
  · rintro ⟨n, hn, hM⟩
    exact ⟨_, GaussStorage_new_ok hn hM⟩

/-- C19: constructing a `GaussStorage` succeeds exactly on the non-empty rectangular matrices
with `rows == cols - 1`, that is the `n x (n+1)` matrices with `n >= 1`, and raises on every
other list of rows; the empty matrix, every square matrix and every matrix with fewer rows
than `cols - 1` are rejected. -/
theorem C19_gauss_storage_shape_check (M : m_dbl_type) :
    ((∃ s, GaussStorage.new M = .ok s) ↔ ∃ n, 0 < n ∧ IsMatrix M n (n + 1)) ∧
    ((∃ e, GaussStorage.new M = .error e) ↔ ¬ ∃ n, 0 < n ∧ IsMatrix M n (n + 1)) ∧
    (M = [] → ∃ e, GaussStorage.new M = .error e) ∧
    (∀ r c, IsMatrix M r c → r = c → ∃ e, GaussStorage.new M = .error e) ∧
    (∀ r c, IsMatrix M r c → r + 1 < c → ∃ e, GaussStorage.new M = .error e) := by
  have hiff := GaussStorage_new_ok_iff M
  have herr : (∃ e, GaussStorage.new M = .error e) ↔ ¬ ∃ s, GaussStorage.new M = .ok s := by
    cases h : GaussStorage.new M with
    | error e => simp
    | ok s => simp
  have hrej : ∀ r c, IsMatrix M r c → r ≠ c - 1 ∨ c = 0 → ∃ e, GaussStorage.new M = .error e := by
    intro r c hM hrc
    rw [herr, hiff]
    rintro ⟨n, hn, hMn⟩
    have h1 : r = n := by rw [← hM.1, hMn.1]
    subst h1
    have hrow := getRow_mem M 0 (by rw [hM.1]; exact hn)
    have h2 := hM.2 _ hrow
    have h3 := hMn.2 _ hrow
    omega
  refine ⟨hiff, ?_, ?_, ?_, ?_⟩
  · rw [herr, hiff]
  · intro h
    subst h
    exact ⟨.out_of_range, rfl⟩
  · intro r c hM hrc
    by_cases hc : c = 0
    · exact hrej r c hM (Or.inr hc)
    · exact hrej r c hM (Or.inl (by omega))
  · intro r c hM hrc
    exact hrej r c hM (Or.inl (by omega))

/-- C20, evaluated: on the empty matrix `CheckSleSizeCorrectness` raises the
`std::out_of_range` of `matrix.at(0)` instead of returning `false`; on every matrix with at
least one row it returns a boolean, `true` exactly for the `n x (n+1)` matrices with
`n >= 1`. -/
theorem C20_empty_matrix_raises :
    Storage.CheckSleSizeCorrectness [] = .error .out_of_range ∧
    ∀ (row0 : row_type) (rest : m_dbl_type),
      ∃ b, Storage.CheckSleSizeCorrectness (row0 :: rest) = .ok b ∧
        (b = true ↔ ∃ n, 0 < n ∧ IsMatrix (row0 :: rest) n (n + 1)) :=
  ⟨rfl, CheckSleSizeCorrectness_cons⟩

/-! ## Thread counts -/

/-- C18, evaluated: `SetThreadCount(0)` is accepted by both storages and stored; every
`t <= 6` is accepted and every `t > 6` is rejected with the stored count unchanged. With the
count `0`, `Multiply` under `kParallel` divides by zero. -/
theorem C18_zero_thread_count_accepted (v : VinogradStorage) (g : GaussStorage) :
    (v.SetThreadCount 0).completion = .normal ∧ (v.SetThreadCount 0).state.th_count_ = 0 ∧
    (g.SetThreadCount 0).completion = .normal ∧ (g.SetThreadCount 0).state.th_count_ = 0 ∧
    (∀ t, t ≤ 6 → (v.SetThreadCount t).completion = .normal ∧
      (v.SetThreadCount t).state.th_count_ = t ∧
      (g.SetThreadCount t).completion = .normal ∧ (g.SetThreadCount t).state.th_count_ = t) ∧
    (∀ t, 6 < t → (v.SetThreadCount t).completion = .raised (.c_string "") ∧
      (v.SetThreadCount t).state.th_count_ = v.th_count_ ∧
      (g.SetThreadCount t).completion = .raised (.c_string "") ∧
      (g.SetThreadCount t).state.th_count_ = g.th_count_) ∧
    ∃ s0, VinogradStorage.new [[3]] [[4]] = .ok s0 ∧
      (((s0.SetThreadCount 0).state.SetStrategy .kParallel).state.Multiply []).completion =
        .aborted := by
  refine ⟨rfl, rfl, rfl, rfl, ?_, ?_, _, rfl, by decide!⟩
  · intro t ht
    have : ¬ t > 6 := by omega
    simp [VinogradStorage.SetThreadCount, GaussStorage.SetThreadCount, this]
  · intro t ht
    simp [VinogradStorage.SetThreadCount, GaussStorage.SetThreadCount, ht]

end s21

namespace s21

/-! ## Repeated calls of `GaussStorage::SolveSle` -/

theorem map_one_eq_replicate (l : row_type) (k : Nat) (h : l.length = k) :
    l.map (fun _ => (1 : ℚ)) = List.replicate k 1 := by
  rw [← h]
  exact List.map_const' l 1

/-- With a solver selected, `SolveSle` looks at the stored result only through its length. -/
theorem SolveSle_result_irrelevant (M : m_dbl_type) (g : Gauss) (th k : Nat)
    (r1 r2 : row_type) (h1 : r1.length = k) (h2 : r2.length = k) (sched : List Nat) :
    GaussStorage.SolveSle ⟨M, r1, some g, th⟩ sched =
      GaussStorage.SolveSle ⟨M, r2, some g, th⟩ sched := by
  simp only [GaussStorage.SolveSle, GaussStorage.ResetResult, map_one_eq_replicate r1 k h1,
    map_one_eq_replicate r2 k h2]

/-- After a call that returned normally the session is the one before the call, up to the
contents of the result vector. -/
theorem SolveSle_normal_state (M : m_dbl_type) (g : Gauss) (th : Nat) (r : row_type)
    (sched : List Nat) (rows_ : Nat) (hr : rows_ ≤ r.length)
    (hg : g = .SimpleGauss rows_ (rows_ + 1) ∨ ∃ t, g = .ParallelGauss rows_ (rows_ + 1) t)
    (hok : (GaussStorage.SolveSle ⟨M, r, some g, th⟩ sched).completion = .normal) :
    ∃ r2, (GaussStorage.SolveSle ⟨M, r, some g, th⟩ sched).state = ⟨M, r2, some g, th⟩ ∧
      r2.length = r.length := by
  rcases hg with hg | ⟨t, hg⟩
  · subst hg
    simp only [GaussStorage.SolveSle, GaussStorage.ResetResult, SimpleGauss_SolveSle_eq]
      at hok ⊢
    split_ifs at hok ⊢ with hc
    refine ⟨_, rfl, ?_⟩
    rw [(BackPropagation_spec rows_ _ _ (by simpa using hr)).1]
    simp
  · subst hg
    simp only [GaussStorage.SolveSle, GaussStorage.ResetResult, ParallelGauss.SolveSle]
      at hok ⊢
    split_ifs at hok ⊢ with hc
    refine ⟨_, rfl, ?_⟩
    rw [(BackPropagation_spec rows_ _ _ (by simpa using hr)).1]
    simp

/-- When `SolveSle` succeeds on a session, a second call on the same session, with the same
strategy and no reconstruction, succeeds again and `GetResult` is identical, under `kSimple`
always and under `kParallel` when the elimination tasks of both calls run in the same
order. -/
theorem second_solve_same_order (M : m_dbl_type) (n : Nat) (hn : 0 < n)
    (hM : IsMatrix M n (n + 1)) (s0 : GaussStorage) (hnew : GaussStorage.new M = .ok s0)
    (mode : MultiMode) (sched1 sched2 : List Nat)
    (hsame : mode = .kSimple ∨ sched1 = sched2)
    (hok : ((s0.SetStrategy mode).SolveSle sched1).completion = .normal) :
    (((s0.SetStrategy mode).SolveSle sched1).state.SolveSle sched2).completion = .normal ∧
    (((s0.SetStrategy mode).SolveSle sched1).state.SolveSle sched2).state.GetResult =
      ((s0.SetStrategy mode).SolveSle sched1).state.GetResult := by
  rw [GaussStorage_new_ok hn hM] at hnew
  injection hnew with hnew
  subst hnew
  have h0 : (getRow M 0).length = n + 1 := getRow_length_of_isMatrix hM 0 hn
  have key : ∀ (g : Gauss),
      (g = .SimpleGauss n (n + 1) ∨ ∃ t, g = .ParallelGauss n (n + 1) t) →
      (g = .SimpleGauss n (n + 1) ∨ sched1 = sched2) →
      (GaussStorage.SolveSle ⟨M, List.replicate (n + 1) 1, some g, 1⟩ sched1).completion =
        .normal →
      ((GaussStorage.SolveSle ⟨M, List.replicate (n + 1) 1, some g, 1⟩
        sched1).state.SolveSle sched2) =
        GaussStorage.SolveSle ⟨M, List.replicate (n + 1) 1, some g, 1⟩ sched1 := by
    intro g hg hs hok1
    obtain ⟨r2, hst, hlen⟩ := SolveSle_normal_state M g 1 (List.replicate (n + 1) 1) sched1 n
      (by simp) hg hok1
    rw [hst, SolveSle_result_irrelevant M g 1 (n + 1) r2 (List.replicate (n + 1) 1)
      (by rw [hlen]; simp) (by simp) sched2]
    rcases hs with hs | hs
    · subst hs
      simp only [GaussStorage.SolveSle]
    · rw [hs]
  cases mode with
  | kSimple =>
    have e : GaussStorage.SetStrategy ⟨M, List.replicate (n + 1) 1, none, 1⟩ .kSimple =
        ⟨M, List.replicate (n + 1) 1, some (.SimpleGauss n (n + 1)), 1⟩ := by
      simp only [GaussStorage.SetStrategy, hM.1, h0]
    rw [e] at hok ⊢
    rw [key _ (Or.inl rfl) (Or.inl rfl) hok]
    exact ⟨hok, rfl⟩
  | kParallel =>
    have e : GaussStorage.SetStrategy ⟨M, List.replicate (n + 1) 1, none, 1⟩ .kParallel =
        ⟨M, List.replicate (n + 1) 1, some (.ParallelGauss n (n + 1) 1), 1⟩ := by
      simp only [GaussStorage.SetStrategy, hM.1, h0]
    rw [e] at hok ⊢
    have hs : sched1 = sched2 := by
      rcases hsame with h | h
      · exact absurd h (by decide)
      · exact h
    rw [key _ (Or.inr ⟨1, rfl⟩) (Or.inr hs) hok]
    exact ⟨hok, rfl⟩
  | kPipe => exact absurd hok (by simp [GaussStorage.SetStrategy, GaussStorage.SolveSle])
  | kEnd => exact absurd hok (by simp [GaussStorage.SetStrategy, GaussStorage.SolveSle])

/-- C11, evaluated on the system of `TEST(gauss, solving_1)` under `kParallel`: the first
`SolveSle`, its elimination tasks in creation order, returns normally with `[14, -8, -5, 1]`;
the second call on the same session, where the task of pivot 1 runs before the task of pivot
0, returns normally too and leaves `[-4, 4, 1, 1]`. At the end of that second elimination
the matrix is `[[3,3,3,3],[0,2,-4,4],[0,-2,5,5]]`: no pivot is zero, the entry `[2][1]` is
not cleared. Binary64 arithmetic gives the same two vectors. Under `kSimple` the second call
repeats the first. -/
theorem C11_second_solve_other_result :
    ∃ s0, GaussStorage.new solving_1 = .ok s0 ∧
      ((s0.SetStrategy .kParallel).SolveSle [0, 1, 2]).completion = .normal ∧
      ((s0.SetStrategy .kParallel).SolveSle [0, 1, 2]).state.GetResult = [14, -8, -5, 1] ∧
      (((s0.SetStrategy .kParallel).SolveSle [0, 1, 2]).state.SolveSle
        [1, 0, 2]).completion = .normal ∧
      (((s0.SetStrategy .kParallel).SolveSle [0, 1, 2]).state.SolveSle
        [1, 0, 2]).state.GetResult = [-4, 4, 1, 1] ∧
      [1, 0, 2].foldl (fun m k => SimpleGauss.AdjustEchelon 3 k m)
        (SimpleGauss.LeadToEchelon 3 solving_1) =
          [[3, 3, 3, 3], [0, 2, -4, 4], [0, -2, 5, 5]] ∧
      (Num.ParallelGauss.SolveSle Arith.ieee 3 [0, 1, 2] (Num.ofMatrix Arith.ieee solving_1)
        [.num 1, .num 1, .num 1, .num 1]).state.2 = [.num 14, .num (-8), .num (-5), .num 1] ∧
      (Num.ParallelGauss.SolveSle Arith.ieee 3 [1, 0, 2] (Num.ofMatrix Arith.ieee solving_1)
        [.num 1, .num 1, .num 1, .num 1]).completion = .normal ∧
      (Num.ParallelGauss.SolveSle Arith.ieee 3 [1, 0, 2] (Num.ofMatrix Arith.ieee solving_1)
        [.num 1, .num 1, .num 1, .num 1]).state.2 = [.num (-4), .num 4, .num 1, .num 1] ∧
      (((s0.SetStrategy .kSimple).SolveSle [0, 1, 2]).state.SolveSle
        [1, 0, 2]).state.GetResult = [14, -8, -5, 1] :=
  ⟨⟨solving_1, List.replicate 4 1, none, 1⟩, rfl, by decide!, by decide!, by decide!,
    by decide!, by decide!, by decide!, by decide!, by decide!, by decide!⟩

end s21

namespace s21

/-! ## Repeated calls of `VinogradStorage::Multiply` -/

theorem withFactors_ready (A B : m_dbl_type) (v : SimpleVinograd) (m n p : Nat)
    (h : HasDims v m n p) : FactorsReady A B (withFactors A B v) m n p := by
  obtain ⟨h1, h2, h3, h4, h5⟩ := h
  have hrl := (ComputeRowFactor_spec A v).1
  have hcl := (ComputeColFactor_spec B (SimpleVinograd.ComputeRowFactor A v)).1
  refine ⟨⟨h1, h2, h3, ?_, ?_⟩, ?_, ?_⟩
  · show (SimpleVinograd.ComputeRowFactor A v).row_factor_.length = m
    rw [hrl, h4]
  · show (SimpleVinograd.ComputeColFactor B (SimpleVinograd.ComputeRowFactor A v)).col_factor_.length = p
    rw [hcl]
    exact h5
  · intro i hi
    rw [withFactors_row A B v i (by omega) (by omega), h2]
  · intro c hc
    rw [withFactors_col A B v c (by omega) (by omega), h2]

/-- A matrix of the right shape whose cells are the final values of Vinograd's method, for an
object whose factor vectors are ready, is the naive product. -/
theorem eq_naiveProduct_of_ready {A B : m_dbl_type} {m n p : Nat} (v : SimpleVinograd)
    (hv : FactorsReady A B v m n p) (r : m_dbl_type)
    (hl : r.length = m) (hr : ∀ a, a < m → (getRow r a).length = p)
    (hc : ∀ a b, a < m → b < p → cell r a b = finalVal A B v a b) :
    r = naiveProduct A B m n p := by
  obtain ⟨⟨_, h2, _, _, _⟩, hrow, hcol⟩ := hv
  apply matrix_ext
  · rw [hl, naiveProduct_length]
  · intro a ha
    rw [hl] at ha
    rw [hr a ha, naiveProduct_getRow _ _ _ _ _ _ ha]
    simp
  · intro a b ha hb
    rw [hl] at ha
    rw [hr a ha] at hb
    rw [hc a b ha hb, naiveProduct_cell _ _ _ _ _ _ _ ha hb,
      finalVal_eq_naive A B v a b (by rw [hrow a ha, h2]) (by rw [hcol b hb, h2]), h2]

theorem rowsPass_ready {A B : m_dbl_type} {m n p : Nat} (v : SimpleVinograd)
    (hv : FactorsReady A B v m n p) (R : m_dbl_type) (hR : IsMatrix R m p) :
    rowsPass A B v 0 m R = naiveProduct A B m n p := by
  obtain ⟨pl, pr, pc⟩ := rowsPass_spec A B v 0 m R
  have hp : v.s_cols_ = p := hv.1.2.2.1
  apply eq_naiveProduct_of_ready v hv
  · rw [pl, hR.1]
  · intro a ha
    rw [pr, getRow_length_of_isMatrix hR a ha]
  · intro a b ha hb
    rw [pc, if_pos]
    exact ⟨Nat.zero_le a, ha, by rw [hp]; exact hb, by rw [hR.1]; exact ha,
      by rw [getRow_length_of_isMatrix hR a ha]; exact hb⟩

theorem workers_ready {A B : m_dbl_type} {m n p : Nat} (v : SimpleVinograd)
    (hv : FactorsReady A B v m n p) (t : Nat) (ht : 0 < t) (sched : List Nat)
    (hs : sched.Perm (List.range t)) (R : m_dbl_type) (hR : IsMatrix R m p) :
    sched.foldl (fun st w =>
        ParallelVinograd.MultiplyPartial A B
          ((ParallelVinograd.ranges m t).getD w (0, 0)).1
          ((ParallelVinograd.ranges m t).getD w (0, 0)).2 st)
        (⟨v, t, true, true⟩, R) = (⟨v, t, true, true⟩, naiveProduct A B m n p) := by
  obtain ⟨r2, h1, h2, h3, h4, _⟩ := workers_later A B v t
    (fun w => (ParallelVinograd.ranges m t).getD w (0, 0)) sched R
  have hp : v.s_cols_ = p := hv.1.2.2.1
  rw [h1]
  congr 1
  apply eq_naiveProduct_of_ready v hv
  · rw [h2, hR.1]
  · intro a ha
    rw [h3, getRow_length_of_isMatrix hR a ha]
  · intro a b ha hb
    obtain ⟨w3, hw3, hc1, hc2⟩ := workerRange_cover m t a ht ha
    have hmem : w3 ∈ sched := (hs.mem_iff).mpr (List.mem_range.mpr hw3)
    rw [← ranges_getD m t w3 hw3] at hc1 hc2
    exact h4 a b ⟨w3, hmem, hc1, hc2⟩ (by rw [hp]; exact hb) (by rw [hR.1]; exact ha)
      (by rw [getRow_length_of_isMatrix hR a ha]; exact hb)

theorem workers_fresh (A B : m_dbl_type) {m n p : Nat} (v : SimpleVinograd)
    (hv : HasDims v m n p) (t : Nat) (ht : 0 < t) (sched : List Nat)
    (hs : sched.Perm (List.range t)) (R : m_dbl_type) (hR : IsMatrix R m p) :
    sched.foldl (fun st w =>
        ParallelVinograd.MultiplyPartial A B
          ((ParallelVinograd.ranges m t).getD w (0, 0)).1
          ((ParallelVinograd.ranges m t).getD w (0, 0)).2 st)
        (⟨v, t, false, false⟩, R) =
      (⟨withFactors A B v, t, true, true⟩, naiveProduct A B m n p) := by
  have hready := withFactors_ready A B v m n p hv
  have hp : (withFactors A B v).s_cols_ = p := hready.1.2.2.1
  cases sched with
  | nil =>
    have := hs.length_eq
    simp at this
    omega
  | cons w L =>
    rw [List.foldl_cons, MultiplyPartial_first]
    obtain ⟨pl, pr, pc⟩ := rowsPass_spec A B (withFactors A B v)
      ((ParallelVinograd.ranges m t).getD w (0, 0)).1
      ((ParallelVinograd.ranges m t).getD w (0, 0)).2 R
    obtain ⟨r2, h1, h2, h3, h4, h4n⟩ := workers_later A B (withFactors A B v) t
      (fun w => (ParallelVinograd.ranges m t).getD w (0, 0)) L
      (rowsPass A B (withFactors A B v)
        ((ParallelVinograd.ranges m t).getD w (0, 0)).1
        ((ParallelVinograd.ranges m t).getD w (0, 0)).2 R)
    rw [h1]
    congr 1
    apply eq_naiveProduct_of_ready _ hready
    · rw [h2, pl, hR.1]
    · intro a ha
      rw [h3, pr, getRow_length_of_isMatrix hR a ha]
    · intro a b ha hb
      have hrow := getRow_length_of_isMatrix hR a ha
      by_cases hin : ∃ w2 ∈ L, ((ParallelVinograd.ranges m t).getD w2 (0, 0)).1 ≤ a ∧
          a < ((ParallelVinograd.ranges m t).getD w2 (0, 0)).2
      · exact h4 a b hin (by rw [hp]; exact hb) (by rw [pl, hR.1]; exact ha)
          (by rw [pr, hrow]; exact hb)
      · rw [h4n a b hin, pc a b, if_pos]
        obtain ⟨w3, hw3, hc1, hc2⟩ := workerRange_cover m t a ht ha
        have hmem : w3 ∈ w :: L := (hs.mem_iff).mpr (List.mem_range.mpr hw3)
        rw [← ranges_getD m t w3 hw3] at hc1 hc2
        rcases List.mem_cons.mp hmem with e | e
        · subst e
          exact ⟨hc1, hc2, by rw [hp]; exact hb, by rw [hR.1]; exact ha, by rw [hrow]; exact hb⟩
        · exact absurd ⟨w3, e, hc1, hc2⟩ hin

theorem isMatrix_reset {R : m_dbl_type} {m p : Nat} (hR : IsMatrix R m p) :
    IsMatrix (R.map (fun row => row.map (fun _ => (0 : ℚ)))) m p := by
  refine ⟨by rw [List.length_map, hR.1], ?_⟩
  intro row hrow
  obtain ⟨r0, hr0, rfl⟩ := List.mem_map.mp hrow
  rw [List.length_map]
  exact hR.2 r0 hr0

theorem isMatrix_naiveProduct (A B : m_dbl_type) (m n p : Nat) :
    IsMatrix (naiveProduct A B m n p) m p := by
  refine ⟨naiveProduct_length A B m n p, ?_⟩
  intro row hrow
  obtain ⟨a, ha, rfl⟩ := List.getElem_of_mem hrow
  have ha2 : a < m := by rw [naiveProduct_length] at ha; exact ha
  have e : getRow (naiveProduct A B m n p) a = (naiveProduct A B m n p)[a] :=
    List.getD_eq_getElem _ _ ha
  rw [← e, naiveProduct_getRow _ _ _ _ _ _ ha2]
  simp

/-- One `Multiply` call on a ready session returns normally, leaves the naive product in the
result buffer and the session ready. -/
theorem Multiply_ready {A B : m_dbl_type} {m n p : Nat} (mode : MultiMode) (t : Nat)
    (ht : 0 < t) (s : VinogradStorage) (hs : SessionReady A B m n p mode t s)
    (sched : List Nat) (hv : ValidSchedule mode t sched) :
    (s.Multiply sched).completion = .normal ∧
    (s.Multiply sched).state.result_ = naiveProduct A B m n p ∧
    SessionReady A B m n p mode t (s.Multiply sched).state := by
  obtain ⟨hA, hB, hR, hobj⟩ := hs
  have hZ := isMatrix_reset hR
  have hN := isMatrix_naiveProduct A B m n p
  cases mode with
  | kSimple =>
    obtain ⟨v, hvin, hd⟩ := hobj
    have hready := withFactors_ready A B v m n p hd
    have e : (s.Multiply sched) =
        ⟨⟨A, B, naiveProduct A B m n p, some (.Simple (withFactors A B v)), s.th_count_⟩,
          .normal⟩ := by
      simp only [VinogradStorage.Multiply, hvin, VinogradStorage.ResetResult,
        SimpleVinograd_Multiply_eq, hA, hB, hd.1, rowsPass_ready _ hready _ hZ]
    rw [e]
    exact ⟨rfl, rfl, rfl, rfl, hN, _, rfl, hready.1⟩
  | kPipe =>
    obtain ⟨v, hvin, hd⟩ := hobj
    have hready := withFactors_ready A B v m n p hd
    have e : (s.Multiply sched) =
        ⟨⟨A, B, naiveProduct A B m n p, some (.Pipe (withFactors A B v)), s.th_count_⟩,
          .normal⟩ := by
      simp only [VinogradStorage.Multiply, hvin, VinogradStorage.ResetResult,
        PipeVinograd_Multiply_eq _ _ sched hv,
        SimpleVinograd_Multiply_eq, hA, hB, hd.1, rowsPass_ready _ hready _ hZ]
    rw [e]
    exact ⟨rfl, rfl, rfl, rfl, hN, _, rfl, hready.1⟩
  | kParallel =>
    have ht0 : ¬ t = 0 := by omega
    obtain ⟨v, ⟨hvin, hd⟩ | ⟨hvin, hready⟩⟩ := hobj
    · have hready := withFactors_ready A B v m n p hd
      have hw := workers_fresh A B v hd t ht sched hv _ hZ
      have e : (s.Multiply sched) =
          ⟨⟨A, B, naiveProduct A B m n p,
            some (.Parallel ⟨withFactors A B v, t, true, true⟩), s.th_count_⟩, .normal⟩ := by
        simp only [VinogradStorage.Multiply, hvin, VinogradStorage.ResetResult,
          ParallelVinograd.Multiply, if_neg ht0, hA, hB, hd.1, hw]
      rw [e]
      exact ⟨rfl, rfl, rfl, rfl, hN, _, Or.inr ⟨rfl, hready⟩⟩
    · have hw := workers_ready v hready t ht sched hv _ hZ
      have e : (s.Multiply sched) =
          ⟨⟨A, B, naiveProduct A B m n p,
            some (.Parallel ⟨v, t, true, true⟩), s.th_count_⟩, .normal⟩ := by
        simp only [VinogradStorage.Multiply, hvin, VinogradStorage.ResetResult,
          ParallelVinograd.Multiply, if_neg ht0, hA, hB, hready.1.1, hw]
      rw [e]
      exact ⟨rfl, rfl, rfl, rfl, hN, _, Or.inr ⟨rfl, hready⟩⟩
  | kEnd => exact absurd hobj id

theorem ComputeVinograd_ready {A B : m_dbl_type} {m n p : Nat} (mode : MultiMode) (t : Nat)
    (ht : 0 < t) (scheds : List (List Nat)) (hne : scheds ≠ [])
    (hv : ∀ x ∈ scheds, ValidSchedule mode t x) (s : VinogradStorage)
    (hs : SessionReady A B m n p mode t s) :
    (Controller.ComputeVinograd s scheds).completion = .normal ∧
    (Controller.ComputeVinograd s scheds).state.result_ = naiveProduct A B m n p := by
  induction scheds generalizing s with
  | nil => exact absurd rfl hne
  | cons sched rest ih =>
    obtain ⟨h1, h2, h3⟩ := Multiply_ready mode t ht s hs sched
      (hv sched (List.mem_cons_self _ _))
    unfold Controller.ComputeVinograd
    simp only [h1]
    cases rest with
    | nil => exact ⟨rfl, h2⟩
    | cons x xs =>
      exact ih (by simp) (fun y hy => hv y (List.mem_cons_of_mem _ hy)) _ h3

end s21

namespace s21

theorem reset_all_zero (R : m_dbl_type) :
    ∀ row ∈ R.map (fun row => row.map (fun _ => (0 : ℚ))), ∀ x ∈ row, x = 0 := by
  intro row hrow x hx
  obtain ⟨r0, _, rfl⟩ := List.mem_map.mp hrow
  obtain ⟨_, _, rfl⟩ := List.mem_map.mp hx
  rfl

/-- The session after construction, `SetThreadCount(t)` and `SetStrategy(mode)` is ready,
whatever the result buffer holds. -/
theorem session_ready_of_setup {A B : m_dbl_type} {m n p : Nat}
    (hm : 0 < m) (hn : 0 < n) (hp : 0 < p) (hA : IsMatrix A m n) (hB : IsMatrix B n p)
    (t : Nat) (ht6 : t ≤ 6) (mode : MultiMode) (hmode : mode ≠ .kEnd)
    (s0 : VinogradStorage) (hnew : VinogradStorage.new A B = .ok s0)
    (R : m_dbl_type) (hR : IsMatrix R m p) :
    (s0.SetThreadCount t).completion = .normal ∧
    ((s0.SetThreadCount t).state.SetStrategy mode).completion = .normal ∧
    SessionReady A B m n p mode t
      ⟨((s0.SetThreadCount t).state.SetStrategy mode).state.first_,
        ((s0.SetThreadCount t).state.SetStrategy mode).state.second_, R,
        ((s0.SetThreadCount t).state.SetStrategy mode).state.vinograd_,
        ((s0.SetThreadCount t).state.SetStrategy mode).state.th_count_⟩ := by
  rw [VinogradStorage_new_ok hA hB hm hn hp] at hnew
  injection hnew with hnew
  subst hnew
  have hobj := SimpleVinograd_new_ok hA hB hm hn _ (isMatrix_zero m p)
  have ht6n : ¬ t > 6 := by omega
  have hd : HasDims ⟨m, n, n, p, List.replicate m 0, List.replicate p 0⟩ m n p :=
    ⟨rfl, rfl, rfl, by simp, by simp⟩
  cases mode with
  | kSimple =>
    simp only [VinogradStorage.SetThreadCount, if_neg ht6n, VinogradStorage.SetStrategy, hobj]
    exact ⟨trivial, trivial, rfl, rfl, hR, _, rfl, hd⟩
  | kParallel =>
    simp only [VinogradStorage.SetThreadCount, if_neg ht6n, VinogradStorage.SetStrategy, hobj]
    exact ⟨trivial, trivial, rfl, rfl, hR, _, Or.inl ⟨rfl, hd⟩⟩
  | kPipe =>
    simp only [VinogradStorage.SetThreadCount, if_neg ht6n, VinogradStorage.SetStrategy, hobj]
    exact ⟨trivial, trivial, rfl, rfl, hR, _, rfl, hd⟩
  | kEnd => exact absurd rfl hmode

/-- Whatever the session holds, `Multiply` first runs `ResetResult` and then the strategy:
without a strategy it raises and changes nothing, and with one the result it leaves is what
the strategy computes on the buffer that `ResetResult` has filled with zeros. -/
theorem Multiply_resets_first (s : VinogradStorage) (sched : List Nat) :
    (s.vinograd_ = none →
      (s.Multiply sched).completion = .raised (.c_string "") ∧
      (s.Multiply sched).state.result_ = s.result_) ∧
    (∀ v, s.vinograd_ = some (.Simple v) →
      (s.Multiply sched).state.result_ =
        (SimpleVinograd.Multiply s.first_ s.second_ v s.ResetResult.result_).2) ∧
    (∀ q, s.vinograd_ = some (.Parallel q) →
      (s.Multiply sched).state.result_ =
        (ParallelVinograd.Multiply s.first_ s.second_ sched q s.ResetResult.result_).state.2 ∧
      (s.Multiply sched).completion =
        (ParallelVinograd.Multiply s.first_ s.second_ sched q
          s.ResetResult.result_).completion) ∧
    (∀ v, s.vinograd_ = some (.Pipe v) →
      (s.Multiply sched).state.result_ =
        (PipeVinograd.Multiply s.first_ s.second_ sched v s.ResetResult.result_).2) := by
  refine ⟨fun h => ?_, fun v h => ?_, fun q h => ?_, fun v h => ?_⟩
  · simp only [VinogradStorage.Multiply, h]
    exact ⟨trivial, trivial⟩
  · simp only [VinogradStorage.Multiply, h]
    rfl
  · simp only [VinogradStorage.Multiply, h]
    exact ⟨rfl, rfl⟩
  · simp only [VinogradStorage.Multiply, h]
    rfl

theorem reset_of_isMatrix (R : m_dbl_type) (m p : Nat) (hR : IsMatrix R m p) :
    R.map (fun row => row.map (fun _ => (0 : ℚ))) = List.replicate m (List.replicate p 0) := by
  apply List.ext_getElem
  · simp [hR.1]
  · intro a h1 h2
    have ha : a < R.length := by simpa using h1
    rw [List.getElem_map, List.getElem_replicate]
    have hlen : R[a].length = p := hR.2 _ (List.getElem_mem ha)
    rw [← hlen]
    exact List.map_const' R[a] 0

/-- C12: `Multiply` runs `ResetResult` before the strategy, in every state of the session:
the strategy receives the result buffer with every cell set to zero (on a session over an
`m x n` and an `n x p` matrix, the `m x p` matrix of zeros), and the result that `Multiply`
leaves is the one the strategy computes on that buffer. For every compatible pair, every
strategy (with `1 <= t <= 6` threads) and every contents `R` of the result buffer, `k >= 1`
consecutive `Multiply` calls all return normally and leave the result of a single call on the
fresh session. -/
theorem C12_repeated_multiply_same_result (A B : m_dbl_type) (m n p : Nat)
    (hm : 0 < m) (hn : 0 < n) (hp : 0 < p) (hA : IsMatrix A m n) (hB : IsMatrix B n p)
    (t : Nat) (ht1 : 1 ≤ t) (ht6 : t ≤ 6) (mode : MultiMode) (hmode : mode ≠ .kEnd)
    (s0 : VinogradStorage) (hnew : VinogradStorage.new A B = .ok s0)
    (R : m_dbl_type) (hR : IsMatrix R m p)
    (scheds : List (List Nat)) (hne : scheds ≠ [])
    (hv : ∀ x ∈ scheds, ValidSchedule mode t x)
    (sched1 : List Nat) (hv1 : ValidSchedule mode t sched1) :
    (∀ row ∈ (VinogradStorage.ResetResult
        ⟨((s0.SetThreadCount t).state.SetStrategy mode).state.first_,
          ((s0.SetThreadCount t).state.SetStrategy mode).state.second_, R,
          ((s0.SetThreadCount t).state.SetStrategy mode).state.vinograd_,
          ((s0.SetThreadCount t).state.SetStrategy mode).state.th_count_⟩).result_,
      ∀ x ∈ row, x = 0) ∧
    (VinogradStorage.ResetResult
        ⟨((s0.SetThreadCount t).state.SetStrategy mode).state.first_,
          ((s0.SetThreadCount t).state.SetStrategy mode).state.second_, R,
          ((s0.SetThreadCount t).state.SetStrategy mode).state.vinograd_,
          ((s0.SetThreadCount t).state.SetStrategy mode).state.th_count_⟩).result_ =
      List.replicate m (List.replicate p 0) ∧
    (∀ (s : VinogradStorage) (sched : List Nat),
      (∀ row ∈ s.ResetResult.result_, ∀ x ∈ row, x = 0) ∧
      (s.vinograd_ = none →
        (s.Multiply sched).completion = .raised (.c_string "") ∧
        (s.Multiply sched).state.result_ = s.result_) ∧
      (∀ v, s.vinograd_ = some (.Simple v) →
        (s.Multiply sched).state.result_ =
          (SimpleVinograd.Multiply s.first_ s.second_ v s.ResetResult.result_).2) ∧
      (∀ q, s.vinograd_ = some (.Parallel q) →
        (s.Multiply sched).state.result_ =
          (ParallelVinograd.Multiply s.first_ s.second_ sched q
            s.ResetResult.result_).state.2 ∧
        (s.Multiply sched).completion =
          (ParallelVinograd.Multiply s.first_ s.second_ sched q
            s.ResetResult.result_).completion) ∧
      (∀ v, s.vinograd_ = some (.Pipe v) →
        (s.Multiply sched).state.result_ =
          (PipeVinograd.Multiply s.first_ s.second_ sched v s.ResetResult.result_).2)) ∧
    (Controller.ComputeVinograd
      ⟨((s0.SetThreadCount t).state.SetStrategy mode).state.first_,
        ((s0.SetThreadCount t).state.SetStrategy mode).state.second_, R,
        ((s0.SetThreadCount t).state.SetStrategy mode).state.vinograd_,
        ((s0.SetThreadCount t).state.SetStrategy mode).state.th_count_⟩
      scheds).completion = .normal ∧
    (Controller.ComputeVinograd
      ⟨((s0.SetThreadCount t).state.SetStrategy mode).state.first_,
        ((s0.SetThreadCount t).state.SetStrategy mode).state.second_, R,
        ((s0.SetThreadCount t).state.SetStrategy mode).state.vinograd_,
        ((s0.SetThreadCount t).state.SetStrategy mode).state.th_count_⟩
      scheds).state.GetResult =
      (((s0.SetThreadCount t).state.SetStrategy mode).state.Multiply sched1).state.GetResult := by
  obtain ⟨_, _, hready⟩ := session_ready_of_setup hm hn hp hA hB t ht6 mode hmode s0 hnew R hR
  obtain ⟨_, _, hfresh⟩ := session_ready_of_setup hm hn hp hA hB t ht6 mode hmode s0 hnew
    ((s0.SetThreadCount t).state.SetStrategy mode).state.result_
    (by
      rw [VinogradStorage_new_ok hA hB hm hn hp] at hnew
      injection hnew with hnew
      subst hnew
      have hobj := SimpleVinograd_new_ok hA hB hm hn _ (isMatrix_zero m p)
      have ht6n : ¬ t > 6 := by omega
      cases mode <;>
        simp only [VinogradStorage.SetThreadCount, if_neg ht6n, VinogradStorage.SetStrategy,
          hobj] <;> exact isMatrix_zero m p)
  obtain ⟨h1, h2⟩ := ComputeVinograd_ready mode t (by omega) scheds hne hv _ hready
  obtain ⟨_, h3, _⟩ := Multiply_ready mode t (by omega) _ hfresh sched1 hv1
  refine ⟨reset_all_zero R, reset_of_isMatrix R m p hR,
    fun s sched => ⟨reset_all_zero s.result_, Multiply_resets_first s sched⟩, h1, ?_⟩
  rw [VinogradStorage.GetResult, VinogradStorage.GetResult, h2, h3]

/-- Witness of C12: three calls under `kParallel` on a buffer full of nines; and one call of
the simple multiplier on a session whose buffer of nines has a row more than the product (a
state that no constructor produces), where the row that the strategy does not write shows the
zeros of the reset. -/
theorem C12_repeated_multiply_same_result_witness :
    (∀ row ∈ (VinogradStorage.ResetResult
        ⟨[[1, 2, 3], [4, 5, 6]], [[1, 2], [3, 4], [5, 6]], [[9, 9], [9, 9]],
          some (.Parallel ⟨⟨2, 3, 3, 2, [0, 0], [0, 0]⟩, 3, false, false⟩), 3⟩).result_,
      ∀ x ∈ row, x = 0) ∧
    (VinogradStorage.ResetResult
        ⟨[[1, 2, 3], [4, 5, 6]], [[1, 2], [3, 4], [5, 6]], [[9, 9], [9, 9]],
          some (.Parallel ⟨⟨2, 3, 3, 2, [0, 0], [0, 0]⟩, 3, false, false⟩), 3⟩).result_ =
      List.replicate 2 (List.replicate 2 0) ∧
    (VinogradStorage.Multiply
        ⟨[[1, 2, 3], [4, 5, 6]], [[1, 2], [3, 4], [5, 6]], [[9, 9], [9, 9]],
          some (.Parallel ⟨⟨2, 3, 3, 2, [0, 0], [0, 0]⟩, 3, false, false⟩), 3⟩
        [2, 0, 1]).state.result_ =
      (ParallelVinograd.Multiply [[1, 2, 3], [4, 5, 6]] [[1, 2], [3, 4], [5, 6]] [2, 0, 1]
        ⟨⟨2, 3, 3, 2, [0, 0], [0, 0]⟩, 3, false, false⟩ [[0, 0], [0, 0]]).state.2 ∧
    (Controller.ComputeVinograd
      ⟨[[1, 2, 3], [4, 5, 6]], [[1, 2], [3, 4], [5, 6]], [[9, 9], [9, 9]],
        some (.Parallel ⟨⟨2, 3, 3, 2, [0, 0], [0, 0]⟩, 3, false, false⟩), 3⟩
      [[2, 0, 1], [0, 1, 2], [1, 0, 2]]).completion = .normal ∧
    (Controller.ComputeVinograd
      ⟨[[1, 2, 3], [4, 5, 6]], [[1, 2], [3, 4], [5, 6]], [[9, 9], [9, 9]],
        some (.Parallel ⟨⟨2, 3, 3, 2, [0, 0], [0, 0]⟩, 3, false, false⟩), 3⟩
      [[2, 0, 1], [0, 1, 2], [1, 0, 2]]).state.GetResult =
      (VinogradStorage.Multiply
        ⟨[[1, 2, 3], [4, 5, 6]], [[1, 2], [3, 4], [5, 6]], [[0, 0], [0, 0]],
          some (.Parallel ⟨⟨2, 3, 3, 2, [0, 0], [0, 0]⟩, 3, false, false⟩), 3⟩
        [1, 2, 0]).state.GetResult ∧
    (VinogradStorage.Multiply
        ⟨[[1, 2, 3], [4, 5, 6]], [[1, 2], [3, 4], [5, 6]], [[9, 9], [9, 9], [9, 9]],
          some (.Simple ⟨2, 3, 3, 2, [0, 0], [0, 0]⟩), 1⟩ []).state.result_ =
      [[22, 28], [49, 64], [0, 0]] :=
  ⟨(C12_repeated_multiply_same_result [[1, 2, 3], [4, 5, 6]] [[1, 2], [3, 4], [5, 6]] 2 3 2
      (by decide) (by decide) (by decide) (by decide) (by decide) 3 (by decide) (by decide)
      .kParallel (by decide) ⟨[[1, 2, 3], [4, 5, 6]], [[1, 2], [3, 4], [5, 6]],
        [[0, 0], [0, 0]], none, 1⟩ rfl [[9, 9], [9, 9]] (by decide)
      [[2, 0, 1], [0, 1, 2], [1, 0, 2]] (by decide)
      (by
        intro x hx
        simp only [List.mem_cons, List.mem_singleton, List.not_mem_nil, or_false] at hx
        rcases hx with rfl | rfl | rfl <;> show List.Perm _ _ <;> decide)
      [1, 2, 0] (by show List.Perm _ _; decide)).1,
    (C12_repeated_multiply_same_result [[1, 2, 3], [4, 5, 6]] [[1, 2], [3, 4], [5, 6]] 2 3 2
      (by decide) (by decide) (by decide) (by decide) (by decide) 3 (by decide) (by decide)
      .kParallel (by decide) ⟨[[1, 2, 3], [4, 5, 6]], [[1, 2], [3, 4], [5, 6]],
        [[0, 0], [0, 0]], none, 1⟩ rfl [[9, 9], [9, 9]] (by decide)
      [[2, 0, 1], [0, 1, 2], [1, 0, 2]] (by decide)
      (by
        intro x hx
        simp only [List.mem_cons, List.mem_singleton, List.not_mem_nil, or_false] at hx
        rcases hx with rfl | rfl | rfl <;> show List.Perm _ _ <;> decide)
      [1, 2, 0] (by show List.Perm _ _; decide)).2.1,
    ((C12_repeated_multiply_same_result [[1, 2, 3], [4, 5, 6]] [[1, 2], [3, 4], [5, 6]] 2 3 2
      (by decide) (by decide) (by decide) (by decide) (by decide) 3 (by decide) (by decide)
      .kParallel (by decide) ⟨[[1, 2, 3], [4, 5, 6]], [[1, 2], [3, 4], [5, 6]],
        [[0, 0], [0, 0]], none, 1⟩ rfl [[9, 9], [9, 9]] (by decide)
      [[2, 0, 1], [0, 1, 2], [1, 0, 2]] (by decide)
      (by
        intro x hx
        simp only [List.mem_cons, List.mem_singleton, List.not_mem_nil, or_false] at hx
        rcases hx with rfl | rfl | rfl <;> show List.Perm _ _ <;> decide)
      [1, 2, 0] (by show List.Perm _ _; decide)).2.2.1
        ⟨[[1, 2, 3], [4, 5, 6]], [[1, 2], [3, 4], [5, 6]], [[9, 9], [9, 9]],
          some (.Parallel ⟨⟨2, 3, 3, 2, [0, 0], [0, 0]⟩, 3, false, false⟩), 3⟩
        [2, 0, 1]).2.2.2.1 _ rfl |>.1,
    (C12_repeated_multiply_same_result [[1, 2, 3], [4, 5, 6]] [[1, 2], [3, 4], [5, 6]] 2 3 2
      (by decide) (by decide) (by decide) (by decide) (by decide) 3 (by decide) (by decide)
      .kParallel (by decide) ⟨[[1, 2, 3], [4, 5, 6]], [[1, 2], [3, 4], [5, 6]],
        [[0, 0], [0, 0]], none, 1⟩ rfl [[9, 9], [9, 9]] (by decide)
      [[2, 0, 1], [0, 1, 2], [1, 0, 2]] (by decide)
      (by
        intro x hx
        simp only [List.mem_cons, List.mem_singleton, List.not_mem_nil, or_false] at hx
        rcases hx with rfl | rfl | rfl <;> show List.Perm _ _ <;> decide)
      [1, 2, 0] (by show List.Perm _ _; decide)).2.2.2.1,
    (C12_repeated_multiply_same_result [[1, 2, 3], [4, 5, 6]] [[1, 2], [3, 4], [5, 6]] 2 3 2
      (by decide) (by decide) (by decide) (by decide) (by decide) 3 (by decide) (by decide)
      .kParallel (by decide) ⟨[[1, 2, 3], [4, 5, 6]], [[1, 2], [3, 4], [5, 6]],
        [[0, 0], [0, 0]], none, 1⟩ rfl [[9, 9], [9, 9]] (by decide)
      [[2, 0, 1], [0, 1, 2], [1, 0, 2]] (by decide)
      (by
        intro x hx
        simp only [List.mem_cons, List.mem_singleton, List.not_mem_nil, or_false] at hx
        rcases hx with rfl | rfl | rfl <;> show List.Perm _ _ <;> decide)
      [1, 2, 0] (by show List.Perm _ _; decide)).2.2.2.2,
    by decide!⟩

end s21

namespace s21

/-! ## Travelling salesman: one tour -/

theorem SelectNext_spec (W ph : m_dbl_type) (cur : Nat) (visited : List Bool) :
    LinearSolver.SelectNext W ph cur visited = -1 ∨
    ∃ i, i < visited.length ∧ LinearSolver.SelectNext W ph cur visited = (i : Int) ∧
      visited.getD i false = false ∧ 0 < cell W cur i := by
  unfold LinearSolver.SelectNext
  refine forLoop_induct (fun _ (acc : Int × ℚ) => acc.1 = -1 ∨
    ∃ i, i < visited.length ∧ acc.1 = (i : Int) ∧ visited.getD i false = false ∧
      0 < cell W cur i) 0 visited.length _ (-1, 0) (Nat.zero_le _) (Or.inl rfl) ?_
  intro i acc _ hi hacc
  dsimp only
  split_ifs with h1 h2
  · exact Or.inr ⟨i, hi, rfl, h1.1, h1.2⟩
  · exact hacc
  · exact hacc

theorem getD_bool_set (l : List Bool) (i j : Nat) (b : Bool) :
    (l.set i b).getD j false = if i = j ∧ i < l.length then b else l.getD j false := by
  simp only [List.getD_eq_getElem?_getD, List.getElem?_set]
  by_cases h1 : i = j
  · subst h1
    by_cases h2 : i < l.length
    · simp [h2]
    · have : l.length ≤ i := by omega
      simp [h2, List.getElem?_eq_none this]
  · simp [h1]

theorem getD_append_left (l : List Nat) (x i : Nat) (h : i < l.length) :
    (l ++ [x]).getD i 0 = l.getD i 0 := by
  simp only [List.getD_eq_getElem?_getD, List.getElem?_append_left h]

theorem getD_append_last (l : List Nat) (x : Nat) : (l ++ [x]).getD l.length 0 = x := by
  simp [List.getD_eq_getElem?_getD]

theorem IsPath_append (W : m_dbl_type) (l : List Nat) (x : Nat) (hl : 0 < l.length)
    (hp : IsPath W 0 l) (hx : 0 < cell W (l.getD (l.length - 1) 0) x) :
    IsPath W 0 (l ++ [x]) := by
  intro i hi
  simp only [List.length_append, List.length_singleton] at hi
  simp only [Nat.sub_zero]
  by_cases h : i + 1 < l.length
  · rw [getD_append_left l x i (by omega), getD_append_left l x (i + 1) h]
    have := hp i h
    simpa using this
  · have hi2 : i + 1 = l.length := by omega
    rw [getD_append_left l x i (by omega), hi2, getD_append_last]
    have : i = l.length - 1 := by omega
    rw [this]
    exact hx

theorem tourLength_append (W : m_dbl_type) (l : List Nat) (x : Nat) (hl : 0 < l.length) :
    tourLength W 0 (l ++ [x]) = tourLength W 0 l + cell W (l.getD (l.length - 1) 0) x := by
  unfold tourLength
  have e : (l ++ [x]).length - 1 = (l.length - 1) + 1 := by
    simp only [List.length_append, List.length_singleton]
    omega
  rw [e, Finset.sum_range_succ]
  congr 1
  · apply Finset.sum_congr rfl
    intro i hi
    have hi2 := Finset.mem_range.mp hi
    rw [getD_append_left l x i (by omega), getD_append_left l x (i + 1) (by omega)]
  · have e2 : l.length - 1 + 1 = l.length := by omega
    rw [getD_append_left l x (l.length - 1) (by omega), e2, getD_append_last]
    simp only [Nat.sub_zero]

theorem TourInv_step (W ph : m_dbl_type) (n start : Nat) (st : TourState)
    (h : TourInv W n start st) : TourInv W n start (LinearSolver.tourStep W ph st) := by
  unfold LinearSolver.tourStep
  by_cases hs : st.stopped = true
  · rw [if_pos hs]
    exact h
  · rw [if_neg hs]
    obtain ⟨h1, h2, h3, h4, h5, h6, h7, h8⟩ := h
    rcases SelectNext_spec W ph st.current st.visited with hn | ⟨i, hi, hn, hv, hw⟩
    · simp only [hn, if_true]
      exact ⟨h1, h2, h3, h4, h5, h6, h7, h8⟩
    · have hne : ¬ ((i : Int) = -1) := by omega
      simp only [hn, if_neg hne, Int.toNat_ofNat]
      have hin : i ∉ st.ant.ant_result_.vertices_ := by
        intro hmem
        have := ((h6 i).mp hmem).2
        rw [hv] at this
        exact absurd this (by decide)
      refine ⟨by rw [List.length_set, h1], by simp, ?_, ?_, ?_, ?_, ?_, ?_⟩
      · show (st.ant.ant_result_.vertices_ ++ [i]).getD 0 0 = start
        rw [getD_append_left _ _ _ h2, h3]
      · show (st.ant.ant_result_.vertices_ ++ [i]).getD
          ((st.ant.ant_result_.vertices_ ++ [i]).length - 1) 0 = i
        have : (st.ant.ant_result_.vertices_ ++ [i]).length - 1 =
            st.ant.ant_result_.vertices_.length := by simp
        rw [this, getD_append_last]
      · show (st.ant.ant_result_.vertices_ ++ [i]).Nodup
        rw [List.nodup_append]
        refine ⟨h5, List.nodup_singleton i, ?_⟩
        intro a ha hb
        rw [List.mem_singleton] at hb
        subst hb
        exact hin ha
      · intro v
        show v ∈ st.ant.ant_result_.vertices_ ++ [i] ↔
          (v < n ∧ (st.visited.set i true).getD v false = true)
        rw [List.mem_append, List.mem_singleton, getD_bool_set, h6 v, h1]
        rw [h1] at hi
        by_cases hvi : v = i
        · subst hvi
          simp [hi]
        · have : ¬ (i = v ∧ i < n) := fun hh => hvi hh.1.symm
          simp [hvi, this]
      · show IsPath W 0 (st.ant.ant_result_.vertices_ ++ [i])
        exact IsPath_append W _ i h2 h7 (by rw [h4]; exact hw)
      · show st.ant.ant_result_.distance_ + cell W st.current i =
          tourLength W 0 (st.ant.ant_result_.vertices_ ++ [i])
        rw [tourLength_append W _ i h2, h4, h8]

theorem nodup_bounded_length (l : List Nat) (n : Nat) (hd : l.Nodup) (hb : ∀ v ∈ l, v < n) :
    l.length ≤ n := by
  have hsub : l ⊆ List.range n := fun v hv => List.mem_range.mpr (hb v hv)
  have := (List.subperm_of_subset hd hsub).length_le
  simpa using this

theorem nodup_bounded_perm (l : List Nat) (n : Nat) (hd : l.Nodup) (hb : ∀ v ∈ l, v < n)
    (hl : l.length = n) : l.Perm (List.range n) := by
  have hsub : l ⊆ List.range n := fun v hv => List.mem_range.mpr (hb v hv)
  exact (List.subperm_of_subset hd hsub).perm_of_length_le (by simp [hl])

/-- A tour of `n + 1` entries built by `BuildTour` is a closed tour through all vertices, and
its distance is the sum of its edge weights. -/
theorem BuildTour_spec (W ph : m_dbl_type) (n start : Nat) (hn : 1 ≤ n) (hs : start < n)
    (hlen : (LinearSolver.BuildTour W ph start
      (List.replicate n false)).ant_result_.vertices_.length = n + 1) :
    GoodResult W n 0 (LinearSolver.BuildTour W ph start (List.replicate n false)).ant_result_ := by
  have hinit : TourInv W n start
      ⟨⟨⟨[start], 0⟩, 0⟩, (List.replicate n false).set start true, start, false⟩ := by
    refine ⟨by simp, by simp, rfl, rfl, List.nodup_singleton _, ?_, ?_, ?_⟩
    · intro v
      show v ∈ [start] ↔ (v < n ∧ ((List.replicate n false).set start true).getD v false = true)
      rw [List.mem_singleton, getD_bool_set]
      by_cases hv : v = start
      · subst hv
        simp [hs]
      · have : ¬ (start = v ∧ start < (List.replicate n false).length) := fun hh => hv hh.1.symm
        rw [if_neg this]
        have : (List.replicate n false).getD v false = false := by
          simp only [List.getD_eq_getElem?_getD, List.getElem?_replicate]
          split_ifs <;> rfl
        simp [hv, this]
    · intro i hi
      simp at hi
    · show (0 : ℚ) = tourLength W 0 [start]
      simp [tourLength]
  have hloop := forLoop_induct (fun _ st => TourInv W n start st) 1
    ((List.replicate n false).set start true).length
    (fun _ st => LinearSolver.tourStep W ph st)
    ⟨⟨⟨[start], 0⟩, 0⟩, (List.replicate n false).set start true, start, false⟩
    (by simp; omega) hinit (fun i t _ _ ht => TourInv_step W ph n start t ht)
  unfold LinearSolver.BuildTour at hlen ⊢
  simp only at hlen ⊢
  generalize forLoop 1 ((List.replicate n false).set start true).length
    (fun _ st => LinearSolver.tourStep W ph st)
    ⟨⟨⟨[start], 0⟩, 0⟩, (List.replicate n false).set start true, start, false⟩ = st
    at hloop hlen ⊢
  obtain ⟨h1, h2, h3, h4, h5, h6, h7, h8⟩ := hloop
  have hb : ∀ v ∈ st.ant.ant_result_.vertices_, v < n := fun v hv => ((h6 v).mp hv).1
  have hle := nodup_bounded_length _ n h5 hb
  by_cases hc : cell W st.current start > 0
  · rw [if_pos hc] at hlen ⊢
    simp only [List.length_append, List.length_singleton] at hlen
    have hl : st.ant.ant_result_.vertices_.length = n := by omega
    refine ⟨⟨by simp [hl], ?_, ?_, ?_⟩, ?_⟩
    · show (st.ant.ant_result_.vertices_ ++ [start]).getD 0 0 =
        (st.ant.ant_result_.vertices_ ++ [start]).getD n 0
      rw [getD_append_left _ _ _ h2, h3, ← hl, getD_append_last]
    · show ((st.ant.ant_result_.vertices_ ++ [start]).take n).Perm _
      rw [← hl, List.take_left]
      simp only [Nat.add_zero, List.map_id']
      rw [hl]
      exact nodup_bounded_perm _ n h5 hb hl
    · exact IsPath_append W _ start h2 h7 (by rw [h4]; exact hc)
    · show st.ant.ant_result_.distance_ + cell W st.current start =
        tourLength W 0 (st.ant.ant_result_.vertices_ ++ [start])
      rw [tourLength_append W _ start h2, h4, h8]
  · rw [if_neg hc] at hlen
    omega

end s21

namespace s21

/-! ## Travelling salesman: the colony -/

theorem antStep_best (W : m_dbl_type) (n : Nat) (rnd : Nat → Nat) (acc : Colony × List Ant)
    (hW : W.length = n) (hn : 1 ≤ n) (hr : ∀ k, rnd k < n)
    (h : BestInv W n acc.1.best_result_) :
    BestInv W n (LinearSolver.antStep W rnd acc).1.best_result_ := by
  unfold LinearSolver.antStep
  simp only [hW]
  split_ifs with h1 h2
  · exact Or.inr (BuildTour_spec W acc.1.phero_ptr_ n (rnd acc.1.draws) hn (hr _) h1)
  · exact h
  · exact h

theorem SolvePiece_best (W : m_dbl_type) (n : Nat) (rnd : Nat → Nat) (iterations : Nat)
    (c : Colony) (hW : W.length = n) (hn : 1 ≤ n) (hr : ∀ k, rnd k < n)
    (h : BestInv W n c.best_result_) :
    BestInv W n (LinearSolver.SolvePiece W rnd iterations c).best_result_ := by
  unfold LinearSolver.SolvePiece
  refine forLoop_induct (fun _ (c1 : Colony) => BestInv W n c1.best_result_) 0 iterations _ c
    (Nat.zero_le _) h ?_
  intro i c1 _ _ hc1
  exact forLoop_induct (fun _ (acc : Colony × List Ant) => BestInv W n acc.1.best_result_) 0
    GraphAlgorithms.kNumAnts _ (c1, []) (Nat.zero_le _) hc1
    (fun _ acc _ _ hacc => antStep_best W n rnd acc hW hn hr hacc)

theorem LinearSolver_SolveSalesman_best (W : m_dbl_type) (n : Nat) (rnd : Nat → Nat)
    (iterations threads : Nat) (c : Colony) (hW : W.length = n) (hn : 1 ≤ n)
    (hr : ∀ k, rnd k < n) (ht : 1 ≤ threads) (h : BestInv W n c.best_result_) :
    (LinearSolver.SolveSalesman W rnd iterations threads c).completion = .normal ∧
    ∃ r, BestInv W n r ∧
      (LinearSolver.SolveSalesman W rnd iterations threads c).state.best_result_ =
        ⟨r.vertices_.map (fun x => x + 1), r.distance_⟩ := by
  unfold LinearSolver.SolveSalesman
  have hg : ¬ (iterations > threads ∧ threads = 0) := by omega
  rw [if_neg hg]
  refine ⟨rfl, _, ?_, rfl⟩
  exact forLoop_induct (fun _ (c2 : Colony) => BestInv W n c2.best_result_) 0 threads _ c
    (Nat.zero_le _) h (fun _ c2 _ _ hc2 => SolvePiece_best W n rnd _ c2 hW hn hr hc2)

theorem getD_map_succ (l : List Nat) (i : Nat) (h : i < l.length) :
    (l.map (fun x => x + 1)).getD i 0 = l.getD i 0 + 1 := by
  simp [List.getD_eq_getElem?_getD, List.getElem?_eq_getElem h]

/-- Incrementing every vertex of a closed tour numbered from 0 gives the same tour numbered
from 1, of the same length. -/
theorem GoodResult_shift (W : m_dbl_type) (n : Nat) (r : TsmResult) (h : GoodResult W n 0 r) :
    GoodResult W n 1 ⟨r.vertices_.map (fun x => x + 1), r.distance_⟩ := by
  obtain ⟨⟨h1, h2, h3, h4⟩, h5⟩ := h
  refine ⟨⟨by simp [h1], ?_, ?_, ?_⟩, ?_⟩
  · show (r.vertices_.map (fun x => x + 1)).getD 0 0 = (r.vertices_.map (fun x => x + 1)).getD n 0
    rw [getD_map_succ _ _ (by omega), getD_map_succ _ _ (by omega), h2]
  · show ((r.vertices_.map (fun x => x + 1)).take n).Perm _
    rw [← List.map_take]
    have h3b : (r.vertices_.take n).Perm (List.range n) := by
      simpa using h3
    exact h3b.map _
  · intro i hi
    simp only [List.length_map] at hi
    show 0 < cell W ((r.vertices_.map (fun x => x + 1)).getD i 0 - 1)
      ((r.vertices_.map (fun x => x + 1)).getD (i + 1) 0 - 1)
    rw [getD_map_succ _ _ (by omega), getD_map_succ _ _ hi]
    have := h4 i hi
    simpa using this
  · show r.distance_ = tourLength W 1 (r.vertices_.map (fun x => x + 1))
    rw [h5]
    unfold tourLength
    simp only [List.length_map]
    apply Finset.sum_congr rfl
    intro i hi
    have hi2 := Finset.mem_range.mp hi
    rw [getD_map_succ _ _ (by omega), getD_map_succ _ _ (by omega)]
    simp

theorem CheckMatrixGraphCorrectness_true (W : m_dbl_type) (n : Nat) (hn : 0 < n)
    (hW : IsMatrix W n n) : Storage.CheckMatrixGraphCorrectness W = true := by
  unfold Storage.CheckMatrixGraphCorrectness
  have h1 : Storage.CheckMatrixCorrectness W = true :=
    (CheckMatrixCorrectness_true_iff W).mpr ⟨n, n, hn, hn, hW⟩
  simp only [h1, if_true]
  rw [List.all_eq_true]
  intro row hrow
  simp only [decide_eq_true_eq]
  rw [hW.1]
  exact hW.2 row hrow

theorem SalesmanStorage_new_ok (W : m_dbl_type) (n : Nat) (hn : 0 < n) (hW : IsMatrix W n n) :
    SalesmanStorage.new W = .ok ⟨W, [TsmResult.new], 0, none⟩ := by
  unfold SalesmanStorage.new
  simp [CheckMatrixGraphCorrectness_true W n hn hW]

theorem SalesmanStorage_SetStrategy_fresh (W : m_dbl_type) (n : Nat) (hn : 0 < n)
    (hW : W.length = n) (objects : List TsmResult) (b : Nat) (a : Option LinearSolver)
    (mode : MultiMode) (hmode : mode = .kSimple ∨ mode = .kParallel) :
    SalesmanStorage.SetStrategy ⟨W, objects, b, a⟩ mode =
      ⟨⟨W, objects, b, some ⟨b, List.replicate n
        (List.replicate n GraphAlgorithms.kInitialPheromone)⟩⟩, .normal⟩ := by
  have hlt : ¬ (n < 1) := by omega
  rcases hmode with h | h <;> subst h <;>
    simp [SalesmanStorage.SetStrategy, LinearSolver.InitializePheromone, hW, hlt]

/-- Result of one `SolveSalesman` on a fresh session with a supported strategy. -/
theorem fresh_session_result (W : m_dbl_type) (n : Nat) (hn : 1 ≤ n) (hW : IsMatrix W n n)
    (s0 : SalesmanStorage) (hnew : SalesmanStorage.new W = .ok s0) (mode : MultiMode)
    (hmode : mode = .kSimple ∨ mode = .kParallel) (rnd : Nat → Nat) (hr : ∀ k, rnd k < n)
    (iterations threads : Nat) (ht : 1 ≤ threads) :
    ((s0.SetStrategy mode).state.SolveSalesman rnd iterations threads).completion = .normal ∧
    ∃ r, BestInv W n r ∧
      ((s0.SetStrategy mode).state.SolveSalesman rnd iterations threads).state.GetResult =
        ⟨r.vertices_.map (fun x => x + 1), r.distance_⟩ := by
  rw [SalesmanStorage_new_ok W n hn hW] at hnew
  cases hnew
  rw [SalesmanStorage_SetStrategy_fresh W n hn hW.1 _ _ _ mode hmode]
  obtain ⟨hc, r, hr1, hr2⟩ := LinearSolver_SolveSalesman_best W n rnd iterations threads
    ⟨TsmResult.new, List.replicate n (List.replicate n GraphAlgorithms.kInitialPheromone), 0⟩
    hW.1 hn hr ht (Or.inl rfl)
  refine ⟨hc, r, hr1, ?_⟩
  simp only [SalesmanStorage.SolveSalesman, SalesmanStorage.GetResult]
  simpa using hr2

/-- C14: on a freshly constructed session over an n x n weight matrix (n >= 2), after one
`SolveSalesman(iterations, threads >= 1)`, whatever start vertices `Random()` returns (within
its range 0..n-2): if the distance of `GetResult()` is not the initial sentinel, then the
vertex list has n+1 entries, its first and last entries are equal, its first n entries are a
permutation of 1..n, every consecutive pair (u, v) has weight[u-1][v-1] > 0, and the distance
is the sum of those n edge weights. -/
theorem C14_result_is_closed_tour (W : m_dbl_type) (n : Nat) (hn : 2 ≤ n)
    (hW : IsMatrix W n n) (s0 : SalesmanStorage) (hnew : SalesmanStorage.new W = .ok s0)
    (mode : MultiMode) (hmode : mode = .kSimple ∨ mode = .kParallel) (rnd : Nat → Nat)
    (hrnd : ∀ k, rnd k ≤ n - 2) (iterations threads : Nat) (ht : 1 ≤ threads)
    (hd : ((s0.SetStrategy mode).state.SolveSalesman rnd iterations
      threads).state.GetResult.distance_ ≠ DBL_MAX) :
    ((s0.SetStrategy mode).state.SolveSalesman rnd iterations threads).completion = .normal ∧
    ((s0.SetStrategy mode).state.SolveSalesman rnd iterations
      threads).state.GetResult.vertices_.length = n + 1 ∧
    ((s0.SetStrategy mode).state.SolveSalesman rnd iterations
      threads).state.GetResult.vertices_.getD 0 0 =
      ((s0.SetStrategy mode).state.SolveSalesman rnd iterations
        threads).state.GetResult.vertices_.getD n 0 ∧
    (((s0.SetStrategy mode).state.SolveSalesman rnd iterations
      threads).state.GetResult.vertices_.take n).Perm
        ((List.range n).map (fun v => v + 1)) ∧
    (∀ i, i < n → 0 < cell W
      (((s0.SetStrategy mode).state.SolveSalesman rnd iterations
        threads).state.GetResult.vertices_.getD i 0 - 1)
      (((s0.SetStrategy mode).state.SolveSalesman rnd iterations
        threads).state.GetResult.vertices_.getD (i + 1) 0 - 1)) ∧
    ((s0.SetStrategy mode).state.SolveSalesman rnd iterations
      threads).state.GetResult.distance_ =
      ∑ i ∈ Finset.range n, cell W
        (((s0.SetStrategy mode).state.SolveSalesman rnd iterations
          threads).state.GetResult.vertices_.getD i 0 - 1)
        (((s0.SetStrategy mode).state.SolveSalesman rnd iterations
          threads).state.GetResult.vertices_.getD (i + 1) 0 - 1) := by
  obtain ⟨hc, r, hr1, hr2⟩ := fresh_session_result W n (by omega) hW s0 hnew mode hmode rnd
    (fun k => by have := hrnd k; omega) iterations threads ht
  rw [hr2] at hd ⊢
  rcases hr1 with h | h
  · rw [h] at hd
    exact absurd rfl hd
  · obtain ⟨⟨h1, h2, h3, h4⟩, h5⟩ := GoodResult_shift W n r h
    refine ⟨hc, h1, h2, h3, ?_, ?_⟩
    · intro i hi
      exact h4 i (by rw [h1]; omega)
    · rw [h5]
      unfold tourLength
      rw [h1]
      rfl

theorem threeCities_isMatrix : IsMatrix threeCities 3 3 := by
  refine ⟨rfl, ?_⟩
  intro row hrow
  simp only [threeCities, List.mem_cons, List.mem_singleton, List.not_mem_nil, or_false] at hrow
  rcases hrow with h | h | h <;> subst h <;> rfl

theorem thirtyThenOne_le (k : Nat) : thirtyThenOne k ≤ 3 - 2 := by
  unfold thirtyThenOne
  split_ifs <;> decide

theorem threeCities_first_run :
    ((SalesmanStorage.SetStrategy ⟨threeCities, [TsmResult.new], 0, none⟩
      .kSimple).state.SolveSalesman thirtyThenOne 1 1).state = threeCitiesAfterRun := by
  have e1 : (SalesmanStorage.SetStrategy ⟨threeCities, [TsmResult.new], 0, none⟩
      .kSimple).state = ⟨threeCities, [TsmResult.new], 0, some ⟨0,
        [[1/10, 1/10, 1/10], [1/10, 1/10, 1/10], [1/10, 1/10, 1/10]]⟩⟩ := by decide!
  rw [e1]
  decide!

/-- Witness of C14: one call on `threeCities` with the start vertices `thirtyThenOne`. -/
theorem C14_result_is_closed_tour_witness :
    ((SalesmanStorage.SetStrategy ⟨threeCities, [TsmResult.new], 0, none⟩
      .kSimple).state.SolveSalesman thirtyThenOne 1 1).state.GetResult.vertices_.length = 3 + 1 ∧
    (((SalesmanStorage.SetStrategy ⟨threeCities, [TsmResult.new], 0, none⟩
      .kSimple).state.SolveSalesman thirtyThenOne 1 1).state.GetResult.vertices_.take 3).Perm
        ((List.range 3).map (fun v => v + 1)) :=
  ⟨(C14_result_is_closed_tour threeCities 3 (by decide) threeCities_isMatrix
    ⟨threeCities, [TsmResult.new], 0, none⟩
    (SalesmanStorage_new_ok threeCities 3 (by decide) threeCities_isMatrix) .kSimple
    (Or.inl rfl) thirtyThenOne thirtyThenOne_le 1 1 (by decide)
    (by rw [threeCities_first_run]; decide!)).2.1,
   (C14_result_is_closed_tour threeCities 3 (by decide) threeCities_isMatrix
    ⟨threeCities, [TsmResult.new], 0, none⟩
    (SalesmanStorage_new_ok threeCities 3 (by decide) threeCities_isMatrix) .kSimple
    (Or.inl rfl) thirtyThenOne thirtyThenOne_le 1 1 (by decide)
    (by rw [threeCities_first_run]; decide!)).2.2.2.1⟩

/-- C15: for every square weight matrix (n >= 2) that has no closed tour through all vertices
along positive-weight edges, `SolveSalesman(iterations, threads >= 1)` on a fresh session
completes without raising and `GetResult()` still has an empty vertex list and the distance
of the initial record; the all-zero matrix is such a matrix. -/
theorem C15_no_tour_keeps_initial_record (W : m_dbl_type) (n : Nat) (hn : 2 ≤ n)
    (hW : IsMatrix W n n)
    (hno : (¬ ∃ l, IsClosedTour W n 0 l) ∨ W = List.replicate n (List.replicate n 0))
    (s0 : SalesmanStorage) (hnew : SalesmanStorage.new W = .ok s0)
    (mode : MultiMode) (hmode : mode = .kSimple ∨ mode = .kParallel) (rnd : Nat → Nat)
    (hrnd : ∀ k, rnd k ≤ n - 2) (iterations threads : Nat) (ht : 1 ≤ threads) :
    ((s0.SetStrategy mode).state.SolveSalesman rnd iterations threads).completion = .normal ∧
    ((s0.SetStrategy mode).state.SolveSalesman rnd iterations
      threads).state.GetResult.vertices_ = [] ∧
    ((s0.SetStrategy mode).state.SolveSalesman rnd iterations
      threads).state.GetResult.distance_ = DBL_MAX ∧
    TsmResult.new.distance_ = DBL_MAX := by
  obtain ⟨hc, r, hr1, hr2⟩ := fresh_session_result W n (by omega) hW s0 hnew mode hmode rnd
    (fun k => by have := hrnd k; omega) iterations threads ht
  have hno2 : ¬ ∃ l, IsClosedTour W n 0 l := by
    rcases hno with h | h
    · exact h
    · rintro ⟨l, h1, _, _, h4⟩
      have := h4 0 (by rw [h1]; omega)
      rw [h] at this
      have hz : ∀ i j, cell (List.replicate n (List.replicate n (0 : ℚ))) i j = 0 := by
        intro i j
        simp only [cell, getRow, List.getD_eq_getElem?_getD, List.getElem?_replicate]
        split_ifs
        · simp only [List.getElem?_replicate, Option.getD_some]
          split_ifs <;> rfl
        · rfl
      rw [hz] at this
      exact lt_irrefl _ this
  rw [hr2]
  rcases hr1 with h | h
  · rw [h]
    exact ⟨hc, rfl, rfl, rfl⟩
  · exact absurd ⟨_, h.1⟩ hno2

theorem zeroCities_isMatrix : IsMatrix [[0, 0], [0, 0]] 2 2 := by
  refine ⟨rfl, ?_⟩
  intro row hrow
  simp only [List.mem_cons, List.mem_singleton, List.not_mem_nil, or_false, or_self] at hrow
  subst hrow
  rfl

/-- Witness of C15: five iterations on two threads over the all-zero `2 x 2` matrix. -/
theorem C15_no_tour_keeps_initial_record_witness :
    ((SalesmanStorage.SetStrategy ⟨[[0, 0], [0, 0]], [TsmResult.new], 0, none⟩
      .kParallel).state.SolveSalesman (fun _ => 0) 5 2).completion = .normal ∧
    ((SalesmanStorage.SetStrategy ⟨[[0, 0], [0, 0]], [TsmResult.new], 0, none⟩
      .kParallel).state.SolveSalesman (fun _ => 0) 5 2).state.GetResult.vertices_ = [] ∧
    ((SalesmanStorage.SetStrategy ⟨[[0, 0], [0, 0]], [TsmResult.new], 0, none⟩
      .kParallel).state.SolveSalesman (fun _ => 0) 5 2).state.GetResult.distance_ = DBL_MAX ∧
    TsmResult.new.distance_ = DBL_MAX :=
  C15_no_tour_keeps_initial_record [[0, 0], [0, 0]] 2 (by decide) zeroCities_isMatrix
    (Or.inr rfl) ⟨[[0, 0], [0, 0]], [TsmResult.new], 0, none⟩
    (SalesmanStorage_new_ok [[0, 0], [0, 0]] 2 (by decide) zeroCities_isMatrix) .kParallel
    (Or.inr rfl) (fun _ => 0) (fun _ => Nat.zero_le _) 5 2 (by decide)

end s21

namespace s21

/-! ## Travelling salesman: reset and repeated calls -/

/-- After `ResetResult` the solver still writes to the record it was given by `SetStrategy`,
so `GetResult` reads the new, untouched record whatever the run found. -/
theorem ResetResult_detaches (s : SalesmanStorage) (a : LinearSolver)
    (ha : s.algorithm_ = some a) (hb : a.best_result_ < s.objects.length) (rnd : Nat → Nat)
    (iterations threads : Nat) :
    (s.ResetResult.SolveSalesman rnd iterations threads).state.GetResult = TsmResult.new := by
  simp only [SalesmanStorage.ResetResult, SalesmanStorage.SolveSalesman, ha,
    SalesmanStorage.GetResult]
  rw [List.getD_eq_getElem?_getD, List.getElem?_set_ne (by omega),
    List.getElem?_append_right (le_refl _)]
  simp

/-- C13, evaluated on the complete graph on two vertices: after `SetStrategy(kSimple)`,
`ResetResult()` and `SolveSalesman(1, 1)` the ants have found the tour 1-2-1 of length 2 and
the solver has stored it in the record it was created with, but `GetResult()` returns the
empty record with the sentinel distance. -/
theorem C13_result_lost_after_reset :
    ∃ s0, SalesmanStorage.new twoCities = .ok s0 ∧
      ((s0.SetStrategy .kSimple).state.ResetResult.SolveSalesman (fun _ => 0) 1
        1).completion = .normal ∧
      ((s0.SetStrategy .kSimple).state.ResetResult.SolveSalesman (fun _ => 0) 1
        1).state.objects = [⟨[1, 2, 1], 2⟩, TsmResult.new] ∧
      ((s0.SetStrategy .kSimple).state.ResetResult.SolveSalesman (fun _ => 0) 1
        1).state.GetResult = ⟨[], DBL_MAX⟩ := by
  have e1 : (SalesmanStorage.SetStrategy ⟨twoCities, [TsmResult.new], 0, none⟩
      .kSimple).state = ⟨twoCities, [TsmResult.new], 0, some ⟨0,
        [[1/10, 1/10], [1/10, 1/10]]⟩⟩ := by decide!
  refine ⟨⟨twoCities, [TsmResult.new], 0, none⟩, ?_, ?_, ?_, ?_⟩
  · exact SalesmanStorage_new_ok twoCities 2 (by decide)
      ⟨rfl, by intro row hrow; simp [twoCities] at hrow; rcases hrow with h | h <;> subst h <;> rfl⟩
  · rw [e1]
    decide!
  · rw [e1]
    decide!
  · rw [e1]
    decide!

/-- C16, evaluated on a graph with three vertices: the first `SolveSalesman(1, 1)` of the
session returns the tour 1-2-3-1 of length 30; a second call on the same session, directly or
after `SetStrategy(kParallel)` as the controller does, whose ants only find the tour of
length 40, returns the vertex list 2-3-4-2, which names a vertex 4 that the graph does not
have. -/
theorem C16_second_call_leaves_vertex_range :
    ∃ s0, SalesmanStorage.new threeCities = .ok s0 ∧
      ((s0.SetStrategy .kSimple).state.SolveSalesman thirtyThenOne 1 1).state.GetResult =
        ⟨[1, 2, 3, 1], 30⟩ ∧
      (((s0.SetStrategy .kSimple).state.SolveSalesman thirtyThenOne 1 1).state.SolveSalesman
        (fun _ => 0) 1 1).completion = .normal ∧
      (((s0.SetStrategy .kSimple).state.SolveSalesman thirtyThenOne 1 1).state.SolveSalesman
        (fun _ => 0) 1 1).state.GetResult = ⟨[2, 3, 4, 2], 30⟩ ∧
      ((((s0.SetStrategy .kSimple).state.SolveSalesman thirtyThenOne 1 1).state.SetStrategy
        .kParallel).state.SolveSalesman (fun _ => 1) 1 1).completion = .normal ∧
      ((((s0.SetStrategy .kSimple).state.SolveSalesman thirtyThenOne 1 1).state.SetStrategy
        .kParallel).state.SolveSalesman (fun _ => 1) 1 1).state.GetResult =
          ⟨[2, 3, 4, 2], 30⟩ ∧
      ¬ ∀ v ∈ ((((s0.SetStrategy .kSimple).state.SolveSalesman thirtyThenOne 1
        1).state.SetStrategy .kParallel).state.SolveSalesman (fun _ => 1) 1
          1).state.GetResult.vertices_, 1 ≤ v ∧ v ≤ 3 := by
  have e2 : (threeCitiesAfterRun.SetStrategy .kParallel).state =
      ⟨threeCities, [⟨[1, 2, 3, 1], 30⟩], 0, some ⟨0,
        [[1/10, 1/10, 1/10], [1/10, 1/10, 1/10], [1/10, 1/10, 1/10]]⟩⟩ := by decide!
  have e3 : (SalesmanStorage.SolveSalesman ⟨threeCities, [⟨[1, 2, 3, 1], 30⟩], 0, some ⟨0,
      [[1/10, 1/10, 1/10], [1/10, 1/10, 1/10], [1/10, 1/10, 1/10]]⟩⟩
        (fun _ => 1) 1 1).state.GetResult = ⟨[2, 3, 4, 2], 30⟩ := by decide!
  refine ⟨⟨threeCities, [TsmResult.new], 0, none⟩, ?_, ?_, ?_, ?_, ?_, ?_, ?_⟩
  · exact SalesmanStorage_new_ok threeCities 3 (by decide) threeCities_isMatrix
  · rw [threeCities_first_run]
    decide!
  · rw [threeCities_first_run]
    decide!
  · rw [threeCities_first_run]
    decide!
  · rw [threeCities_first_run, e2]
    decide!
  · rw [threeCities_first_run, e2]
    exact e3
  · rw [threeCities_first_run, e2, e3]
    decide

end s21

namespace s21

/-! ## Solving before a strategy is selected -/

theorem GaussStorage_new_gauss (M : m_dbl_type) (g0 : GaussStorage)
    (h : GaussStorage.new M = .ok g0) : g0.gauss_ = none := by
  unfold GaussStorage.new at h
  split at h
  · cases h
  · cases h
  · cases h
    rfl

theorem GaussStorage_SetStrategies_none (modes : List MultiMode) (s : GaussStorage) :
    (s.SetStrategies modes).gauss_ = none ↔
      s.gauss_ = none ∧ ∀ m ∈ modes, m = .kPipe ∨ m = .kEnd := by
  induction modes generalizing s with
  | nil => simp [GaussStorage.SetStrategies]
  | cons m ms ih =>
    have e : s.SetStrategies (m :: ms) = (s.SetStrategy m).SetStrategies ms := rfl
    rw [e, ih]
    cases m <;> simp [GaussStorage.SetStrategy]

theorem GaussStorage_SolveSle_raise (s : GaussStorage) (sched : List Nat) :
    ((s.SolveSle sched).completion = .raised (.c_string "") ↔ s.gauss_ = none) ∧
    (s.gauss_ = none → (s.SolveSle sched).state = s) := by
  unfold GaussStorage.SolveSle
  cases hg : s.gauss_ with
  | none => simp
  | some g =>
    cases g with
    | SimpleGauss r c =>
      simp only [SimpleGauss.SolveSle]
      split_ifs <;> simp
    | ParallelGauss r c t =>
      simp only [ParallelGauss.SolveSle]
      split_ifs <;> simp

theorem VinogradStorage_new_fields (A B : m_dbl_type) (v0 : VinogradStorage)
    (h : VinogradStorage.new A B = .ok v0) :
    v0.vinograd_ = none ∧
      ∃ w, SimpleVinograd.new v0.first_ v0.second_ v0.result_ = .ok w := by
  unfold VinogradStorage.new at h
  split_ifs at h
  cases h
  refine ⟨rfl, ?_⟩
  unfold SimpleVinograd.new
  simp

theorem VinogradStorage_SetStrategies_none (modes : List MultiMode) (s : VinogradStorage)
    (w : SimpleVinograd) (hw : SimpleVinograd.new s.first_ s.second_ s.result_ = .ok w) :
    (s.SetStrategies modes).vinograd_ = none ↔
      s.vinograd_ = none ∧ ∀ m ∈ modes, m = .kEnd := by
  induction modes generalizing s with
  | nil => simp [VinogradStorage.SetStrategies]
  | cons m ms ih =>
    have e : s.SetStrategies (m :: ms) = (s.SetStrategy m).state.SetStrategies ms := rfl
    have hw2 : SimpleVinograd.new (s.SetStrategy m).state.first_ (s.SetStrategy m).state.second_
        (s.SetStrategy m).state.result_ = .ok w := by
      cases m <;> simp only [VinogradStorage.SetStrategy, hw]
    rw [e, ih _ hw2]
    cases m <;> simp [VinogradStorage.SetStrategy, hw]

theorem VinogradStorage_Multiply_raise (s : VinogradStorage) (sched : List Nat) :
    ((s.Multiply sched).completion = .raised (.c_string "") ↔ s.vinograd_ = none) ∧
    (s.vinograd_ = none → (s.Multiply sched).state = s) := by
  unfold VinogradStorage.Multiply
  cases hg : s.vinograd_ with
  | none => simp
  | some g =>
    cases g with
    | Simple v => simp
    | Parallel p =>
      simp only [ParallelVinograd.Multiply]
      split_ifs <;> simp
    | Pipe v => simp

theorem SalesmanStorage_new_fields (W : m_dbl_type) (t0 : SalesmanStorage)
    (h : SalesmanStorage.new W = .ok t0) : t0.algorithm_ = none ∧ 1 ≤ t0.matrix_.length := by
  unfold SalesmanStorage.new at h
  split_ifs at h with hc
  cases h
  refine ⟨rfl, ?_⟩
  show 1 ≤ W.length
  simp only [Bool.not_eq_true, Bool.not_eq_false_eq_eq_true, Bool.not_not] at hc
  unfold Storage.CheckMatrixGraphCorrectness at hc
  by_cases h1 : Storage.CheckMatrixCorrectness W = true
  · obtain ⟨r, c, hr, _, hW⟩ := (CheckMatrixCorrectness_true_iff W).mp h1
    rw [hW.1]
    exact hr
  · simp [h1] at hc

theorem SalesmanStorage_SetStrategies_none (modes : List MultiMode) (s : SalesmanStorage)
    (hn : 1 ≤ s.matrix_.length) :
    (s.SetStrategies modes).algorithm_ = none ↔
      s.algorithm_ = none ∧ ∀ m ∈ modes, m = .kPipe ∨ m = .kEnd := by
  induction modes generalizing s with
  | nil => simp [SalesmanStorage.SetStrategies]
  | cons m ms ih =>
    have e : s.SetStrategies (m :: ms) = (s.SetStrategy m).state.SetStrategies ms := rfl
    have hlt : ¬ (s.matrix_.length < 1) := by omega
    have hn2 : 1 ≤ (s.SetStrategy m).state.matrix_.length := by
      cases m <;> simp [SalesmanStorage.SetStrategy, LinearSolver.InitializePheromone, hlt] <;>
        exact hn
    rw [e, ih _ hn2]
    cases m <;> simp [SalesmanStorage.SetStrategy, LinearSolver.InitializePheromone, hlt]

theorem SalesmanStorage_SolveSalesman_raise (s : SalesmanStorage) (rnd : Nat → Nat)
    (iterations threads : Nat) :
    ((s.SolveSalesman rnd iterations threads).completion = .raised (.c_string "") ↔
      s.algorithm_ = none) ∧
    (s.algorithm_ = none → (s.SolveSalesman rnd iterations threads).state = s) := by
  unfold SalesmanStorage.SolveSalesman
  cases hg : s.algorithm_ with
  | none => simp
  | some a =>
    simp only [LinearSolver.SolveSalesman]
    split_ifs <;> simp

theorem VinogradStorage_SetStrategies_unsupported (modes : List MultiMode)
    (s : VinogradStorage) (h : ∀ m ∈ modes, m = MultiMode.kEnd) : s.SetStrategies modes = s := by
  induction modes with
  | nil => rfl
  | cons m ms ih =>
    have hm := h m (List.mem_cons_self _ _)
    subst hm
    exact ih (fun m1 hm1 => h m1 (List.mem_cons_of_mem _ hm1))

theorem GaussStorage_SetStrategies_unsupported (modes : List MultiMode) (s : GaussStorage)
    (h : ∀ m ∈ modes, m = MultiMode.kPipe ∨ m = MultiMode.kEnd) : s.SetStrategies modes = s := by
  induction modes with
  | nil => rfl
  | cons m ms ih =>
    have e : s.SetStrategy m = s := by
      rcases h m (List.mem_cons_self _ _) with hm | hm <;> subst hm <;> rfl
    have e2 : s.SetStrategies (m :: ms) = (s.SetStrategy m).SetStrategies ms := rfl
    rw [e2, e]
    exact ih (fun m1 hm1 => h m1 (List.mem_cons_of_mem _ hm1))

theorem SalesmanStorage_SetStrategies_unsupported (modes : List MultiMode)
    (s : SalesmanStorage) (h : ∀ m ∈ modes, m = MultiMode.kPipe ∨ m = MultiMode.kEnd) :
    s.SetStrategies modes = s := by
  induction modes with
  | nil => rfl
  | cons m ms ih =>
    have e : (s.SetStrategy m).state = s := by
      rcases h m (List.mem_cons_self _ _) with hm | hm <;> subst hm <;> rfl
    have e2 : s.SetStrategies (m :: ms) = (s.SetStrategy m).state.SetStrategies ms := rfl
    rw [e2, e]
    exact ih (fun m1 hm1 => h m1 (List.mem_cons_of_mem _ hm1))

/-- C17: on sessions constructed from valid inputs, after any sequence of `SetStrategy` calls,
`VinogradStorage::Multiply`, `GaussStorage::SolveSle` and `SalesmanStorage::SolveSalesman`
raise the empty C string exactly when no call of the sequence named a mode the session
implements (all three modes but `kEnd` for Vinograd, `kSimple` and `kParallel` for Gauss and
Salesman), and in that case the session, with its stored result, is left as it was. -/
theorem C17_raises_iff_no_strategy (A B : m_dbl_type) (v0 : VinogradStorage)
    (hv : VinogradStorage.new A B = .ok v0) (M : m_dbl_type) (g0 : GaussStorage)
    (hg : GaussStorage.new M = .ok g0) (W : m_dbl_type) (t0 : SalesmanStorage)
    (ht : SalesmanStorage.new W = .ok t0) (modes : List MultiMode) (sched : List Nat)
    (rnd : Nat → Nat) (iterations threads : Nat) :
    (((v0.SetStrategies modes).Multiply sched).completion = .raised (.c_string "") ↔
      ∀ m ∈ modes, m = .kEnd) ∧
    ((∀ m ∈ modes, m = .kEnd) →
      ((v0.SetStrategies modes).Multiply sched).state = v0.SetStrategies modes ∧
      ((v0.SetStrategies modes).Multiply sched).state.GetResult = v0.GetResult) ∧
    (((g0.SetStrategies modes).SolveSle sched).completion = .raised (.c_string "") ↔
      ∀ m ∈ modes, m = .kPipe ∨ m = .kEnd) ∧
    ((∀ m ∈ modes, m = .kPipe ∨ m = .kEnd) →
      ((g0.SetStrategies modes).SolveSle sched).state = g0.SetStrategies modes ∧
      ((g0.SetStrategies modes).SolveSle sched).state.GetResult = g0.GetResult) ∧
    (((t0.SetStrategies modes).SolveSalesman rnd iterations threads).completion =
      .raised (.c_string "") ↔ ∀ m ∈ modes, m = .kPipe ∨ m = .kEnd) ∧
    ((∀ m ∈ modes, m = .kPipe ∨ m = .kEnd) →
      ((t0.SetStrategies modes).SolveSalesman rnd iterations threads).state =
        t0.SetStrategies modes ∧
      ((t0.SetStrategies modes).SolveSalesman rnd iterations threads).state.GetResult =
        t0.GetResult) := by
  obtain ⟨hv1, w, hw⟩ := VinogradStorage_new_fields A B v0 hv
  have hg1 := GaussStorage_new_gauss M g0 hg
  obtain ⟨ht1, ht2⟩ := SalesmanStorage_new_fields W t0 ht
  have kv := VinogradStorage_SetStrategies_none modes v0 w hw
  have kg := GaussStorage_SetStrategies_none modes g0
  have kt := SalesmanStorage_SetStrategies_none modes t0 ht2
  have rv := VinogradStorage_Multiply_raise (v0.SetStrategies modes) sched
  have rg := GaussStorage_SolveSle_raise (g0.SetStrategies modes) sched
  have rt := SalesmanStorage_SolveSalesman_raise (t0.SetStrategies modes) rnd iterations threads
  have uv := VinogradStorage_SetStrategies_unsupported modes v0
  have ug := GaussStorage_SetStrategies_unsupported modes g0
  have ut := SalesmanStorage_SetStrategies_unsupported modes t0
  refine ⟨?_, ?_, ?_, ?_, ?_, ?_⟩
  · rw [rv.1, kv]
    simp [hv1]
  · intro h
    have h2 := rv.2 (kv.mpr ⟨hv1, h⟩)
    refine ⟨h2, ?_⟩
    rw [h2, uv h]
  · rw [rg.1, kg]
    simp [hg1]
  · intro h
    have h2 := rg.2 (kg.mpr ⟨hg1, h⟩)
    refine ⟨h2, ?_⟩
    rw [h2, ug h]
  · rw [rt.1, kt]
    simp [ht1]
  · intro h
    have h2 := rt.2 (kt.mpr ⟨ht1, h⟩)
    refine ⟨h2, ?_⟩
    rw [h2, ut h]

/-- Witness of C17: sessions on which only `kEnd` was selected raise and keep their result; a
salesman session on which `kPipe` and then `kSimple` were selected does not raise. -/
theorem C17_raises_iff_no_strategy_witness :
    ((VinogradStorage.SetStrategies ⟨[[3]], [[4]], [[0]], none, 1⟩
      [.kEnd, .kEnd]).Multiply []).completion = .raised (.c_string "") ∧
    ((GaussStorage.SetStrategies ⟨[[1, 2, 3], [2, 3, 1]], [1, 1, 1], none, 1⟩
      [.kEnd, .kEnd]).SolveSle []).state.GetResult = [1, 1, 1] ∧
    ¬ ((SalesmanStorage.SetStrategies ⟨twoCities, [TsmResult.new], 0, none⟩
      [.kPipe, .kSimple]).SolveSalesman (fun _ => 0) 1 1).completion =
        .raised (.c_string "") :=
  ⟨(C17_raises_iff_no_strategy [[3]] [[4]] ⟨[[3]], [[4]], [[0]], none, 1⟩ rfl
      [[1, 2, 3], [2, 3, 1]] ⟨[[1, 2, 3], [2, 3, 1]], [1, 1, 1], none, 1⟩ rfl
      twoCities ⟨twoCities, [TsmResult.new], 0, none⟩ rfl [.kEnd, .kEnd] [] (fun _ => 0) 1
      1).1.mpr (by decide),
   ((C17_raises_iff_no_strategy [[3]] [[4]] ⟨[[3]], [[4]], [[0]], none, 1⟩ rfl
      [[1, 2, 3], [2, 3, 1]] ⟨[[1, 2, 3], [2, 3, 1]], [1, 1, 1], none, 1⟩ rfl
      twoCities ⟨twoCities, [TsmResult.new], 0, none⟩ rfl [.kEnd, .kEnd] [] (fun _ => 0) 1
      1).2.2.2.1 (by decide)).2,
   fun h => absurd ((C17_raises_iff_no_strategy [[3]] [[4]] ⟨[[3]], [[4]], [[0]], none, 1⟩ rfl
      [[1, 2, 3], [2, 3, 1]] ⟨[[1, 2, 3], [2, 3, 1]], [1, 1, 1], none, 1⟩ rfl
      twoCities ⟨twoCities, [TsmResult.new], 0, none⟩ rfl [.kPipe, .kSimple] []
      (fun _ => 0) 1 1).2.2.2.2.1.mp h) (by decide)⟩

end s21

namespace s21

/-! ## Construction checks of `VinogradStorage` and `SalesmanStorage` -/

theorem CheckForMultiplication_true_iff (first second : m_dbl_type) :
    Storage.CheckForMultiplication first second = true ↔
      ∃ m n p, 0 < m ∧ 0 < n ∧ 0 < p ∧ IsMatrix first m n ∧ IsMatrix second n p := by
  constructor
  · intro h
    unfold Storage.CheckForMultiplication at h
    by_cases h1 : (Storage.CheckMatrixCorrectness first &&
        Storage.CheckMatrixCorrectness second) = true
    · simp only [h1, if_true] at h
      rw [Bool.and_eq_true] at h1
      obtain ⟨r, c, hr, hc, hA⟩ := (CheckMatrixCorrectness_true_iff first).mp h1.1
      obtain ⟨r2, c2, hr2, hc2, hB⟩ := (CheckMatrixCorrectness_true_iff second).mp h1.2
      rw [List.all_eq_true] at h
      have hrow := h (getRow first 0) (getRow_mem first 0 (by rw [hA.1]; exact hr))
      have hlen : (getRow first 0).length = c :=
        hA.2 _ (getRow_mem first 0 (by rw [hA.1]; exact hr))
      simp only [decide_eq_true_eq] at hrow
      rw [hlen, hB.1] at hrow
      subst hrow
      exact ⟨r, c, c2, hr, hc, hc2, hA, hB⟩
    · simp only [h1] at h
      simp at h
  · rintro ⟨m, n, p, hm, hn, hp, hA, hB⟩
    exact CheckForMultiplication_of_isMatrix hA hB hm hn hp

/-- C21: `CheckForMultiplication(first, second)` is true exactly when both inputs are non-empty
rectangular matrices without zero-length rows and the row length of `first` is the number of
rows of `second`; the constructor of `VinogradStorage` raises exactly when the check is false,
and otherwise the result buffer is the all-zero matrix with the rows of `first` and the
columns of `second`. -/
theorem C21_multiplication_check (first second : m_dbl_type) :
    (Storage.CheckForMultiplication first second = true ↔
      ∃ m n p, 0 < m ∧ 0 < n ∧ 0 < p ∧ IsMatrix first m n ∧ IsMatrix second n p) ∧
    ((∃ e, VinogradStorage.new first second = .error e) ↔
      Storage.CheckForMultiplication first second = false) ∧
    (∀ m n p, 0 < m → 0 < n → 0 < p → IsMatrix first m n → IsMatrix second n p →
      ∃ s, VinogradStorage.new first second = .ok s ∧ s.first_ = first ∧
        s.second_ = second ∧ s.GetResult = List.replicate m (List.replicate p 0)) := by
  refine ⟨CheckForMultiplication_true_iff first second, ?_, ?_⟩
  · unfold VinogradStorage.new
    cases h : Storage.CheckForMultiplication first second <;> simp
  · intro m n p hm hn hp hA hB
    exact ⟨_, VinogradStorage_new_ok hA hB hm hn hp, rfl, rfl, rfl⟩

theorem CheckMatrixGraphCorrectness_true_iff (M : m_dbl_type) :
    Storage.CheckMatrixGraphCorrectness M = true ↔
      M ≠ [] ∧ ∀ row ∈ M, row.length = M.length := by
  constructor
  · intro h
    unfold Storage.CheckMatrixGraphCorrectness at h
    by_cases h1 : Storage.CheckMatrixCorrectness M = true
    · simp only [h1, if_true] at h
      rw [List.all_eq_true] at h
      obtain ⟨r, c, hr, _, hM⟩ := (CheckMatrixCorrectness_true_iff M).mp h1
      refine ⟨?_, ?_⟩
      · intro he
        rw [he] at hM
        have := hM.1
        simp at this
        omega
      · intro row hrow
        simpa using h row hrow
    · simp only [h1] at h
      simp at h
  · rintro ⟨hne, hrows⟩
    have hpos : 0 < M.length := List.length_pos.mpr hne
    exact CheckMatrixGraphCorrectness_true M M.length hpos ⟨rfl, hrows⟩

/-- C22: `CheckMatrixGraphCorrectness` is true exactly when the input is non-empty and every
row is as long as the number of rows; the constructor of `SalesmanStorage` raises exactly when
the check is false, so the matrix without vertices and every rectangular matrix that is not
square are rejected. -/
theorem C22_graph_check (M : m_dbl_type) :
    (Storage.CheckMatrixGraphCorrectness M = true ↔
      M ≠ [] ∧ ∀ row ∈ M, row.length = M.length) ∧
    ((∃ e, SalesmanStorage.new M = .error e) ↔
      Storage.CheckMatrixGraphCorrectness M = false) ∧
    (Storage.CheckMatrixGraphCorrectness M = true →
      SalesmanStorage.new M = .ok ⟨M, [TsmResult.new], 0, none⟩) ∧
    (∃ e, SalesmanStorage.new [] = .error e) ∧
    (∀ r c, IsMatrix M r c → r ≠ c → ∃ e, SalesmanStorage.new M = .error e) := by
  have herr : (∃ e, SalesmanStorage.new M = .error e) ↔
      Storage.CheckMatrixGraphCorrectness M = false := by
    unfold SalesmanStorage.new
    cases h : Storage.CheckMatrixGraphCorrectness M <;> simp
  refine ⟨CheckMatrixGraphCorrectness_true_iff M, herr, ?_, ⟨_, rfl⟩, ?_⟩
  · intro h
    unfold SalesmanStorage.new
    simp [h]
  · intro r c hM hrc
    rw [herr]
    by_contra hne
    have ht : Storage.CheckMatrixGraphCorrectness M = true := by
      cases h : Storage.CheckMatrixGraphCorrectness M
      · exact absurd h hne
      · rfl
    obtain ⟨hne2, hrows⟩ := (CheckMatrixGraphCorrectness_true_iff M).mp ht
    have hpos : 0 < M.length := List.length_pos.mpr hne2
    have h0 := getRow_mem M 0 hpos
    have e1 := hrows _ h0
    have e2 := hM.2 _ h0
    have e3 := hM.1
    omega

/-! ## The passes of the Gauss solver -/

/-- C26: `LeadToEchelon` only reorders whole rows: the rows of the output are a permutation of
the rows of the input (as lists with multiplicity), so every row is kept intact with its
right-hand side and appears the same number of times, and the number of rows is the same. -/
theorem C26_pivoting_permutes_rows (rows_ : Nat) (m : m_dbl_type) (hrows : rows_ ≤ m.length) :
    (SimpleGauss.LeadToEchelon rows_ m).Perm m ∧
    (SimpleGauss.LeadToEchelon rows_ m).length = m.length ∧
    ∀ row, row ∈ SimpleGauss.LeadToEchelon rows_ m ↔ row ∈ m := by
  have hp := LeadToEchelon_perm rows_ m hrows
  exact ⟨hp, hp.length_eq, fun row => hp.mem_iff⟩

/-- Witness of C26: the system of `TEST(gauss, solving_1)`. -/
theorem C26_pivoting_permutes_rows_witness :
    (SimpleGauss.LeadToEchelon 3 solving_1).Perm solving_1 ∧
    (SimpleGauss.LeadToEchelon 3 solving_1).length = solving_1.length ∧
    ∀ row, row ∈ SimpleGauss.LeadToEchelon 3 solving_1 ↔ row ∈ solving_1 :=
  C26_pivoting_permutes_rows 3 solving_1 (by decide)

theorem CheckEchelon_true_iff (n : Nat) (U : m_dbl_type) :
    SimpleGauss.CheckEchelon n U = true ↔ ∃ k, k < n ∧ |cell U k k| < 1 / 100000 := by
  unfold SimpleGauss.CheckEchelon
  rw [List.any_eq_true]
  constructor
  · rintro ⟨k, hk, h⟩
    exact ⟨k, List.mem_range.mp hk, by simpa using h⟩
  · rintro ⟨k, hk, h⟩
    exact ⟨k, List.mem_range.mpr hk, by simpa using h⟩

/-- C28: `CheckEchelon` raises exactly when some diagonal entry `matrix[k][k]` with `k < n` has
absolute value strictly below `0.00001`; inside `SolveSle` the call raises the singular-system
error exactly in that case, and otherwise the matrix that was checked is handed unchanged to
`BackPropagation`. -/
theorem C28_check_echelon_raises_iff (n : Nat) (U M : m_dbl_type) (out : row_type) :
    (SimpleGauss.CheckEchelon n U = true ↔ ∃ k, k < n ∧ |cell U k k| < 1 / 100000) ∧
    (SimpleGauss.CheckEchelon n U = false ↔ ∀ k, k < n → 1 / 100000 ≤ |cell U k k|) ∧
    ((SimpleGauss.SolveSle n M out).completion = .raised (.runtime_error "matrix is singular") ↔
      ∃ k, k < n ∧ |cell (echelonForm n M) k k| < 1 / 100000) ∧
    ((SimpleGauss.SolveSle n M out).completion = .normal ↔
      ∀ k, k < n → 1 / 100000 ≤ |cell (echelonForm n M) k k|) ∧
    ((∀ k, k < n → 1 / 100000 ≤ |cell (echelonForm n M) k k|) →
      (SimpleGauss.SolveSle n M out).state.2 =
        SimpleGauss.BackPropagation n (echelonForm n M) out) := by
  refine ⟨CheckEchelon_true_iff n U, CheckEchelon_false_iff n U, ?_, ?_, ?_⟩
  · rw [← CheckEchelon_true_iff, SimpleGauss_SolveSle_eq]
    cases h : SimpleGauss.CheckEchelon n (echelonForm n M) <;> simp [singularError]
  · rw [← CheckEchelon_false_iff, SimpleGauss_SolveSle_eq]
    cases h : SimpleGauss.CheckEchelon n (echelonForm n M) <;> simp
  · intro h
    rw [← CheckEchelon_false_iff] at h
    rw [SimpleGauss_SolveSle_eq, h]
    rfl

/-! ## The row ranges of the parallel multiplier -/

theorem workerRange_unique (f t a w w2 : Nat) (hw : w < t) (hw2 : w2 < t)
    (h1 : (workerRange f t w).1 ≤ a) (h2 : a < (workerRange f t w).2)
    (h3 : (workerRange f t w2).1 ≤ a) (h4 : a < (workerRange f t w2).2) : w2 = w := by
  unfold workerRange at h1 h2 h3 h4
  simp only at h1 h2 h3 h4
  by_contra hne
  rcases Nat.lt_or_gt_of_ne hne with hlt | hgt
  · have hne2 : ¬ (w2 = t - 1) := by omega
    rw [if_neg hne2] at h4
    have := Nat.mul_le_mul_right (f / t) (show w2 + 1 ≤ w by omega)
    omega
  · have hne2 : ¬ (w = t - 1) := by omega
    rw [if_neg hne2] at h2
    have := Nat.mul_le_mul_right (f / t) (show w + 1 ≤ w2 by omega)
    omega

/-- C30: for `m` rows and `t >= 1` threads (also `t > m`) `ParallelVinograd::Multiply` hands
out `t` ranges: worker `w < t-1` gets `[w * (m / t), (w+1) * (m / t))` and the last worker
gets `[(t-1) * (m / t), m)`; the ranges start at 0, each begins where the one before ends,
and every row `0 .. m-1` lies in exactly one of them. -/
theorem C30_worker_ranges_partition (m t : Nat) (ht : 1 ≤ t) :
    (ParallelVinograd.ranges m t).length = t ∧
    (∀ w, w + 1 < t →
      (ParallelVinograd.ranges m t).getD w (0, 0) = (w * (m / t), (w + 1) * (m / t))) ∧
    (ParallelVinograd.ranges m t).getD (t - 1) (0, 0) = ((t - 1) * (m / t), m) ∧
    ((ParallelVinograd.ranges m t).getD 0 (0, 0)).1 = 0 ∧
    (∀ w, w + 1 < t → ((ParallelVinograd.ranges m t).getD w (0, 0)).2 =
      ((ParallelVinograd.ranges m t).getD (w + 1) (0, 0)).1) ∧
    (∀ w, w < t → ((ParallelVinograd.ranges m t).getD w (0, 0)).1 ≤
        ((ParallelVinograd.ranges m t).getD w (0, 0)).2 ∧
      ((ParallelVinograd.ranges m t).getD w (0, 0)).2 ≤ m) ∧
    (∀ a, a < m → ∃ w, w < t ∧
      ((ParallelVinograd.ranges m t).getD w (0, 0)).1 ≤ a ∧
      a < ((ParallelVinograd.ranges m t).getD w (0, 0)).2 ∧
      ∀ w2, w2 < t → ((ParallelVinograd.ranges m t).getD w2 (0, 0)).1 ≤ a →
        a < ((ParallelVinograd.ranges m t).getD w2 (0, 0)).2 → w2 = w) := by
  have hmul : t * (m / t) ≤ m := Nat.mul_div_le m t
  refine ⟨by rw [ranges_eq]; simp, ?_, ?_, ?_, ?_, ?_, ?_⟩
  · intro w hw
    rw [ranges_getD m t w (by omega)]
    unfold workerRange
    rw [if_neg (by omega)]
  · rw [ranges_getD m t (t - 1) (by omega)]
    unfold workerRange
    rw [if_pos rfl]
  · rw [ranges_getD m t 0 (by omega)]
    simp [workerRange]
  · intro w hw
    rw [ranges_getD m t w (by omega), ranges_getD m t (w + 1) hw]
    unfold workerRange
    rw [if_neg (by omega)]
  · intro w hw
    rw [ranges_getD m t w hw]
    unfold workerRange
    have h1 := Nat.mul_le_mul_right (m / t) (show w + 1 ≤ t by omega)
    have h2 : w * (m / t) ≤ (w + 1) * (m / t) := Nat.mul_le_mul_right (m / t) (by omega)
    by_cases hl : w = t - 1
    · rw [if_pos hl]
      exact ⟨by dsimp only; omega, le_refl m⟩
    · rw [if_neg hl]
      exact ⟨h2, by dsimp only; omega⟩
  · intro a ha
    obtain ⟨w, hw, h1, h2⟩ := workerRange_cover m t a (by omega) ha
    refine ⟨w, hw, ?_, ?_, ?_⟩
    · rw [ranges_getD m t w hw]
      exact h1
    · rw [ranges_getD m t w hw]
      exact h2
    · intro w2 hw2 h3 h4
      rw [ranges_getD m t w2 hw2] at h3 h4
      exact workerRange_unique m t a w w2 hw hw2 h1 h2 h3 h4

/-- Witness of C30: five rows on three threads, and two rows on six threads. -/
theorem C30_worker_ranges_partition_witness :
    (ParallelVinograd.ranges 5 3).length = 3 ∧
    (ParallelVinograd.ranges 5 3).getD (3 - 1) (0, 0) = ((3 - 1) * (5 / 3), 5) ∧
    (ParallelVinograd.ranges 2 6).getD (6 - 1) (0, 0) = ((6 - 1) * (2 / 6), 2) :=
  ⟨(C30_worker_ranges_partition 5 3 (by decide)).1,
    (C30_worker_ranges_partition 5 3 (by decide)).2.2.1,
    (C30_worker_ranges_partition 2 6 (by decide)).2.2.1⟩

end s21

namespace s21

/-! ## Splitting the iterations of the salesman solver among the workers -/

theorem antStep_draws (W : m_dbl_type) (rnd : Nat → Nat) (acc : Colony × List Ant) :
    (LinearSolver.antStep W rnd acc).1.draws = acc.1.draws + 1 := by
  unfold LinearSolver.antStep
  dsimp only
  split_ifs <;> rfl

/-- One call of `SolvePiece` with `k` iterations calls `Random()` once for each of the
`kNumAnts` ants of each iteration. -/
theorem SolvePiece_draws (W : m_dbl_type) (rnd : Nat → Nat) (k : Nat) (c : Colony) :
    (LinearSolver.SolvePiece W rnd k c).draws = c.draws + k * GraphAlgorithms.kNumAnts := by
  unfold LinearSolver.SolvePiece
  have h := forLoop_induct
    (fun i (c1 : Colony) => c1.draws = c.draws + i * GraphAlgorithms.kNumAnts) 0 k
    (fun _ c1 =>
      let r := forLoop 0 GraphAlgorithms.kNumAnts
        (fun _ acc => LinearSolver.antStep W rnd acc) (c1, [])
      (⟨r.1.best_result_, LinearSolver.UpdatePheromone W r.1.phero_ptr_ r.2, r.1.draws⟩ :
        Colony)) c (Nat.zero_le _) (by simp) ?_
  · exact h
  · intro i c1 _ _ hc1
    have h2 := forLoop_induct
      (fun j (acc : Colony × List Ant) => acc.1.draws = c1.draws + j) 0
      GraphAlgorithms.kNumAnts (fun _ acc => LinearSolver.antStep W rnd acc) (c1, [])
      (Nat.zero_le _) rfl
      (fun j acc _ _ hacc => by
        show (LinearSolver.antStep W rnd acc).1.draws = c1.draws + (j + 1)
        rw [antStep_draws, hacc]
        ring)
    show (forLoop 0 GraphAlgorithms.kNumAnts
      (fun _ acc => LinearSolver.antStep W rnd acc) (c1, [])).1.draws = _
    rw [h2, hc1]
    ring

theorem forLoop_const_eq_foldl {σ : Type} (n : Nat) (f : σ → σ) (s : σ) (k : Nat)
    (g : Nat → σ → σ) (hg : ∀ x, g k x = f x) :
    forLoop 0 n (fun _ x => f x) s = (List.replicate n k).foldl (fun x j => g j x) s := by
  induction n with
  | zero => rfl
  | succ n ih =>
    rw [forLoop_succ 0 n _ s (Nat.zero_le _), ih, List.replicate_succ', List.foldl_append]
    simp [hg]

/-- The workers of `SolveSalesman`, seen from the shared state: `N` calls of `SolvePiece`, each
with `itersInThread T N` iterations, followed by the increment of the vertices. -/
theorem SolveSalesman_workers (W : m_dbl_type) (rnd : Nat → Nat) (T N : Nat) (c : Colony)
    (hN : 1 ≤ N) :
    LinearSolver.SolveSalesman W rnd T N c =
      ⟨⟨⟨(((List.replicate N (LinearSolver.itersInThread T N)).foldl
            (fun c2 k => LinearSolver.SolvePiece W rnd k c2) c).best_result_.vertices_.map
              (fun x => x + 1)),
          ((List.replicate N (LinearSolver.itersInThread T N)).foldl
            (fun c2 k => LinearSolver.SolvePiece W rnd k c2) c).best_result_.distance_⟩,
        ((List.replicate N (LinearSolver.itersInThread T N)).foldl
          (fun c2 k => LinearSolver.SolvePiece W rnd k c2) c).phero_ptr_,
        ((List.replicate N (LinearSolver.itersInThread T N)).foldl
          (fun c2 k => LinearSolver.SolvePiece W rnd k c2) c).draws⟩, .normal⟩ := by
  unfold LinearSolver.SolveSalesman
  have hg : ¬ (T > N ∧ N = 0) := by omega
  rw [if_neg hg]
  dsimp only
  rw [forLoop_const_eq_foldl N
    (fun c2 => LinearSolver.SolvePiece W rnd (if T > N then T / N else 1) c2) c
    (LinearSolver.itersInThread T N) (fun k c2 => LinearSolver.SolvePiece W rnd k c2)
    (fun x => rfl)]

theorem workers_draws (W : m_dbl_type) (rnd : Nat → Nat) (N k : Nat) (c : Colony) :
    ((List.replicate N k).foldl (fun c2 j => LinearSolver.SolvePiece W rnd j c2) c).draws =
      c.draws + N * (k * GraphAlgorithms.kNumAnts) := by
  induction N generalizing c with
  | zero => simp
  | succ N ih =>
    rw [List.replicate_succ, List.foldl_cons, ih, SolvePiece_draws]
    ring

/-- Number of calls of `Random()` made by one `SolveSalesman(T, N)`: one for each ant of each
iteration of each worker. -/
theorem SolveSalesman_draws (W : m_dbl_type) (rnd : Nat → Nat) (T N : Nat) (c : Colony)
    (hN : 1 ≤ N) :
    (LinearSolver.SolveSalesman W rnd T N c).state.draws =
      c.draws + N * LinearSolver.itersInThread T N * GraphAlgorithms.kNumAnts := by
  rw [SolveSalesman_workers W rnd T N c hN]
  show ((List.replicate N (LinearSolver.itersInThread T N)).foldl
    (fun c2 k => LinearSolver.SolvePiece W rnd k c2) c).draws = _
  rw [workers_draws]
  ring

/-- C24 fails when fewer iterations than workers are requested: `SolveSalesman(1, 2)` runs two
workers with one iteration each (two hundred ants), twice the requested single iteration. -/
theorem C24_counterexample_fewer_than_workers :
    LinearSolver.itersInThread 1 2 = 1 ∧
    ¬ (2 * LinearSolver.itersInThread 1 2 ≤ 1) ∧
    (LinearSolver.SolveSalesman twoCities (fun _ => 0) 1 2
      ⟨TsmResult.new, [[1/10, 1/10], [1/10, 1/10]], 0⟩).state.draws =
        2 * GraphAlgorithms.kNumAnts := by
  refine ⟨rfl, by decide, ?_⟩
  rw [SolveSalesman_draws twoCities (fun _ => 0) 1 2 _ (by decide)]
  rfl

/-- C24, amended: for a requested total `T` and `N >= 1` workers the number of iterations
that `SolveSalesman` executes, `N` times the count of one worker, is at most `T` when
`T > N` and exactly `N` when `T <= N`; so it never exceeds the larger of `T` and `N`, and it
exceeds `T` exactly when `T < N`. -/
theorem C24_executed_iterations_bound (W : m_dbl_type) (rnd : Nat → Nat) (T N : Nat)
    (c : Colony) (hN : 1 ≤ N) :
    (LinearSolver.SolveSalesman W rnd T N c).state.draws =
      c.draws + N * LinearSolver.itersInThread T N * GraphAlgorithms.kNumAnts ∧
    (T > N → N * LinearSolver.itersInThread T N ≤ T ∧
      T < N * LinearSolver.itersInThread T N + N) ∧
    (T ≤ N → N * LinearSolver.itersInThread T N = N) ∧
    N * LinearSolver.itersInThread T N ≤ max T N ∧
    (T < N * LinearSolver.itersInThread T N ↔ T < N) := by
  have hdiv : N * (T / N) ≤ T := Nat.mul_div_le T N
  have hlt : T < N * (T / N) + N := by
    have := Nat.lt_div_mul_add (show 0 < N by omega) (a := T)
    rw [Nat.mul_comm]
    exact this
  refine ⟨SolveSalesman_draws W rnd T N c hN, ?_, ?_, ?_, ?_⟩
  · intro h
    unfold LinearSolver.itersInThread
    rw [if_pos h]
    exact ⟨hdiv, hlt⟩
  · intro h
    unfold LinearSolver.itersInThread
    rw [if_neg (by omega), Nat.mul_one]
  · unfold LinearSolver.itersInThread
    split_ifs with h
    · exact le_trans hdiv (le_max_left T N)
    · rw [Nat.mul_one]
      exact le_max_right T N
  · unfold LinearSolver.itersInThread
    split_ifs with h
    · constructor
      · intro h2
        omega
      · intro h2
        omega
    · rw [Nat.mul_one]

/-- Witness of the amended C24: seven iterations on three workers run six iterations. -/
theorem C24_executed_iterations_bound_witness :
    (LinearSolver.SolveSalesman twoCities (fun _ => 0) 7 3
      ⟨TsmResult.new, [[1/10, 1/10], [1/10, 1/10]], 0⟩).state.draws =
        0 + 3 * LinearSolver.itersInThread 7 3 * GraphAlgorithms.kNumAnts ∧
    3 * LinearSolver.itersInThread 7 3 ≤ max 7 3 :=
  ⟨(C24_executed_iterations_bound twoCities (fun _ => 0) 7 3
      ⟨TsmResult.new, [[1/10, 1/10], [1/10, 1/10]], 0⟩ (by decide)).1,
    (C24_executed_iterations_bound twoCities (fun _ => 0) 7 3
      ⟨TsmResult.new, [[1/10, 1/10], [1/10, 1/10]], 0⟩ (by decide)).2.2.2.1⟩

end s21

namespace s21

/-! ## The pivoting pass chooses the rows of largest scaled pivot -/

theorem scaleFactor_spec (n : Nat) (m : m_dbl_type) (i k : Nat) (hk : k < n) :
    (∀ j, k ≤ j → j < n → |cell m i j| ≤ SimpleGauss.scaleFactor n m i k) ∧
    ∃ j, k ≤ j ∧ j < n ∧ SimpleGauss.scaleFactor n m i k = |cell m i j| := by
  unfold SimpleGauss.scaleFactor
  have h := forLoop_induct
    (fun c (s : ℚ) => 0 ≤ s ∧ (∀ j, k ≤ j → j < c → |cell m i j| ≤ s) ∧
      ((c = k ∧ s = 0) ∨ ∃ j, k ≤ j ∧ j < c ∧ s = |cell m i j|)) k n
    (fun j scale_factor => max |cell m i j| scale_factor) 0 (by omega)
    ⟨le_refl _, fun j h1 h2 => by omega, Or.inl ⟨rfl, rfl⟩⟩ ?_
  · obtain ⟨_, h1, h2⟩ := h
    refine ⟨h1, ?_⟩
    rcases h2 with ⟨h3, _⟩ | h3
    · omega
    · exact h3
  · intro c s hc1 hc2 ⟨hs0, hs1, hs2⟩
    refine ⟨le_max_of_le_right hs0, ?_, ?_⟩
    · intro j hj1 hj2
      by_cases hjc : j = c
      · subst hjc
        exact le_max_left _ _
      · exact le_max_of_le_right (hs1 j hj1 (by omega))
    · right
      show ∃ j, k ≤ j ∧ j < c + 1 ∧ max |cell m i c| s = |cell m i j|
      rcases le_total |cell m i c| s with hle | hle
      · rw [max_eq_right hle]
        rcases hs2 with ⟨h3, h4⟩ | ⟨j, hj1, hj2, hj3⟩
        · refine ⟨c, hc1, by omega, ?_⟩
          rw [h4] at hle ⊢
          exact le_antisymm (abs_nonneg _) hle
        · exact ⟨j, hj1, by omega, hj3⟩
      · rw [max_eq_left hle]
        exact ⟨c, hc1, by omega, rfl⟩

theorem scaleFactor_nonneg (n : Nat) (m : m_dbl_type) (i k : Nat) :
    0 ≤ SimpleGauss.scaleFactor n m i k := by
  unfold SimpleGauss.scaleFactor
  by_cases hk : k ≤ n
  · exact forLoop_induct (fun _ (s : ℚ) => 0 ≤ s) k n _ 0 hk (le_refl _)
      (fun c s _ _ hs => le_max_of_le_right hs)
  · rw [forLoop_of_le k n _ 0 (by omega)]

theorem scaledPivot_nonneg (n : Nat) (m : m_dbl_type) (i k : Nat) :
    0 ≤ scaledPivot n m i k := by
  unfold scaledPivot
  split_ifs
  · exact le_refl _
  · exact div_nonneg (abs_nonneg _) (scaleFactor_nonneg n m i k)

/-- The scaled pivot value of a row depends on the contents of the row only. -/
theorem scaledPivot_row (n : Nat) (m m2 : m_dbl_type) (i i2 k : Nat)
    (h : getRow m i = getRow m2 i2) : scaledPivot n m i k = scaledPivot n m2 i2 k := by
  simp only [scaledPivot, SimpleGauss.scaleFactor, cell, h]

/-- The search of `LeadToEchelon` for pivot `k` returns a row among `k .. n-1` whose scaled
pivot value is the largest. -/
theorem pivotSearch_spec (n : Nat) (m : m_dbl_type) (k : Nat) (hk : k < n) :
    k ≤ (SimpleGauss.pivotSearch n m k).1 ∧ (SimpleGauss.pivotSearch n m k).1 < n ∧
    ∀ i, k ≤ i → i < n →
      scaledPivot n m i k ≤ scaledPivot n m (SimpleGauss.pivotSearch n m k).1 k := by
  unfold SimpleGauss.pivotSearch
  have h := forLoop_induct
    (fun c (acc : Nat × ℚ) => (∀ i, k ≤ i → i < c → scaledPivot n m i k ≤ acc.2) ∧
      (acc = (k, 0) ∨
        (k ≤ acc.1 ∧ acc.1 < c ∧ acc.2 = scaledPivot n m acc.1 k ∧ 0 < acc.2))) k n
    (fun i (acc : Nat × ℚ) =>
      let scale_factor := SimpleGauss.scaleFactor n m i k
      if scale_factor = 0 then acc
      else
        let abs := |cell m i k| / scale_factor
        if abs > acc.2 then (i, abs) else acc) (k, 0) (by omega)
    ⟨fun i h1 h2 => by omega, Or.inl rfl⟩ ?_
  · obtain ⟨h1, h2⟩ := h
    rcases h2 with h2 | ⟨h3, h4, h5, _⟩
    · rw [h2] at h1 ⊢
      refine ⟨le_refl _, hk, ?_⟩
      intro i hi1 hi2
      exact le_trans (h1 i hi1 hi2) (scaledPivot_nonneg n m k k)
    · refine ⟨h3, h4, ?_⟩
      intro i hi1 hi2
      rw [← h5]
      exact h1 i hi1 hi2
  · intro c acc hc1 hc2 ⟨ha1, ha2⟩
    have hacc0 : 0 ≤ acc.2 := by
      rcases ha2 with h | ⟨_, _, _, h⟩
      · rw [h]
      · exact le_of_lt h
    dsimp only
    by_cases hz : SimpleGauss.scaleFactor n m c k = 0
    · rw [if_pos hz]
      have hsp : scaledPivot n m c k = 0 := by
        unfold scaledPivot
        rw [if_pos hz]
      refine ⟨?_, ?_⟩
      · intro i hi1 hi2
        by_cases hic : i = c
        · subst hic
          rw [hsp]
          exact hacc0
        · exact ha1 i hi1 (by omega)
      · rcases ha2 with h | ⟨h1, h2, h3, h4⟩
        · exact Or.inl h
        · exact Or.inr ⟨h1, by omega, h3, h4⟩
    · rw [if_neg hz]
      have hsp : scaledPivot n m c k = |cell m c k| / SimpleGauss.scaleFactor n m c k := by
        unfold scaledPivot
        rw [if_neg hz]
      by_cases hgt : |cell m c k| / SimpleGauss.scaleFactor n m c k > acc.2
      · rw [if_pos hgt]
        refine ⟨?_, Or.inr ⟨hc1, by simp, hsp.symm, lt_of_le_of_lt hacc0 hgt⟩⟩
        intro i hi1 hi2
        by_cases hic : i = c
        · subst hic
          rw [hsp]
        · exact le_trans (ha1 i hi1 (by omega)) (le_of_lt hgt)
      · rw [if_neg hgt]
        refine ⟨?_, ?_⟩
        · intro i hi1 hi2
          by_cases hic : i = c
          · subst hic
            rw [hsp]
            exact not_lt.mp hgt
          · exact ha1 i hi1 (by omega)
        · rcases ha2 with h | ⟨h1, h2, h3, h4⟩
          · exact Or.inl h
          · exact Or.inr ⟨h1, by omega, h3, h4⟩

theorem getRow_swapRows (m : m_dbl_type) (a b x : Nat) (ha : a < m.length)
    (hb : b < m.length) :
    getRow (SimpleGauss.swapRows m a b) x =
      if x = b then getRow m a else if x = a then getRow m b else getRow m x := by
  unfold SimpleGauss.swapRows
  rw [getRow_set, getRow_set, List.length_set]
  by_cases h1 : x = b
  · subst h1
    simp [hb]
  · by_cases h2 : x = a
    · subst h2
      have : ¬ (b = x ∧ b < m.length) := fun hh => h1 hh.1.symm
      simp [this, ha, h1]
    · have e1 : ¬ (b = x ∧ b < m.length) := fun hh => h1 hh.1.symm
      have e2 : ¬ (a = x ∧ a < m.length) := fun hh => h2 hh.1.symm
      simp [e1, e2, h1, h2]

/-- One round of `LeadToEchelon` for pivot `k`: where the rows of the matrix after the round
come from. -/
theorem pivotRound_rows (n : Nat) (m : m_dbl_type) (k : Nat) (hk : k < n)
    (hlen : m.length = n) :
    (if k ≠ (SimpleGauss.pivotSearch n m k).1 then
        SimpleGauss.swapRows m k (SimpleGauss.pivotSearch n m k).1 else m).length = n ∧
    getRow (if k ≠ (SimpleGauss.pivotSearch n m k).1 then
        SimpleGauss.swapRows m k (SimpleGauss.pivotSearch n m k).1 else m) k =
      getRow m (SimpleGauss.pivotSearch n m k).1 ∧
    (∀ i, i < k → getRow (if k ≠ (SimpleGauss.pivotSearch n m k).1 then
        SimpleGauss.swapRows m k (SimpleGauss.pivotSearch n m k).1 else m) i = getRow m i) ∧
    (∀ i, k ≤ i → i < n → ∃ i2, k ≤ i2 ∧ i2 < n ∧
      getRow (if k ≠ (SimpleGauss.pivotSearch n m k).1 then
        SimpleGauss.swapRows m k (SimpleGauss.pivotSearch n m k).1 else m) i =
          getRow m i2) := by
  obtain ⟨hp1, hp2, _⟩ := pivotSearch_spec n m k hk
  generalize (SimpleGauss.pivotSearch n m k).1 = p at hp1 hp2
  by_cases hkp : k = p
  · subst hkp
    simp only [ne_eq, not_true_eq_false, if_false]
    exact ⟨hlen, trivial, fun i _ => trivial, fun i h1 h2 => ⟨i, h1, h2, rfl⟩⟩
  · rw [if_pos hkp]
    have hk2 : k < m.length := by omega
    have hp3 : p < m.length := by omega
    refine ⟨by simp [SimpleGauss.swapRows, hlen], ?_, ?_, ?_⟩
    · rw [getRow_swapRows m k p k hk2 hp3, if_neg hkp, if_pos rfl]
    · intro i hi
      rw [getRow_swapRows m k p i hk2 hp3, if_neg (by omega), if_neg (by omega)]
    · intro i hi1 hi2
      rw [getRow_swapRows m k p i hk2 hp3]
      by_cases h1 : i = p
      · rw [if_pos h1]
        exact ⟨k, le_refl _, hk, rfl⟩
      · rw [if_neg h1]
        by_cases h2 : i = k
        · rw [if_pos h2]
          exact ⟨p, hp1, hp2, rfl⟩
        · rw [if_neg h2]
          exact ⟨i, hi1, hi2, rfl⟩

/-- C25: after `LeadToEchelon` on an `n x (n+1)` matrix, for every pivot index `k` and every
row index `i` with `k < i < n` the scaled pivot value of row `k` at `k` is at least that of
row `i`; the scaled pivot value of a row is `|row[k]|` divided by its scale factor, the
largest `|row[j]|` over the coefficient columns `j = k .. n-1`, and counts as 0 when the scale
factor is zero. -/
theorem C25_pivot_rows_maximal (M : m_dbl_type) (n : Nat) (hM : IsMatrix M n (n + 1)) :
    (∀ k i, k < i → i < n →
      scaledPivot n (SimpleGauss.LeadToEchelon n M) i k ≤
        scaledPivot n (SimpleGauss.LeadToEchelon n M) k k) ∧
    (∀ m i k, k < n →
      (∀ j, k ≤ j → j < n → |cell m i j| ≤ SimpleGauss.scaleFactor n m i k) ∧
      ∃ j, k ≤ j ∧ j < n ∧ SimpleGauss.scaleFactor n m i k = |cell m i j|) ∧
    (∀ m i k, SimpleGauss.scaleFactor n m i k ≠ 0 →
      scaledPivot n m i k = |cell m i k| / SimpleGauss.scaleFactor n m i k) ∧
    (∀ m i k, SimpleGauss.scaleFactor n m i k = 0 → scaledPivot n m i k = 0) := by
  refine ⟨?_, fun m i k hk => scaleFactor_spec n m i k hk, ?_, ?_⟩
  · have h := forLoop_induct
      (fun K (m : m_dbl_type) => m.length = n ∧
        ∀ k i, k < K → k < i → i < n → scaledPivot n m i k ≤ scaledPivot n m k k) 0 n
      (fun k m =>
        let max_index := (SimpleGauss.pivotSearch n m k).1
        if k ≠ max_index then SimpleGauss.swapRows m k max_index else m) M (Nat.zero_le _)
      ⟨hM.1, fun k i hk => by omega⟩ ?_
    · intro k i hki hi
      exact h.2 k i (by omega) hki hi
    · intro K m _ hK ⟨hlen, hQ⟩
      obtain ⟨r1, r2, r3, r4⟩ := pivotRound_rows n m K hK hlen
      obtain ⟨_, _, hmax⟩ := pivotSearch_spec n m K hK
      dsimp only
      refine ⟨r1, ?_⟩
      intro k i hk hki hi
      by_cases hkK : k = K
      · subst hkK
        obtain ⟨i2, h1, h2, h3⟩ := r4 i (by omega) hi
        rw [scaledPivot_row n _ m i i2 k h3, scaledPivot_row n _ m k _ k r2]
        exact hmax i2 h1 h2
      · have hk2 : k < K := by omega
        rw [scaledPivot_row n _ m k k k (r3 k hk2)]
        by_cases hiK : i < K
        · rw [scaledPivot_row n _ m i i k (r3 i hiK)]
          exact hQ k i hk2 hki hi
        · obtain ⟨i2, h1, h2, h3⟩ := r4 i (by omega) hi
          rw [scaledPivot_row n _ m i i2 k h3]
          exact hQ k i2 hk2 (by omega) h2
  · intro m i k h
    unfold scaledPivot
    rw [if_neg h]
  · intro m i k h
    unfold scaledPivot
    rw [if_pos h]

/-- Witness of C25: the system of `TEST(gauss, solving_1)`. -/
theorem C25_pivot_rows_maximal_witness :
    scaledPivot 3 (SimpleGauss.LeadToEchelon 3 solving_1) 1 0 ≤
      scaledPivot 3 (SimpleGauss.LeadToEchelon 3 solving_1) 0 0 ∧
    scaledPivot 3 (SimpleGauss.LeadToEchelon 3 solving_1) 2 1 ≤
      scaledPivot 3 (SimpleGauss.LeadToEchelon 3 solving_1) 1 1 :=
  ⟨(C25_pivot_rows_maximal solving_1 3 (by decide)).1 0 1 (by decide) (by decide),
    (C25_pivot_rows_maximal solving_1 3 (by decide)).1 1 2 (by decide) (by decide)⟩

end s21

namespace s21

/-! ## The order of the elimination tasks of the parallel solver -/

/-- When the elimination tasks run one after the other in the order of their creation, the
parallel solver computes what the simple solver computes. -/
theorem ParallelGauss_in_order (n : Nat) (M : m_dbl_type) (out : row_type) :
    (ParallelGauss.SolveSle n (List.range n) M out).state =
      (SimpleGauss.SolveSle n M out).state ∧
    ((ParallelGauss.SolveSle n (List.range n) M out).completion = .normal ↔
      (SimpleGauss.SolveSle n M out).completion = .normal) := by
  have e : (List.range n).foldl (fun m k => SimpleGauss.AdjustEchelon n k m)
      (SimpleGauss.LeadToEchelon n M) = echelonForm n M := by
    unfold echelonForm forLoop
    rw [List.range_eq_range', Nat.sub_zero]
  simp only [ParallelGauss.SolveSle, SimpleGauss_SolveSle_eq, e]
  cases h : SimpleGauss.CheckEchelon n (echelonForm n M) <;> simp

/-- C29, evaluated on the system of `TEST(gauss, extreme_2)`: the simple solver and the
parallel solver with its tasks in creation order return the expected solution
`[1, 15, -2.5, 4, -11, 3, -1.5, 1]`; when the task of pivot 1 runs before the task of pivot
0, the parallel solver returns normally with a different vector, whose first entry is further
than `kEps` from 1. -/
theorem C29_task_order_changes_solution :
    ∃ s0, GaussStorage.new extreme_2 = .ok s0 ∧
      (((s0.SetThreadCount 4).state.SetStrategy .kSimple).SolveSle []).state.GetResult =
        [1, 15, -5 / 2, 4, -11, 3, -3 / 2, 1] ∧
      (((s0.SetThreadCount 4).state.SetStrategy .kParallel).SolveSle
        [0, 1, 2, 3, 4, 5, 6]).state.GetResult = [1, 15, -5 / 2, 4, -11, 3, -3 / 2, 1] ∧
      (((s0.SetThreadCount 4).state.SetStrategy .kParallel).SolveSle
        [1, 0, 2, 3, 4, 5, 6]).completion = .normal ∧
      (((s0.SetThreadCount 4).state.SetStrategy .kParallel).SolveSle
        [1, 0, 2, 3, 4, 5, 6]).state.GetResult =
          [43338265131605549 / 14938473928761534, 1741001127645623 / 148641531629468,
            1505802377898371 / 469763331093130, 1827419608138792 / 704644996639695,
            -493353498447075 / 46976333109313, 590340224626487 / 140928999327939,
            -310873902071167 / 93952666218626, 1] ∧
      kEps < |(((s0.SetThreadCount 4).state.SetStrategy .kParallel).SolveSle
        [1, 0, 2, 3, 4, 5, 6]).state.GetResult.getD 0 0 - 1| :=
  ⟨⟨extreme_2, List.replicate 8 1, none, 1⟩, rfl, by decide!, by decide!, by decide!,
    by decide!, by decide!⟩

end s21

namespace s21

/-! ## The parallel multiplier without threads -/

theorem SetThreadCount_result (s : VinogradStorage) (t : Nat) :
    (s.SetThreadCount t).state.result_ = s.result_ := by
  unfold VinogradStorage.SetThreadCount
  split_ifs <;> rfl

theorem SetStrategy_result (s : VinogradStorage) (mode : MultiMode) :
    (s.SetStrategy mode).state.result_ = s.result_ := by
  cases mode <;> simp only [VinogradStorage.SetStrategy] <;> (try split) <;> rfl

/-- C31, evaluated on a `2 x 2` product: `SetThreadCount(0)` is accepted, and then under
`kParallel` every `Multiply` call divides the row count by zero and leaves the result buffer
at zero instead of the product; with `1 .. 6` threads the call returns the product. -/
theorem C31_zero_threads_divides_by_zero :
    ∃ s0, VinogradStorage.new [[1, 2], [3, 4]] [[5, 6], [7, 8]] = .ok s0 ∧
      (s0.SetThreadCount 0).completion = .normal ∧
      ((s0.SetThreadCount 0).state.SetStrategy .kParallel).completion = .normal ∧
      (∀ sched,
        (((s0.SetThreadCount 0).state.SetStrategy .kParallel).state.Multiply
          sched).completion = .aborted ∧
        (((s0.SetThreadCount 0).state.SetStrategy .kParallel).state.Multiply
          sched).state.GetResult = [[0, 0], [0, 0]]) ∧
      naiveProduct [[1, 2], [3, 4]] [[5, 6], [7, 8]] 2 2 2 = [[19, 22], [43, 50]] ∧
      ∀ t sched, 1 ≤ t → t ≤ 6 → sched.Perm (List.range t) →
        (((s0.SetThreadCount t).state.SetStrategy .kParallel).state.Multiply
          sched).completion = .normal ∧
        (((s0.SetThreadCount t).state.SetStrategy .kParallel).state.Multiply
          sched).state.GetResult = [[19, 22], [43, 50]] := by
  have hA : IsMatrix [[1, 2], [3, 4]] 2 2 := by decide
  have hB : IsMatrix [[5, 6], [7, 8]] 2 2 := by decide
  have hprod : naiveProduct [[1, 2], [3, 4]] [[5, 6], [7, 8]] 2 2 2 = [[19, 22], [43, 50]] := by
    decide!
  refine ⟨_, VinogradStorage_new_ok hA hB (by decide) (by decide) (by decide), rfl, rfl, ?_,
    hprod, ?_⟩
  · intro sched
    exact ⟨rfl, rfl⟩
  · intro t sched ht1 ht6 hs
    obtain ⟨_, _, hready⟩ := session_ready_of_setup (by decide) (by decide) (by decide) hA hB
      t ht6 .kParallel (by decide) _
      (VinogradStorage_new_ok hA hB (by decide) (by decide) (by decide))
      (List.replicate 2 (List.replicate 2 (0 : ℚ))) (isMatrix_zero 2 2)
    have hR : ((VinogradStorage.SetThreadCount ⟨[[1, 2], [3, 4]], [[5, 6], [7, 8]],
        List.replicate 2 (List.replicate 2 (0 : ℚ)), none, 1⟩ t).state.SetStrategy
          .kParallel).state.result_ = List.replicate 2 (List.replicate 2 (0 : ℚ)) := by
      rw [SetStrategy_result, SetThreadCount_result]
    revert hready hR
    generalize ((VinogradStorage.SetThreadCount ⟨[[1, 2], [3, 4]], [[5, 6], [7, 8]],
        List.replicate 2 (List.replicate 2 (0 : ℚ)), none, 1⟩ t).state.SetStrategy
          .kParallel).state = S
    intro hready hR
    obtain ⟨f, s, r, v, th⟩ := S
    simp only at hR
    subst hR
    obtain ⟨h1, h2, _⟩ := Multiply_ready .kParallel t (by omega) _ hready sched hs
    rw [← hprod]
    exact ⟨h1, h2⟩

/-! ## The factor vectors -/

/-- C32: for an `m x n` matrix `A` and an `n x p` matrix `B`, after `ComputeRowFactor` and
`ComputeColFactor` entry `i < m` of the row factor is the sum over `j < n / 2` of
`A[i][2j] * A[i][2j+1]` and entry `c < p` of the column factor is the sum over `j < n / 2` of
`B[2j][c] * B[2j+1][c]`, whatever the two vectors held before; for `n = 1` both are zero. -/
theorem C32_factor_vectors (A B : m_dbl_type) (m n p : Nat) (hA : IsMatrix A m n)
    (hB : IsMatrix B n p) (rf cf : row_type) (hrf : rf.length = m) (hcf : cf.length = p) :
    (∀ i, i < m →
      (SimpleVinograd.ComputeColFactor B
        (SimpleVinograd.ComputeRowFactor A ⟨m, n, n, p, rf, cf⟩)).row_factor_.getD i 0 =
          ∑ j ∈ Finset.range (n / 2), cell A i (2 * j) * cell A i (2 * j + 1)) ∧
    (∀ c, c < p →
      (SimpleVinograd.ComputeColFactor B
        (SimpleVinograd.ComputeRowFactor A ⟨m, n, n, p, rf, cf⟩)).col_factor_.getD c 0 =
          ∑ j ∈ Finset.range (n / 2), cell B (2 * j) c * cell B (2 * j + 1) c) ∧
    (SimpleVinograd.ComputeColFactor B
      (SimpleVinograd.ComputeRowFactor A ⟨m, n, n, p, rf, cf⟩)).row_factor_.length = m ∧
    (SimpleVinograd.ComputeColFactor B
      (SimpleVinograd.ComputeRowFactor A ⟨m, n, n, p, rf, cf⟩)).col_factor_.length = p ∧
    (n = 1 →
      (∀ i, i < m → (SimpleVinograd.ComputeColFactor B
        (SimpleVinograd.ComputeRowFactor A ⟨m, n, n, p, rf, cf⟩)).row_factor_.getD i 0 = 0) ∧
      ∀ c, c < p → (SimpleVinograd.ComputeColFactor B
        (SimpleVinograd.ComputeRowFactor A ⟨m, n, n, p, rf, cf⟩)).col_factor_.getD c 0 = 0) ∧
    A.length = m ∧ B.length = n := by
  have hr := ComputeRowFactor_spec A ⟨m, n, n, p, rf, cf⟩
  have hc := ComputeColFactor_spec B (SimpleVinograd.ComputeRowFactor A ⟨m, n, n, p, rf, cf⟩)
  have e1 : (SimpleVinograd.ComputeColFactor B
      (SimpleVinograd.ComputeRowFactor A ⟨m, n, n, p, rf, cf⟩)).row_factor_ =
      (SimpleVinograd.ComputeRowFactor A ⟨m, n, n, p, rf, cf⟩).row_factor_ := rfl
  have e2 : (SimpleVinograd.ComputeRowFactor A ⟨m, n, n, p, rf, cf⟩).col_factor_ = cf := rfl
  have e3 : (SimpleVinograd.ComputeRowFactor A ⟨m, n, n, p, rf, cf⟩).s_cols_ = p := rfl
  have e4 : (SimpleVinograd.ComputeRowFactor A ⟨m, n, n, p, rf, cf⟩).f_cols_ = n := rfl
  have rowv : ∀ i, i < m →
      (SimpleVinograd.ComputeColFactor B
        (SimpleVinograd.ComputeRowFactor A ⟨m, n, n, p, rf, cf⟩)).row_factor_.getD i 0 =
          ∑ j ∈ Finset.range (n / 2), cell A i (2 * j) * cell A i (2 * j + 1) := by
    intro i hi
    rw [e1, hr.2 i]
    simp only [hrf, hi, and_self, if_true]
    rfl
  have colv : ∀ c, c < p →
      (SimpleVinograd.ComputeColFactor B
        (SimpleVinograd.ComputeRowFactor A ⟨m, n, n, p, rf, cf⟩)).col_factor_.getD c 0 =
          ∑ j ∈ Finset.range (n / 2), cell B (2 * j) c * cell B (2 * j + 1) c := by
    intro c hcp
    rw [hc.2 c, e2, e3, e4]
    simp only [hcf, hcp, and_self, if_true]
    rfl
  refine ⟨rowv, colv, ?_, ?_, ?_, hA.1, hB.1⟩
  · rw [e1, hr.1]
    exact hrf
  · rw [hc.1, e2]
    exact hcf
  · intro hn
    subst hn
    refine ⟨fun i hi => ?_, fun c hcp => ?_⟩
    · rw [rowv i hi]
      simp
    · rw [colv c hcp]
      simp

/-- Witness of C32: a `2 x 3` by `3 x 2` product with factor vectors full of nines. -/
theorem C32_factor_vectors_witness :
    (SimpleVinograd.ComputeColFactor [[1, 2], [3, 4], [5, 6]]
      (SimpleVinograd.ComputeRowFactor [[1, 2, 3], [4, 5, 6]]
        ⟨2, 3, 3, 2, [9, 9], [9, 9]⟩)).row_factor_.getD 1 0 =
      ∑ j ∈ Finset.range (3 / 2),
        cell [[1, 2, 3], [4, 5, 6]] 1 (2 * j) * cell [[1, 2, 3], [4, 5, 6]] 1 (2 * j + 1) ∧
    (SimpleVinograd.ComputeColFactor [[1, 2], [3, 4], [5, 6]]
      (SimpleVinograd.ComputeRowFactor [[1, 2, 3], [4, 5, 6]]
        ⟨2, 3, 3, 2, [9, 9], [9, 9]⟩)).col_factor_.getD 0 0 =
      ∑ j ∈ Finset.range (3 / 2),
        cell [[1, 2], [3, 4], [5, 6]] (2 * j) 0 * cell [[1, 2], [3, 4], [5, 6]] (2 * j + 1) 0 :=
  ⟨(C32_factor_vectors [[1, 2, 3], [4, 5, 6]] [[1, 2], [3, 4], [5, 6]] 2 3 2 (by decide)
      (by decide) [9, 9] [9, 9] rfl rfl).1 1 (by decide),
    (C32_factor_vectors [[1, 2, 3], [4, 5, 6]] [[1, 2], [3, 4], [5, 6]] 2 3 2 (by decide)
      (by decide) [9, 9] [9, 9] rfl rfl).2.1 0 (by decide)⟩

/-! ## Workers on their own row ranges -/

theorem row_ext (r1 r2 : row_type) (hl : r1.length = r2.length)
    (h : ∀ b, r1.getD b 0 = r2.getD b 0) : r1 = r2 := by
  apply List.ext_getElem hl
  intro b h1 h2
  have := h b
  rw [List.getD_eq_getElem _ _ h1, List.getD_eq_getElem _ _ h2] at this
  exact this

/-- C33: `MultiplyMainLoop(start, end)` and `AddBiasForOddRows(start, end)` keep the shape of
the result matrix and change no row outside `start .. end-1`; a worker that finds the factor
vectors computed leaves the multiplier object as it is; and the passes of two workers over
disjoint row ranges give the same result matrix in either order, also when the main loops of
both run before the bias passes of both. -/
theorem C33_row_range_frame (first_ second_ : m_dbl_type) (v : SimpleVinograd)
    (start end_ : Nat) (r : m_dbl_type) :
    (SimpleVinograd.MultiplyMainLoop first_ second_ v start end_ r).length = r.length ∧
    (SimpleVinograd.AddBiasForOddRows first_ second_ v start end_ r).length = r.length ∧
    (∀ a, ¬ (start ≤ a ∧ a < end_) →
      getRow (SimpleVinograd.MultiplyMainLoop first_ second_ v start end_ r) a = getRow r a) ∧
    (∀ a, ¬ (start ≤ a ∧ a < end_) →
      getRow (SimpleVinograd.AddBiasForOddRows first_ second_ v start end_ r) a =
        getRow r a) ∧
    (∀ t, (ParallelVinograd.MultiplyPartial first_ second_ start end_
      (⟨v, t, true, true⟩, r)).1 = ⟨v, t, true, true⟩) ∧
    (∀ s2 e2, (end_ ≤ s2 ∨ e2 ≤ start) →
      rowsPass first_ second_ v s2 e2 (rowsPass first_ second_ v start end_ r) =
        rowsPass first_ second_ v start end_ (rowsPass first_ second_ v s2 e2 r)) ∧
    (∀ s2 e2 t, (end_ ≤ s2 ∨ e2 ≤ start) →
      ParallelVinograd.MultiplyPartial first_ second_ s2 e2
        (ParallelVinograd.MultiplyPartial first_ second_ start end_ (⟨v, t, true, true⟩, r)) =
      ParallelVinograd.MultiplyPartial first_ second_ start end_
        (ParallelVinograd.MultiplyPartial first_ second_ s2 e2 (⟨v, t, true, true⟩, r))) ∧
    (∀ s2 e2, (end_ ≤ s2 ∨ e2 ≤ start) →
      SimpleVinograd.AddBiasForOddRows first_ second_ v s2 e2
        (SimpleVinograd.AddBiasForOddRows first_ second_ v start end_
          (SimpleVinograd.MultiplyMainLoop first_ second_ v s2 e2
            (SimpleVinograd.MultiplyMainLoop first_ second_ v start end_ r))) =
      SimpleVinograd.AddBiasForOddRows first_ second_ v s2 e2
        (SimpleVinograd.MultiplyMainLoop first_ second_ v s2 e2
          (SimpleVinograd.AddBiasForOddRows first_ second_ v start end_
            (SimpleVinograd.MultiplyMainLoop first_ second_ v start end_ r)))) := by
  have hM := fun s e x => MultiplyMainLoop_spec first_ second_ v s e x
  have hB := fun s e x => AddBiasForOddRows_spec first_ second_ v s e x
  have hP := fun s e x => rowsPass_spec first_ second_ v s e x
  have comm : ∀ s2 e2, (end_ ≤ s2 ∨ e2 ≤ start) →
      rowsPass first_ second_ v s2 e2 (rowsPass first_ second_ v start end_ r) =
        rowsPass first_ second_ v start end_ (rowsPass first_ second_ v s2 e2 r) := by
    intro s2 e2 _
    apply matrix_ext
    · rw [(hP _ _ _).1, (hP _ _ _).1, (hP _ _ _).1, (hP _ _ _).1]
    · intro a _
      rw [(hP _ _ _).2.1, (hP _ _ _).2.1, (hP _ _ _).2.1, (hP _ _ _).2.1]
    · intro a b _ _
      rw [(hP _ _ _).2.2, (hP _ _ _).2.2, (hP _ _ _).2.2, (hP _ _ _).2.2]
      simp only [(hP _ _ _).1, (hP _ _ _).2.1]
      split_ifs <;> rfl
  refine ⟨(hM _ _ _).1, (hB _ _ _).1, ?_, ?_, ?_, comm, ?_, ?_⟩
  · intro a ha
    apply row_ext _ _ ((hM _ _ _).2.1 a)
    intro b
    have := (hM start end_ r).2.2 a b
    rw [if_neg (fun h => ha ⟨h.1, h.2.1⟩)] at this
    exact this
  · intro a ha
    apply row_ext _ _ ((hB _ _ _).2.1 a)
    intro b
    have := (hB start end_ r).2.2 a b
    rw [if_neg (fun h => ha ⟨h.1, h.2.1⟩)] at this
    exact this
  · intro t
    rw [MultiplyPartial_later]
  · intro s2 e2 t hd
    rw [MultiplyPartial_later, MultiplyPartial_later, MultiplyPartial_later,
      MultiplyPartial_later, comm s2 e2 hd]
  · intro s2 e2 hd
    apply matrix_ext
    · simp only [(hM _ _ _).1, (hB _ _ _).1]
    · intro a _
      simp only [(hM _ _ _).2.1, (hB _ _ _).2.1]
    · intro a b _ _
      simp only [(hM _ _ _).2.2, (hB _ _ _).2.2, (hM _ _ _).1, (hB _ _ _).1, (hM _ _ _).2.1,
        (hB _ _ _).2.1]
      split_ifs <;> first | rfl | omega

end s21

namespace s21

/-! ## The choice of the next vertex -/

theorem attract_pos (W ph : m_dbl_type) (cur i : Nat) (h1 : 0 < cell ph cur i)
    (h2 : 0 < cell W cur i) :
    0 < cell ph cur i ^ GraphAlgorithms.kAlpha *
      LinearSolver.Eta W cur i ^ GraphAlgorithms.kBeta := by
  unfold LinearSolver.Eta
  exact mul_pos (pow_pos h1 _) (pow_pos (one_div_pos.mpr h2) _)

theorem attract_eq (W ph : m_dbl_type) (cur i : Nat) :
    cell ph cur i ^ GraphAlgorithms.kAlpha *
      LinearSolver.Eta W cur i ^ GraphAlgorithms.kBeta =
    cell ph cur i * (1 / cell W cur i) ^ 2 := by
  simp [GraphAlgorithms.kAlpha, GraphAlgorithms.kBeta, LinearSolver.Eta]

/-- The normalising sum of `SelectNext` is at least the attractiveness of every candidate. -/
theorem SelectNext_sum_spec (W ph : m_dbl_type) (cur : Nat) (visited : List Bool)
    (hph : ∀ i, i < visited.length → 0 < cell ph cur i) (i : Nat) (hi : i < visited.length)
    (hc : visited.getD i false = false ∧ cell W cur i > 0) :
    cell ph cur i ^ GraphAlgorithms.kAlpha *
        LinearSolver.Eta W cur i ^ GraphAlgorithms.kBeta ≤
      forLoop 0 visited.length (fun i (sum : ℚ) =>
        if visited.getD i false = false ∧ cell W cur i > 0 then
          sum + cell ph cur i ^ GraphAlgorithms.kAlpha *
            LinearSolver.Eta W cur i ^ GraphAlgorithms.kBeta
        else sum) 0 := by
  have h := forLoop_induct
    (fun c (s : ℚ) => 0 ≤ s ∧ ∀ j, j < c → (visited.getD j false = false ∧ cell W cur j > 0) →
      cell ph cur j ^ GraphAlgorithms.kAlpha *
        LinearSolver.Eta W cur j ^ GraphAlgorithms.kBeta ≤ s) 0 visited.length
    (fun i (sum : ℚ) =>
      if visited.getD i false = false ∧ cell W cur i > 0 then
        sum + cell ph cur i ^ GraphAlgorithms.kAlpha *
          LinearSolver.Eta W cur i ^ GraphAlgorithms.kBeta
      else sum) 0 (Nat.zero_le _) ⟨le_refl _, fun j hj => by omega⟩ ?_
  · exact h.2 i hi hc
  · intro c s _ hc2 ⟨hs0, hs1⟩
    dsimp only
    by_cases hcand : visited.getD c false = false ∧ cell W cur c > 0
    · rw [if_pos hcand]
      have hp := attract_pos W ph cur c (hph c hc2) hcand.2
      refine ⟨by linarith, ?_⟩
      intro j hj hjc
      by_cases hjeq : j = c
      · subst hjeq
        linarith
      · have := hs1 j (by omega) hjc
        linarith
    · rw [if_neg hcand]
      refine ⟨hs0, ?_⟩
      intro j hj hjc
      by_cases hjeq : j = c
      · subst hjeq
        exact absurd hjc hcand
      · exact hs1 j (by omega) hjc

/-- Full description of the answer of `SelectNext` when the pheromone of the current row is
positive. -/
theorem SelectNext_full (W ph : m_dbl_type) (cur : Nat) (visited : List Bool)
    (hph : ∀ i, i < visited.length → 0 < cell ph cur i) :
    (LinearSolver.SelectNext W ph cur visited = -1 ∧
      ∀ i, i < visited.length → ¬ (visited.getD i false = false ∧ cell W cur i > 0)) ∨
    ∃ r, r < visited.length ∧ LinearSolver.SelectNext W ph cur visited = (r : Int) ∧
      (visited.getD r false = false ∧ cell W cur r > 0) ∧
      (∀ i, i < visited.length → (visited.getD i false = false ∧ cell W cur i > 0) →
        cell ph cur i * (1 / cell W cur i) ^ 2 ≤ cell ph cur r * (1 / cell W cur r) ^ 2) ∧
      ∀ i, i < r → (visited.getD i false = false ∧ cell W cur i > 0) →
        cell ph cur i * (1 / cell W cur i) ^ 2 < cell ph cur r * (1 / cell W cur r) ^ 2 := by
  unfold LinearSolver.SelectNext
  dsimp only
  have hsum := SelectNext_sum_spec W ph cur visited hph
  generalize forLoop 0 visited.length (fun i (sum : ℚ) =>
      if visited.getD i false = false ∧ cell W cur i > 0 then
        sum + cell ph cur i ^ GraphAlgorithms.kAlpha *
          LinearSolver.Eta W cur i ^ GraphAlgorithms.kBeta
      else sum) 0 = S at hsum ⊢
  have hS : ∀ i, i < visited.length → (visited.getD i false = false ∧ cell W cur i > 0) →
      0 < S := fun i hi hc =>
    lt_of_lt_of_le (attract_pos W ph cur i (hph i hi) hc.2) (hsum i hi hc)
  have h := forLoop_induct
    (fun c (acc : Int × ℚ) =>
      (acc = (-1, 0) ∧ ∀ i, i < c → ¬ (visited.getD i false = false ∧ cell W cur i > 0)) ∨
      ∃ r, r < c ∧ acc.1 = (r : Int) ∧
        (visited.getD r false = false ∧ cell W cur r > 0) ∧
        acc.2 = cell ph cur r * (1 / cell W cur r) ^ 2 / S ∧
        (∀ i, i < c → (visited.getD i false = false ∧ cell W cur i > 0) →
          cell ph cur i * (1 / cell W cur i) ^ 2 ≤ cell ph cur r * (1 / cell W cur r) ^ 2) ∧
        ∀ i, i < r → (visited.getD i false = false ∧ cell W cur i > 0) →
          cell ph cur i * (1 / cell W cur i) ^ 2 <
            cell ph cur r * (1 / cell W cur r) ^ 2) 0 visited.length
    (fun i (acc : Int × ℚ) =>
      if visited.getD i false = false ∧ cell W cur i > 0 then
        if cell ph cur i ^ GraphAlgorithms.kAlpha *
            LinearSolver.Eta W cur i ^ GraphAlgorithms.kBeta / S > acc.2 then
          ((i : Int), cell ph cur i ^ GraphAlgorithms.kAlpha *
            LinearSolver.Eta W cur i ^ GraphAlgorithms.kBeta / S)
        else acc
      else acc) (-1, 0) (Nat.zero_le _) (Or.inl ⟨rfl, fun i hi => by omega⟩) ?_
  · rcases h with ⟨h1, h2⟩ | ⟨r, h1, h2, h3, _, h5, h6⟩
    · left
      exact ⟨by rw [h1], h2⟩
    · right
      exact ⟨r, h1, h2, h3, h5, h6⟩
  · intro c acc _ hc2 hinv
    dsimp only
    by_cases hcand : visited.getD c false = false ∧ cell W cur c > 0
    · rw [if_pos hcand, attract_eq]
      have hSpos := hS c hc2 hcand
      have hvpos : 0 < cell ph cur c * (1 / cell W cur c) ^ 2 := by
        rw [← attract_eq]
        exact attract_pos W ph cur c (hph c hc2) hcand.2
      rcases hinv with ⟨h1, h2⟩ | ⟨r, h1, h2, h3, h4, h5, h6⟩
      · rw [h1]
        rw [if_pos (div_pos hvpos hSpos)]
        right
        refine ⟨c, by omega, rfl, hcand, rfl, ?_, ?_⟩
        · intro i hi hic
          by_cases hieq : i = c
          · subst hieq
            exact le_refl _
          · exact absurd hic (h2 i (by omega))
        · intro i hi hic
          exact absurd hic (h2 i hi)
      · by_cases hgt : cell ph cur c * (1 / cell W cur c) ^ 2 / S > acc.2
        · rw [if_pos hgt]
          rw [h4] at hgt
          have hlt : cell ph cur r * (1 / cell W cur r) ^ 2 <
              cell ph cur c * (1 / cell W cur c) ^ 2 :=
            (div_lt_div_iff_of_pos_right hSpos).mp hgt
          right
          refine ⟨c, by omega, rfl, hcand, rfl, ?_, ?_⟩
          · intro i hi hic
            by_cases hieq : i = c
            · subst hieq
              exact le_refl _
            · exact le_trans (h5 i (by omega) hic) (le_of_lt hlt)
          · intro i hi hic
            exact lt_of_le_of_lt (h5 i hi hic) hlt
        · rw [if_neg hgt]
          rw [h4] at hgt
          have hle : cell ph cur c * (1 / cell W cur c) ^ 2 ≤
              cell ph cur r * (1 / cell W cur r) ^ 2 :=
            (div_le_div_iff_of_pos_right hSpos).mp (not_lt.mp hgt)
          right
          refine ⟨r, by omega, h2, h3, h4, ?_, h6⟩
          intro i hi hic
          by_cases hieq : i = c
          · subst hieq
            exact hle
          · exact h5 i (by omega) hic
    · rw [if_neg hcand]
      rcases hinv with ⟨h1, h2⟩ | ⟨r, h1, h2, h3, h4, h5, h6⟩
      · left
        refine ⟨h1, ?_⟩
        intro i hi
        by_cases hieq : i = c
        · subst hieq
          exact hcand
        · exact h2 i (by omega)
      · right
        refine ⟨r, by omega, h2, h3, h4, ?_, h6⟩
        intro i hi hic
        by_cases hieq : i = c
        · subst hieq
          exact absurd hic hcand
        · exact h5 i (by omega) hic

/-- C34: with positive pheromone on the row of the current vertex, `SelectNext` returns `-1`
exactly when no unvisited vertex `i` has `weight[cur][i] > 0`; otherwise it returns such a
vertex that maximises `pheromone[cur][i] * (1 / weight[cur][i])^2`, the lowest index among
the maximisers. -/
theorem C34_select_next (W ph : m_dbl_type) (cur : Nat) (visited : List Bool)
    (hph : ∀ i, i < visited.length → 0 < cell ph cur i) :
    (LinearSolver.SelectNext W ph cur visited = -1 ↔
      ∀ i, i < visited.length → ¬ (visited.getD i false = false ∧ cell W cur i > 0)) ∧
    (LinearSolver.SelectNext W ph cur visited ≠ -1 →
      ∃ r, r < visited.length ∧ LinearSolver.SelectNext W ph cur visited = (r : Int) ∧
        visited.getD r false = false ∧ cell W cur r > 0 ∧
        (∀ i, i < visited.length → visited.getD i false = false → cell W cur i > 0 →
          cell ph cur i * (1 / cell W cur i) ^ 2 ≤ cell ph cur r * (1 / cell W cur r) ^ 2) ∧
        ∀ i, i < r → visited.getD i false = false → cell W cur i > 0 →
          cell ph cur i * (1 / cell W cur i) ^ 2 <
            cell ph cur r * (1 / cell W cur r) ^ 2) := by
  rcases SelectNext_full W ph cur visited hph with ⟨h1, h2⟩ | ⟨r, h1, h2, h3, h4, h5⟩
  · refine ⟨⟨fun _ => h2, fun _ => h1⟩, fun hne => absurd h1 hne⟩
  · refine ⟨⟨?_, ?_⟩, ?_⟩
    · intro h
      rw [h2] at h
      omega
    · intro h
      exact absurd h3 (h r h1)
    · intro _
      exact ⟨r, h1, h2, h3.1, h3.2, fun i hi ha hb => h4 i hi ⟨ha, hb⟩,
        fun i hi ha hb => h5 i hi ⟨ha, hb⟩⟩

/-- Witness of C34: from vertex 0 of `threeCities` with the initial pheromone, nothing
visited but vertex 0, the answer is vertex 1. -/
theorem C34_select_next_witness :
    (LinearSolver.SelectNext threeCities
        [[1/10, 1/10, 1/10], [1/10, 1/10, 1/10], [1/10, 1/10, 1/10]] 0
        [true, false, false] = -1 ↔
      ∀ i, i < [true, false, false].length →
        ¬ ([true, false, false].getD i false = false ∧ cell threeCities 0 i > 0)) ∧
    LinearSolver.SelectNext threeCities
        [[1/10, 1/10, 1/10], [1/10, 1/10, 1/10], [1/10, 1/10, 1/10]] 0
        [true, false, false] = 1 :=
  ⟨(C34_select_next threeCities
      [[1/10, 1/10, 1/10], [1/10, 1/10, 1/10], [1/10, 1/10, 1/10]] 0 [true, false, false]
      (by decide!)).1, by decide!⟩

end s21

namespace s21

/-! ## What `BuildTour` returns, closed or not -/

theorem BuildTour_eq (W ph : m_dbl_type) (start : Nat) (visited : List Bool) :
    LinearSolver.BuildTour W ph start visited =
      if cell W (LinearSolver.tourLoop W ph start visited).current start > 0 then
        ⟨⟨(LinearSolver.tourLoop W ph start visited).ant.ant_result_.vertices_ ++ [start],
            (LinearSolver.tourLoop W ph start visited).ant.ant_result_.distance_ +
              cell W (LinearSolver.tourLoop W ph start visited).current start⟩,
          (LinearSolver.tourLoop W ph start visited).ant.quantity_ +
            cell ph (LinearSolver.tourLoop W ph start visited).current start⟩
      else (LinearSolver.tourLoop W ph start visited).ant := rfl

theorem tourStep_length (W ph : m_dbl_type) (st : TourState) (i : Nat)
    (h1 : st.stopped = false → st.ant.ant_result_.vertices_.length = i)
    (h2 : st.stopped = true → st.ant.ant_result_.vertices_.length < i) :
    ((LinearSolver.tourStep W ph st).stopped = false →
      (LinearSolver.tourStep W ph st).ant.ant_result_.vertices_.length = i + 1) ∧
    ((LinearSolver.tourStep W ph st).stopped = true →
      (LinearSolver.tourStep W ph st).ant.ant_result_.vertices_.length < i + 1) := by
  unfold LinearSolver.tourStep
  by_cases hs : st.stopped = true
  · rw [if_pos hs]
    have := h2 hs
    refine ⟨fun h => ?_, fun _ => by omega⟩
    rw [hs] at h
    exact absurd h (by decide)
  · rw [if_neg hs]
    have hf : st.stopped = false := by
      cases h : st.stopped
      · rfl
      · exact absurd h hs
    have hl := h1 hf
    dsimp only
    by_cases hn : LinearSolver.SelectNext W ph st.current st.visited = -1
    · rw [if_pos hn]
      exact ⟨fun h => absurd h (by simp), fun _ => by simp only; omega⟩
    · rw [if_neg hn]
      exact ⟨fun _ => by simp [hl], fun h => absurd h (by simp)⟩

theorem tourStep_quantity (W ph : m_dbl_type) (st : TourState)
    (hph : ∀ a b, 0 ≤ cell ph a b) (h : 0 ≤ st.ant.quantity_) :
    0 ≤ (LinearSolver.tourStep W ph st).ant.quantity_ := by
  unfold LinearSolver.tourStep
  dsimp only
  split_ifs
  · exact h
  · exact h
  · exact add_nonneg h (hph _ _)

/-- The state in which the loop of `BuildTour` is left: the path built so far, and whether the
loop was left by `break` (fewer than `n` vertices) or ran to its end (all `n` vertices). -/
theorem tourLoop_inv (W ph : m_dbl_type) (n start : Nat) (hs : start < n) :
    TourInv W n start (LinearSolver.tourLoop W ph start (List.replicate n false)) ∧
    ((LinearSolver.tourLoop W ph start (List.replicate n false)).stopped = false →
      (LinearSolver.tourLoop W ph start
        (List.replicate n false)).ant.ant_result_.vertices_.length = n) ∧
    ((LinearSolver.tourLoop W ph start (List.replicate n false)).stopped = true →
      (LinearSolver.tourLoop W ph start
        (List.replicate n false)).ant.ant_result_.vertices_.length < n) ∧
    ((∀ a b, 0 ≤ cell ph a b) →
      0 ≤ (LinearSolver.tourLoop W ph start (List.replicate n false)).ant.quantity_) := by
  have hinit : TourInv W n start
      ⟨⟨⟨[start], 0⟩, 0⟩, (List.replicate n false).set start true, start, false⟩ := by
    refine ⟨by simp, by simp, rfl, rfl, List.nodup_singleton _, ?_, ?_, ?_⟩
    · intro v
      show v ∈ [start] ↔ (v < n ∧ ((List.replicate n false).set start true).getD v false = true)
      rw [List.mem_singleton, getD_bool_set]
      by_cases hv : v = start
      · subst hv
        simp [hs]
      · have : ¬ (start = v ∧ start < (List.replicate n false).length) := fun hh => hv hh.1.symm
        rw [if_neg this]
        have : (List.replicate n false).getD v false = false := by
          simp only [List.getD_eq_getElem?_getD, List.getElem?_replicate]
          split_ifs <;> rfl
        simp [hv, this]
    · intro i hi
      simp at hi
    · show (0 : ℚ) = tourLength W 0 [start]
      simp [tourLength]
  have hlen : ((List.replicate n false).set start true).length = n := by simp
  unfold LinearSolver.tourLoop
  rw [hlen]
  have h := forLoop_induct
    (fun i (st : TourState) => TourInv W n start st ∧
      (st.stopped = false → st.ant.ant_result_.vertices_.length = i) ∧
      (st.stopped = true → st.ant.ant_result_.vertices_.length < i) ∧
      ((∀ a b, 0 ≤ cell ph a b) → 0 ≤ st.ant.quantity_)) 1 n
    (fun _ st => LinearSolver.tourStep W ph st)
    ⟨⟨⟨[start], 0⟩, 0⟩, (List.replicate n false).set start true, start, false⟩ (by omega)
    ⟨hinit, fun _ => rfl, fun h => absurd h (by simp), fun _ => le_refl _⟩ ?_
  · exact h
  · intro i st _ _ ⟨h1, h2, h3, h4⟩
    obtain ⟨k1, k2⟩ := tourStep_length W ph st i h2 h3
    exact ⟨TourInv_step W ph n start st h1, k1, k2,
      fun hph => tourStep_quantity W ph st hph (h4 hph)⟩

theorem cell_nonneg_of_positive (ph : m_dbl_type) (n : Nat) (h : PositiveMatrix ph n) :
    ∀ a b, 0 ≤ cell ph a b := by
  intro a b
  by_cases ha : a < n
  · by_cases hb : b < n
    · exact le_of_lt (h.2 a b ha hb)
    · have hrow : (getRow ph a).length = n := getRow_length_of_isMatrix h.1 a ha
      unfold cell
      rw [List.getD_eq_default _ _ (by omega)]
  · have : getRow ph a = [] := by
      unfold getRow
      rw [List.getD_eq_default _ _ (by rw [h.1.1]; omega)]
    unfold cell
    rw [this]
    rfl

/-- Every ant that `BuildTour` returns, closed or not, names existing vertices, follows edges
of positive weight and carries a quantity that is not negative. -/
theorem BuildTour_antOk (W ph : m_dbl_type) (n start : Nat) (hs : start < n)
    (hph : ∀ a b, 0 ≤ cell ph a b) :
    AntOk W n (LinearSolver.BuildTour W ph start (List.replicate n false)) := by
  obtain ⟨⟨_, h2, _, h4, _, h6, h7, _⟩, _, _, hq⟩ := tourLoop_inv W ph n start hs
  rw [BuildTour_eq]
  have hb : ∀ v ∈ (LinearSolver.tourLoop W ph start
      (List.replicate n false)).ant.ant_result_.vertices_, v < n := fun v hv => ((h6 v).mp hv).1
  split_ifs with hc
  · refine ⟨?_, ?_, add_nonneg (hq hph) (hph _ _)⟩
    · intro v hv
      rcases List.mem_append.mp hv with h | h
      · exact hb v h
      · rw [List.mem_singleton] at h
        rw [h]
        exact hs
    · exact IsPath_append W _ start h2 h7 (by rw [h4]; exact hc)
  · exact ⟨hb, h7, hq hph⟩

/-! ## Closing the tour -/

/-- C38 fails on `isolatedCity`: the ant that starts at vertex 0 reaches vertex 1 and leaves
the loop by `break` with vertex 2 unvisited, and `BuildTour` still appends the return to
vertex 0 and adds the weight of that edge. -/
theorem C38_counterexample_early_stop_closed :
    (LinearSolver.tourLoop isolatedCity
      [[1/10, 1/10, 1/10], [1/10, 1/10, 1/10], [1/10, 1/10, 1/10]] 0
      (List.replicate 3 false)).stopped = true ∧
    (LinearSolver.tourLoop isolatedCity
      [[1/10, 1/10, 1/10], [1/10, 1/10, 1/10], [1/10, 1/10, 1/10]] 0
      (List.replicate 3 false)).ant.ant_result_ = ⟨[0, 1], 1⟩ ∧
    (LinearSolver.BuildTour isolatedCity
      [[1/10, 1/10, 1/10], [1/10, 1/10, 1/10], [1/10, 1/10, 1/10]] 0
      (List.replicate 3 false)).ant_result_ = ⟨[0, 1, 0], 2⟩ ∧
    2 ∉ (LinearSolver.BuildTour isolatedCity
      [[1/10, 1/10, 1/10], [1/10, 1/10, 1/10], [1/10, 1/10, 1/10]] 0
      (List.replicate 3 false)).ant_result_.vertices_ := by
  refine ⟨by decide!, by decide!, by decide!, by decide!⟩

/-- C38, amended: `BuildTour` appends the return to the start vertex, and adds the weight of
that edge, exactly when the edge from the last vertex reached back to the start has positive
weight, whether or not all `n` vertices were visited. A tour that left the loop early has
fewer than `n` vertices before that step and so at most `n` entries after it; a tour of
`n + 1` entries, the only kind that `SolvePiece` accepts, did not leave the loop early and is
a closed tour through all `n` vertices. -/
theorem C38_closing_rule (W ph : m_dbl_type) (n start : Nat) (hs : start < n) :
    (cell W (LinearSolver.tourLoop W ph start (List.replicate n false)).current start > 0 →
      (LinearSolver.BuildTour W ph start (List.replicate n false)).ant_result_ =
        ⟨(LinearSolver.tourLoop W ph start
            (List.replicate n false)).ant.ant_result_.vertices_ ++ [start],
          (LinearSolver.tourLoop W ph start
            (List.replicate n false)).ant.ant_result_.distance_ +
            cell W (LinearSolver.tourLoop W ph start (List.replicate n false)).current
              start⟩) ∧
    (¬ cell W (LinearSolver.tourLoop W ph start (List.replicate n false)).current start > 0 →
      (LinearSolver.BuildTour W ph start (List.replicate n false)) =
        (LinearSolver.tourLoop W ph start (List.replicate n false)).ant) ∧
    (LinearSolver.tourLoop W ph start (List.replicate n false)).ant.ant_result_.vertices_.getD
      ((LinearSolver.tourLoop W ph start
        (List.replicate n false)).ant.ant_result_.vertices_.length - 1) 0 =
      (LinearSolver.tourLoop W ph start (List.replicate n false)).current ∧
    ((LinearSolver.tourLoop W ph start (List.replicate n false)).stopped = true →
      (LinearSolver.tourLoop W ph start
        (List.replicate n false)).ant.ant_result_.vertices_.length < n ∧
      (LinearSolver.BuildTour W ph start
        (List.replicate n false)).ant_result_.vertices_.length ≤ n) ∧
    ((LinearSolver.tourLoop W ph start (List.replicate n false)).stopped = false →
      (LinearSolver.tourLoop W ph start
        (List.replicate n false)).ant.ant_result_.vertices_.Perm (List.range n)) ∧
    ((LinearSolver.BuildTour W ph start
        (List.replicate n false)).ant_result_.vertices_.length = n + 1 →
      (LinearSolver.tourLoop W ph start (List.replicate n false)).stopped = false ∧
      IsClosedTour W n 0
        (LinearSolver.BuildTour W ph start (List.replicate n false)).ant_result_.vertices_) := by
  obtain ⟨⟨_, _, _, h4, h5, h6, _, _⟩, k1, k2, _⟩ := tourLoop_inv W ph n start hs
  have hb : ∀ v ∈ (LinearSolver.tourLoop W ph start
      (List.replicate n false)).ant.ant_result_.vertices_, v < n := fun v hv => ((h6 v).mp hv).1
  refine ⟨?_, ?_, h4, ?_, ?_, ?_⟩
  · intro hc
    rw [BuildTour_eq, if_pos hc]
  · intro hc
    rw [BuildTour_eq, if_neg hc]
  · intro hst
    refine ⟨k2 hst, ?_⟩
    have := k2 hst
    rw [BuildTour_eq]
    split_ifs
    · simp only [List.length_append, List.length_singleton]
      omega
    · omega
  · intro hst
    exact nodup_bounded_perm _ n h5 hb (k1 hst)
  · intro hlen
    refine ⟨?_, (BuildTour_spec W ph n start (by omega) hs hlen).1⟩
    cases hst : (LinearSolver.tourLoop W ph start (List.replicate n false)).stopped
    · rfl
    · have := k2 hst
      rw [BuildTour_eq] at hlen
      split_ifs at hlen
      · simp only [List.length_append, List.length_singleton] at hlen
        omega
      · omega

/-- Witness of C38, amended: the ant of `isolatedCity` that starts at vertex 0. -/
theorem C38_closing_rule_witness :
    (LinearSolver.tourLoop isolatedCity
      [[1/10, 1/10, 1/10], [1/10, 1/10, 1/10], [1/10, 1/10, 1/10]] 0
      (List.replicate 3 false)).ant.ant_result_.vertices_.length < 3 ∧
    (LinearSolver.BuildTour isolatedCity
      [[1/10, 1/10, 1/10], [1/10, 1/10, 1/10], [1/10, 1/10, 1/10]] 0
      (List.replicate 3 false)).ant_result_.vertices_.length ≤ 3 :=
  (C38_closing_rule isolatedCity
    [[1/10, 1/10, 1/10], [1/10, 1/10, 1/10], [1/10, 1/10, 1/10]] 3 0 (by decide)).2.2.2.1
    (by decide!)

end s21

namespace s21

/-! ## The pheromone update -/

theorem cell_evaporated (ph : m_dbl_type) (i j : Nat) :
    cell (ph.map (fun start => start.map (fun x => x * GraphAlgorithms.kRHO))) i j =
      cell ph i j * GraphAlgorithms.kRHO := by
  unfold cell getRow
  have h1 : (ph.map (fun start => start.map (fun x => x * GraphAlgorithms.kRHO))).getD i [] =
      (ph.getD i []).map (fun x => x * GraphAlgorithms.kRHO) := by
    have := List.getD_map ph [] (n := i) (fun start : row_type =>
      start.map (fun x => x * GraphAlgorithms.kRHO))
    simpa using this
  rw [h1]
  have h2 := List.getD_map (ph.getD i []) (0 : ℚ) (n := j)
    (fun x => x * GraphAlgorithms.kRHO)
  simpa using h2

theorem isMatrix_evaporated (ph : m_dbl_type) (n : Nat) (h : IsMatrix ph n n) :
    IsMatrix (ph.map (fun start => start.map (fun x => x * GraphAlgorithms.kRHO))) n n := by
  refine ⟨by simp [h.1], ?_⟩
  intro row hrow
  obtain ⟨r0, hr0, rfl⟩ := List.mem_map.mp hrow
  simp [h.2 r0 hr0]

theorem isMatrix_setCell (m : m_dbl_type) (r c i j : Nat) (v : ℚ) (h : IsMatrix m r c) :
    IsMatrix (setCell m i j v) r c := by
  refine ⟨by rw [length_setCell, h.1], ?_⟩
  intro row hrow
  obtain ⟨k, hk, rfl⟩ := List.mem_iff_getElem.mp hrow
  have hk2 : k < m.length := by rwa [length_setCell] at hk
  have e : (setCell m i j v)[k] = getRow (setCell m i j v) k := by
    unfold getRow
    rw [List.getD_eq_getElem _ _ hk]
  rw [e, getRow_length_setCell]
  exact h.2 _ (getRow_mem m k hk2)

/-- The deposits of one ant along a list of edges: every entry grows by one deposit for each
occurrence of its edge. -/
theorem deposits_spec (W : m_dbl_type) (q : ℚ) (n : Nat) (E : List (Nat × Nat))
    (hE : ∀ e ∈ E, e.1 < n ∧ e.2 < n) (ph : m_dbl_type) (hph : IsMatrix ph n n) :
    IsMatrix (E.foldl (fun ph2 e =>
      setCell ph2 e.1 e.2 (cell ph2 e.1 e.2 + q / cell W e.1 e.2)) ph) n n ∧
    ∀ i j, i < n → j < n →
      cell (E.foldl (fun ph2 e =>
        setCell ph2 e.1 e.2 (cell ph2 e.1 e.2 + q / cell W e.1 e.2)) ph) i j =
        cell ph i j + (E.count (i, j) : ℚ) * (q / cell W i j) := by
  induction E generalizing ph with
  | nil => exact ⟨hph, fun i j _ _ => by simp⟩
  | cons e E ih =>
    have he := hE e (List.mem_cons_self _ _)
    have hE2 : ∀ e2 ∈ E, e2.1 < n ∧ e2.2 < n := fun e2 h => hE e2 (List.mem_cons_of_mem _ h)
    obtain ⟨k1, k2⟩ := ih hE2 (setCell ph e.1 e.2 (cell ph e.1 e.2 + q / cell W e.1 e.2))
      (isMatrix_setCell ph n n e.1 e.2 _ hph)
    rw [List.foldl_cons]
    refine ⟨k1, ?_⟩
    intro i j hi hj
    rw [k2 i j hi hj, cell_setCell, List.count_cons]
    have hrow : (getRow ph e.1).length = n := getRow_length_of_isMatrix hph e.1 he.1
    by_cases hij : e = (i, j)
    · subst hij
      have hc : (i = i ∧ j = j ∧ i < ph.length ∧ j < (getRow ph i).length) :=
        ⟨rfl, rfl, by rw [hph.1]; exact hi, by
          have := getRow_length_of_isMatrix hph i hi
          omega⟩
      rw [if_pos hc]
      simp only [beq_self_eq_true, if_true, Nat.cast_add, Nat.cast_one]
      ring
    · have hc : ¬ (i = e.1 ∧ j = e.2 ∧ e.1 < ph.length ∧ e.2 < (getRow ph e.1).length) := by
        rintro ⟨h1, h2, _, _⟩
        apply hij
        rw [h1, h2]
      rw [if_neg hc]
      have hb : (e == (i, j)) = false := by simpa using hij
      simp [hb]

theorem edges_in_range (l : List Nat) (n : Nat) (h : ∀ v ∈ l, v < n) :
    ∀ e ∈ l.zip l.tail, e.1 < n ∧ e.2 < n := by
  rintro ⟨a, b⟩ he
  obtain ⟨h1, h2⟩ := List.of_mem_zip he
  exact ⟨h a h1, h b (List.mem_of_mem_tail h2)⟩

/-- An edge that occurs in a vertex list with positive-weight edges has positive weight. -/
theorem edge_weight_pos (W : m_dbl_type) (l : List Nat) (i j : Nat) (hp : IsPath W 0 l)
    (hc : 0 < edgeCount l i j) : 0 < cell W i j := by
  unfold edgeCount at hc
  rw [List.count_pos_iff] at hc
  obtain ⟨k, hk, hek⟩ := List.mem_iff_getElem.mp hc
  rw [List.getElem_zip] at hek
  have hk1 : k < l.length := by
    have := hk
    simp only [List.length_zip, List.length_tail] at this
    omega
  have hk2 : k + 1 < l.length := by
    have := hk
    simp only [List.length_zip, List.length_tail] at this
    omega
  have e1 : l.getD k 0 = i := by
    rw [List.getD_eq_getElem _ _ hk1]
    exact (Prod.mk.inj hek).1
  have e2 : l.getD (k + 1) 0 = j := by
    rw [List.getD_eq_getElem _ _ hk2, ← List.getElem_tail]
    exact (Prod.mk.inj hek).2
  have := hp k hk2
  simp only [Nat.sub_zero] at this
  rw [e1, e2] at this
  exact this

/-- The pheromone matrix after `UpdatePheromone`, entry by entry. -/
theorem UpdatePheromone_spec (W ph : m_dbl_type) (n : Nat) (hph : IsMatrix ph n n)
    (ants : List Ant) (hants : ∀ ant ∈ ants, ∀ v ∈ ant.ant_result_.vertices_, v < n) :
    IsMatrix (LinearSolver.UpdatePheromone W ph ants) n n ∧
    ∀ i j, i < n → j < n →
      cell (LinearSolver.UpdatePheromone W ph ants) i j =
        1 / 2 * cell ph i j +
          (ants.map (fun ant => (edgeCount ant.ant_result_.vertices_ i j : ℚ) *
            (ant.quantity_ / cell W i j))).sum := by
  unfold LinearSolver.UpdatePheromone
  dsimp only
  have key : ∀ (L : List Ant) (p : m_dbl_type), IsMatrix p n n →
      (∀ ant ∈ L, ∀ v ∈ ant.ant_result_.vertices_, v < n) →
      IsMatrix (L.foldl (fun ph1 ant =>
        (ant.ant_result_.vertices_.zip ant.ant_result_.vertices_.tail).foldl
          (fun ph2 e =>
            setCell ph2 e.1 e.2 (cell ph2 e.1 e.2 + ant.quantity_ / cell W e.1 e.2)) ph1)
        p) n n ∧
      ∀ i j, i < n → j < n →
        cell (L.foldl (fun ph1 ant =>
          (ant.ant_result_.vertices_.zip ant.ant_result_.vertices_.tail).foldl
            (fun ph2 e =>
              setCell ph2 e.1 e.2 (cell ph2 e.1 e.2 + ant.quantity_ / cell W e.1 e.2)) ph1)
          p) i j =
          cell p i j + (L.map (fun ant => (edgeCount ant.ant_result_.vertices_ i j : ℚ) *
            (ant.quantity_ / cell W i j))).sum := by
    intro L
    induction L with
    | nil => exact fun p hp _ => ⟨hp, fun i j _ _ => by simp⟩
    | cons a L ih =>
      intro p hp hL
      obtain ⟨d1, d2⟩ := deposits_spec W a.quantity_ n
        (a.ant_result_.vertices_.zip a.ant_result_.vertices_.tail)
        (edges_in_range _ n (hL a (List.mem_cons_self _ _))) p hp
      obtain ⟨k1, k2⟩ := ih _ d1 (fun ant h => hL ant (List.mem_cons_of_mem _ h))
      rw [List.foldl_cons]
      refine ⟨k1, ?_⟩
      intro i j hi hj
      rw [k2 i j hi hj, d2 i j hi hj, List.map_cons, List.sum_cons]
      unfold edgeCount
      ring
  obtain ⟨k1, k2⟩ := key ants _ (isMatrix_evaporated ph n hph) hants
  refine ⟨k1, ?_⟩
  intro i j hi hj
  rw [k2 i j hi hj, cell_evaporated]
  simp only [GraphAlgorithms.kRHO]
  ring

/-- C36: on an `n x n` pheromone matrix `P` and a batch of ants whose vertices exist,
`UpdatePheromone` yields `P'[i][j] = 0.5 * P[i][j]` plus, for every ant of the batch and every
occurrence of `(i, j)` as a pair of consecutive vertices of its tour, `quantity / weight[i][j]`
of that ant; an entry whose edge no ant used is exactly halved, and an empty batch halves
every entry. -/
theorem C36_update_pheromone (W ph : m_dbl_type) (n : Nat) (hph : IsMatrix ph n n)
    (ants : List Ant) (hants : ∀ ant ∈ ants, ∀ v ∈ ant.ant_result_.vertices_, v < n) :
    IsMatrix (LinearSolver.UpdatePheromone W ph ants) n n ∧
    (∀ i j, i < n → j < n →
      cell (LinearSolver.UpdatePheromone W ph ants) i j =
        1 / 2 * cell ph i j +
          (ants.map (fun ant => (edgeCount ant.ant_result_.vertices_ i j : ℚ) *
            (ant.quantity_ / cell W i j))).sum) ∧
    (∀ i j, i < n → j < n → (∀ ant ∈ ants, edgeCount ant.ant_result_.vertices_ i j = 0) →
      cell (LinearSolver.UpdatePheromone W ph ants) i j = 1 / 2 * cell ph i j) ∧
    (∀ i j, cell (LinearSolver.UpdatePheromone W ph []) i j = 1 / 2 * cell ph i j) := by
  obtain ⟨k1, k2⟩ := UpdatePheromone_spec W ph n hph ants hants
  refine ⟨k1, k2, ?_, ?_⟩
  · intro i j hi hj hz
    rw [k2 i j hi hj]
    have : (ants.map (fun ant => (edgeCount ant.ant_result_.vertices_ i j : ℚ) *
        (ant.quantity_ / cell W i j))).sum = 0 := by
      apply List.sum_eq_zero
      intro x hx
      obtain ⟨ant, hant, rfl⟩ := List.mem_map.mp hx
      rw [hz ant hant]
      simp
    rw [this, add_zero]
  · intro i j
    show cell (ph.map (fun start => start.map (fun x => x * GraphAlgorithms.kRHO))) i j = _
    rw [cell_evaporated]
    simp only [GraphAlgorithms.kRHO]
    ring

/-- Witness of C36: one ant with the tour 0-1-0 and quantity 1/5 on `twoCities`. -/
theorem C36_update_pheromone_witness :
    cell (LinearSolver.UpdatePheromone twoCities [[1/10, 1/10], [1/10, 1/10]]
      [⟨⟨[0, 1, 0], 2⟩, 1/5⟩]) 0 1 =
      1 / 2 * cell [[1/10, 1/10], [1/10, 1/10]] 0 1 +
        ([(⟨⟨[0, 1, 0], 2⟩, 1/5⟩ : Ant)].map (fun ant =>
          (edgeCount ant.ant_result_.vertices_ 0 1 : ℚ) *
            (ant.quantity_ / cell twoCities 0 1))).sum :=
  (C36_update_pheromone twoCities [[1/10, 1/10], [1/10, 1/10]] 2 (by decide)
    [⟨⟨[0, 1, 0], 2⟩, 1/5⟩] (by decide)).2.1 0 1 (by decide) (by decide)

/-! ## The pheromone stays positive -/

theorem UpdatePheromone_positive (W ph : m_dbl_type) (n : Nat) (hph : PositiveMatrix ph n)
    (ants : List Ant) (hants : ∀ ant ∈ ants, AntOk W n ant) :
    PositiveMatrix (LinearSolver.UpdatePheromone W ph ants) n := by
  obtain ⟨k1, k2⟩ := UpdatePheromone_spec W ph n hph.1 ants (fun ant h => (hants ant h).1)
  refine ⟨k1, ?_⟩
  intro i j hi hj
  rw [k2 i j hi hj]
  have h1 : 0 < 1 / 2 * cell ph i j := mul_pos (by norm_num) (hph.2 i j hi hj)
  have h2 : 0 ≤ (ants.map (fun ant => (edgeCount ant.ant_result_.vertices_ i j : ℚ) *
      (ant.quantity_ / cell W i j))).sum := by
    apply List.sum_nonneg
    intro x hx
    obtain ⟨ant, hant, rfl⟩ := List.mem_map.mp hx
    obtain ⟨_, hp, hq⟩ := hants ant hant
    by_cases hc : edgeCount ant.ant_result_.vertices_ i j = 0
    · rw [hc]
      simp
    · have hw := edge_weight_pos W _ i j hp (Nat.pos_of_ne_zero hc)
      exact mul_nonneg (Nat.cast_nonneg _) (div_nonneg hq (le_of_lt hw))
  linarith

theorem antStep_pheromone (W : m_dbl_type) (rnd : Nat → Nat) (acc : Colony × List Ant) :
    (LinearSolver.antStep W rnd acc).1.phero_ptr_ = acc.1.phero_ptr_ := by
  unfold LinearSolver.antStep
  dsimp only
  split_ifs <;> rfl

theorem antStep_ants (W : m_dbl_type) (rnd : Nat → Nat) (acc : Colony × List Ant) :
    (LinearSolver.antStep W rnd acc).2 = acc.2 ∨
    (LinearSolver.antStep W rnd acc).2 = acc.2 ++
      [LinearSolver.BuildTour W acc.1.phero_ptr_ (rnd acc.1.draws)
        (List.replicate W.length false)] := by
  unfold LinearSolver.antStep
  dsimp only
  split_ifs
  · exact Or.inr rfl
  · exact Or.inr rfl
  · exact Or.inl rfl

theorem SolvePiece_positive (W : m_dbl_type) (n : Nat) (hW : W.length = n) (rnd : Nat → Nat)
    (hr : ∀ k, rnd k < n) (k : Nat) (c : Colony) (hc : PositiveMatrix c.phero_ptr_ n) :
    PositiveMatrix (LinearSolver.SolvePiece W rnd k c).phero_ptr_ n := by
  unfold LinearSolver.SolvePiece
  refine forLoop_induct (fun _ (c1 : Colony) => PositiveMatrix c1.phero_ptr_ n) 0 k _ c
    (Nat.zero_le _) hc ?_
  intro i c1 _ _ hc1
  have h := forLoop_induct
    (fun _ (acc : Colony × List Ant) => acc.1.phero_ptr_ = c1.phero_ptr_ ∧
      ∀ ant ∈ acc.2, AntOk W n ant) 0 GraphAlgorithms.kNumAnts
    (fun _ acc => LinearSolver.antStep W rnd acc) (c1, []) (Nat.zero_le _)
    ⟨rfl, fun ant h => absurd h (List.not_mem_nil _)⟩ ?_
  · show PositiveMatrix (LinearSolver.UpdatePheromone W
      (forLoop 0 GraphAlgorithms.kNumAnts (fun _ acc => LinearSolver.antStep W rnd acc)
        (c1, [])).1.phero_ptr_
      (forLoop 0 GraphAlgorithms.kNumAnts (fun _ acc => LinearSolver.antStep W rnd acc)
        (c1, [])).2) n
    rw [h.1]
    exact UpdatePheromone_positive W _ n hc1 _ h.2
  · intro j acc _ _ ⟨ha1, ha2⟩
    refine ⟨by rw [antStep_pheromone, ha1], ?_⟩
    intro ant hant
    rcases antStep_ants W rnd acc with h | h
    · rw [h] at hant
      exact ha2 ant hant
    · rw [h] at hant
      rcases List.mem_append.mp hant with h2 | h2
      · exact ha2 ant h2
      · rw [List.mem_singleton] at h2
        rw [h2, ha1, hW]
        exact BuildTour_antOk W _ n _ (hr _) (cell_nonneg_of_positive _ n hc1)

/-- C35: on a square weight matrix with `n >= 1` vertices, the matrix of `InitializePheromone`
is an `n x n` matrix of positive entries; `UpdatePheromone` keeps the pheromone matrix `n x n`
with positive entries for every batch of ants returned by `BuildTour`; and so does every
sequence of `SolvePiece` calls, with any iteration counts, whatever start vertices `Random()`
returns. -/
theorem C35_pheromone_stays_positive (W : m_dbl_type) (n : Nat) (hn : 1 ≤ n)
    (hW : IsMatrix W n n) (rnd : Nat → Nat) (hr : ∀ k, rnd k < n) :
    (∃ ph0, LinearSolver.InitializePheromone n = .ok ph0 ∧ PositiveMatrix ph0 n) ∧
    (∀ ph, PositiveMatrix ph n → ∀ starts : List Nat, (∀ s ∈ starts, s < n) →
      PositiveMatrix (LinearSolver.UpdatePheromone W ph
        (starts.map (fun s => LinearSolver.BuildTour W ph s (List.replicate n false)))) n) ∧
    (∀ ph0, LinearSolver.InitializePheromone n = .ok ph0 →
      ∀ (best : TsmResult) (d : Nat) (runs : List Nat),
        PositiveMatrix (runs.foldl (fun c k => LinearSolver.SolvePiece W rnd k c)
          ⟨best, ph0, d⟩).phero_ptr_ n ∧
        ∀ i j, i < n → j < n →
          0 ≤ cell (runs.foldl (fun c k => LinearSolver.SolvePiece W rnd k c)
            ⟨best, ph0, d⟩).phero_ptr_ i j) := by
  have hinit : PositiveMatrix
      (List.replicate n (List.replicate n GraphAlgorithms.kInitialPheromone)) n := by
    refine ⟨⟨by simp, fun row hrow => by rw [(List.mem_replicate.mp hrow).2]; simp⟩, ?_⟩
    intro i j hi hj
    simp only [cell, getRow, List.getD_eq_getElem?_getD, List.getElem?_replicate, hi, hj,
      if_true, Option.getD_some, GraphAlgorithms.kInitialPheromone]
    norm_num
  have hlt : ¬ (n < 1) := by omega
  refine ⟨⟨_, by simp [LinearSolver.InitializePheromone, hlt], hinit⟩, ?_, ?_⟩
  · intro ph hph starts hstarts
    apply UpdatePheromone_positive W ph n hph
    intro ant hant
    obtain ⟨s, hs, rfl⟩ := List.mem_map.mp hant
    exact BuildTour_antOk W ph n s (hstarts s hs) (cell_nonneg_of_positive ph n hph)
  · intro ph0 h0 best d runs
    have e : ph0 = List.replicate n (List.replicate n GraphAlgorithms.kInitialPheromone) := by
      simp only [LinearSolver.InitializePheromone, hlt, if_false] at h0
      cases h0
      rfl
    subst e
    have key : ∀ (L : List Nat) (c : Colony), PositiveMatrix c.phero_ptr_ n →
        PositiveMatrix (L.foldl (fun c k => LinearSolver.SolvePiece W rnd k c) c).phero_ptr_
          n := by
      intro L
      induction L with
      | nil => exact fun c hc => hc
      | cons k L ih =>
        intro c hc
        rw [List.foldl_cons]
        exact ih _ (SolvePiece_positive W n hW.1 rnd hr k c hc)
    have hp := key runs ⟨best, _, d⟩ hinit
    exact ⟨hp, fun i j hi hj => le_of_lt (hp.2 i j hi hj)⟩

/-- Witness of C35: the initial pheromone on `twoCities`. -/
theorem C35_pheromone_stays_positive_witness :
    ∃ ph0, LinearSolver.InitializePheromone 2 = .ok ph0 ∧ PositiveMatrix ph0 2 :=
  (C35_pheromone_stays_positive twoCities 2 (by decide) (by decide) (fun _ => 0)
    (fun _ => Nat.zero_lt_two)).1

end s21

namespace s21

/-! ## The best distance within a run -/

theorem antStep_cases (W : m_dbl_type) (rnd : Nat → Nat) (acc : Colony × List Ant) :
    ((LinearSolver.BuildTour W acc.1.phero_ptr_ (rnd acc.1.draws)
        (List.replicate W.length false)).ant_result_.vertices_.length = W.length + 1 →
      (LinearSolver.antStep W rnd acc).2 = acc.2 ++
        [LinearSolver.BuildTour W acc.1.phero_ptr_ (rnd acc.1.draws)
          (List.replicate W.length false)] ∧
      ((LinearSolver.BuildTour W acc.1.phero_ptr_ (rnd acc.1.draws)
          (List.replicate W.length false)).ant_result_.distance_ ≤
          acc.1.best_result_.distance_ →
        (LinearSolver.antStep W rnd acc).1.best_result_ =
          (LinearSolver.BuildTour W acc.1.phero_ptr_ (rnd acc.1.draws)
            (List.replicate W.length false)).ant_result_) ∧
      (acc.1.best_result_.distance_ <
          (LinearSolver.BuildTour W acc.1.phero_ptr_ (rnd acc.1.draws)
            (List.replicate W.length false)).ant_result_.distance_ →
        (LinearSolver.antStep W rnd acc).1.best_result_ = acc.1.best_result_) ∧
      (LinearSolver.antStep W rnd acc).1.best_result_.distance_ =
        min acc.1.best_result_.distance_
          (LinearSolver.BuildTour W acc.1.phero_ptr_ (rnd acc.1.draws)
            (List.replicate W.length false)).ant_result_.distance_) ∧
    ((LinearSolver.BuildTour W acc.1.phero_ptr_ (rnd acc.1.draws)
        (List.replicate W.length false)).ant_result_.vertices_.length ≠ W.length + 1 →
      (LinearSolver.antStep W rnd acc).2 = acc.2 ∧
      (LinearSolver.antStep W rnd acc).1.best_result_ = acc.1.best_result_) := by
  unfold LinearSolver.antStep
  dsimp only
  refine ⟨fun hlen => ?_, fun hlen => ?_⟩
  · rw [if_pos hlen]
    by_cases hd : (LinearSolver.BuildTour W acc.1.phero_ptr_ (rnd acc.1.draws)
        (List.replicate W.length false)).ant_result_.distance_ ≤ acc.1.best_result_.distance_
    · rw [if_pos hd]
      exact ⟨rfl, fun _ => rfl, fun h => absurd hd (not_le.mpr h), (min_eq_right hd).symm⟩
    · rw [if_neg hd]
      exact ⟨rfl, fun h => absurd h hd, fun _ => rfl,
        (min_eq_left (le_of_lt (not_le.mp hd))).symm⟩
  · rw [if_neg hlen]
    exact ⟨rfl, rfl⟩

theorem foldl_min_append (d x : ℚ) (l : List ℚ) :
    (l ++ [x]).foldl min d = min (l.foldl min d) x := by
  rw [List.foldl_append]
  rfl

theorem foldl_min_le (l : List ℚ) (d : ℚ) : l.foldl min d ≤ d := by
  induction l generalizing d with
  | nil => exact le_refl _
  | cons x l ih => exact le_trans (ih (min d x)) (min_le_left d x)

/-- After any number of ants of one iteration, the best distance is the minimum of the best
distance at the start of the iteration and the distances of the successful ants so far. -/
theorem ants_best_distance (W : m_dbl_type) (rnd : Nat → Nat) (c1 : Colony) (j : Nat) :
    (forLoop 0 j (fun _ acc => LinearSolver.antStep W rnd acc) (c1, [])).1.best_result_.distance_ =
      ((forLoop 0 j (fun _ acc => LinearSolver.antStep W rnd acc) (c1, [])).2.map
        (fun ant => ant.ant_result_.distance_)).foldl min c1.best_result_.distance_ := by
  refine forLoop_induct
    (fun _ (acc : Colony × List Ant) => acc.1.best_result_.distance_ =
      (acc.2.map (fun ant => ant.ant_result_.distance_)).foldl min c1.best_result_.distance_)
    0 j _ (c1, []) (Nat.zero_le _) rfl ?_
  intro i acc _ _ hacc
  obtain ⟨h1, h2⟩ := antStep_cases W rnd acc
  by_cases hlen : (LinearSolver.BuildTour W acc.1.phero_ptr_ (rnd acc.1.draws)
      (List.replicate W.length false)).ant_result_.vertices_.length = W.length + 1
  · obtain ⟨k1, _, _, k4⟩ := h1 hlen
    show (LinearSolver.antStep W rnd acc).1.best_result_.distance_ =
      ((LinearSolver.antStep W rnd acc).2.map
        (fun ant => ant.ant_result_.distance_)).foldl min c1.best_result_.distance_
    rw [k4, k1, List.map_append, List.map_singleton, foldl_min_append, hacc]
  · obtain ⟨k1, k2⟩ := h2 hlen
    show (LinearSolver.antStep W rnd acc).1.best_result_.distance_ =
      ((LinearSolver.antStep W rnd acc).2.map
        (fun ant => ant.ant_result_.distance_)).foldl min c1.best_result_.distance_
    rw [k1, k2, hacc]

theorem SolvePiece_best_le (W : m_dbl_type) (rnd : Nat → Nat) (k : Nat) (c : Colony) :
    (LinearSolver.SolvePiece W rnd k c).best_result_.distance_ ≤ c.best_result_.distance_ := by
  unfold LinearSolver.SolvePiece
  refine forLoop_induct
    (fun _ (c1 : Colony) => c1.best_result_.distance_ ≤ c.best_result_.distance_) 0 k _ c
    (Nat.zero_le _) (le_refl _) ?_
  intro i c1 _ _ hc1
  show (forLoop 0 GraphAlgorithms.kNumAnts (fun _ acc => LinearSolver.antStep W rnd acc)
    (c1, [])).1.best_result_.distance_ ≤ _
  rw [ants_best_distance]
  exact le_trans (foldl_min_le _ _) hc1

/-- C37: a successful ant (a tour of `n + 1` entries) replaces the best tour exactly when its
distance is `<=` the best distance, a tie included, and an unsuccessful ant changes nothing;
so the best distance after an ant is never larger than before, after any number of ants of an
iteration it is the minimum of the best distance at the start of the iteration and the
distances of the successful ants seen so far, and a whole `SolvePiece` run never increases
it. -/
theorem C37_best_distance_never_increases (W : m_dbl_type) (rnd : Nat → Nat)
    (acc : Colony × List Ant) (c : Colony) (j k : Nat) :
    (LinearSolver.antStep W rnd acc).1.best_result_.distance_ ≤
      acc.1.best_result_.distance_ ∧
    ((LinearSolver.BuildTour W acc.1.phero_ptr_ (rnd acc.1.draws)
        (List.replicate W.length false)).ant_result_.vertices_.length = W.length + 1 →
      (LinearSolver.antStep W rnd acc).2 = acc.2 ++
        [LinearSolver.BuildTour W acc.1.phero_ptr_ (rnd acc.1.draws)
          (List.replicate W.length false)] ∧
      ((LinearSolver.BuildTour W acc.1.phero_ptr_ (rnd acc.1.draws)
          (List.replicate W.length false)).ant_result_.distance_ ≤
          acc.1.best_result_.distance_ →
        (LinearSolver.antStep W rnd acc).1.best_result_ =
          (LinearSolver.BuildTour W acc.1.phero_ptr_ (rnd acc.1.draws)
            (List.replicate W.length false)).ant_result_) ∧
      (acc.1.best_result_.distance_ <
          (LinearSolver.BuildTour W acc.1.phero_ptr_ (rnd acc.1.draws)
            (List.replicate W.length false)).ant_result_.distance_ →
        (LinearSolver.antStep W rnd acc).1.best_result_ = acc.1.best_result_) ∧
      (LinearSolver.antStep W rnd acc).1.best_result_.distance_ =
        min acc.1.best_result_.distance_
          (LinearSolver.BuildTour W acc.1.phero_ptr_ (rnd acc.1.draws)
            (List.replicate W.length false)).ant_result_.distance_) ∧
    ((LinearSolver.BuildTour W acc.1.phero_ptr_ (rnd acc.1.draws)
        (List.replicate W.length false)).ant_result_.vertices_.length ≠ W.length + 1 →
      (LinearSolver.antStep W rnd acc).2 = acc.2 ∧
      (LinearSolver.antStep W rnd acc).1.best_result_ = acc.1.best_result_) ∧
    (forLoop 0 j (fun _ a => LinearSolver.antStep W rnd a) (c, [])).1.best_result_.distance_ =
      ((forLoop 0 j (fun _ a => LinearSolver.antStep W rnd a) (c, [])).2.map
        (fun ant => ant.ant_result_.distance_)).foldl min c.best_result_.distance_ ∧
    (LinearSolver.SolvePiece W rnd k c).best_result_.distance_ ≤ c.best_result_.distance_ := by
  obtain ⟨h1, h2⟩ := antStep_cases W rnd acc
  refine ⟨?_, h1, h2, ants_best_distance W rnd c j, SolvePiece_best_le W rnd k c⟩
  by_cases hlen : (LinearSolver.BuildTour W acc.1.phero_ptr_ (rnd acc.1.draws)
      (List.replicate W.length false)).ant_result_.vertices_.length = W.length + 1
  · rw [(h1 hlen).2.2.2]
    exact min_le_left _ _
  · rw [(h2 hlen).2]

end s21

namespace s21

/-! ## The range of the start vertices -/

theorem RandomBounds_eq (n : Nat) (h2 : 2 ≤ n) (hn : n < 2 ^ 31) :
    LinearSolver.RandomBounds n = (0, (n : Int) - 2) := by
  unfold LinearSolver.RandomBounds Storage.size_sub size_to_int
  rw [if_pos h2]
  have h1 : (n - 2) % 2 ^ 32 = n - 2 := Nat.mod_eq_of_lt (by norm_num at hn ⊢; omega)
  rw [h1, if_pos (by norm_num at hn ⊢; omega)]
  congr 1
  omega

/-- C39, on the range of `Random()`: on `n >= 2` vertices the start vertices that can be
drawn are `0 .. n-2`, so the last vertex `n-1` is never a start (on `twoCities` every ant
starts at vertex 0); and on the one-vertex matrix, which the constructor accepts, the
distribution is built with the bounds `0` and `-1`, an empty range. -/
theorem C39_last_vertex_never_drawn :
    (∀ n, 2 ≤ n → n < 2 ^ 31 →
      LinearSolver.RandomBounds n = (0, (n : Int) - 2) ∧
      (∀ v, LinearSolver.CanDraw n v ↔ 0 ≤ v ∧ v ≤ (n : Int) - 2) ∧
      ¬ LinearSolver.CanDraw n ((n : Int) - 1)) ∧
    (∃ s0, SalesmanStorage.new twoCities = .ok s0) ∧
    (∀ v, LinearSolver.CanDraw twoCities.length v ↔ v = 0) ∧
    ¬ LinearSolver.CanDraw twoCities.length 1 ∧
    (∃ s0, SalesmanStorage.new [[5]] = .ok s0) ∧
    LinearSolver.RandomBounds ([[5]] : m_dbl_type).length = (0, -1) ∧
    ∀ v, ¬ LinearSolver.CanDraw ([[5]] : m_dbl_type).length v := by
  have h2 : LinearSolver.RandomBounds 2 = (0, 0) := by decide
  have h1 : LinearSolver.RandomBounds 1 = (0, -1) := by decide
  refine ⟨?_, ⟨_, rfl⟩, ?_, ?_, ⟨_, rfl⟩, h1, ?_⟩
  · intro n hn2 hn
    have hb := RandomBounds_eq n hn2 hn
    refine ⟨hb, ?_, ?_⟩
    · intro v
      unfold LinearSolver.CanDraw
      rw [hb]
    · unfold LinearSolver.CanDraw
      rw [hb]
      simp only
      omega
  · intro v
    show LinearSolver.CanDraw 2 v ↔ v = 0
    unfold LinearSolver.CanDraw
    rw [h2]
    simp only
    omega
  · show ¬ LinearSolver.CanDraw 2 1
    unfold LinearSolver.CanDraw
    rw [h2]
    simp only
    omega
  · intro v
    show ¬ LinearSolver.CanDraw 1 v
    unfold LinearSolver.CanDraw
    rw [h1]
    simp only
    omega

end s21

namespace s21

/-! ## The elimination step over an arbitrary arithmetic -/

theorem num_getD_set {α : Type} (l : List α) (i j : Nat) (v d : α) :
    (l.set i v).getD j d = if i = j ∧ i < l.length then v else l.getD j d := by
  simp only [List.getD_eq_getElem?_getD, List.getElem?_set]
  by_cases h1 : i = j
  · subst h1
    by_cases h2 : i < l.length
    · simp [h2]
    · have : l.length ≤ i := by omega
      simp [h2, List.getElem?_eq_none this]
  · simp [h1]

theorem num_length_setCell {α : Type} (m : List (List α)) (i j : Nat) (v : α) :
    (Num.setCell m i j v).length = m.length := by
  simp [Num.setCell]

theorem num_getRow_set {α : Type} (m : List (List α)) (i a : Nat) (row : List α) :
    Num.getRow (m.set i row) a = if i = a ∧ i < m.length then row else Num.getRow m a := by
  simp only [Num.getRow, List.getD_eq_getElem?_getD, List.getElem?_set]
  by_cases h1 : i = a
  · subst h1
    by_cases h2 : i < m.length
    · simp [h2]
    · have : m.length ≤ i := by omega
      simp [h2, List.getElem?_eq_none this]
  · simp [h1]

theorem num_getRow_length_setCell {α : Type} (m : List (List α)) (i j a : Nat) (v : α) :
    (Num.getRow (Num.setCell m i j v) a).length = (Num.getRow m a).length := by
  rw [Num.setCell, num_getRow_set]
  split_ifs with h
  · rw [List.length_set, h.1]
  · rfl

theorem num_cell_setCell {α : Type} (A : Arith α) (m : List (List α)) (i j a b : Nat) (v : α) :
    Num.cell A (Num.setCell m i j v) a b =
      if a = i ∧ b = j ∧ i < m.length ∧ j < (Num.getRow m i).length then v
      else Num.cell A m a b := by
  rw [Num.cell, Num.setCell, num_getRow_set]
  by_cases h1 : i = a
  · subst h1
    by_cases h2 : i < m.length
    · simp only [h2, and_self, if_true, num_getD_set, true_and]
      by_cases h3 : j = b
      · subst h3
        simp [Num.cell]
      · have : ¬ b = j := fun h => h3 h.symm
        simp [h3, this, Num.cell]
    · simp [h2, Num.cell]
  · have : ¬ a = i := fun h => h1 h.symm
    simp [h1, this, Num.cell]

theorem num_getRow_mem {α : Type} (m : List (List α)) (a : Nat) (ha : a < m.length) :
    Num.getRow m a ∈ m := by
  rw [Num.getRow, List.getD_eq_getElem _ _ ha]
  exact List.getElem_mem ha

theorem num_getRow_length {α : Type} {m : List (List α)} {r c : Nat} (hm : Num.IsMatrix m r c)
    (a : Nat) (ha : a < r) : (Num.getRow m a).length = c :=
  hm.2 _ (num_getRow_mem m a (by rw [hm.1]; exact ha))

/-- Effect of the body of `AdjustEchelon` on row `i`, with factor `f`. -/
theorem num_adjustRow_spec {α : Type} (A : Arith α) (n k i : Nat) (hkn : k ≤ n) (hik : k ≠ i)
    (f : α) (m : List (List α)) :
    (Num.setCell (forLoop (k + 1) (n + 1)
      (fun j m2 => Num.setCell m2 i j (A.sub (Num.cell A m2 i j) (A.mul (Num.cell A m2 k j) f)))
      m) i k A.zero).length = m.length ∧
    (∀ a, (Num.getRow (Num.setCell (forLoop (k + 1) (n + 1)
      (fun j m2 => Num.setCell m2 i j (A.sub (Num.cell A m2 i j) (A.mul (Num.cell A m2 k j) f)))
      m) i k A.zero) a).length = (Num.getRow m a).length) ∧
    ∀ a b, Num.cell A (Num.setCell (forLoop (k + 1) (n + 1)
      (fun j m2 => Num.setCell m2 i j (A.sub (Num.cell A m2 i j) (A.mul (Num.cell A m2 k j) f)))
      m) i k A.zero) a b =
      if a = i ∧ i < m.length ∧ b < (Num.getRow m i).length then
        (if b = k then A.zero
         else if k < b ∧ b ≤ n then A.sub (Num.cell A m i b) (A.mul (Num.cell A m k b) f)
         else Num.cell A m i b)
      else Num.cell A m a b := by
  have inner := forLoop_induct (fun h (r : List (List α)) => r.length = m.length ∧
      (∀ a, (Num.getRow r a).length = (Num.getRow m a).length) ∧
      ∀ a b, Num.cell A r a b =
        if a = i ∧ k + 1 ≤ b ∧ b < h ∧ i < m.length ∧ b < (Num.getRow m i).length
        then A.sub (Num.cell A m i b) (A.mul (Num.cell A m k b) f) else Num.cell A m a b)
      (k + 1) (n + 1)
      (fun j m2 => Num.setCell m2 i j (A.sub (Num.cell A m2 i j) (A.mul (Num.cell A m2 k j) f)))
      m (by omega)
      ⟨rfl, fun _ => rfl, fun a b => by
        have : ¬ (a = i ∧ k + 1 ≤ b ∧ b < k + 1 ∧ i < m.length ∧
            b < (Num.getRow m i).length) := by
          omega
        rw [if_neg this]⟩
      (by
        rintro j t h1 h2 ⟨hl, hr, hc⟩
        refine ⟨by rw [num_length_setCell, hl],
          fun a => by rw [num_getRow_length_setCell, hr], ?_⟩
        intro a b
        have hij : Num.cell A t i j = Num.cell A m i j := by
          rw [hc i j]
          have : ¬ (i = i ∧ k + 1 ≤ j ∧ j < j ∧ i < m.length ∧
              j < (Num.getRow m i).length) := by
            omega
          rw [if_neg this]
        have hkj : Num.cell A t k j = Num.cell A m k j := by
          rw [hc k j]
          have : ¬ (k = i ∧ k + 1 ≤ j ∧ j < j ∧ i < m.length ∧
              j < (Num.getRow m i).length) := by
            omega
          rw [if_neg this]
        rw [num_cell_setCell, hl, hr, hij, hkj, hc a b]
        by_cases hab : a = i ∧ b = j
        · obtain ⟨rfl, rfl⟩ := hab
          by_cases hin : a < m.length ∧ b < (Num.getRow m a).length
          · rw [if_pos ⟨rfl, rfl, hin⟩, if_pos ⟨rfl, h1, by omega, hin⟩]
          · have e1 : ¬ (a = a ∧ b = b ∧ a < m.length ∧ b < (Num.getRow m a).length) :=
              fun h => hin h.2.2
            have e2 : ¬ (a = a ∧ k + 1 ≤ b ∧ b < b + 1 ∧ a < m.length ∧
                b < (Num.getRow m a).length) := fun h => hin h.2.2.2
            have e3 : ¬ (a = a ∧ k + 1 ≤ b ∧ b < b ∧ a < m.length ∧
                b < (Num.getRow m a).length) := by omega
            rw [if_neg e1, if_neg e2, if_neg e3]
        · have e1 : ¬ (a = i ∧ b = j ∧ i < m.length ∧ j < (Num.getRow m i).length) :=
            fun h => hab ⟨h.1, h.2.1⟩
          rw [if_neg e1]
          have : (a = i ∧ k + 1 ≤ b ∧ b < j ∧ i < m.length ∧ b < (Num.getRow m i).length) ↔
              (a = i ∧ k + 1 ≤ b ∧ b < j + 1 ∧ i < m.length ∧
                b < (Num.getRow m i).length) := by
            constructor
            · rintro ⟨h3, h4, h5, h6⟩
              exact ⟨h3, h4, by omega, h6⟩
            · rintro ⟨h3, h4, h5, h6⟩
              refine ⟨h3, h4, ?_, h6⟩
              rcases Nat.lt_succ_iff_lt_or_eq.mp h5 with h7 | h7
              · exact h7
              · exact absurd ⟨h3, h7⟩ hab
          simp only [this])
  obtain ⟨hl, hr, hc⟩ := inner
  refine ⟨by rw [num_length_setCell, hl], fun a => by rw [num_getRow_length_setCell, hr], ?_⟩
  intro a b
  rw [num_cell_setCell, hl, hr, hc a b]
  by_cases ha : a = i
  · subst ha
    split_ifs <;> first | rfl | (exfalso; omega)
  · split_ifs <;> first | rfl | (exfalso; omega)

theorem num_AdjustEchelon_spec {α : Type} (A : Arith α) (n k : Nat) (hk : k < n)
    (m : List (List α)) :
    (Num.SimpleGauss.AdjustEchelon A n k m).length = m.length ∧
    (∀ a, (Num.getRow (Num.SimpleGauss.AdjustEchelon A n k m) a).length =
      (Num.getRow m a).length) ∧
    ∀ a b, Num.cell A (Num.SimpleGauss.AdjustEchelon A n k m) a b =
      if k < a ∧ a < n ∧ a < m.length ∧ b < (Num.getRow m a).length then
        (if b = k then A.zero
         else if k < b ∧ b ≤ n then
           A.sub (Num.cell A m a b)
             (A.mul (Num.cell A m k b) (A.div (Num.cell A m a k) (Num.cell A m k k)))
         else Num.cell A m a b)
      else Num.cell A m a b := by
  unfold Num.SimpleGauss.AdjustEchelon
  refine forLoop_induct (fun h (t : List (List α)) => t.length = m.length ∧
      (∀ a, (Num.getRow t a).length = (Num.getRow m a).length) ∧
      ∀ a b, Num.cell A t a b =
        if k < a ∧ a < h ∧ a < m.length ∧ b < (Num.getRow m a).length then
          (if b = k then A.zero
           else if k < b ∧ b ≤ n then
             A.sub (Num.cell A m a b)
               (A.mul (Num.cell A m k b) (A.div (Num.cell A m a k) (Num.cell A m k k)))
           else Num.cell A m a b)
        else Num.cell A m a b) (k + 1) n _ m (by omega) ?_ ?_
  · refine ⟨rfl, fun _ => rfl, fun a b => ?_⟩
    have : ¬ (k < a ∧ a < k + 1 ∧ a < m.length ∧ b < (Num.getRow m a).length) := by omega
    rw [if_neg this]
  · rintro i t h1 h2 ⟨hl, hr, hc⟩
    obtain ⟨al, ar, ac⟩ := num_adjustRow_spec A n k i (by omega) (by omega)
      (A.div (Num.cell A t i k) (Num.cell A t k k)) t
    have hrow_i : ∀ b, Num.cell A t i b = Num.cell A m i b := by
      intro b
      rw [hc i b]
      have : ¬ (k < i ∧ i < i ∧ i < m.length ∧ b < (Num.getRow m i).length) := by omega
      rw [if_neg this]
    have hrow_k : ∀ b, Num.cell A t k b = Num.cell A m k b := by
      intro b
      rw [hc k b]
      have : ¬ (k < k ∧ k < i ∧ k < m.length ∧ b < (Num.getRow m k).length) := by omega
      rw [if_neg this]
    refine ⟨by rw [al, hl], fun a => by rw [ar, hr], ?_⟩
    intro a b
    show Num.cell A (Num.setCell (forLoop (k + 1) (n + 1) _ t) i k A.zero) a b = _
    rw [ac a b, hl, hr, hc a b]
    simp only [hrow_i, hrow_k]
    by_cases ha : a = i
    · subst ha
      split_ifs <;> first | rfl | (exfalso; omega)
    · split_ifs <;> first | rfl | (exfalso; omega)

/-- Shape and cells after one elimination step on an `n x (n+1)` matrix. -/
theorem num_AdjustEchelon_cell {α : Type} (A : Arith α) (n k : Nat) (hk : k < n)
    (m : List (List α)) (hm : Num.IsMatrix m n (n + 1)) :
    Num.IsMatrix (Num.SimpleGauss.AdjustEchelon A n k m) n (n + 1) ∧
    ∀ a b, Num.cell A (Num.SimpleGauss.AdjustEchelon A n k m) a b =
      if k < a ∧ a < n ∧ b < n + 1 then
        (if b = k then A.zero
         else if k < b then
           A.sub (Num.cell A m a b)
             (A.mul (Num.cell A m k b) (A.div (Num.cell A m a k) (Num.cell A m k k)))
         else Num.cell A m a b)
      else Num.cell A m a b := by
  obtain ⟨hl, hr, hc⟩ := num_AdjustEchelon_spec A n k hk m
  refine ⟨⟨by rw [hl, hm.1], ?_⟩, ?_⟩
  · intro row hrow
    obtain ⟨a, ha, rfl⟩ := List.getElem_of_mem hrow
    have : Num.getRow (Num.SimpleGauss.AdjustEchelon A n k m) a =
        (Num.SimpleGauss.AdjustEchelon A n k m)[a] := List.getD_eq_getElem _ _ ha
    rw [← this, hr]
    exact num_getRow_length hm a (by rw [hl, hm.1] at ha; exact ha)
  · intro a b
    rw [hc a b]
    by_cases ha : k < a ∧ a < n
    · have hlen := num_getRow_length hm a ha.2
      rw [hlen, hm.1]
      split_ifs <;> first | rfl | (exfalso; omega)
    · have c1 : ¬ (k < a ∧ a < n ∧ a < m.length ∧ b < (Num.getRow m a).length) :=
        fun h => ha ⟨h.1, h.2.1⟩
      have c2 : ¬ (k < a ∧ a < n ∧ b < n + 1) := fun h => ha ⟨h.1, h.2.1⟩
      rw [if_neg c1, if_neg c2]

theorem num_elimSteps_succ {α : Type} (A : Arith α) (n j : Nat) (m : List (List α)) :
    Num.elimSteps A n (j + 1) m = Num.SimpleGauss.AdjustEchelon A n j (Num.elimSteps A n j m) :=
  forLoop_succ 0 j _ m (Nat.zero_le j)

theorem num_elimSteps_zero {α : Type} (A : Arith α) (n : Nat) (m : List (List α)) :
    Num.elimSteps A n 0 m = m :=
  forLoop_of_le 0 0 _ m (le_refl 0)

/-- After the steps `0 .. j-1` the matrix has its shape, and the entries below the diagonal
in the columns before `j` are the zero that the steps wrote. -/
theorem num_elimSteps_shape {α : Type} (A : Arith α) (n : Nat) (m : List (List α))
    (hm : Num.IsMatrix m n (n + 1)) (j : Nat) (hj : j ≤ n) :
    Num.IsMatrix (Num.elimSteps A n j m) n (n + 1) ∧
    ∀ i b, b < j → b < i → i < n → Num.cell A (Num.elimSteps A n j m) i b = A.zero := by
  induction j with
  | zero =>
    rw [num_elimSteps_zero]
    exact ⟨hm, fun i j hj _ _ => absurd hj (Nat.not_lt_zero j)⟩
  | succ j ih =>
    obtain ⟨h1, h2⟩ := ih (by omega)
    obtain ⟨h3, h4⟩ := num_AdjustEchelon_cell A n j (by omega) _ h1
    rw [num_elimSteps_succ]
    refine ⟨h3, fun i b hb hbi hi => ?_⟩
    rw [h4]
    by_cases hbj : b = j
    · subst hbj
      rw [if_pos ⟨hbi, hi, by omega⟩, if_pos rfl]
    · by_cases hji : j < i
      · rw [if_pos ⟨hji, hi, by omega⟩, if_neg hbj, if_neg (by omega)]
        exact h2 i b (by omega) hbi hi
      · rw [if_neg (fun h => hji h.1)]
        exact h2 i b (by omega) hbi hi

end s21

namespace s21

/-! ## Exact arithmetic is an instance -/

theorem num_cell_exact (m : m_dbl_type) (i j : Nat) : Num.cell Arith.exact m i j = cell m i j :=
  rfl

theorem num_AdjustEchelon_exact (n k : Nat) (m : m_dbl_type) :
    Num.SimpleGauss.AdjustEchelon Arith.exact n k m = SimpleGauss.AdjustEchelon n k m :=
  rfl

theorem num_elimSteps_exact (n j : Nat) (m : m_dbl_type) :
    Num.elimSteps Arith.exact n j m = elimSteps n j m :=
  rfl

theorem num_max_exact (a b : ℚ) : Num.max Arith.exact a b = max a b := by
  show (if decide (a < b) = true then b else a) = max a b
  by_cases h : a < b
  · simp [h, max_eq_right (le_of_lt h)]
  · simp [h, max_eq_left (not_lt.mp h)]

theorem num_scaleFactor_exact (n : Nat) (m : m_dbl_type) (i k : Nat) :
    Num.SimpleGauss.scaleFactor Arith.exact n m i k = SimpleGauss.scaleFactor n m i k := by
  unfold Num.SimpleGauss.scaleFactor SimpleGauss.scaleFactor
  apply forLoop_congr
  intro j t _ _
  exact num_max_exact _ _

theorem num_pivotSearch_exact (n : Nat) (m : m_dbl_type) (k : Nat) :
    Num.SimpleGauss.pivotSearch Arith.exact n m k = SimpleGauss.pivotSearch n m k := by
  unfold Num.SimpleGauss.pivotSearch SimpleGauss.pivotSearch
  apply forLoop_congr
  intro i acc _ _
  simp only [num_scaleFactor_exact]
  show (if decide (SimpleGauss.scaleFactor n m i k = 0) = true then acc
    else if decide (acc.2 < |cell m i k| / SimpleGauss.scaleFactor n m i k) = true then
      (i, |cell m i k| / SimpleGauss.scaleFactor n m i k) else acc) = _
  simp only [decide_eq_true_eq, gt_iff_lt]

theorem num_LeadToEchelon_exact (n : Nat) (m : m_dbl_type) :
    Num.SimpleGauss.LeadToEchelon Arith.exact n m = SimpleGauss.LeadToEchelon n m := by
  unfold Num.SimpleGauss.LeadToEchelon SimpleGauss.LeadToEchelon
  apply forLoop_congr
  intro k t _ _
  simp only [num_pivotSearch_exact]
  rfl

theorem num_CheckEchelon_exact (n : Nat) (m : m_dbl_type) :
    Num.SimpleGauss.CheckEchelon Arith.exact n m = SimpleGauss.CheckEchelon n m :=
  rfl

theorem num_BackPropagation_exact (n : Nat) (m : m_dbl_type) (out : row_type) :
    Num.SimpleGauss.BackPropagation Arith.exact n m out = SimpleGauss.BackPropagation n m out :=
  rfl

/-- At exact arithmetic the solver over an arbitrary arithmetic is `SimpleGauss.SolveSle`. -/
theorem num_SolveSle_exact (n : Nat) (m : m_dbl_type) (out : row_type) :
    Num.SimpleGauss.SolveSle Arith.exact n m out = SimpleGauss.SolveSle n m out := by
  unfold Num.SimpleGauss.SolveSle SimpleGauss.SolveSle
  simp only [num_LeadToEchelon_exact]
  rfl

/-- At exact arithmetic the selection over an arbitrary arithmetic is
`LinearSolver.SelectNext`. -/
theorem num_SelectNext_exact (W ph : m_dbl_type) (cur : Nat) (visited : List Bool) :
    Num.LinearSolver.SelectNext Arith.exact W ph cur visited =
      LinearSolver.SelectNext W ph cur visited := by
  unfold Num.LinearSolver.SelectNext LinearSolver.SelectNext
  have hsum : forLoop 0 visited.length (fun i (sum : ℚ) =>
      if visited.getD i false = false ∧
          Arith.exact.lt Arith.exact.zero (Num.cell Arith.exact W cur i) = true then
        Arith.exact.add sum (Arith.exact.mul
          (Arith.exact.pow (Num.cell Arith.exact ph cur i) GraphAlgorithms.kAlpha)
          (Arith.exact.pow (Num.LinearSolver.Eta Arith.exact W cur i) GraphAlgorithms.kBeta))
      else sum) Arith.exact.zero =
    forLoop 0 visited.length (fun i (sum : ℚ) =>
      if visited.getD i false = false ∧ cell W cur i > 0 then
        sum + cell ph cur i ^ GraphAlgorithms.kAlpha *
          LinearSolver.Eta W cur i ^ GraphAlgorithms.kBeta
      else sum) 0 := by
    apply forLoop_congr
    intro i t _ _
    show (if visited.getD i false = false ∧ decide (0 < cell W cur i) = true then
      t + cell ph cur i ^ GraphAlgorithms.kAlpha *
        LinearSolver.Eta W cur i ^ GraphAlgorithms.kBeta else t) = _
    simp only [decide_eq_true_eq, gt_iff_lt]
  simp only []
  rw [hsum]
  congr 1
  apply forLoop_congr
  intro i acc _ _
  generalize forLoop 0 visited.length (fun i (sum : ℚ) =>
      if visited.getD i false = false ∧ cell W cur i > 0 then
        sum + cell ph cur i ^ GraphAlgorithms.kAlpha *
          LinearSolver.Eta W cur i ^ GraphAlgorithms.kBeta
      else sum) 0 = S
  show (if visited.getD i false = false ∧ decide (0 < cell W cur i) = true then
      if decide (acc.2 < cell ph cur i ^ GraphAlgorithms.kAlpha *
          LinearSolver.Eta W cur i ^ GraphAlgorithms.kBeta / S) = true then
        ((i : Int), cell ph cur i ^ GraphAlgorithms.kAlpha *
          LinearSolver.Eta W cur i ^ GraphAlgorithms.kBeta / S) else acc
      else acc) = _
  simp only [decide_eq_true_eq, gt_iff_lt]

end s21

namespace s21

/-! ## Elimination steps, rounding and overflow -/

/-- C27: on an `n x (n+1)` matrix, in exact and in binary64 arithmetic alike, after
`AdjustEchelon(k)` has run for `k = 0, ..., n-1` in that order every entry below the diagonal
is the zero that the steps wrote; step `k` changes row `i` (for `k < i < n`) by subtracting
`matrix[i][k] / matrix[k][k]` times row `k` in the columns `k+1 .. n`, with the division, the
product and the difference of the arithmetic in use (at a zero pivot the factor is an infinity
or a NaN in binary64), and by writing zero in column `k`; it leaves the rows `0 .. k` as they
were. -/
theorem C27_elimination_steps {α : Type} (A : Arith α) (M : List (List α)) (n : Nat)
    (hM : Num.IsMatrix M n (n + 1)) :
    (∀ i k, k < i → i < n → Num.cell A (Num.elimSteps A n n M) i k = A.zero) ∧
    (∀ k i j, k < i → i < n → k < j → j ≤ n →
      Num.cell A (Num.elimSteps A n (k + 1) M) i j =
        A.sub (Num.cell A (Num.elimSteps A n k M) i j)
          (A.mul (Num.cell A (Num.elimSteps A n k M) k j)
            (A.div (Num.cell A (Num.elimSteps A n k M) i k)
              (Num.cell A (Num.elimSteps A n k M) k k)))) ∧
    (∀ k i, k < i → i < n → Num.cell A (Num.elimSteps A n (k + 1) M) i k = A.zero) ∧
    (∀ k i j, k < n → i ≤ k →
      Num.cell A (Num.elimSteps A n (k + 1) M) i j = Num.cell A (Num.elimSteps A n k M) i j) ∧
    Num.elimSteps A n n M =
      forLoop 0 n (fun k m => Num.SimpleGauss.AdjustEchelon A n k m) M ∧
    (∀ (Q : m_dbl_type) (j : Nat), Num.elimSteps Arith.exact n j Q =
      forLoop 0 j (fun k m => SimpleGauss.AdjustEchelon n k m) Q) := by
  refine ⟨?_, ?_, ?_, ?_, rfl, fun _ _ => rfl⟩
  · intro i k hk hi
    exact (num_elimSteps_shape A n M hM n (le_refl n)).2 i k (by omega) hk hi
  · intro k i j hki hi hkj hj
    have hk : k < n := by omega
    rw [num_elimSteps_succ,
      (num_AdjustEchelon_cell A n k hk _ (num_elimSteps_shape A n M hM k (by omega)).1).2 i j,
      if_pos ⟨hki, hi, by omega⟩, if_neg (by omega), if_pos hkj]
  · intro k i hki hi
    have hk : k < n := by omega
    rw [num_elimSteps_succ,
      (num_AdjustEchelon_cell A n k hk _ (num_elimSteps_shape A n M hM k (by omega)).1).2 i k,
      if_pos ⟨hki, hi, by omega⟩, if_pos rfl]
  · intro k i j hk hik
    rw [num_elimSteps_succ,
      (num_AdjustEchelon_cell A n k hk _ (num_elimSteps_shape A n M hM k (by omega)).1).2 i j,
      if_neg (by omega)]

/-- The elimination of `zeroPivotSystem` in binary64: step 0 leaves a zero on the diagonal of
row 1, so step 1 divides by zero and row 2 ends as `0, 0, -inf, NaN`. -/
theorem zeroPivotSystem_steps :
    Num.elimSteps Arith.ieee 3 1 (Num.ofMatrix Arith.ieee zeroPivotSystem) =
      [[.num 1, .num 1, .zero false, .num 1],
       [.zero false, .zero false, .num 1, .zero false],
       [.zero false, .num 1, .num 1, .num 1]] ∧
    Num.elimSteps Arith.ieee 3 3 (Num.ofMatrix Arith.ieee zeroPivotSystem) =
      [[.num 1, .num 1, .zero false, .num 1],
       [.zero false, .zero false, .num 1, .zero false],
       [.zero false, .zero false, .inf true, .nan]] := by
  constructor <;> decide!

/-- Witness of C27: `zeroPivotSystem` in binary64 arithmetic, where step 1 meets a zero
pivot. -/
theorem C27_elimination_steps_witness :
    (∀ i k, k < i → i < 3 →
      Num.cell Arith.ieee
        (Num.elimSteps Arith.ieee 3 3 (Num.ofMatrix Arith.ieee zeroPivotSystem)) i k =
        Dbl.zero false) ∧
    (∀ k i j, k < i → i < 3 → k < j → j ≤ 3 →
      Num.cell Arith.ieee
          (Num.elimSteps Arith.ieee 3 (k + 1) (Num.ofMatrix Arith.ieee zeroPivotSystem)) i j =
        Dbl.sub
          (Num.cell Arith.ieee
            (Num.elimSteps Arith.ieee 3 k (Num.ofMatrix Arith.ieee zeroPivotSystem)) i j)
          (Dbl.mul
            (Num.cell Arith.ieee
              (Num.elimSteps Arith.ieee 3 k (Num.ofMatrix Arith.ieee zeroPivotSystem)) k j)
            (Dbl.div
              (Num.cell Arith.ieee
                (Num.elimSteps Arith.ieee 3 k (Num.ofMatrix Arith.ieee zeroPivotSystem)) i k)
              (Num.cell Arith.ieee
                (Num.elimSteps Arith.ieee 3 k (Num.ofMatrix Arith.ieee zeroPivotSystem))
                k k)))) ∧
    Num.cell Arith.ieee
      (Num.elimSteps Arith.ieee 3 2 (Num.ofMatrix Arith.ieee zeroPivotSystem)) 2 2 =
      Dbl.inf true ∧
    Num.cell Arith.ieee
      (Num.elimSteps Arith.ieee 3 2 (Num.ofMatrix Arith.ieee zeroPivotSystem)) 2 3 = Dbl.nan :=
  ⟨(C27_elimination_steps Arith.ieee (Num.ofMatrix Arith.ieee zeroPivotSystem) 3
      (by decide)).1,
    (C27_elimination_steps Arith.ieee (Num.ofMatrix Arith.ieee zeroPivotSystem) 3
      (by decide)).2.1, by decide!, by decide!⟩

/-- C5, counterexample: the coefficient part of `singularPair` is singular and every entry
is a binary64 value, yet in binary64 arithmetic the elimination leaves the pivot `-32` in
row 1 (the factor `7 / 3` and the product are rounded), `CheckEchelon` lets the matrix
through and `SimpleGauss::SolveSle`, called on the result vector `[1, 1, 1]` that
`GaussStorage::SolveSle` hands over after `ResetResult`, returns normally with a vector. The
constructor accepts the system, and in exact arithmetic the call raises. The two singular
systems of the tests do raise in binary64 arithmetic. -/
theorem C5_counterexample_rounded_pivot :
    (coefficientMatrix singularPair 2).det = 0 ∧
    Num.ofMatrix Arith.ieee singularPair =
      [[.num 3, .num 109656554205511680, .num 1], [.num 7, .num 255865293146193920, .num 1]] ∧
    Num.elimSteps Arith.ieee 2 2
        (Num.SimpleGauss.LeadToEchelon Arith.ieee 2 (Num.ofMatrix Arith.ieee singularPair)) =
      [[.num 3, .num 109656554205511680, .num 1],
       [.zero false, .num (-32), .num (-3002399751580331 / 2251799813685248)]] ∧
    (Num.SimpleGauss.SolveSle Arith.ieee 2 (Num.ofMatrix Arith.ieee singularPair)
      [.num 1, .num 1, .num 1]).completion = .normal ∧
    (Num.SimpleGauss.SolveSle Arith.ieee 2 (Num.ofMatrix Arith.ieee singularPair)
      [.num 1, .num 1, .num 1]).state.2 =
      [.num (-6092030789195093 / 4), .num (3002399751580331 / 72057594037927936), .num 1] ∧
    GaussStorage.new singularPair = .ok ⟨singularPair, [1, 1, 1], none, 1⟩ ∧
    ((GaussStorage.SetStrategy ⟨singularPair, [1, 1, 1], none, 1⟩ .kSimple).SolveSle
      []).completion = .raised (.runtime_error "matrix is singular") ∧
    (SimpleGauss.SolveSle 2 singularPair [1, 1, 1]).completion =
      .raised (.runtime_error "matrix is singular") ∧
    (Num.SimpleGauss.SolveSle Arith.ieee 3 (Num.ofMatrix Arith.ieee no_solution_1)
      [.num 1, .num 1, .num 1, .num 1]).completion =
      .raised (.runtime_error "matrix is singular") ∧
    (Num.SimpleGauss.SolveSle Arith.ieee 3 (Num.ofMatrix Arith.ieee inf_solutions_1)
      [.num 1, .num 1, .num 1, .num 1]).completion =
      .raised (.runtime_error "matrix is singular") := by
  refine ⟨?_, by decide!, by decide!, by decide!, by decide!, rfl, by decide!, by decide!,
    by decide!, by decide!⟩
  rw [Matrix.det_fin_two]
  simp [coefficientMatrix, singularPair, cell, getRow]
  norm_num

/-- C34, counterexample: in binary64 arithmetic, from vertex 0 of `unitTriangle` with the
finite positive pheromone `2 ^ 1023` and the vertices 1 and 2 unvisited and reachable, the sum
of the two attractions overflows to an infinity, every share is `0`, no share exceeds the
initial `0`, and `SelectNext` returns `-1`. The same happens with the initial pheromone on
`tinyTriangle`, where `pow(Eta, 2.0)` overflows and every share is a NaN. In exact arithmetic
both calls return vertex 1. -/
theorem C34_counterexample_overflow :
    Num.ofMatrix Arith.ieee hugePheromone =
      List.replicate 3 (List.replicate 3 (Dbl.num ((2 ^ 1023 : Nat) : ℚ))) ∧
    (∀ i, i < 3 → Dbl.lt (Dbl.zero false)
      (Num.cell Arith.ieee (Num.ofMatrix Arith.ieee hugePheromone) 0 i) = true) ∧
    ([true, false, false].getD 1 false = false ∧
      Dbl.lt (Dbl.zero false)
        (Num.cell Arith.ieee (Num.ofMatrix Arith.ieee unitTriangle) 0 1) = true) ∧
    Num.LinearSolver.SelectNext Arith.ieee (Num.ofMatrix Arith.ieee unitTriangle)
      (Num.ofMatrix Arith.ieee hugePheromone) 0 [true, false, false] = -1 ∧
    LinearSolver.SelectNext unitTriangle hugePheromone 0 [true, false, false] = 1 ∧
    Num.LinearSolver.SelectNext Arith.ieee (Num.ofMatrix Arith.ieee tinyTriangle)
      (Num.ofMatrix Arith.ieee initialPheromone3) 0 [true, false, false] = -1 ∧
    LinearSolver.SelectNext tinyTriangle initialPheromone3 0 [true, false, false] = 1 := by
  refine ⟨by decide!, by decide!, by decide!, by decide!, by decide!, by decide!, by decide!⟩

end s21

namespace s21

/-! ## The split of the iterations among the workers -/

theorem workers_positive (W : m_dbl_type) (n : Nat) (hW : W.length = n) (rnd : Nat → Nat)
    (hr : ∀ k, rnd k < n) (L : List Nat) (c : Colony) (hc : PositiveMatrix c.phero_ptr_ n) :
    PositiveMatrix (L.foldl (fun c2 k => LinearSolver.SolvePiece W rnd k c2) c).phero_ptr_ n := by
  induction L generalizing c with
  | nil => exact hc
  | cons k L ih =>
    rw [List.foldl_cons]
    exact ih _ (SolvePiece_positive W n hW rnd hr k c hc)

/-- C23: on an `n x n` weight matrix, with a pheromone matrix of positive entries and every
value of `Random()` a vertex (so that `visited.at(start)` and every other `.at` of the call
is in range), for a requested total `T` and `N >= 1` workers, `SolveSalesman` runs exactly
`N` calls of `SolvePiece`, all with the same iteration count, which is `T / N` rounded down
when `T > N` and 1 when `T <= N`; it returns normally, the ants of these iterations are all
the ants of the call, and the pheromone matrix is still `n x n` with positive entries. -/
theorem C23_workers_and_iterations (W : m_dbl_type) (n : Nat) (hW : IsMatrix W n n)
    (rnd : Nat → Nat) (hr : ∀ k, rnd k < n) (T N : Nat) (c : Colony)
    (hc : PositiveMatrix c.phero_ptr_ n) (hN : 1 ≤ N) :
    (LinearSolver.SolveSalesman W rnd T N c).completion = .normal ∧
    (∃ workers : List Nat, workers.length = N ∧
      (∀ k ∈ workers, k = LinearSolver.itersInThread T N) ∧
      (LinearSolver.SolveSalesman W rnd T N c).state.phero_ptr_ =
        (workers.foldl (fun c2 k => LinearSolver.SolvePiece W rnd k c2) c).phero_ptr_ ∧
      (LinearSolver.SolveSalesman W rnd T N c).state.best_result_ =
        ⟨(workers.foldl (fun c2 k => LinearSolver.SolvePiece W rnd k c2)
            c).best_result_.vertices_.map (fun x => x + 1),
          (workers.foldl (fun c2 k => LinearSolver.SolvePiece W rnd k c2)
            c).best_result_.distance_⟩) ∧
    (T > N → LinearSolver.itersInThread T N = T / N) ∧
    (T ≤ N → LinearSolver.itersInThread T N = 1) ∧
    (LinearSolver.SolveSalesman W rnd T N c).state.draws =
      c.draws + N * LinearSolver.itersInThread T N * GraphAlgorithms.kNumAnts ∧
    PositiveMatrix (LinearSolver.SolveSalesman W rnd T N c).state.phero_ptr_ n := by
  refine ⟨?_, ⟨List.replicate N (LinearSolver.itersInThread T N), by simp, ?_, ?_, ?_⟩,
    ?_, ?_, SolveSalesman_draws W rnd T N c hN, ?_⟩
  · rw [SolveSalesman_workers W rnd T N c hN]
  · intro k hk
    exact (List.mem_replicate.mp hk).2
  · rw [SolveSalesman_workers W rnd T N c hN]
  · rw [SolveSalesman_workers W rnd T N c hN]
  · intro h
    unfold LinearSolver.itersInThread
    rw [if_pos h]
  · intro h
    unfold LinearSolver.itersInThread
    rw [if_neg (by omega)]
  · rw [SolveSalesman_workers W rnd T N c hN]
    exact workers_positive W n hW.1 rnd hr _ c hc

theorem initialPheromone2_positive :
    PositiveMatrix [[1/10, 1/10], [1/10, 1/10]] 2 := by
  refine ⟨by decide, ?_⟩
  intro i j hi hj
  have hi2 : i = 0 ∨ i = 1 := by omega
  have hj2 : j = 0 ∨ j = 1 := by omega
  rcases hi2 with rfl | rfl <;> rcases hj2 with rfl | rfl <;> decide!

/-- Witness of C23: seven iterations on three workers over `twoCities`, every ant starting
from vertex 0, the only value that `Random()` has on two vertices. -/
theorem C23_workers_and_iterations_witness :
    (LinearSolver.SolveSalesman twoCities (fun _ => 0) 7 3
      ⟨TsmResult.new, [[1/10, 1/10], [1/10, 1/10]], 0⟩).completion = .normal ∧
    (LinearSolver.SolveSalesman twoCities (fun _ => 0) 7 3
      ⟨TsmResult.new, [[1/10, 1/10], [1/10, 1/10]], 0⟩).state.draws =
        0 + 3 * LinearSolver.itersInThread 7 3 * GraphAlgorithms.kNumAnts ∧
    PositiveMatrix (LinearSolver.SolveSalesman twoCities (fun _ => 0) 7 3
      ⟨TsmResult.new, [[1/10, 1/10], [1/10, 1/10]], 0⟩).state.phero_ptr_ 2 :=
  ⟨(C23_workers_and_iterations twoCities 2 (by decide) (fun _ => 0)
      (fun _ => Nat.zero_lt_two) 7 3 ⟨TsmResult.new, [[1/10, 1/10], [1/10, 1/10]], 0⟩
      initialPheromone2_positive (by decide)).1,
    (C23_workers_and_iterations twoCities 2 (by decide) (fun _ => 0)
      (fun _ => Nat.zero_lt_two) 7 3 ⟨TsmResult.new, [[1/10, 1/10], [1/10, 1/10]], 0⟩
      initialPheromone2_positive (by decide)).2.2.2.2.1,
    (C23_workers_and_iterations twoCities 2 (by decide) (fun _ => 0)
      (fun _ => Nat.zero_lt_two) 7 3 ⟨TsmResult.new, [[1/10, 1/10], [1/10, 1/10]], 0⟩
      initialPheromone2_positive (by decide)).2.2.2.2.2⟩

end s21
